import Mathlib

/-!
Red-black tree (`src/rbtree.c`): shallow embedding and verification.

The C program keeps its nodes on the heap and links them with `parent`, `left`
and `right` pointers; one shared sentinel node `t->nil` stands for every absent
child and for the parent of the root.

* A pointer is a natural number (an address); `NULL` is `0`.
* The heap is a total function from addresses to node records.  The tree
  handle (`root`, `nil`) is kept together with the heap it lives in, so every
  C function that mutates memory becomes a function returning the new state.
* Every C loop and the recursive in-order walk take a `fuel` argument and
  return `none` when it runs out; a `some` result is what the C function
  computes.
* `malloc` is not a function of the program: `rbtree_insert` receives the
  address handed out by the allocator as the argument `z`.  `free` releases
  the address and leaves the heap contents alone.
-/

namespace RB

/-! ## Section 1: the program -/

/-- Node colour, the two-valued tag of `rbtree.h`. -/
inductive color_t where
  | RBTREE_RED
  | RBTREE_BLACK
deriving DecidableEq, Repr

open color_t

/-- The key type of `rbtree.h`.  The header is not among the sources; the
code only copies and compares keys (`<`, `!=`), and the key is taken to be an
integer. -/
abbrev key_t := Int

/-- The null pointer. -/
def NULL : Nat := 0

/-- The node record of `rbtree.h`, with the five fields the code accesses
(`color`, `key`, `parent`, `left`, `right`), pointers being addresses. -/
structure node_t where
  color : color_t
  key : key_t
  parent : Nat
  left : Nat
  right : Nat
deriving DecidableEq, Repr

/-- The tree handle (`root`, `nil`) of `rbtree.h` together with the heap
`mem` in which its nodes live. -/
structure rbtree where
  root : Nat
  nil : Nat
  mem : Nat → node_t

/-- Read `p->color`. -/
def rbtree.color (t : rbtree) (p : Nat) : color_t := (t.mem p).color

/-- Read `p->key`. -/
def rbtree.key (t : rbtree) (p : Nat) : key_t := (t.mem p).key

/-- Read `p->parent`. -/
def rbtree.parent (t : rbtree) (p : Nat) : Nat := (t.mem p).parent

/-- Read `p->left`. -/
def rbtree.left (t : rbtree) (p : Nat) : Nat := (t.mem p).left

/-- Read `p->right`. -/
def rbtree.right (t : rbtree) (p : Nat) : Nat := (t.mem p).right

/-- Write `p->color = c`. -/
def rbtree.setColor (t : rbtree) (p : Nat) (c : color_t) : rbtree :=
  { t with mem := Function.update t.mem p { t.mem p with color := c } }

/-- Write `p->key = k`. -/
def rbtree.setKey (t : rbtree) (p : Nat) (k : key_t) : rbtree :=
  { t with mem := Function.update t.mem p { t.mem p with key := k } }

/-- Write `p->parent = q`. -/
def rbtree.setParent (t : rbtree) (p : Nat) (q : Nat) : rbtree :=
  { t with mem := Function.update t.mem p { t.mem p with parent := q } }

/-- Write `p->left = q`. -/
def rbtree.setLeft (t : rbtree) (p : Nat) (q : Nat) : rbtree :=
  { t with mem := Function.update t.mem p { t.mem p with left := q } }

/-- Write `p->right = q`. -/
def rbtree.setRight (t : rbtree) (p : Nat) (q : Nat) : rbtree :=
  { t with mem := Function.update t.mem p { t.mem p with right := q } }

/-- Write `t->root = q`. -/
def rbtree.setRoot (t : rbtree) (q : Nat) : rbtree :=
  { t with root := q }

/-- `new_rbtree` (lines 5-12): `a` is the address `calloc` returns for the
sentinel, `m` the heap before the call.  `calloc` zero-fills the node, then
its colour is set to BLACK and the root is the sentinel. -/
def new_rbtree (m : Nat → node_t) (a : Nat) : rbtree :=
  let t : rbtree := { root := NULL, nil := a, mem := Function.update m a ⟨RBTREE_RED, 0, NULL, NULL, NULL⟩ }
  let t := t.setColor t.nil RBTREE_BLACK
  t.setRoot t.nil

/-- `left_rotate` (lines 31-47). -/
def left_rotate (t : rbtree) (x : Nat) : rbtree :=
  let y := t.right x
  let t := t.setRight x (t.left y)
  let t := if t.left y ≠ t.nil then t.setParent (t.left y) x else t
  let t := t.setParent y (t.parent x)
  let t :=
    if t.parent x = t.nil then t.setRoot y
    else if x = t.left (t.parent x) then t.setLeft (t.parent x) y
    else t.setRight (t.parent x) y
  let t := t.setLeft y x
  t.setParent x y

/-- `right_rotate` (lines 50-66). -/
def right_rotate (t : rbtree) (y : Nat) : rbtree :=
  let x := t.left y
  let t := t.setLeft y (t.right x)
  let t := if t.right x ≠ t.nil then t.setParent (t.right x) y else t
  let t := t.setParent x (t.parent y)
  let t :=
    if t.parent y = t.nil then t.setRoot x
    else if y = t.right (t.parent y) then t.setRight (t.parent y) x
    else t.setLeft (t.parent y) x
  let t := t.setRight x y
  t.setParent y x

/-- `rbtree_insert_fixup` (lines 69-107); one unit of fuel per evaluation of
the loop condition. -/
def rbtree_insert_fixup : Nat → rbtree → Nat → Option rbtree
  | 0, _, _ => none
  | fuel + 1, t, z =>
    if t.color (t.parent z) = RBTREE_RED then
      if t.parent z = t.left (t.parent (t.parent z)) then
        let y := t.right (t.parent (t.parent z))
        if t.color y = RBTREE_RED then
          let t := t.setColor (t.parent z) RBTREE_BLACK
          let t := t.setColor y RBTREE_BLACK
          let t := t.setColor (t.parent (t.parent z)) RBTREE_RED
          rbtree_insert_fixup fuel t (t.parent (t.parent z))
        else
          let tz : rbtree × Nat :=
            if z = t.right (t.parent z) then (left_rotate t (t.parent z), t.parent z) else (t, z)
          let t := tz.1
          let z := tz.2
          let t := t.setColor (t.parent z) RBTREE_BLACK
          let t := t.setColor (t.parent (t.parent z)) RBTREE_RED
          let t := right_rotate t (t.parent (t.parent z))
          rbtree_insert_fixup fuel t z
      else
        let y := t.left (t.parent (t.parent z))
        if t.color y = RBTREE_RED then
          let t := t.setColor (t.parent z) RBTREE_BLACK
          let t := t.setColor y RBTREE_BLACK
          let t := t.setColor (t.parent (t.parent z)) RBTREE_RED
          rbtree_insert_fixup fuel t (t.parent (t.parent z))
        else
          let tz : rbtree × Nat :=
            if z = t.left (t.parent z) then (right_rotate t (t.parent z), t.parent z) else (t, z)
          let t := tz.1
          let z := tz.2
          let t := t.setColor (t.parent z) RBTREE_BLACK
          let t := t.setColor (t.parent (t.parent z)) RBTREE_RED
          let t := left_rotate t (t.parent (t.parent z))
          rbtree_insert_fixup fuel t z
    else
      some (t.setColor t.root RBTREE_BLACK)

/-- The descent loop of `rbtree_insert` (lines 122-129): returns the final
`y`, the last real node visited. -/
def insert_descend : Nat → rbtree → Nat → Nat → Nat → Option Nat
  | 0, _, _, _, _ => none
  | fuel + 1, t, z, y, x =>
    if x ≠ t.nil then
      if t.key z < t.key x then insert_descend fuel t z x (t.left x)
      else insert_descend fuel t z x (t.right x)
    else some y

/-- `rbtree_insert` (lines 110-143); `z` is the address returned by `malloc`.
Returns the new state and the returned pointer. -/
def rbtree_insert (fuel : Nat) (t : rbtree) (z : Nat) (key : key_t) : Option (rbtree × Nat) :=
  let t := t.setKey z key
  let t := t.setColor z RBTREE_RED
  let t := t.setParent z t.nil
  let t := t.setLeft z t.nil
  let t := t.setRight z t.nil
  match insert_descend fuel t z t.nil t.root with
  | none => none
  | some y =>
    let t := t.setParent z y
    let t :=
      if y = t.nil then t.setRoot z
      else if t.key z < t.key y then t.setLeft y z
      else t.setRight y z
    match rbtree_insert_fixup fuel t z with
    | none => none
    | some t => some (t, z)

/-- The loop of `rbtree_find` (lines 148-154): returns the final `x`. -/
def find_loop : Nat → rbtree → key_t → Nat → Option Nat
  | 0, _, _, _ => none
  | fuel + 1, t, key, x =>
    if x ≠ t.nil ∧ t.key x ≠ key then
      if key < t.key x then find_loop fuel t key (t.left x)
      else find_loop fuel t key (t.right x)
    else some x

/-- `rbtree_find` (lines 146-160): `some NULL` is the C result `NULL`. -/
def rbtree_find (fuel : Nat) (t : rbtree) (key : key_t) : Option Nat :=
  match find_loop fuel t key t.root with
  | none => none
  | some x => if x = t.nil then some NULL else some x

/-- `rbtree_minimum` (lines 193-198), also the loop of `rbtree_min`. -/
def rbtree_minimum : Nat → rbtree → Nat → Option Nat
  | 0, _, _ => none
  | fuel + 1, t, x =>
    if t.left x ≠ t.nil then rbtree_minimum fuel t (t.left x) else some x

/-- `rbtree_min` (lines 163-169). -/
def rbtree_min (fuel : Nat) (t : rbtree) : Option Nat :=
  rbtree_minimum fuel t t.root

/-- The loop of `rbtree_max` (lines 174-176). -/
def max_loop : Nat → rbtree → Nat → Option Nat
  | 0, _, _ => none
  | fuel + 1, t, x =>
    if t.right x ≠ t.nil then max_loop fuel t (t.right x) else some x

/-- `rbtree_max` (lines 172-178). -/
def rbtree_max (fuel : Nat) (t : rbtree) : Option Nat :=
  max_loop fuel t t.root

/-- `rbtree_transplant` (lines 181-190). -/
def rbtree_transplant (t : rbtree) (u v : Nat) : rbtree :=
  let t :=
    if t.parent u = t.nil then t.setRoot v
    else if u = t.left (t.parent u) then t.setLeft (t.parent u) v
    else t.setRight (t.parent u) v
  t.setParent v (t.parent u)

/-- `rbtree_erase_fixup` (lines 200-253); one unit of fuel per evaluation of
the loop condition. -/
def rbtree_erase_fixup : Nat → rbtree → Nat → Option rbtree
  | 0, _, _ => none
  | fuel + 1, t, x =>
    if x ≠ t.root ∧ t.color x = RBTREE_BLACK then
      if x = t.left (t.parent x) then
        let w := t.right (t.parent x)
        let tw : rbtree × Nat :=
          if t.color w = RBTREE_RED then
            let t := t.setColor w RBTREE_BLACK
            let t := t.setColor (t.parent x) RBTREE_RED
            let t := left_rotate t (t.parent x)
            (t, t.right (t.parent x))
          else (t, w)
        let t := tw.1
        let w := tw.2
        if t.color (t.left w) = RBTREE_BLACK ∧ t.color (t.right w) = RBTREE_BLACK then
          let t := t.setColor w RBTREE_RED
          rbtree_erase_fixup fuel t (t.parent x)
        else
          let tw : rbtree × Nat :=
            if t.color (t.right w) = RBTREE_BLACK then
              let t := t.setColor (t.left w) RBTREE_BLACK
              let t := t.setColor w RBTREE_RED
              let t := right_rotate t w
              (t, t.right (t.parent x))
            else (t, w)
          let t := tw.1
          let w := tw.2
          let t := t.setColor w (t.color (t.parent x))
          let t := t.setColor (t.parent x) RBTREE_BLACK
          let t := t.setColor (t.right w) RBTREE_BLACK
          let t := left_rotate t (t.parent x)
          rbtree_erase_fixup fuel t t.root
      else
        let w := t.left (t.parent x)
        let tw : rbtree × Nat :=
          if t.color w = RBTREE_RED then
            let t := t.setColor w RBTREE_BLACK
            let t := t.setColor (t.parent x) RBTREE_RED
            let t := right_rotate t (t.parent x)
            (t, t.left (t.parent x))
          else (t, w)
        let t := tw.1
        let w := tw.2
        if t.color (t.right w) = RBTREE_BLACK ∧ t.color (t.left w) = RBTREE_BLACK then
          let t := t.setColor w RBTREE_RED
          rbtree_erase_fixup fuel t (t.parent x)
        else
          let tw : rbtree × Nat :=
            if t.color (t.left w) = RBTREE_BLACK then
              let t := t.setColor (t.right w) RBTREE_BLACK
              let t := t.setColor w RBTREE_RED
              let t := left_rotate t w
              (t, t.left (t.parent x))
            else (t, w)
          let t := tw.1
          let w := tw.2
          let t := t.setColor w (t.color (t.parent x))
          let t := t.setColor (t.parent x) RBTREE_BLACK
          let t := t.setColor (t.left w) RBTREE_BLACK
          let t := right_rotate t (t.parent x)
          rbtree_erase_fixup fuel t t.root
    else
      some (t.setColor x RBTREE_BLACK)

/-- `rbtree_erase` (lines 255-288).  Returns the new state and the C return
value `0`.  `free(z)` releases the address `z` and changes no node. -/
def rbtree_erase (fuel : Nat) (t : rbtree) (z : Nat) : Option (rbtree × Int) :=
  let y_original_color := t.color z
  let r : Option (rbtree × Nat × color_t) :=
    if t.left z = t.nil then
      let x := t.right z
      some (rbtree_transplant t z (t.right z), x, y_original_color)
    else if t.right z = t.nil then
      let x := t.left z
      some (rbtree_transplant t z (t.left z), x, y_original_color)
    else
      match rbtree_minimum fuel t (t.right z) with
      | none => none
      | some y =>
        let y_original_color := t.color y
        let x := t.right y
        let t :=
          if t.parent y = z then t.setParent x y
          else
            let t := rbtree_transplant t y (t.right y)
            let t := t.setRight y (t.right z)
            t.setParent (t.right y) y
        let t := rbtree_transplant t z y
        let t := t.setLeft y (t.left z)
        let t := t.setParent (t.left y) y
        let t := t.setColor y (t.color z)
        some (t, x, y_original_color)
  match r with
  | none => none
  | some (t, x, y_original_color) =>
    if y_original_color = RBTREE_BLACK then
      match rbtree_erase_fixup fuel t x with
      | none => none
      | some t => some (t, 0)
    else some (t, 0)

/-- `rbtree_inorder` (lines 290-296): the buffer `arr` is a function from
index to key and `index` the running count; fuel bounds the recursion depth. -/
def rbtree_inorder : Nat → rbtree → Nat → (Nat → key_t) → Nat → Option ((Nat → key_t) × Nat)
  | 0, _, _, _, _ => none
  | fuel + 1, t, n, arr, index =>
    if n ≠ t.nil then
      match rbtree_inorder fuel t (t.left n) arr index with
      | none => none
      | some (arr, index) =>
        let arr := Function.update arr index (t.key n)
        let index := index + 1
        rbtree_inorder fuel t (t.right n) arr index
    else some (arr, index)

/-- `rbtree_to_array` (lines 298-302): the capacity `n` is not read by the
code.  Returns the buffer and the count.  The C `int` count is taken
unbounded (a tree of more than `INT_MAX` nodes is outside the model). -/
def rbtree_to_array (fuel : Nat) (t : rbtree) (arr : Nat → key_t) (_n : Nat) :
    Option ((Nat → key_t) × Nat) :=
  let index := 0
  rbtree_inorder fuel t t.root arr index

/-- The first `count` slots of a buffer, i.e. what `rbtree_to_array` wrote. -/
def written (r : (Nat → key_t) × Nat) : List key_t :=
  (List.range r.2).map r.1

/-! ## Section 2: the abstract tree and what the operations compute -/

/-! ## Section 2: the abstract tree held by a heap -/

/-- The binary tree a heap region holds: each real node with its colour, its
address `a` and its key; `leaf` stands for a link to the sentinel. -/
inductive ATree where
  | leaf : ATree
  | node (c : color_t) (l : ATree) (a : Nat) (k : key_t) (r : ATree) : ATree
deriving DecidableEq, Repr

/-- One step of a root-ward path: the node above a position, with the subtree
on the other side.  `L`: the position is the left child of `a`; `R`: the
position is its right child. -/
inductive Frame where
  | L (c : color_t) (a : Nat) (k : key_t) (r : ATree) : Frame
  | R (c : color_t) (l : ATree) (a : Nat) (k : key_t) : Frame
deriving DecidableEq, Repr

/-- The way from a position up to the root, nearest ancestor first. -/
abbrev Path := List Frame

/-- Put a subtree into the position a path leads to. -/
def plug : ATree → Path → ATree
  | T, [] => T
  | T, Frame.L c a k r :: up => plug (ATree.node c T a k r) up
  | T, Frame.R c l a k :: up => plug (ATree.node c l a k T) up

/-- The pointer that designates a subtree: its root address, the sentinel for
a leaf. -/
def ptr (nil : Nat) : ATree → Nat
  | ATree.leaf => nil
  | ATree.node _ _ a _ _ => a

/-- Address of the node of a frame. -/
def Frame.addr : Frame → Nat
  | Frame.L _ a _ _ => a
  | Frame.R _ _ a _ => a

/-- Colour of the node of a frame. -/
def Frame.color : Frame → color_t
  | Frame.L c _ _ _ => c
  | Frame.R c _ _ _ => c

/-- The parent pointer of the position a path leads to. -/
def pptr (nil : Nat) : Path → Nat
  | [] => nil
  | f :: _ => f.addr

/-- Colour of the parent of the position a path leads to (the sentinel is
BLACK). -/
def pcolor : Path → color_t
  | [] => RBTREE_BLACK
  | f :: _ => f.color

/-- In-order list of the nodes (address and key) of a tree. -/
def nodes : ATree → List (Nat × key_t)
  | ATree.leaf => []
  | ATree.node _ l a k r => nodes l ++ (a, k) :: nodes r

/-- In-order list of addresses. -/
def addrs (T : ATree) : List Nat := (nodes T).map Prod.fst

/-- In-order list of keys. -/
def keys (T : ATree) : List key_t := (nodes T).map Prod.snd

/-- Nodes of the whole tree that come before the position of a path. -/
def before : Path → List (Nat × key_t)
  | [] => []
  | Frame.L _ _ _ _ :: up => before up
  | Frame.R _ l a k :: up => before up ++ (nodes l ++ [(a, k)])

/-- Nodes of the whole tree that come after the position of a path. -/
def after : Path → List (Nat × key_t)
  | [] => []
  | Frame.L _ a k r :: up => ((a, k) :: nodes r) ++ after up
  | Frame.R _ _ _ _ :: up => after up

/-- Addresses of the whole tree that come before the position of a path. -/
def baddrs : Path → List Nat
  | [] => []
  | Frame.L _ _ _ _ :: up => baddrs up
  | Frame.R _ l a _ :: up => baddrs up ++ (addrs l ++ [a])

/-- Addresses of the whole tree that come after the position of a path. -/
def aaddrs : Path → List Nat
  | [] => []
  | Frame.L _ a _ r :: up => (a :: addrs r) ++ aaddrs up
  | Frame.R _ _ _ _ :: up => aaddrs up

/-- Number of real nodes. -/
def size : ATree → Nat
  | ATree.leaf => 0
  | ATree.node _ l _ _ r => size l + 1 + size r

/-- Number of real nodes on a longest root-to-sentinel path. -/
def height : ATree → Nat
  | ATree.leaf => 0
  | ATree.node _ l _ _ r => max (height l) (height r) + 1

/-- The heap `m` holds the subtree `T` below the parent pointer `par`: every
node record is exactly the one the tree prescribes. -/
def Rep (m : Nat → node_t) (nil : Nat) : Nat → ATree → Prop
  | _, ATree.leaf => True
  | par, ATree.node c l a k r =>
    a ≠ nil ∧ m a = ⟨c, k, par, ptr nil l, ptr nil r⟩ ∧ Rep m nil a l ∧ Rep m nil a r

/-- The heap `m` holds the ancestors (and their other subtrees) of a position
whose pointer is `h`. -/
def RepPath (m : Nat → node_t) (nil : Nat) : Path → Nat → Prop
  | [], _ => True
  | Frame.L c a k r :: up, h =>
    a ≠ nil ∧ m a = ⟨c, k, pptr nil up, h, ptr nil r⟩ ∧ Rep m nil a r ∧ RepPath m nil up a
  | Frame.R c l a k :: up, h =>
    a ≠ nil ∧ m a = ⟨c, k, pptr nil up, ptr nil l, h⟩ ∧ Rep m nil a l ∧ RepPath m nil up a

/-- Facts about the whole tree `W` of a state: the root pointer designates it,
no address occurs twice, no node is `NULL` or the sentinel, and the sentinel
is a non-null BLACK node. -/
structure Glob (t : rbtree) (W : ATree) : Prop where
  root : t.root = ptr t.nil W
  nodup : (addrs W).Nodup
  nonnull : NULL ∉ addrs W
  nonnil : t.nil ∉ addrs W
  nilnn : t.nil ≠ NULL
  nilblack : t.color t.nil = RBTREE_BLACK

/-- The state `t` holds the tree `plug T p`, seen from the position of `T`. -/
structure Foc (t : rbtree) (p : Path) (T : ATree) : Prop where
  rep : Rep t.mem t.nil (pptr t.nil p) T
  path : RepPath t.mem t.nil p (ptr t.nil T)
  glob : Glob t (plug T p)

/-- The state `t` is a well-formed tree and `T` is the tree it holds: the root
pointer leads to `T`, the root's parent is the sentinel, child and parent
links agree, all nodes are distinct real nodes, the sentinel is BLACK. -/
def TreeRep (t : rbtree) (T : ATree) : Prop := Foc t [] T

/-! ### The red-black invariants -/

/-- Colour of the root; a leaf (the sentinel) is BLACK. -/
def rootColor : ATree → color_t
  | ATree.leaf => RBTREE_BLACK
  | ATree.node c _ _ _ _ => c

/-- Invariant 1: the root is BLACK (or the tree is empty). -/
def rootBlack (T : ATree) : Prop := rootColor T = RBTREE_BLACK

/-- Invariant 2: no RED node has a RED child. -/
def noRedRed : ATree → Prop
  | ATree.leaf => True
  | ATree.node c l _ _ r =>
    (c = RBTREE_RED → rootColor l = RBTREE_BLACK ∧ rootColor r = RBTREE_BLACK) ∧
      noRedRed l ∧ noRedRed r

/-- Number of BLACK nodes on the leftmost path down to the sentinel. -/
def blackHeight : ATree → Nat
  | ATree.leaf => 0
  | ATree.node c l _ _ _ => blackHeight l + (if c = RBTREE_BLACK then 1 else 0)

/-- For every root-to-sentinel path, the number of BLACK real nodes on it. -/
def pathBlacks : ATree → List Nat
  | ATree.leaf => [0]
  | ATree.node c l _ _ r =>
    (pathBlacks l ++ pathBlacks r).map (fun n => n + (if c = RBTREE_BLACK then 1 else 0))

/-- Invariant 3: every path from a node down to the sentinel has the same
number of BLACK nodes. -/
def equalBH : ATree → Prop
  | ATree.leaf => True
  | ATree.node _ l _ _ r => blackHeight l = blackHeight r ∧ equalBH l ∧ equalBH r

/-- The three red-black invariants together. -/
def IsRB (T : ATree) : Prop := rootBlack T ∧ noRedRed T ∧ equalBH T

/-- What the rest of a red-black tree around a position must satisfy, for a
position that holds a subtree of root colour `c` and black-height `n`: the
root is BLACK, no RED node has a RED child and the black-heights agree. -/
def pathOK : Path → color_t → Nat → Prop
  | [], c, _ => c = RBTREE_BLACK
  | Frame.L pc _ _ r :: up, c, n =>
    (pc = RBTREE_RED → c = RBTREE_BLACK ∧ rootColor r = RBTREE_BLACK) ∧
      noRedRed r ∧ equalBH r ∧ blackHeight r = n ∧
      pathOK up pc (n + (if pc = RBTREE_BLACK then 1 else 0))
  | Frame.R pc l _ _ :: up, c, n =>
    (pc = RBTREE_RED → rootColor l = RBTREE_BLACK ∧ c = RBTREE_BLACK) ∧
      noRedRed l ∧ equalBH l ∧ blackHeight l = n ∧
      pathOK up pc (n + (if pc = RBTREE_BLACK then 1 else 0))

/-- Invariant 4: the in-order key sequence is non-decreasing. -/
def IsBST (T : ATree) : Prop := (keys T).Sorted (· ≤ ·)

/-- Root forced BLACK. -/
def blacken : ATree → ATree
  | ATree.leaf => ATree.leaf
  | ATree.node _ l a k r => ATree.node RBTREE_BLACK l a k r

/-! ### What the operations do to the abstract tree -/

/-- The position the descent loop of `rbtree_insert` reaches for `key`. -/
def descend (key : key_t) : ATree → Path → Path
  | ATree.leaf, p => p
  | ATree.node c l a k r, p =>
    if key < k then descend key l (Frame.L c a k r :: p)
    else descend key r (Frame.R c l a k :: p)

/-- The last step of a path goes the way the descent loop goes for `key`. -/
def dirOK (key : key_t) : Path → Prop
  | [] => True
  | Frame.L _ _ k _ :: _ => key < k
  | Frame.R _ _ _ k :: _ => ¬ key < k

/-- The effect of `rbtree_insert_fixup` started at the root of the subtree `Z`
in position `p`; `none` where the code would read through the sentinel. -/
def insFix : Path → ATree → Option ATree
  | [], Z => some (blacken Z)
  | [f], Z => if f.color = RBTREE_RED then none else some (blacken (plug Z [f]))
  | Frame.L cp ap kp sr :: Frame.L cg ag kg U :: up, Z =>
    if cp = RBTREE_RED then
      match U with
      | ATree.node RBTREE_RED ul u ku ur =>
        insFix up (ATree.node RBTREE_RED (ATree.node RBTREE_BLACK Z ap kp sr) ag kg
          (ATree.node RBTREE_BLACK ul u ku ur))
      | _ => some (blacken (plug
          (ATree.node RBTREE_BLACK Z ap kp (ATree.node RBTREE_RED sr ag kg U)) up))
    else some (blacken (plug Z (Frame.L cp ap kp sr :: Frame.L cg ag kg U :: up)))
  | Frame.R cp sl ap kp :: Frame.L cg ag kg U :: up, Z =>
    if cp = RBTREE_RED then
      match U with
      | ATree.node RBTREE_RED ul u ku ur =>
        insFix up (ATree.node RBTREE_RED (ATree.node RBTREE_BLACK sl ap kp Z) ag kg
          (ATree.node RBTREE_BLACK ul u ku ur))
      | _ =>
        match Z with
        | ATree.node _ zl z kz zr => some (blacken (plug
            (ATree.node RBTREE_BLACK (ATree.node RBTREE_RED sl ap kp zl) z kz
              (ATree.node RBTREE_RED zr ag kg U)) up))
        | ATree.leaf => none
    else some (blacken (plug Z (Frame.R cp sl ap kp :: Frame.L cg ag kg U :: up)))
  | Frame.R cp sl ap kp :: Frame.R cg U ag kg :: up, Z =>
    if cp = RBTREE_RED then
      match U with
      | ATree.node RBTREE_RED ul u ku ur =>
        insFix up (ATree.node RBTREE_RED (ATree.node RBTREE_BLACK ul u ku ur) ag kg
          (ATree.node RBTREE_BLACK sl ap kp Z))
      | _ => some (blacken (plug
          (ATree.node RBTREE_BLACK (ATree.node RBTREE_RED U ag kg sl) ap kp Z) up))
    else some (blacken (plug Z (Frame.R cp sl ap kp :: Frame.R cg U ag kg :: up)))
  | Frame.L cp ap kp sr :: Frame.R cg U ag kg :: up, Z =>
    if cp = RBTREE_RED then
      match U with
      | ATree.node RBTREE_RED ul u ku ur =>
        insFix up (ATree.node RBTREE_RED (ATree.node RBTREE_BLACK ul u ku ur) ag kg
          (ATree.node RBTREE_BLACK Z ap kp sr))
      | _ =>
        match Z with
        | ATree.node _ zl z kz zr => some (blacken (plug
            (ATree.node RBTREE_BLACK (ATree.node RBTREE_RED U ag kg zl) z kz
              (ATree.node RBTREE_RED zr ap kp sr)) up))
        | ATree.leaf => none
    else some (blacken (plug Z (Frame.L cp ap kp sr :: Frame.R cg U ag kg :: up)))

/-- The effect of `rbtree_insert` with new address `z` and key `key` on the
abstract tree. -/
def insTree (T : ATree) (z : Nat) (key : key_t) : Option ATree :=
  insFix (descend key T []) (ATree.node RBTREE_RED ATree.leaf z key ATree.leaf)

/-- Cases 2, 3 and 4 of the erase fix-up when `x` is a left child: `X` is the
subtree at `x`, `cp ap kp` its parent, `W` the sibling inspected.  Returns the
subtree that replaces the parent's, and whether the loop is left through
case 4 (`true`) or goes on at the parent through case 2 (`false`); `none`
where the code would read through the sentinel. -/
def delStepL (cp : color_t) (X : ATree) (ap : Nat) (kp : key_t) (W : ATree) :
    Option (Bool × ATree) :=
  match W with
  | ATree.leaf => none
  | ATree.node _ wl w kw wr =>
    if rootColor wl = RBTREE_BLACK ∧ rootColor wr = RBTREE_BLACK then
      some (false, ATree.node cp X ap kp (ATree.node RBTREE_RED wl w kw wr))
    else if rootColor wr = RBTREE_BLACK then
      match wl with
      | ATree.leaf => none
      | ATree.node _ wll wla wlk wlr =>
        some (true, ATree.node cp (ATree.node RBTREE_BLACK X ap kp wll) wla wlk
          (ATree.node RBTREE_BLACK wlr w kw wr))
    else
      match wr with
      | ATree.leaf => none
      | ATree.node _ wrl wra wrk wrr =>
        some (true, ATree.node cp (ATree.node RBTREE_BLACK X ap kp wl) w kw
          (ATree.node RBTREE_BLACK wrl wra wrk wrr))

/-- Cases 2, 3 and 4 of the erase fix-up when `x` is a right child (mirror
image of `delStepL`). -/
def delStepR (cp : color_t) (W : ATree) (ap : Nat) (kp : key_t) (X : ATree) :
    Option (Bool × ATree) :=
  match W with
  | ATree.leaf => none
  | ATree.node _ wl w kw wr =>
    if rootColor wr = RBTREE_BLACK ∧ rootColor wl = RBTREE_BLACK then
      some (false, ATree.node cp (ATree.node RBTREE_RED wl w kw wr) ap kp X)
    else if rootColor wl = RBTREE_BLACK then
      match wr with
      | ATree.leaf => none
      | ATree.node _ wrl wra wrk wrr =>
        some (true, ATree.node cp (ATree.node RBTREE_BLACK wl w kw wrl) wra wrk
          (ATree.node RBTREE_BLACK wrr ap kp X))
    else
      match wl with
      | ATree.leaf => none
      | ATree.node _ wll wla wlk wlr =>
        some (true, ATree.node cp (ATree.node RBTREE_BLACK wll wla wlk wlr) w kw
          (ATree.node RBTREE_BLACK wr ap kp X))

/-- The effect of `rbtree_erase_fixup` started at the root of the subtree `X`
(possibly a leaf, i.e. `x` is the sentinel) in position `p`. -/
def delFix : Path → ATree → Option ATree
  | [], X => some (blacken X)
  | Frame.L cp ap kp W :: up, X =>
    if rootColor X = RBTREE_RED then some (plug (blacken X) (Frame.L cp ap kp W :: up))
    else
      match W with
      | ATree.node RBTREE_RED wl w kw wr =>
        match delStepL RBTREE_RED X ap kp wl with
        | none => none
        | some (true, S) => some (blacken (plug (ATree.node RBTREE_BLACK S w kw wr) up))
        | some (false, S) => some (plug (ATree.node RBTREE_BLACK (blacken S) w kw wr) up)
      | _ =>
        match delStepL cp X ap kp W with
        | none => none
        | some (true, S) => some (blacken (plug S up))
        | some (false, S) => delFix up S
  | Frame.R cp W ap kp :: up, X =>
    if rootColor X = RBTREE_RED then some (plug (blacken X) (Frame.R cp W ap kp :: up))
    else
      match W with
      | ATree.node RBTREE_RED wl w kw wr =>
        match delStepR RBTREE_RED wr ap kp X with
        | none => none
        | some (true, S) => some (blacken (plug (ATree.node RBTREE_BLACK wl w kw S) up))
        | some (false, S) => some (plug (ATree.node RBTREE_BLACK wl w kw (blacken S)) up)
      | _ =>
        match delStepR cp W ap kp X with
        | none => none
        | some (true, S) => some (blacken (plug S up))
        | some (false, S) => delFix up S

/-- The way from the root of a subtree down to its leftmost node, and that
node's subtree. -/
def minPath : ATree → Path → Path × ATree
  | ATree.leaf, p => (p, ATree.leaf)
  | ATree.node c ATree.leaf a k r, p => (p, ATree.node c ATree.leaf a k r)
  | ATree.node c (ATree.node lc ll la lk lr) a k r, p =>
    minPath (ATree.node lc ll la lk lr) (Frame.L c a k r :: p)

/-- The unlinking part of `rbtree_erase` on a node of colour `cz` with
subtrees `zl` and `zr`, found in position `p`: the position and the subtree
of `x` afterwards, and the colour that was removed (`y_original_color`).
With two children the successor `y` takes the node's place and colour, and
`x` is the successor's right subtree. -/
def unlinkAt (p : Path) (cz : color_t) (zl zr : ATree) : Option (Path × ATree × color_t) :=
  match zl, zr with
  | ATree.leaf, _ => some (p, zr, cz)
  | ATree.node _ _ _ _ _, ATree.leaf => some (p, zl, cz)
  | ATree.node _ _ _ _ _, ATree.node _ _ _ _ _ =>
    match minPath zr [] with
    | (q, ATree.node cy _ y ky ry) => some (q ++ Frame.R cz zl y ky :: p, ry, cy)
    | (_, ATree.leaf) => none

/-- The effect of `rbtree_erase` on a node of colour `cz` with subtrees `zl`
and `zr`, found in position `p`. -/
def eraseAt (p : Path) (cz : color_t) (zl zr : ATree) : Option ATree :=
  match unlinkAt p cz zl zr with
  | none => none
  | some (p', X, c) => if c = RBTREE_BLACK then delFix p' X else some (plug X p')

/-- The body of the loop of `rbtree_erase_fixup` after case 1 when `x` is a
left child (lines 210-225): the part of the definition of
`rbtree_erase_fixup` from the test of the sibling's children on. -/
def erase_fixup_left_tail (fuel : Nat) (t : rbtree) (x w : Nat) : Option rbtree :=
  if t.color (t.left w) = RBTREE_BLACK ∧ t.color (t.right w) = RBTREE_BLACK then
    let t := t.setColor w RBTREE_RED
    rbtree_erase_fixup fuel t (t.parent x)
  else
    let tw : rbtree × Nat :=
      if t.color (t.right w) = RBTREE_BLACK then
        let t := t.setColor (t.left w) RBTREE_BLACK
        let t := t.setColor w RBTREE_RED
        let t := right_rotate t w
        (t, t.right (t.parent x))
      else (t, w)
    let t := tw.1
    let w := tw.2
    let t := t.setColor w (t.color (t.parent x))
    let t := t.setColor (t.parent x) RBTREE_BLACK
    let t := t.setColor (t.right w) RBTREE_BLACK
    let t := left_rotate t (t.parent x)
    rbtree_erase_fixup fuel t t.root

/-- The body of the loop of `rbtree_erase_fixup` after case 1 when `x` is a
right child (lines 234-249). -/
def erase_fixup_right_tail (fuel : Nat) (t : rbtree) (x w : Nat) : Option rbtree :=
  if t.color (t.right w) = RBTREE_BLACK ∧ t.color (t.left w) = RBTREE_BLACK then
    let t := t.setColor w RBTREE_RED
    rbtree_erase_fixup fuel t (t.parent x)
  else
    let tw : rbtree × Nat :=
      if t.color (t.left w) = RBTREE_BLACK then
        let t := t.setColor (t.right w) RBTREE_BLACK
        let t := t.setColor w RBTREE_RED
        let t := left_rotate t w
        (t, t.left (t.parent x))
      else (t, w)
    let t := tw.1
    let w := tw.2
    let t := t.setColor w (t.color (t.parent x))
    let t := t.setColor (t.parent x) RBTREE_BLACK
    let t := t.setColor (t.left w) RBTREE_BLACK
    let t := right_rotate t (t.parent x)
    rbtree_erase_fixup fuel t t.root

/-- The statements of `rbtree_erase` that put the successor `y` into the place
of `z` (lines 277-280): the part of the definition of `rbtree_erase` from
`rbtree_transplant(t, z, y)` to `y->color = z->color`. -/
def erase_relink (t : rbtree) (z y : Nat) : rbtree :=
  let t := rbtree_transplant t z y
  let t := t.setLeft y (t.left z)
  let t := t.setParent (t.left y) y
  t.setColor y (t.color z)

/-- The unlinking part of `rbtree_erase` (lines 256-281): the state, `x` and
`y_original_color` with which the function goes on to the fix-up. -/
def erase_unlink (fuel : Nat) (t : rbtree) (z : Nat) : Option (rbtree × Nat × color_t) :=
  let y_original_color := t.color z
  if t.left z = t.nil then
    let x := t.right z
    some (rbtree_transplant t z (t.right z), x, y_original_color)
  else if t.right z = t.nil then
    let x := t.left z
    some (rbtree_transplant t z (t.left z), x, y_original_color)
  else
    match rbtree_minimum fuel t (t.right z) with
    | none => none
    | some y =>
      let y_original_color := t.color y
      let x := t.right y
      let t :=
        if t.parent y = z then t.setParent x y
        else
          let t := rbtree_transplant t y (t.right y)
          let t := t.setRight y (t.right z)
          t.setParent (t.right y) y
      some (erase_relink t z y, x, y_original_color)

/-- The buffer after storing the keys `ks` from slot `index` on, one store
`arr[(*index)++] = key` per key. -/
def writeList (arr : Nat → key_t) (index : Nat) : List key_t → (Nat → key_t)
  | [] => arr
  | k :: ks => writeList (Function.update arr index k) (index + 1) ks

/-- The states reachable from `new_rbtree()` by calls of `rbtree_insert` and
of `rbtree_erase` on nodes currently in the tree.  `Reach t live N M`: the
state `t` is reached by `N` inserts and `M` erases, and `live` lists the
nodes that `malloc` handed out to an insert and no erase has freed yet.
`malloc` returns a non-NULL address that is not allocated at the time (not
the sentinel and not a live node); the calls return (with some fuel). -/
inductive Reach : rbtree → List Nat → Nat → Nat → Prop
  | new (m : Nat → node_t) (a : Nat) (ha : a ≠ NULL) : Reach (new_rbtree m a) [] 0 0
  | insert {t : rbtree} {live : List Nat} {N M : Nat} (fuel z : Nat) (key : key_t)
      (t' : rbtree) (r : Nat) (h : Reach t live N M) (hz0 : z ≠ NULL) (hzn : z ≠ t.nil)
      (hzl : z ∉ live) (hrun : rbtree_insert fuel t z key = some (t', r)) :
      Reach t' (z :: live) (N + 1) M
  | erase {t : rbtree} {live : List Nat} {N M : Nat} (fuel z : Nat)
      (t' : rbtree) (r : Int) (h : Reach t live N M) (hz : z ∈ live)
      (hrun : rbtree_erase fuel t z = some (t', r)) :
      Reach t' (live.erase z) N (M + 1)

/-- The state after `rbtree_insert(t, key)` with `malloc` returning `z`; the
state is left alone if the run does not return within `fuel`. -/
def insert_state (fuel : Nat) (t : rbtree) (z : Nat) (key : key_t) : rbtree :=
  match rbtree_insert fuel t z key with
  | some (t', _) => t'
  | none => t

/-- A heap before anything is allocated. -/
def heap0 : Nat → node_t := fun _ => ⟨RBTREE_RED, 0, NULL, NULL, NULL⟩

/-- The empty tree `new_rbtree()`, its sentinel allocated at address 1. -/
def tree0 : rbtree := new_rbtree heap0 1

/-- The tree after `rbtree_insert(t, 5)` on the empty tree, the node allocated
at address 2. -/
def tree1 : rbtree := insert_state 3 tree0 2 5

/-- Insert the keys of a list one after the other; the node for the `i`-th key
of the list is allocated at address `a + i`. -/
def insert_list (fuel : Nat) : rbtree → Nat → List key_t → Option rbtree
  | t, _, [] => some t
  | t, a, k :: ks =>
    match rbtree_insert fuel t a k with
    | none => none
    | some (t', _) => insert_list fuel t' (a + 1) ks

/-- The scenario of the two-child erase: insert 10, 20, 30, 5, 15, 25, 35 into
a new tree, erase the node that `rbtree_find` returns for 20, and export.
Gives the return value of `rbtree_erase` and the exported keys. -/
def erase20 : Option (Int × List key_t) :=
  match insert_list 10 (new_rbtree heap0 1) 2 [10, 20, 30, 5, 15, 25, 35] with
  | none => none
  | some t =>
    match rbtree_find 10 t 20 with
    | none => none
    | some z =>
      match rbtree_erase 10 t z with
      | none => none
      | some (t', ret) =>
        match rbtree_to_array 10 t' (fun _ => 0) 6 with
        | none => none
        | some r => some (ret, written r)

/-- In-order list of the nodes of a tree with address, key and colour. -/
def cnodes : ATree → List (Nat × key_t × color_t)
  | ATree.leaf => []
  | ATree.node c l a k r => cnodes l ++ (a, k, c) :: cnodes r

/-- The tree after `rbtree_insert(t, 7)` on `tree1`, the node allocated at
address 3: the root 5 with the right child 7. -/
def tree2 : rbtree := insert_state 4 tree1 3 7

/-- The tree after `rbtree_insert(t, 3)` on `tree1`, the node allocated at
address 3: the root 5 with the left child 3. -/
def tree2l : rbtree := insert_state 4 tree1 3 3

/-- The height of the subtree at `n` measured on the heap: the number of real
nodes on a longest path from `n` down to the sentinel.  Not a function of
the program: it computes the quantity `H` of the height bound. -/
def heap_height : Nat → rbtree → Nat → Option Nat
  | 0, _, _ => none
  | fuel + 1, t, n =>
    if n ≠ t.nil then
      match heap_height fuel t (t.left n), heap_height fuel t (t.right n) with
      | some l, some r => some (max l r + 1)
      | _, _ => none
    else some 0

/-- The scenario of the ascending inserts: insert 1, 2, 3, 4, 5, 6, 7 into a
new tree; gives the height of the tree and the exported keys. -/
def ascending7 : Option (Nat × List key_t) :=
  match insert_list 10 (new_rbtree heap0 1) 2 [1, 2, 3, 4, 5, 6, 7] with
  | none => none
  | some t =>
    match heap_height 10 t t.root, rbtree_to_array 10 t (fun _ => 0) 7 with
    | some H, some r => some (H, written r)
    | _, _ => none

/-- The node `b` is reached from the pointer `a` by following `left` and
`right` links of real nodes. -/
inductive Reaches (t : rbtree) : Nat → Nat → Prop
  | here (a : Nat) : Reaches t a a
  | left {a b : Nat} (ha : a ≠ t.nil) (h : Reaches t (t.left a) b) : Reaches t a b
  | right {a b : Nat} (ha : a ≠ t.nil) (h : Reaches t (t.right a) b) : Reaches t a b

/-- Insert a list of keys one after the other; each key comes with the
address that `malloc` returns for its node. -/
def insert_nodes (fuel : Nat) : rbtree → List (Nat × key_t) → Option rbtree
  | t, [] => some t
  | t, (z, k) :: rest =>
    match rbtree_insert fuel t z k with
    | none => none
    | some (t', _) => insert_nodes fuel t' rest

/-- Erase `i` times the node that `rbtree_min` returns. -/
def drain_min (fuel : Nat) : Nat → rbtree → Option rbtree
  | 0, t => some t
  | i + 1, t =>
    match rbtree_min fuel t with
    | none => none
    | some z =>
      match rbtree_erase fuel t z with
      | none => none
      | some (t', _) => drain_min fuel i t'

/-- The keys `i + 1, i + 2, ..., n` in increasing order. -/
def upto (i n : Nat) : List key_t :=
  ((List.range n).drop i).map (fun (j : Nat) => (j : Int) + 1)

/-- The state `t'` has the sentinel of `t`, with the `key`, `left` and `right`
field it has in `t`: between the two states nothing was stored into one of
these three fields of the sentinel that differs from what the field held. -/
def NilKept (t t' : rbtree) : Prop :=
  t'.nil = t.nil ∧ t'.key t.nil = t.key t.nil ∧ t'.left t.nil = t.left t.nil ∧
    t'.right t.nil = t.right t.nil

/-! ### The program with its rotation preconditions asserted -/

/-- `left_rotate(t, x)` with the precondition asserted: the pivot `x` and its
right child are real nodes; `none` when the assertion fails. -/
def left_rotate_chk (t : rbtree) (x : Nat) : Option rbtree :=
  if x ≠ t.nil ∧ t.right x ≠ t.nil then some (left_rotate t x) else none

/-- `right_rotate(t, y)` with the precondition asserted: the pivot `y` and its
left child are real nodes; `none` when the assertion fails. -/
def right_rotate_chk (t : rbtree) (y : Nat) : Option rbtree :=
  if y ≠ t.nil ∧ t.left y ≠ t.nil then some (right_rotate t y) else none

/-- One iteration of the loop of `rbtree_insert_fixup` (lines 71-104), every
rotation called through its asserting version: the state and `z` at the end
of the iteration, `none` when an assertion fails. -/
def insert_fixup_body (t : rbtree) (z : Nat) : Option (rbtree × Nat) :=
  if t.parent z = t.left (t.parent (t.parent z)) then
    let y := t.right (t.parent (t.parent z))
    if t.color y = RBTREE_RED then
      let t := t.setColor (t.parent z) RBTREE_BLACK
      let t := t.setColor y RBTREE_BLACK
      let t := t.setColor (t.parent (t.parent z)) RBTREE_RED
      some (t, t.parent (t.parent z))
    else
      let tz : Option (rbtree × Nat) :=
        if z = t.right (t.parent z) then
          match left_rotate_chk t (t.parent z) with
          | none => none
          | some t' => some (t', t.parent z)
        else some (t, z)
      match tz with
      | none => none
      | some (t, z) =>
        let t := t.setColor (t.parent z) RBTREE_BLACK
        let t := t.setColor (t.parent (t.parent z)) RBTREE_RED
        match right_rotate_chk t (t.parent (t.parent z)) with
        | none => none
        | some t => some (t, z)
  else
    let y := t.left (t.parent (t.parent z))
    if t.color y = RBTREE_RED then
      let t := t.setColor (t.parent z) RBTREE_BLACK
      let t := t.setColor y RBTREE_BLACK
      let t := t.setColor (t.parent (t.parent z)) RBTREE_RED
      some (t, t.parent (t.parent z))
    else
      let tz : Option (rbtree × Nat) :=
        if z = t.left (t.parent z) then
          match right_rotate_chk t (t.parent z) with
          | none => none
          | some t' => some (t', t.parent z)
        else some (t, z)
      match tz with
      | none => none
      | some (t, z) =>
        let t := t.setColor (t.parent z) RBTREE_BLACK
        let t := t.setColor (t.parent (t.parent z)) RBTREE_RED
        match left_rotate_chk t (t.parent (t.parent z)) with
        | none => none
        | some t => some (t, z)

/-- `rbtree_insert_fixup` (lines 69-107) with the rotation preconditions
asserted: the loop around `insert_fixup_body`; `none` when an assertion fails
or the fuel runs out. -/
def rbtree_insert_fixup_chk : Nat → rbtree → Nat → Option rbtree
  | 0, _, _ => none
  | fuel + 1, t, z =>
    if t.color (t.parent z) = RBTREE_RED then
      match insert_fixup_body t z with
      | none => none
      | some (t, z) => rbtree_insert_fixup_chk fuel t z
    else
      some (t.setColor t.root RBTREE_BLACK)

/-- The part of `rbtree_insert` before the fix-up (lines 112-138): the new
node is filled in and linked below the node the descent ends at. -/
def insert_link (fuel : Nat) (t : rbtree) (z : Nat) (key : key_t) : Option rbtree :=
  let t := t.setKey z key
  let t := t.setColor z RBTREE_RED
  let t := t.setParent z t.nil
  let t := t.setLeft z t.nil
  let t := t.setRight z t.nil
  match insert_descend fuel t z t.nil t.root with
  | none => none
  | some y =>
    let t := t.setParent z y
    some (if y = t.nil then t.setRoot z
      else if t.key z < t.key y then t.setLeft y z
      else t.setRight y z)

/-- `rbtree_insert` with the rotation preconditions asserted. -/
def rbtree_insert_chk (fuel : Nat) (t : rbtree) (z : Nat) (key : key_t) :
    Option (rbtree × Nat) :=
  match insert_link fuel t z key with
  | none => none
  | some t =>
    match rbtree_insert_fixup_chk fuel t z with
    | none => none
    | some t => some (t, z)

/-- Cases 2, 3 and 4 of one iteration of the loop of `rbtree_erase_fixup` when
`x` is a left child (lines 210-225), the rotations called through their
asserting versions and the sibling `w` asserted to be a real node when it is
read again: the state and `x` at the end of the iteration. -/
def erase_body_left_tail (t : rbtree) (x w : Nat) : Option (rbtree × Nat) :=
  if t.color (t.left w) = RBTREE_BLACK ∧ t.color (t.right w) = RBTREE_BLACK then
    let t := t.setColor w RBTREE_RED
    some (t, t.parent x)
  else
    let tw : Option (rbtree × Nat) :=
      if t.color (t.right w) = RBTREE_BLACK then
        let t := t.setColor (t.left w) RBTREE_BLACK
        let t := t.setColor w RBTREE_RED
        match right_rotate_chk t w with
        | none => none
        | some t =>
          if t.right (t.parent x) ≠ t.nil then some (t, t.right (t.parent x)) else none
      else some (t, w)
    match tw with
    | none => none
    | some (t, w) =>
      let t := t.setColor w (t.color (t.parent x))
      let t := t.setColor (t.parent x) RBTREE_BLACK
      let t := t.setColor (t.right w) RBTREE_BLACK
      match left_rotate_chk t (t.parent x) with
      | none => none
      | some t => some (t, t.root)

/-- Cases 2, 3 and 4 of one iteration of the loop of `rbtree_erase_fixup` when
`x` is a right child (lines 234-249), the rotations called through their
asserting versions and the sibling `w` asserted to be a real node when it is
read again: the state and `x` at the end of the iteration. -/
def erase_body_right_tail (t : rbtree) (x w : Nat) : Option (rbtree × Nat) :=
  if t.color (t.right w) = RBTREE_BLACK ∧ t.color (t.left w) = RBTREE_BLACK then
    let t := t.setColor w RBTREE_RED
    some (t, t.parent x)
  else
    let tw : Option (rbtree × Nat) :=
      if t.color (t.left w) = RBTREE_BLACK then
        let t := t.setColor (t.right w) RBTREE_BLACK
        let t := t.setColor w RBTREE_RED
        match left_rotate_chk t w with
        | none => none
        | some t =>
          if t.left (t.parent x) ≠ t.nil then some (t, t.left (t.parent x)) else none
      else some (t, w)
    match tw with
    | none => none
    | some (t, w) =>
      let t := t.setColor w (t.color (t.parent x))
      let t := t.setColor (t.parent x) RBTREE_BLACK
      let t := t.setColor (t.left w) RBTREE_BLACK
      match right_rotate_chk t (t.parent x) with
      | none => none
      | some t => some (t, t.root)

/-- One iteration of the loop of `rbtree_erase_fixup` (lines 202-250), every
rotation called through its asserting version and the sibling `w` asserted to
be a real node each time it is read: the state and `x` at the end of the
iteration, `none` when an assertion fails. -/
def erase_fixup_body (t : rbtree) (x : Nat) : Option (rbtree × Nat) :=
  if x = t.left (t.parent x) then
    let w := t.right (t.parent x)
    if w ≠ t.nil then
      let tw : Option (rbtree × Nat) :=
        if t.color w = RBTREE_RED then
          let t := t.setColor w RBTREE_BLACK
          let t := t.setColor (t.parent x) RBTREE_RED
          match left_rotate_chk t (t.parent x) with
          | none => none
          | some t =>
            if t.right (t.parent x) ≠ t.nil then some (t, t.right (t.parent x)) else none
        else some (t, w)
      match tw with
      | none => none
      | some (t, w) => erase_body_left_tail t x w
    else none
  else
    let w := t.left (t.parent x)
    if w ≠ t.nil then
      let tw : Option (rbtree × Nat) :=
        if t.color w = RBTREE_RED then
          let t := t.setColor w RBTREE_BLACK
          let t := t.setColor (t.parent x) RBTREE_RED
          match right_rotate_chk t (t.parent x) with
          | none => none
          | some t =>
            if t.left (t.parent x) ≠ t.nil then some (t, t.left (t.parent x)) else none
        else some (t, w)
      match tw with
      | none => none
      | some (t, w) => erase_body_right_tail t x w
    else none

/-- `rbtree_erase_fixup` (lines 200-253) with the rotation preconditions and
the sibling asserted: the loop around `erase_fixup_body`; `none` when an
assertion fails or the fuel runs out. -/
def rbtree_erase_fixup_chk : Nat → rbtree → Nat → Option rbtree
  | 0, _, _ => none
  | fuel + 1, t, x =>
    if x ≠ t.root ∧ t.color x = RBTREE_BLACK then
      match erase_fixup_body t x with
      | none => none
      | some (t, x) => rbtree_erase_fixup_chk fuel t x
    else
      some (t.setColor x RBTREE_BLACK)

/-- `rbtree_erase` with the rotation preconditions and the sibling asserted. -/
def rbtree_erase_chk (fuel : Nat) (t : rbtree) (z : Nat) : Option (rbtree × Int) :=
  match erase_unlink fuel t z with
  | none => none
  | some (t, x, y_original_color) =>
    if y_original_color = RBTREE_BLACK then
      match rbtree_erase_fixup_chk fuel t x with
      | none => none
      | some t => some (t, 0)
    else some (t, 0)

/-- The invariant of the loop of `rbtree_insert_fixup` at its condition: `z` is
a real node with `d` proper ancestors in the tree the heap holds, and the case
analysis of the fix-up (`insFix`) is defined from `z` upwards. -/
def InsertInv (t : rbtree) (z d : Nat) : Prop :=
  ∃ p Z T', Foc t p Z ∧ Z ≠ ATree.leaf ∧ z = ptr t.nil Z ∧ p.length = d ∧
    insFix p Z = some T'

/-- The invariant of the loop of `rbtree_erase_fixup` at its condition: `x` is
the root of a subtree with `d` proper ancestors in the tree the heap holds
(when the subtree is empty `x` is the sentinel, whose parent field names the
node above), and the case analysis of the fix-up (`delFix`) is defined from
`x` upwards. -/
def EraseInv (t : rbtree) (x d : Nat) : Prop :=
  ∃ p X T', Foc t p X ∧ (X = ATree.leaf → t.parent t.nil = pptr t.nil p) ∧
    x = ptr t.nil X ∧ p.length = d ∧ delFix p X = some T'

/-! ### The program with its stores into the sentinel guarded

Every store the two operations make into a `key`, `left`, `right` or `color`
field goes through one of the four functions below, which fail (`none`) on a
store into the `key`, `left` or `right` field of the sentinel and on a store
of a colour other than BLACK into the sentinel.  Stores into a `parent` field
and into `t->root` are not guarded. -/

/-- The store `p->key = k`; fails when `p` is the sentinel. -/
def rbtree.storeKey (t : rbtree) (p : Nat) (k : key_t) : Option rbtree :=
  if p = t.nil then none else some (t.setKey p k)

/-- The store `p->left = q`; fails when `p` is the sentinel. -/
def rbtree.storeLeft (t : rbtree) (p : Nat) (q : Nat) : Option rbtree :=
  if p = t.nil then none else some (t.setLeft p q)

/-- The store `p->right = q`; fails when `p` is the sentinel. -/
def rbtree.storeRight (t : rbtree) (p : Nat) (q : Nat) : Option rbtree :=
  if p = t.nil then none else some (t.setRight p q)

/-- The store `p->color = c`; fails when `p` is the sentinel and `c` is not
BLACK. -/
def rbtree.storeColor (t : rbtree) (p : Nat) (c : color_t) : Option rbtree :=
  if p = t.nil ∧ c ≠ RBTREE_BLACK then none else some (t.setColor p c)

/-- `left_rotate` (lines 31-47) with guarded stores. -/
def left_rotate_grd (t : rbtree) (x : Nat) : Option rbtree :=
  let y := t.right x
  (t.storeRight x (t.left y)).bind fun t =>
  let t := if t.left y ≠ t.nil then t.setParent (t.left y) x else t
  let t := t.setParent y (t.parent x)
  (if t.parent x = t.nil then some (t.setRoot y)
    else if x = t.left (t.parent x) then t.storeLeft (t.parent x) y
    else t.storeRight (t.parent x) y).bind fun t =>
  (t.storeLeft y x).bind fun t =>
  some (t.setParent x y)

/-- `right_rotate` (lines 50-66) with guarded stores. -/
def right_rotate_grd (t : rbtree) (y : Nat) : Option rbtree :=
  let x := t.left y
  (t.storeLeft y (t.right x)).bind fun t =>
  let t := if t.right x ≠ t.nil then t.setParent (t.right x) y else t
  let t := t.setParent x (t.parent y)
  (if t.parent y = t.nil then some (t.setRoot x)
    else if y = t.right (t.parent y) then t.storeRight (t.parent y) x
    else t.storeLeft (t.parent y) x).bind fun t =>
  (t.storeRight x y).bind fun t =>
  some (t.setParent y x)

/-- One iteration of the loop of `rbtree_insert_fixup` (lines 71-104) with
guarded stores: the state and `z` at the end of the iteration. -/
def insert_fixup_body_grd (t : rbtree) (z : Nat) : Option (rbtree × Nat) :=
  if t.parent z = t.left (t.parent (t.parent z)) then
    let y := t.right (t.parent (t.parent z))
    if t.color y = RBTREE_RED then
      (t.storeColor (t.parent z) RBTREE_BLACK).bind fun t =>
      (t.storeColor y RBTREE_BLACK).bind fun t =>
      (t.storeColor (t.parent (t.parent z)) RBTREE_RED).bind fun t =>
      some (t, t.parent (t.parent z))
    else
      (if z = t.right (t.parent z) then
          (left_rotate_grd t (t.parent z)).bind fun t' => some (t', t.parent z)
        else some (t, z)).bind fun tz =>
      let t := tz.1
      let z := tz.2
      (t.storeColor (t.parent z) RBTREE_BLACK).bind fun t =>
      (t.storeColor (t.parent (t.parent z)) RBTREE_RED).bind fun t =>
      (right_rotate_grd t (t.parent (t.parent z))).bind fun t =>
      some (t, z)
  else
    let y := t.left (t.parent (t.parent z))
    if t.color y = RBTREE_RED then
      (t.storeColor (t.parent z) RBTREE_BLACK).bind fun t =>
      (t.storeColor y RBTREE_BLACK).bind fun t =>
      (t.storeColor (t.parent (t.parent z)) RBTREE_RED).bind fun t =>
      some (t, t.parent (t.parent z))
    else
      (if z = t.left (t.parent z) then
          (right_rotate_grd t (t.parent z)).bind fun t' => some (t', t.parent z)
        else some (t, z)).bind fun tz =>
      let t := tz.1
      let z := tz.2
      (t.storeColor (t.parent z) RBTREE_BLACK).bind fun t =>
      (t.storeColor (t.parent (t.parent z)) RBTREE_RED).bind fun t =>
      (left_rotate_grd t (t.parent (t.parent z))).bind fun t =>
      some (t, z)

/-- `rbtree_insert_fixup` (lines 69-107) with guarded stores. -/
def rbtree_insert_fixup_grd : Nat → rbtree → Nat → Option rbtree
  | 0, _, _ => none
  | fuel + 1, t, z =>
    if t.color (t.parent z) = RBTREE_RED then
      (insert_fixup_body_grd t z).bind fun r => rbtree_insert_fixup_grd fuel r.1 r.2
    else
      t.storeColor t.root RBTREE_BLACK

/-- `rbtree_insert` (lines 110-143) with guarded stores. -/
def rbtree_insert_grd (fuel : Nat) (t : rbtree) (z : Nat) (key : key_t) :
    Option (rbtree × Nat) :=
  (t.storeKey z key).bind fun t =>
  (t.storeColor z RBTREE_RED).bind fun t =>
  let t := t.setParent z t.nil
  (t.storeLeft z t.nil).bind fun t =>
  (t.storeRight z t.nil).bind fun t =>
  (insert_descend fuel t z t.nil t.root).bind fun y =>
  let t := t.setParent z y
  (if y = t.nil then some (t.setRoot z)
    else if t.key z < t.key y then t.storeLeft y z
    else t.storeRight y z).bind fun t =>
  (rbtree_insert_fixup_grd fuel t z).bind fun t =>
  some (t, z)

/-- `rbtree_transplant` (lines 181-190) with guarded stores. -/
def rbtree_transplant_grd (t : rbtree) (u v : Nat) : Option rbtree :=
  (if t.parent u = t.nil then some (t.setRoot v)
    else if u = t.left (t.parent u) then t.storeLeft (t.parent u) v
    else t.storeRight (t.parent u) v).bind fun t =>
  some (t.setParent v (t.parent u))

/-- Cases 2, 3 and 4 of one iteration of the loop of `rbtree_erase_fixup` when
`x` is a left child (lines 210-225), with guarded stores. -/
def erase_body_left_tail_grd (t : rbtree) (x w : Nat) : Option (rbtree × Nat) :=
  if t.color (t.left w) = RBTREE_BLACK ∧ t.color (t.right w) = RBTREE_BLACK then
    (t.storeColor w RBTREE_RED).bind fun t =>
    some (t, t.parent x)
  else
    (if t.color (t.right w) = RBTREE_BLACK then
        (t.storeColor (t.left w) RBTREE_BLACK).bind fun t =>
        (t.storeColor w RBTREE_RED).bind fun t =>
        (right_rotate_grd t w).bind fun t =>
        some (t, t.right (t.parent x))
      else some (t, w)).bind fun tw =>
    let t := tw.1
    let w := tw.2
    (t.storeColor w (t.color (t.parent x))).bind fun t =>
    (t.storeColor (t.parent x) RBTREE_BLACK).bind fun t =>
    (t.storeColor (t.right w) RBTREE_BLACK).bind fun t =>
    (left_rotate_grd t (t.parent x)).bind fun t =>
    some (t, t.root)

/-- Cases 2, 3 and 4 of one iteration of the loop of `rbtree_erase_fixup` when
`x` is a right child (lines 234-249), with guarded stores. -/
def erase_body_right_tail_grd (t : rbtree) (x w : Nat) : Option (rbtree × Nat) :=
  if t.color (t.right w) = RBTREE_BLACK ∧ t.color (t.left w) = RBTREE_BLACK then
    (t.storeColor w RBTREE_RED).bind fun t =>
    some (t, t.parent x)
  else
    (if t.color (t.left w) = RBTREE_BLACK then
        (t.storeColor (t.right w) RBTREE_BLACK).bind fun t =>
        (t.storeColor w RBTREE_RED).bind fun t =>
        (left_rotate_grd t w).bind fun t =>
        some (t, t.left (t.parent x))
      else some (t, w)).bind fun tw =>
    let t := tw.1
    let w := tw.2
    (t.storeColor w (t.color (t.parent x))).bind fun t =>
    (t.storeColor (t.parent x) RBTREE_BLACK).bind fun t =>
    (t.storeColor (t.left w) RBTREE_BLACK).bind fun t =>
    (right_rotate_grd t (t.parent x)).bind fun t =>
    some (t, t.root)

/-- One iteration of the loop of `rbtree_erase_fixup` (lines 202-250) with
guarded stores: the state and `x` at the end of the iteration. -/
def erase_fixup_body_grd (t : rbtree) (x : Nat) : Option (rbtree × Nat) :=
  if x = t.left (t.parent x) then
    let w := t.right (t.parent x)
    (if t.color w = RBTREE_RED then
        (t.storeColor w RBTREE_BLACK).bind fun t =>
        (t.storeColor (t.parent x) RBTREE_RED).bind fun t =>
        (left_rotate_grd t (t.parent x)).bind fun t =>
        some (t, t.right (t.parent x))
      else some (t, w)).bind fun tw =>
    erase_body_left_tail_grd tw.1 x tw.2
  else
    let w := t.left (t.parent x)
    (if t.color w = RBTREE_RED then
        (t.storeColor w RBTREE_BLACK).bind fun t =>
        (t.storeColor (t.parent x) RBTREE_RED).bind fun t =>
        (right_rotate_grd t (t.parent x)).bind fun t =>
        some (t, t.left (t.parent x))
      else some (t, w)).bind fun tw =>
    erase_body_right_tail_grd tw.1 x tw.2

/-- `rbtree_erase_fixup` (lines 200-253) with guarded stores. -/
def rbtree_erase_fixup_grd : Nat → rbtree → Nat → Option rbtree
  | 0, _, _ => none
  | fuel + 1, t, x =>
    if x ≠ t.root ∧ t.color x = RBTREE_BLACK then
      (erase_fixup_body_grd t x).bind fun r => rbtree_erase_fixup_grd fuel r.1 r.2
    else
      t.storeColor x RBTREE_BLACK

/-- The unlinking part of `rbtree_erase` (lines 256-281) with guarded stores:
the state, `x` and `y_original_color`. -/
def erase_unlink_grd (fuel : Nat) (t : rbtree) (z : Nat) :
    Option (rbtree × Nat × color_t) :=
  let y_original_color := t.color z
  if t.left z = t.nil then
    let x := t.right z
    (rbtree_transplant_grd t z (t.right z)).bind fun t => some (t, x, y_original_color)
  else if t.right z = t.nil then
    let x := t.left z
    (rbtree_transplant_grd t z (t.left z)).bind fun t => some (t, x, y_original_color)
  else
    (rbtree_minimum fuel t (t.right z)).bind fun y =>
    let y_original_color := t.color y
    let x := t.right y
    (if t.parent y = z then some (t.setParent x y)
      else
        (rbtree_transplant_grd t y (t.right y)).bind fun t =>
        (t.storeRight y (t.right z)).bind fun t =>
        some (t.setParent (t.right y) y)).bind fun t =>
    (rbtree_transplant_grd t z y).bind fun t =>
    (t.storeLeft y (t.left z)).bind fun t =>
    let t := t.setParent (t.left y) y
    (t.storeColor y (t.color z)).bind fun t =>
    some (t, x, y_original_color)

/-- `rbtree_erase` (lines 255-288) with guarded stores. -/
def rbtree_erase_grd (fuel : Nat) (t : rbtree) (z : Nat) : Option (rbtree × Int) :=
  (erase_unlink_grd fuel t z).bind fun r =>
  if r.2.2 = RBTREE_BLACK then
    (rbtree_erase_fixup_grd fuel r.1 r.2.1).bind fun t => some (t, 0)
  else some (r.1, 0)

/-- The tree after `rbtree_insert(t, 3)` on `tree2`, the node allocated at
address 4: the keys 5, 7, 3 inserted in that order, at the addresses 2, 3,
4. -/
def tree3 : rbtree := insert_state 4 tree2 4 3

/-! ## Section 3: verification -/

/-! ## Basic facts about abstract trees and paths -/

@[simp] theorem ptr_leaf (nil : Nat) : ptr nil ATree.leaf = nil := rfl

@[simp] theorem ptr_node (nil : Nat) (c : color_t) (l : ATree) (a : Nat) (k : key_t) (r : ATree) :
    ptr nil (ATree.node c l a k r) = a := rfl

@[simp] theorem rootColor_leaf : rootColor ATree.leaf = RBTREE_BLACK := rfl

@[simp] theorem rootColor_node (c : color_t) (l : ATree) (a : Nat) (k : key_t) (r : ATree) :
    rootColor (ATree.node c l a k r) = c := rfl

@[simp] theorem blacken_leaf : blacken ATree.leaf = ATree.leaf := rfl

@[simp] theorem blacken_node (c : color_t) (l : ATree) (a : Nat) (k : key_t) (r : ATree) :
    blacken (ATree.node c l a k r) = ATree.node RBTREE_BLACK l a k r := rfl

@[simp] theorem pptr_nil (nil : Nat) : pptr nil [] = nil := rfl

@[simp] theorem pptr_L (nil : Nat) (c : color_t) (a : Nat) (k : key_t) (r : ATree) (p : Path) :
    pptr nil (Frame.L c a k r :: p) = a := rfl

@[simp] theorem pptr_R (nil : Nat) (c : color_t) (l : ATree) (a : Nat) (k : key_t) (p : Path) :
    pptr nil (Frame.R c l a k :: p) = a := rfl

theorem nodes_plug (T : ATree) (p : Path) :
    nodes (plug T p) = before p ++ nodes T ++ after p := by
  induction p generalizing T with
  | nil => simp [plug, before, after]
  | cons f up ih =>
    cases f with
    | L c a k r => simp [plug, ih, before, after, nodes]
    | R c l a k => simp [plug, ih, before, after, nodes]

theorem baddrs_eq (p : Path) : baddrs p = (before p).map Prod.fst := by
  induction p with
  | nil => rfl
  | cons f up ih => cases f <;> simp [baddrs, before, ih, addrs]

theorem aaddrs_eq (p : Path) : aaddrs p = (after p).map Prod.fst := by
  induction p with
  | nil => rfl
  | cons f up ih => cases f <;> simp [aaddrs, after, ih, addrs]

theorem baddrs_append (q p : Path) : baddrs (q ++ p) = baddrs p ++ baddrs q := by
  induction q with
  | nil => simp [baddrs]
  | cons f q' ih => cases f <;> simp [baddrs, ih]

theorem aaddrs_append (q p : Path) : aaddrs (q ++ p) = aaddrs q ++ aaddrs p := by
  induction q with
  | nil => simp [aaddrs]
  | cons f q' ih => cases f <;> simp [aaddrs, ih]

theorem addrs_plug (T : ATree) (p : Path) :
    addrs (plug T p) = baddrs p ++ addrs T ++ aaddrs p := by
  simp [addrs, nodes_plug, baddrs_eq, aaddrs_eq]

theorem keys_plug (T : ATree) (p : Path) :
    keys (plug T p) = (before p).map Prod.snd ++ keys T ++ (after p).map Prod.snd := by
  simp [keys, nodes_plug]

theorem addrs_node (c : color_t) (l : ATree) (a : Nat) (k : key_t) (r : ATree) :
    addrs (ATree.node c l a k r) = addrs l ++ a :: addrs r := by
  simp [addrs, nodes]

theorem addrs_leaf : addrs ATree.leaf = [] := rfl

theorem keys_node (c : color_t) (l : ATree) (a : Nat) (k : key_t) (r : ATree) :
    keys (ATree.node c l a k r) = keys l ++ k :: keys r := by
  simp [keys, nodes]

theorem keys_leaf : keys ATree.leaf = [] := rfl

/-- Two subtrees with the same nodes in order are interchangeable in any
position as far as the node list goes. -/
theorem nodes_plug_congr {T T' : ATree} (p : Path) (h : nodes T = nodes T') :
    nodes (plug T p) = nodes (plug T' p) := by
  simp [nodes_plug, h]

theorem addrs_plug_congr {T T' : ATree} (p : Path) (h : addrs T = addrs T') :
    addrs (plug T p) = addrs (plug T' p) := by
  simp [addrs_plug, h]

/-- The root pointer of a plugged tree only depends on the pointer of the
plugged subtree. -/
theorem ptr_plug_congr (nil : Nat) {T T' : ATree} (p : Path) (h : ptr nil T = ptr nil T') :
    ptr nil (plug T p) = ptr nil (plug T' p) := by
  induction p generalizing T T' with
  | nil => simpa [plug] using h
  | cons f up ih =>
    cases f with
    | L c a k r => exact ih (by simp [ptr])
    | R c l a k => exact ih (by simp [ptr])

theorem ptr_plug_cons (nil : Nat) (T T' : ATree) (f : Frame) (p : Path) :
    ptr nil (plug T (f :: p)) = ptr nil (plug T' (f :: p)) := by
  cases f with
  | L c a k r => exact ptr_plug_congr nil p (by simp [ptr])
  | R c l a k => exact ptr_plug_congr nil p (by simp [ptr])

theorem ne_ptr {a nil : Nat} {T : ATree} (h1 : a ≠ nil) (h2 : a ∉ addrs T) :
    a ≠ ptr nil T := by
  cases T with
  | leaf => simpa using h1
  | node c l b k r =>
    simp only [addrs_node, List.mem_append, List.mem_cons, not_or] at h2
    simpa using h2.2.1

theorem ptr_mem {nil : Nat} {T : ATree} (h : T ≠ ATree.leaf) : ptr nil T ∈ addrs T := by
  cases T with
  | leaf => exact absurd rfl h
  | node c l b k r => simp [addrs_node]

theorem plug_append (T : ATree) (p q : Path) : plug T (p ++ q) = plug (plug T p) q := by
  induction p generalizing T with
  | nil => rfl
  | cons f up ih => cases f <;> simp [plug, ih]

/-! ## Frame lemmas for the heap predicates -/

theorem Rep_congr {m m' : Nat → node_t} {nil par : Nat} {T : ATree}
    (h : ∀ a ∈ addrs T, m' a = m a) (hr : Rep m nil par T) : Rep m' nil par T := by
  induction T generalizing par with
  | leaf => trivial
  | node c l a k r ihl ihr =>
    obtain ⟨h1, h2, h3, h4⟩ := hr
    refine ⟨h1, ?_, ihl ?_ h3, ihr ?_ h4⟩
    · rw [h a (by simp [addrs_node])]; exact h2
    · intro b hb; exact h b (by simp [addrs_node, hb])
    · intro b hb; exact h b (by simp [addrs_node, hb])

/-- Addresses of the nodes a path consists of (ancestors and their other
subtrees). -/
theorem RepPath_congr {m m' : Nat → node_t} {nil h : Nat} {p : Path}
    (hm : ∀ a ∈ baddrs p ++ aaddrs p, m' a = m a)
    (hr : RepPath m nil p h) : RepPath m' nil p h := by
  induction p generalizing h with
  | nil => trivial
  | cons f up ih =>
    cases f with
    | L c a k r =>
      obtain ⟨h1, h2, h3, h4⟩ := hr
      refine ⟨h1, ?_, Rep_congr ?_ h3, ih ?_ h4⟩
      · rw [hm a (by simp [baddrs, aaddrs])]; exact h2
      · intro b hb
        apply hm
        simp [baddrs, aaddrs, hb]
      · intro b hb
        apply hm
        simp only [List.mem_append] at hb
        simp only [baddrs, aaddrs, List.mem_append]
        tauto
    | R c l a k =>
      obtain ⟨h1, h2, h3, h4⟩ := hr
      refine ⟨h1, ?_, Rep_congr ?_ h3, ih ?_ h4⟩
      · rw [hm a (by simp [baddrs, aaddrs])]; exact h2
      · intro b hb
        apply hm
        simp [baddrs, aaddrs, hb]
      · intro b hb
        apply hm
        simp only [List.mem_append] at hb
        simp only [baddrs, aaddrs, List.mem_append]
        tauto

/-- The parent field of the root of a represented subtree can be re-aimed. -/
theorem Rep_reparent {m : Nat → node_t} {nil par par' : Nat} {T : ATree}
    (hnd : (addrs T).Nodup) (hr : Rep m nil par T) (hT : T ≠ ATree.leaf) :
    Rep (Function.update m (ptr nil T) { m (ptr nil T) with parent := par' }) nil par' T := by
  cases T with
  | leaf => exact absurd rfl hT
  | node c l a k r =>
    obtain ⟨h1, h2, h3, h4⟩ := hr
    simp only [addrs_node, List.nodup_append, List.nodup_cons] at hnd
    refine ⟨h1, by simp [ptr, h2], Rep_congr ?_ h3, Rep_congr ?_ h4⟩
    · intro b hb
      have : b ≠ a := by
        rintro rfl
        exact hnd.2.2 hb (by simp)
      simp [ptr, this]
    · intro b hb
      have : b ≠ a := by
        rintro rfl
        exact hnd.2.1.1 hb
      simp [ptr, this]

theorem Rep_update_iff {m : Nat → node_t} {nil par a : Nat} {v : node_t} {T : ATree}
    (h : a ∉ addrs T) : Rep (Function.update m a v) nil par T ↔ Rep m nil par T := by
  constructor
  · apply Rep_congr
    intro b hb
    have : b ≠ a := by rintro rfl; exact h hb
    simp [Function.update_apply, this]
  · apply Rep_congr
    intro b hb
    have : b ≠ a := by rintro rfl; exact h hb
    simp [Function.update_apply, this]

theorem RepPath_update_iff {m : Nat → node_t} {nil h a : Nat} {v : node_t} {p : Path}
    (h1 : a ∉ baddrs p) (h2 : a ∉ aaddrs p) :
    RepPath (Function.update m a v) nil p h ↔ RepPath m nil p h := by
  have hm : ∀ b ∈ baddrs p ++ aaddrs p, b ≠ a := by
    intro b hb
    rintro rfl
    simp only [List.mem_append] at hb
    tauto
  constructor
  · apply RepPath_congr
    intro b hb
    simp [Function.update_apply, hm b hb]
  · apply RepPath_congr
    intro b hb
    simp [Function.update_apply, hm b hb]

/-! ## Moving the focus -/

theorem Foc.downL {t : rbtree} {p : Path} {c : color_t} {l r : ATree} {a : Nat} {k : key_t}
    (h : Foc t p (ATree.node c l a k r)) : Foc t (Frame.L c a k r :: p) l := by
  obtain ⟨⟨h1, h2, h3, h4⟩, hp, hg⟩ := h
  exact ⟨h3, ⟨h1, h2, h4, hp⟩, hg⟩

theorem Foc.downR {t : rbtree} {p : Path} {c : color_t} {l r : ATree} {a : Nat} {k : key_t}
    (h : Foc t p (ATree.node c l a k r)) : Foc t (Frame.R c l a k :: p) r := by
  obtain ⟨⟨h1, h2, h3, h4⟩, hp, hg⟩ := h
  exact ⟨h4, ⟨h1, h2, h3, hp⟩, hg⟩

theorem Foc.upL {t : rbtree} {p : Path} {c : color_t} {l r : ATree} {a : Nat} {k : key_t}
    (h : Foc t (Frame.L c a k r :: p) l) : Foc t p (ATree.node c l a k r) := by
  obtain ⟨h3, ⟨h1, h2, h4, hp⟩, hg⟩ := h
  exact ⟨⟨h1, h2, h3, h4⟩, hp, hg⟩

theorem Foc.upR {t : rbtree} {p : Path} {c : color_t} {l r : ATree} {a : Nat} {k : key_t}
    (h : Foc t (Frame.R c l a k :: p) r) : Foc t p (ATree.node c l a k r) := by
  obtain ⟨h4, ⟨h1, h2, h3, hp⟩, hg⟩ := h
  exact ⟨⟨h1, h2, h3, h4⟩, hp, hg⟩

/-- The node record at the focus. -/
theorem Foc.cell {t : rbtree} {p : Path} {c : color_t} {l r : ATree} {a : Nat} {k : key_t}
    (h : Foc t p (ATree.node c l a k r)) :
    t.mem a = ⟨c, k, pptr t.nil p, ptr t.nil l, ptr t.nil r⟩ := h.rep.2.1

theorem Foc.ne_nil {t : rbtree} {p : Path} {c : color_t} {l r : ATree} {a : Nat} {k : key_t}
    (h : Foc t p (ATree.node c l a k r)) : a ≠ t.nil := h.rep.1

/-- Distinctness facts at the focus. -/
theorem Foc.notin {t : rbtree} {p : Path} {c : color_t} {l r : ATree} {a : Nat} {k : key_t}
    (h : Foc t p (ATree.node c l a k r)) :
    a ∉ addrs l ∧ a ∉ addrs r ∧ a ∉ baddrs p ++ aaddrs p := by
  have hnd := h.glob.nodup
  rw [addrs_plug, addrs_node] at hnd
  simp only [List.nodup_append, List.nodup_cons, List.disjoint_append_left,
    List.disjoint_append_right, List.disjoint_cons_left, List.disjoint_cons_right,
    List.mem_append, List.mem_cons, not_or, List.map_append] at hnd ⊢
  tauto

theorem Glob.congr {t t' : rbtree} {W W' : ATree} (h : Glob t W)
    (hroot : t'.root = ptr t'.nil W') (haddrs : addrs W' = addrs W)
    (hnil : t'.nil = t.nil) (hcol : t'.color t'.nil = RBTREE_BLACK) : Glob t' W' := by
  refine ⟨hroot, ?_, ?_, ?_, ?_, hcol⟩
  · rw [haddrs]; exact h.nodup
  · rw [haddrs]; exact h.nonnull
  · rw [haddrs, hnil]; exact h.nonnil
  · rw [hnil]; exact h.nilnn

/-- Recolouring the node at the focus. -/
theorem Foc.setColor {t : rbtree} {p : Path} {c : color_t} {l r : ATree} {a : Nat} {k : key_t}
    (h : Foc t p (ATree.node c l a k r)) (c' : color_t) :
    Foc (t.setColor a c') p (ATree.node c' l a k r) := by
  obtain ⟨hl, hr, hp⟩ := h.notin
  have hcell := h.cell
  obtain ⟨⟨h1, h2, h3, h4⟩, hpath, hg⟩ := h
  have hframe : ∀ b, b ≠ a → (t.setColor a c').mem b = t.mem b := by
    intro b hb; simp [rbtree.setColor, hb]
  refine ⟨⟨h1, ?_, Rep_congr ?_ h3, Rep_congr ?_ h4⟩, RepPath_congr ?_ hpath, ?_⟩
  · simp [rbtree.setColor, hcell]
  · intro b hb; exact hframe b (by rintro rfl; exact hl hb)
  · intro b hb; exact hframe b (by rintro rfl; exact hr hb)
  · intro b hb; exact hframe b (by rintro rfl; exact hp hb)
  · refine hg.congr ?_ ?_ rfl ?_
    · show t.root = _
      rw [hg.root]; exact ptr_plug_congr _ p rfl
    · exact addrs_plug_congr p (by simp [addrs_node])
    · have : t.nil ≠ a := fun e => h1 e.symm
      have hb := hg.nilblack
      simp only [rbtree.color] at hb
      simp [rbtree.setColor, rbtree.color, this, hb]

/-! ## The rotations on a represented tree -/

/-- `left_rotate` at the focus turns `x(A, y(B, C))` into `y(x(A, B), C)` and
leaves the sentinel record alone. -/
theorem Foc.rotL {t : rbtree} {p : Path} {cx cy : color_t} {A B C : ATree}
    {x y : Nat} {kx ky : key_t}
    (h : Foc t p (ATree.node cx A x kx (ATree.node cy B y ky C))) :
    Foc (left_rotate t x) p (ATree.node cy (ATree.node cx A x kx B) y ky C) ∧
      (left_rotate t x).nil = t.nil ∧ (left_rotate t x).mem t.nil = t.mem t.nil := by
  have hrep := h.rep
  have hpath := h.path
  have hg := h.glob
  have hnd := h.glob.nodup
  have hnb := h.glob.nilblack
  have hroot := h.glob.root
  simp only [rbtree.color] at hnb
  simp only [left_rotate, rbtree.setRight, rbtree.setLeft, rbtree.setParent, rbtree.setRoot,
        rbtree.left, rbtree.right, rbtree.parent, rbtree.color]
  rcases B with _ | ⟨cb, bl, b, kb, br⟩ <;>
    rcases p with _ | ⟨⟨c, a, k, r⟩ | ⟨c, l, a, k⟩, up⟩ <;>
    simp only [addrs_plug, addrs_node, addrs_leaf, baddrs, aaddrs] at hnd <;>
    simp only [List.nodup_append, List.nodup_cons, List.disjoint_append_left,
      List.disjoint_append_right, List.disjoint_cons_left, List.disjoint_cons_right,
      List.mem_append, List.mem_cons, not_or, List.map_append, List.map_cons, List.map_nil,
      List.append_assoc, List.cons_append, List.nil_append, List.append_nil,
      List.not_mem_nil, not_false_eq_true, List.nodup_nil, List.disjoint_nil_left,
      List.disjoint_nil_right, true_and, and_true] at hnd <;>
    simp only [Rep, RepPath, ptr_node, ptr_leaf, pptr_L, pptr_R, pptr_nil, true_and, and_true]
      at hrep hpath
  · have hne : x ≠ y ∧ y ≠ x ∧ t.nil ≠ x ∧ t.nil ≠ y := by omega
    refine ⟨⟨?_, ?_, hg.congr ?_ ?_ ?_ ?_⟩, ?_, ?_⟩ <;>
      simp [Function.update_apply, Rep, RepPath, Rep_update_iff, RepPath_update_iff, plug,
        addrs_plug, addrs_node, rbtree.color, hrep, hpath, hne, hnd, hnb]
  · have hne : x ≠ y ∧ y ≠ x ∧ t.nil ≠ x ∧ t.nil ≠ y ∧ a ≠ x ∧ a ≠ y ∧ x ≠ a ∧ y ≠ a
        ∧ t.nil ≠ a ∧ a ≠ t.nil := by omega
    refine ⟨⟨?_, ?_, hg.congr ?hr ?_ ?_ ?_⟩, ?_, ?_⟩
    case hr =>
      simp [Function.update_apply, hrep, hpath, hne, hnd]
      rw [hroot]; exact ptr_plug_cons _ _ _ _ _
    all_goals
      simp [Function.update_apply, Rep, RepPath, Rep_update_iff, RepPath_update_iff, plug,
        addrs_plug, addrs_node, rbtree.color, hrep, hpath, hne, hnd, hnb]
  · have hne : x ≠ y ∧ y ≠ x ∧ t.nil ≠ x ∧ t.nil ≠ y ∧ a ≠ x ∧ a ≠ y ∧ x ≠ a ∧ y ≠ a
        ∧ t.nil ≠ a ∧ a ≠ t.nil := by omega
    have hpl : x ≠ ptr t.nil l := ne_ptr (by tauto) (by tauto)
    refine ⟨⟨?_, ?_, hg.congr ?hr ?_ ?_ ?_⟩, ?_, ?_⟩
    case hr =>
      simp [Function.update_apply, hrep, hpath, hne, hnd, hpl]
      rw [hroot]; exact ptr_plug_cons _ _ _ _ _
    all_goals
      simp [Function.update_apply, Rep, RepPath, Rep_update_iff, RepPath_update_iff, plug,
        addrs_plug, addrs_node, rbtree.color, hrep, hpath, hne, hnd, hnb, hpl]
  · have hne : x ≠ y ∧ y ≠ x ∧ t.nil ≠ x ∧ t.nil ≠ y ∧ b ≠ x ∧ x ≠ b ∧ b ≠ y ∧ y ≠ b
        ∧ b ≠ t.nil ∧ t.nil ≠ b := by omega
    refine ⟨⟨?_, ?_, hg.congr ?_ ?_ ?_ ?_⟩, ?_, ?_⟩ <;>
      simp [Function.update_apply, Rep, RepPath, Rep_update_iff, RepPath_update_iff, plug,
        addrs_plug, addrs_node, rbtree.color, hrep, hpath, hne, hnd, hnb]
  · have hne : x ≠ y ∧ y ≠ x ∧ t.nil ≠ x ∧ t.nil ≠ y ∧ a ≠ x ∧ a ≠ y ∧ x ≠ a ∧ y ≠ a
        ∧ t.nil ≠ a ∧ a ≠ t.nil ∧ b ≠ x ∧ x ≠ b ∧ b ≠ y ∧ y ≠ b
        ∧ b ≠ t.nil ∧ t.nil ≠ b ∧ a ≠ b ∧ b ≠ a := by omega
    refine ⟨⟨?_, ?_, hg.congr ?hr ?_ ?_ ?_⟩, ?_, ?_⟩
    case hr =>
      simp [Function.update_apply, hrep, hpath, hne, hnd]
      rw [hroot]; exact ptr_plug_cons _ _ _ _ _
    all_goals
      simp [Function.update_apply, Rep, RepPath, Rep_update_iff, RepPath_update_iff, plug,
        addrs_plug, addrs_node, rbtree.color, hrep, hpath, hne, hnd, hnb]
  · have hne : x ≠ y ∧ y ≠ x ∧ t.nil ≠ x ∧ t.nil ≠ y ∧ a ≠ x ∧ a ≠ y ∧ x ≠ a ∧ y ≠ a
        ∧ t.nil ≠ a ∧ a ≠ t.nil ∧ b ≠ x ∧ x ≠ b ∧ b ≠ y ∧ y ≠ b
        ∧ b ≠ t.nil ∧ t.nil ≠ b ∧ a ≠ b ∧ b ≠ a := by omega
    have hpl : x ≠ ptr t.nil l := ne_ptr (by tauto) (by tauto)
    refine ⟨⟨?_, ?_, hg.congr ?hr ?_ ?_ ?_⟩, ?_, ?_⟩
    case hr =>
      simp [Function.update_apply, hrep, hpath, hne, hnd, hpl]
      rw [hroot]; exact ptr_plug_cons _ _ _ _ _
    all_goals
      simp [Function.update_apply, Rep, RepPath, Rep_update_iff, RepPath_update_iff, plug,
        addrs_plug, addrs_node, rbtree.color, hrep, hpath, hne, hnd, hnb, hpl]

/-- `right_rotate` at the focus turns `y(x(A, B), C)` into `x(A, y(B, C))` and
leaves the sentinel record alone. -/
theorem Foc.rotR {t : rbtree} {p : Path} {cx cy : color_t} {A B C : ATree}
    {x y : Nat} {kx ky : key_t}
    (h : Foc t p (ATree.node cy (ATree.node cx A x kx B) y ky C)) :
    Foc (right_rotate t y) p (ATree.node cx A x kx (ATree.node cy B y ky C)) ∧
      (right_rotate t y).nil = t.nil ∧ (right_rotate t y).mem t.nil = t.mem t.nil := by
  have hrep := h.rep
  have hpath := h.path
  have hg := h.glob
  have hnd := h.glob.nodup
  have hnb := h.glob.nilblack
  have hroot := h.glob.root
  simp only [rbtree.color] at hnb
  simp only [right_rotate, rbtree.setRight, rbtree.setLeft, rbtree.setParent, rbtree.setRoot,
        rbtree.left, rbtree.right, rbtree.parent, rbtree.color]
  rcases B with _ | ⟨cb, bl, b, kb, br⟩ <;>
    rcases p with _ | ⟨⟨c, a, k, r⟩ | ⟨c, l, a, k⟩, up⟩ <;>
    simp only [addrs_plug, addrs_node, addrs_leaf, baddrs, aaddrs] at hnd <;>
    simp only [List.nodup_append, List.nodup_cons, List.disjoint_append_left,
      List.disjoint_append_right, List.disjoint_cons_left, List.disjoint_cons_right,
      List.mem_append, List.mem_cons, not_or, List.map_append, List.map_cons, List.map_nil,
      List.append_assoc, List.cons_append, List.nil_append, List.append_nil,
      List.not_mem_nil, not_false_eq_true, List.nodup_nil, List.disjoint_nil_left,
      List.disjoint_nil_right, true_and, and_true] at hnd <;>
    simp only [Rep, RepPath, ptr_node, ptr_leaf, pptr_L, pptr_R, pptr_nil, true_and, and_true]
      at hrep hpath
  · have hne : x ≠ y ∧ y ≠ x ∧ t.nil ≠ x ∧ t.nil ≠ y := by omega
    refine ⟨⟨?_, ?_, hg.congr ?_ ?_ ?_ ?_⟩, ?_, ?_⟩ <;>
      simp [Function.update_apply, Rep, RepPath, Rep_update_iff, RepPath_update_iff, plug,
        addrs_plug, addrs_node, rbtree.color, hrep, hpath, hne, hnd, hnb]
  · have hne : x ≠ y ∧ y ≠ x ∧ t.nil ≠ x ∧ t.nil ≠ y ∧ a ≠ x ∧ a ≠ y ∧ x ≠ a ∧ y ≠ a
        ∧ t.nil ≠ a ∧ a ≠ t.nil := by omega
    have hpl : y ≠ ptr t.nil r := ne_ptr (by tauto) (by tauto)
    refine ⟨⟨?_, ?_, hg.congr ?hr ?_ ?_ ?_⟩, ?_, ?_⟩
    case hr =>
      simp [Function.update_apply, hrep, hpath, hne, hnd, hpl]
      rw [hroot]; exact ptr_plug_cons _ _ _ _ _
    all_goals
      simp [Function.update_apply, Rep, RepPath, Rep_update_iff, RepPath_update_iff, plug,
        addrs_plug, addrs_node, rbtree.color, hrep, hpath, hne, hnd, hnb, hpl]
  · have hne : x ≠ y ∧ y ≠ x ∧ t.nil ≠ x ∧ t.nil ≠ y ∧ a ≠ x ∧ a ≠ y ∧ x ≠ a ∧ y ≠ a
        ∧ t.nil ≠ a ∧ a ≠ t.nil := by omega
    refine ⟨⟨?_, ?_, hg.congr ?hr ?_ ?_ ?_⟩, ?_, ?_⟩
    case hr =>
      simp [Function.update_apply, hrep, hpath, hne, hnd]
      rw [hroot]; exact ptr_plug_cons _ _ _ _ _
    all_goals
      simp [Function.update_apply, Rep, RepPath, Rep_update_iff, RepPath_update_iff, plug,
        addrs_plug, addrs_node, rbtree.color, hrep, hpath, hne, hnd, hnb]
  · have hne : x ≠ y ∧ y ≠ x ∧ t.nil ≠ x ∧ t.nil ≠ y ∧ b ≠ x ∧ x ≠ b ∧ b ≠ y ∧ y ≠ b
        ∧ b ≠ t.nil ∧ t.nil ≠ b := by omega
    refine ⟨⟨?_, ?_, hg.congr ?_ ?_ ?_ ?_⟩, ?_, ?_⟩ <;>
      simp [Function.update_apply, Rep, RepPath, Rep_update_iff, RepPath_update_iff, plug,
        addrs_plug, addrs_node, rbtree.color, hrep, hpath, hne, hnd, hnb]
  · have hne : x ≠ y ∧ y ≠ x ∧ t.nil ≠ x ∧ t.nil ≠ y ∧ a ≠ x ∧ a ≠ y ∧ x ≠ a ∧ y ≠ a
        ∧ t.nil ≠ a ∧ a ≠ t.nil ∧ b ≠ x ∧ x ≠ b ∧ b ≠ y ∧ y ≠ b
        ∧ b ≠ t.nil ∧ t.nil ≠ b ∧ a ≠ b ∧ b ≠ a := by omega
    have hpl : y ≠ ptr t.nil r := ne_ptr (by tauto) (by tauto)
    refine ⟨⟨?_, ?_, hg.congr ?hr ?_ ?_ ?_⟩, ?_, ?_⟩
    case hr =>
      simp [Function.update_apply, hrep, hpath, hne, hnd, hpl]
      rw [hroot]; exact ptr_plug_cons _ _ _ _ _
    all_goals
      simp [Function.update_apply, Rep, RepPath, Rep_update_iff, RepPath_update_iff, plug,
        addrs_plug, addrs_node, rbtree.color, hrep, hpath, hne, hnd, hnb, hpl]
  · have hne : x ≠ y ∧ y ≠ x ∧ t.nil ≠ x ∧ t.nil ≠ y ∧ a ≠ x ∧ a ≠ y ∧ x ≠ a ∧ y ≠ a
        ∧ t.nil ≠ a ∧ a ≠ t.nil ∧ b ≠ x ∧ x ≠ b ∧ b ≠ y ∧ y ≠ b
        ∧ b ≠ t.nil ∧ t.nil ≠ b ∧ a ≠ b ∧ b ≠ a := by omega
    refine ⟨⟨?_, ?_, hg.congr ?hr ?_ ?_ ?_⟩, ?_, ?_⟩
    case hr =>
      simp [Function.update_apply, hrep, hpath, hne, hnd]
      rw [hroot]; exact ptr_plug_cons _ _ _ _ _
    all_goals
      simp [Function.update_apply, Rep, RepPath, Rep_update_iff, RepPath_update_iff, plug,
        addrs_plug, addrs_node, rbtree.color, hrep, hpath, hne, hnd, hnb]

/-! ## Reads after a colour write -/

@[simp] theorem setKey_nil (t : rbtree) (a : Nat) (k : key_t) : (t.setKey a k).nil = t.nil := rfl

@[simp] theorem setParent_nil (t : rbtree) (a b : Nat) : (t.setParent a b).nil = t.nil := rfl

@[simp] theorem setLeft_nil (t : rbtree) (a b : Nat) : (t.setLeft a b).nil = t.nil := rfl

@[simp] theorem setRight_nil (t : rbtree) (a b : Nat) : (t.setRight a b).nil = t.nil := rfl

@[simp] theorem setRoot_nil (t : rbtree) (a : Nat) : (t.setRoot a).nil = t.nil := rfl

@[simp] theorem setKey_root (t : rbtree) (a : Nat) (k : key_t) : (t.setKey a k).root = t.root := rfl

@[simp] theorem setParent_root (t : rbtree) (a b : Nat) : (t.setParent a b).root = t.root := rfl

@[simp] theorem setLeft_root (t : rbtree) (a b : Nat) : (t.setLeft a b).root = t.root := rfl

@[simp] theorem setRight_root (t : rbtree) (a b : Nat) : (t.setRight a b).root = t.root := rfl

@[simp] theorem setRoot_root (t : rbtree) (a : Nat) : (t.setRoot a).root = a := rfl

@[simp] theorem setColor_nil (t : rbtree) (a : Nat) (c : color_t) : (t.setColor a c).nil = t.nil := rfl

@[simp] theorem setColor_root (t : rbtree) (a : Nat) (c : color_t) :
    (t.setColor a c).root = t.root := rfl

@[simp] theorem setColor_parent (t : rbtree) (a : Nat) (c : color_t) (b : Nat) :
    (t.setColor a c).parent b = t.parent b := by
  by_cases h : b = a <;> simp [rbtree.setColor, rbtree.parent, Function.update_apply, h]

@[simp] theorem setColor_left (t : rbtree) (a : Nat) (c : color_t) (b : Nat) :
    (t.setColor a c).left b = t.left b := by
  by_cases h : b = a <;> simp [rbtree.setColor, rbtree.left, Function.update_apply, h]

@[simp] theorem setColor_right (t : rbtree) (a : Nat) (c : color_t) (b : Nat) :
    (t.setColor a c).right b = t.right b := by
  by_cases h : b = a <;> simp [rbtree.setColor, rbtree.right, Function.update_apply, h]

@[simp] theorem setColor_key (t : rbtree) (a : Nat) (c : color_t) (b : Nat) :
    (t.setColor a c).key b = t.key b := by
  by_cases h : b = a <;> simp [rbtree.setColor, rbtree.key, Function.update_apply, h]

theorem setColor_color (t : rbtree) (a : Nat) (c : color_t) (b : Nat) :
    (t.setColor a c).color b = if b = a then c else t.color b := by
  by_cases h : b = a <;> simp [rbtree.setColor, rbtree.color, Function.update_apply, h]

/-! ## Reads at the focus -/

theorem Foc.color_eq {t : rbtree} {p : Path} {c : color_t} {l r : ATree} {a : Nat} {k : key_t}
    (h : Foc t p (ATree.node c l a k r)) : t.color a = c := by
  simp [rbtree.color, h.cell]

theorem Foc.key_eq {t : rbtree} {p : Path} {c : color_t} {l r : ATree} {a : Nat} {k : key_t}
    (h : Foc t p (ATree.node c l a k r)) : t.key a = k := by
  simp [rbtree.key, h.cell]

theorem Foc.parent_eq {t : rbtree} {p : Path} {c : color_t} {l r : ATree} {a : Nat} {k : key_t}
    (h : Foc t p (ATree.node c l a k r)) : t.parent a = pptr t.nil p := by
  simp [rbtree.parent, h.cell]

theorem Foc.left_eq {t : rbtree} {p : Path} {c : color_t} {l r : ATree} {a : Nat} {k : key_t}
    (h : Foc t p (ATree.node c l a k r)) : t.left a = ptr t.nil l := by
  simp [rbtree.left, h.cell]

theorem Foc.right_eq {t : rbtree} {p : Path} {c : color_t} {l r : ATree} {a : Nat} {k : key_t}
    (h : Foc t p (ATree.node c l a k r)) : t.right a = ptr t.nil r := by
  simp [rbtree.right, h.cell]

/-- The colour read through the pointer of a subtree is the colour of its
root (BLACK through the sentinel). -/
theorem Foc.color_ptr {t : rbtree} {p : Path} {T : ATree} (h : Foc t p T) :
    t.color (ptr t.nil T) = rootColor T := by
  cases T with
  | leaf => simpa [rootColor] using h.glob.nilblack
  | node c l a k r => simpa [rootColor] using h.color_eq

/-- A left child is not the right child of its parent. -/
theorem Foc.ne_sibL {t : rbtree} {up : Path} {c cz : color_t} {r zl zr : ATree} {a z : Nat}
    {k kz : key_t} (h : Foc t (Frame.L c a k r :: up) (ATree.node cz zl z kz zr)) :
    z ≠ ptr t.nil r := by
  refine ne_ptr h.ne_nil ?_
  have hnd := h.glob.nodup
  simp only [addrs_plug, addrs_node, baddrs, aaddrs] at hnd
  simp only [List.nodup_append, List.nodup_cons, List.disjoint_append_left,
    List.disjoint_append_right, List.disjoint_cons_left, List.disjoint_cons_right,
    List.mem_append, List.mem_cons, not_or] at hnd
  tauto

/-- A right child is not the left child of its parent. -/
theorem Foc.ne_sibR {t : rbtree} {up : Path} {c cz : color_t} {l zl zr : ATree} {a z : Nat}
    {k kz : key_t} (h : Foc t (Frame.R c l a k :: up) (ATree.node cz zl z kz zr)) :
    z ≠ ptr t.nil l := by
  refine ne_ptr h.ne_nil ?_
  have hnd := h.glob.nodup
  simp only [addrs_plug, addrs_node, baddrs, aaddrs] at hnd
  simp only [List.nodup_append, List.nodup_cons, List.disjoint_append_left,
    List.disjoint_append_right, List.disjoint_cons_left, List.disjoint_cons_right,
    List.mem_append, List.mem_cons, not_or] at hnd
  tauto

/-- The whole tree, seen from the root. -/
theorem Foc.toRoot {t : rbtree} {p : Path} {T : ATree} (h : Foc t p T) : TreeRep t (plug T p) := by
  induction p generalizing T with
  | nil => exact h
  | cons f up ih =>
    cases f with
    | L c a k r => exact ih h.upL
    | R c l a k => exact ih h.upR

/-- The colour of the parent of the focus. -/
theorem Foc.parent_color {t : rbtree} {p : Path} {c : color_t} {l r : ATree} {a : Nat}
    {k : key_t} (h : Foc t p (ATree.node c l a k r)) : t.color (t.parent a) = pcolor p := by
  rw [h.parent_eq]
  cases p with
  | nil => simpa [pcolor] using h.glob.nilblack
  | cons f up =>
    cases f with
    | L c' a' k' r' => simpa [pcolor, Frame.color] using h.upL.color_eq
    | R c' l' a' k' => simpa [pcolor, Frame.color] using h.upR.color_eq

/-- Forcing the root BLACK, the last statement of `rbtree_insert_fixup`. -/
theorem TreeRep.blackenRoot {t : rbtree} {T : ATree} (h : TreeRep t T) :
    TreeRep (t.setColor t.root RBTREE_BLACK) (blacken T) := by
  cases T with
  | leaf =>
    have hroot : t.root = t.nil := by simpa [plug] using h.glob.root
    have hb := h.glob.nilblack
    refine ⟨trivial, trivial, ⟨?_, ?_, ?_, ?_, ?_, ?_⟩⟩
    · simpa [blacken, plug] using hroot
    · simp [blacken, plug, addrs_leaf]
    · simp [blacken, plug, addrs_leaf]
    · simp [blacken, plug, addrs_leaf]
    · simpa using h.glob.nilnn
    · simp [setColor_color, hroot]
  | node c l a k r =>
    have hroot : t.root = a := by simpa [plug] using h.glob.root
    rw [hroot]
    exact Foc.setColor h RBTREE_BLACK

theorem rootColor_of_not_red {U : ATree}
    (h : ∀ (ul : ATree) (u : Nat) (ku : key_t) (ur : ATree),
      U = ATree.node RBTREE_RED ul u ku ur → False) : rootColor U = RBTREE_BLACK := by
  cases U with
  | leaf => rfl
  | node c l a k r =>
    cases c with
    | RBTREE_RED => exact (h l a k r rfl).elim
    | RBTREE_BLACK => rfl

/-- The loop of `rbtree_insert_fixup` stops at once under a BLACK parent. -/
theorem insert_fixup_exit {t : rbtree} {p : Path} {c : color_t} {l r : ATree} {a : Nat}
    {k : key_t} (h : Foc t p (ATree.node c l a k r)) (hc : pcolor p = RBTREE_BLACK)
    (fuel : Nat) :
    rbtree_insert_fixup (fuel + 1) t a = some (t.setColor t.root RBTREE_BLACK) := by
  rw [rbtree_insert_fixup]
  simp [h.parent_color, hc]

theorem color_eq_black_of_ne_red {c : color_t} (h : ¬ c = RBTREE_RED) : c = RBTREE_BLACK := by
  cases c with
  | RBTREE_RED => exact absurd rfl h
  | RBTREE_BLACK => rfl

/-- Exit of the insertion fix-up loop, with the resulting tree. -/
theorem insert_fixup_exit_spec {t : rbtree} {p : Path} {Z : ATree} (h : Foc t p Z)
    (hZ : Z ≠ ATree.leaf) (hc : pcolor p = RBTREE_BLACK) (fuel : Nat) (hf : 1 ≤ fuel) :
    ∃ t', rbtree_insert_fixup fuel t (ptr t.nil Z) = some t' ∧
      TreeRep t' (blacken (plug Z p)) ∧ t'.nil = t.nil := by
  obtain ⟨fuel, rfl⟩ : ∃ f, fuel = f + 1 := ⟨fuel - 1, by omega⟩
  cases Z with
  | leaf => exact absurd rfl hZ
  | node cz zl z kz zr =>
    exact ⟨_, insert_fixup_exit h hc fuel, h.toRoot.blackenRoot, rfl⟩

/-- `rbtree_insert_fixup` computes `insFix` on the represented tree. -/
theorem insert_fixup_spec (p : Path) (Z : ATree) :
    ∀ (t : rbtree) (T' : ATree), Foc t p Z → Z ≠ ATree.leaf → insFix p Z = some T' →
      ∀ fuel, p.length + 2 ≤ fuel →
        ∃ t', rbtree_insert_fixup fuel t (ptr t.nil Z) = some t' ∧ TreeRep t' T' ∧
          t'.nil = t.nil := by
  induction p, Z using insFix.induct with
  | case1 Z =>
    intro t T' h hZ he fuel hf
    simp only [insFix, Option.some.injEq] at he
    subst he
    exact insert_fixup_exit_spec h hZ rfl fuel (by omega)
  | case2 f Z hc =>
    intro t T' h hZ he fuel hf
    simp [insFix, hc] at he
  | case3 f Z hc =>
    intro t T' h hZ he fuel hf
    simp only [insFix, hc, if_false, Option.some.injEq] at he
    subst he
    exact insert_fixup_exit_spec h hZ (color_eq_black_of_ne_red hc) fuel (by omega)
  | case4 ap kp sr cg ag kg up Z ul u ku ur ih =>
    intro t T' h hZ he fuel hf
    simp only [insFix, if_true] at he
    obtain ⟨fuel, rfl⟩ : ∃ f, fuel = f + 1 := ⟨fuel - 1, by simp at hf; omega⟩
    obtain ⟨cz, zl, z, kz, zr, rfl⟩ : ∃ cz zl z kz zr, Z = ATree.node cz zl z kz zr := by
      cases Z with
      | leaf => exact absurd rfl hZ
      | node cz zl z kz zr => exact ⟨_, _, _, _, _, rfl⟩
    -- facts about the heap before the step
    have h1 := h.upL
    have h2 := h1.upL
    have h3 := h2.downR
    -- the three colour writes
    have k1 := h1.setColor RBTREE_BLACK
    have k2 := (k1.upL.downR).setColor RBTREE_BLACK
    have k3 := (k2.upR).setColor RBTREE_RED
    have e := ih _ T' k3 (by simp) he fuel (by simp at hf ⊢; omega)
    obtain ⟨t', e1, e2, e3⟩ := e
    refine ⟨t', ?_, e2, by simpa using e3⟩
    rw [rbtree_insert_fixup]
    simp only [ptr_node] at e1 ⊢
    simp [h.parent_eq, h1.color_eq, h1.parent_eq, h2.left_eq, h2.right_eq, h3.color_eq]
    exact e1
  | case5 ap kp sr cg ag kg U up Z hU =>
    intro t T' h hZ he fuel hf
    have hUc := rootColor_of_not_red hU
    have he' : T' = blacken (plug (ATree.node RBTREE_BLACK Z ap kp
        (ATree.node RBTREE_RED sr ag kg U)) up) := by
      cases U with
      | leaf => simpa [insFix] using he.symm
      | node cu ul u ku ur =>
        simp only [rootColor] at hUc
        subst hUc
        simpa [insFix] using he.symm
    subst he'
    obtain ⟨fuel, rfl⟩ : ∃ f, fuel = f + 1 := ⟨fuel - 1, by simp at hf; omega⟩
    obtain ⟨cz, zl, z, kz, zr, rfl⟩ : ∃ cz zl z kz zr, Z = ATree.node cz zl z kz zr := by
      cases Z with
      | leaf => exact absurd rfl hZ
      | node cz zl z kz zr => exact ⟨_, _, _, _, _, rfl⟩
    have h1 := h.upL
    have h2 := h1.upL
    have h3 := h2.downR
    have k1 := h1.setColor RBTREE_BLACK
    have k2 := k1.upL.setColor RBTREE_RED
    obtain ⟨k3, n3, -⟩ := k2.rotR
    have e := insert_fixup_exit_spec k3.downL (by simp) rfl fuel (by simp at hf; omega)
    obtain ⟨t', e1, e2, e3⟩ := e
    refine ⟨t', ?_, e2, by simpa [n3] using e3⟩
    rw [rbtree_insert_fixup]
    simp only [ptr_node] at e1 ⊢
    simp [h.parent_eq, h1.color_eq, h1.parent_eq, h2.left_eq, h2.right_eq, h3.color_ptr, hUc,
      h1.right_eq, h.ne_sibL]
    exact e1
  | case6 cp ap kp sr cg ag kg U up Z hc =>
    intro t T' h hZ he fuel hf
    simp only [insFix, hc, if_false, Option.some.injEq] at he
    subst he
    exact insert_fixup_exit_spec h hZ (color_eq_black_of_ne_red hc) fuel (by omega)
  | case7 sl ap kp cg ag kg up Z ul u ku ur ih =>
    intro t T' h hZ he fuel hf
    simp only [insFix, if_true] at he
    obtain ⟨fuel, rfl⟩ : ∃ f, fuel = f + 1 := ⟨fuel - 1, by simp at hf; omega⟩
    obtain ⟨cz, zl, z, kz, zr, rfl⟩ : ∃ cz zl z kz zr, Z = ATree.node cz zl z kz zr := by
      cases Z with
      | leaf => exact absurd rfl hZ
      | node cz zl z kz zr => exact ⟨_, _, _, _, _, rfl⟩
    have h1 := h.upR
    have h2 := h1.upL
    have h3 := h2.downR
    have k1 := h1.setColor RBTREE_BLACK
    have k2 := (k1.upL.downR).setColor RBTREE_BLACK
    have k3 := (k2.upR).setColor RBTREE_RED
    have e := ih _ T' k3 (by simp) he fuel (by simp at hf ⊢; omega)
    obtain ⟨t', e1, e2, e3⟩ := e
    refine ⟨t', ?_, e2, by simpa using e3⟩
    rw [rbtree_insert_fixup]
    simp only [ptr_node] at e1 ⊢
    simp [h.parent_eq, h1.color_eq, h1.parent_eq, h2.left_eq, h2.right_eq, h3.color_eq]
    exact e1
  | case8 sl ap kp cg ag kg U up cz zl z kz zr hU =>
    intro t T' h hZ he fuel hf
    have hUc := rootColor_of_not_red hU
    have he' : T' = blacken (plug (ATree.node RBTREE_BLACK (ATree.node RBTREE_RED sl ap kp zl)
        z kz (ATree.node RBTREE_RED zr ag kg U)) up) := by
      cases U with
      | leaf => simpa [insFix] using he.symm
      | node cu ul u ku ur =>
        simp only [rootColor] at hUc
        subst hUc
        simpa [insFix] using he.symm
    subst he'
    obtain ⟨fuel, rfl⟩ : ∃ f, fuel = f + 1 := ⟨fuel - 1, by simp at hf; omega⟩
    have h1 := h.upR
    have h2 := h1.upL
    have h3 := h2.downR
    obtain ⟨r1, n1, -⟩ := h1.rotL
    have k1 := r1.setColor RBTREE_BLACK
    have k2 := k1.upL.setColor RBTREE_RED
    obtain ⟨k3, n3, -⟩ := k2.rotR
    have e := insert_fixup_exit_spec k3.downL (by simp) rfl fuel (by simp at hf; omega)
    obtain ⟨t', e1, e2, e3⟩ := e
    refine ⟨t', ?_, e2, by simpa [n3, n1] using e3⟩
    rw [rbtree_insert_fixup]
    simp only [ptr_node] at e1 ⊢
    simp [h.parent_eq, h1.color_eq, h1.parent_eq, h2.left_eq, h2.right_eq, h3.color_ptr, hUc,
      h1.right_eq, r1.downL.parent_eq, r1.parent_eq]
    exact e1
  | case9 sl ap kp cg ag kg U up hU =>
    intro t T' h hZ
    exact absurd rfl hZ
  | case10 cp sl ap kp cg ag kg U up Z hc =>
    intro t T' h hZ he fuel hf
    simp only [insFix, hc, if_false, Option.some.injEq] at he
    subst he
    exact insert_fixup_exit_spec h hZ (color_eq_black_of_ne_red hc) fuel (by omega)
  | case11 sl ap kp cg ag kg up Z ul u ku ur ih =>
    intro t T' h hZ he fuel hf
    simp only [insFix, if_true] at he
    obtain ⟨fuel, rfl⟩ : ∃ f, fuel = f + 1 := ⟨fuel - 1, by simp at hf; omega⟩
    obtain ⟨cz, zl, z, kz, zr, rfl⟩ : ∃ cz zl z kz zr, Z = ATree.node cz zl z kz zr := by
      cases Z with
      | leaf => exact absurd rfl hZ
      | node cz zl z kz zr => exact ⟨_, _, _, _, _, rfl⟩
    have h1 := h.upR
    have h2 := h1.upR
    have h3 := h2.downL
    have k1 := h1.setColor RBTREE_BLACK
    have k2 := (k1.upR.downL).setColor RBTREE_BLACK
    have k3 := (k2.upL).setColor RBTREE_RED
    have e := ih _ T' k3 (by simp) he fuel (by simp at hf ⊢; omega)
    obtain ⟨t', e1, e2, e3⟩ := e
    refine ⟨t', ?_, e2, by simpa using e3⟩
    rw [rbtree_insert_fixup]
    simp only [ptr_node] at e1 ⊢
    have hne := h1.ne_sibR
    simp only [ptr_node] at hne
    simp [h.parent_eq, h1.color_eq, h1.parent_eq, h2.left_eq, h2.right_eq, h3.color_eq, hne]
    exact e1
  | case12 sl ap kp cg U ag kg up Z hU =>
    intro t T' h hZ he fuel hf
    have hUc := rootColor_of_not_red hU
    have he' : T' = blacken (plug (ATree.node RBTREE_BLACK (ATree.node RBTREE_RED U ag kg sl)
        ap kp Z) up) := by
      cases U with
      | leaf => simpa [insFix] using he.symm
      | node cu ul u ku ur =>
        simp only [rootColor] at hUc
        subst hUc
        simpa [insFix] using he.symm
    subst he'
    obtain ⟨fuel, rfl⟩ : ∃ f, fuel = f + 1 := ⟨fuel - 1, by simp at hf; omega⟩
    obtain ⟨cz, zl, z, kz, zr, rfl⟩ : ∃ cz zl z kz zr, Z = ATree.node cz zl z kz zr := by
      cases Z with
      | leaf => exact absurd rfl hZ
      | node cz zl z kz zr => exact ⟨_, _, _, _, _, rfl⟩
    have h1 := h.upR
    have h2 := h1.upR
    have h3 := h2.downL
    have k1 := h1.setColor RBTREE_BLACK
    have k2 := k1.upR.setColor RBTREE_RED
    obtain ⟨k3, n3, -⟩ := k2.rotL
    have e := insert_fixup_exit_spec k3.downR (by simp) rfl fuel (by simp at hf; omega)
    obtain ⟨t', e1, e2, e3⟩ := e
    refine ⟨t', ?_, e2, by simpa [n3] using e3⟩
    rw [rbtree_insert_fixup]
    simp only [ptr_node] at e1 ⊢
    simp [h.parent_eq, h1.color_eq, h1.parent_eq, h2.left_eq, h2.right_eq, h3.color_ptr, hUc,
      h1.left_eq, h.ne_sibR, h1.ne_sibR]
    exact e1
  | case13 cp sl ap kp cg U ag kg up Z hc =>
    intro t T' h hZ he fuel hf
    simp only [insFix, hc, if_false, Option.some.injEq] at he
    subst he
    exact insert_fixup_exit_spec h hZ (color_eq_black_of_ne_red hc) fuel (by omega)
  | case14 ap kp sr cg ag kg up Z ul u ku ur ih =>
    intro t T' h hZ he fuel hf
    simp only [insFix, if_true] at he
    obtain ⟨fuel, rfl⟩ : ∃ f, fuel = f + 1 := ⟨fuel - 1, by simp at hf; omega⟩
    obtain ⟨cz, zl, z, kz, zr, rfl⟩ : ∃ cz zl z kz zr, Z = ATree.node cz zl z kz zr := by
      cases Z with
      | leaf => exact absurd rfl hZ
      | node cz zl z kz zr => exact ⟨_, _, _, _, _, rfl⟩
    have h1 := h.upL
    have h2 := h1.upR
    have h3 := h2.downL
    have k1 := h1.setColor RBTREE_BLACK
    have k2 := (k1.upR.downL).setColor RBTREE_BLACK
    have k3 := (k2.upL).setColor RBTREE_RED
    have e := ih _ T' k3 (by simp) he fuel (by simp at hf ⊢; omega)
    obtain ⟨t', e1, e2, e3⟩ := e
    refine ⟨t', ?_, e2, by simpa using e3⟩
    rw [rbtree_insert_fixup]
    simp only [ptr_node] at e1 ⊢
    have hne := h1.ne_sibR
    simp only [ptr_node] at hne
    simp [h.parent_eq, h1.color_eq, h1.parent_eq, h2.left_eq, h2.right_eq, h3.color_eq, hne]
    exact e1
  | case15 ap kp sr cg U ag kg up cz zl z kz zr hU =>
    intro t T' h hZ he fuel hf
    have hUc := rootColor_of_not_red hU
    have he' : T' = blacken (plug (ATree.node RBTREE_BLACK (ATree.node RBTREE_RED U ag kg zl)
        z kz (ATree.node RBTREE_RED zr ap kp sr)) up) := by
      cases U with
      | leaf => simpa [insFix] using he.symm
      | node cu ul u ku ur =>
        simp only [rootColor] at hUc
        subst hUc
        simpa [insFix] using he.symm
    subst he'
    obtain ⟨fuel, rfl⟩ : ∃ f, fuel = f + 1 := ⟨fuel - 1, by simp at hf; omega⟩
    have h1 := h.upL
    have h2 := h1.upR
    have h3 := h2.downL
    obtain ⟨r1, n1, -⟩ := h1.rotR
    have k1 := r1.setColor RBTREE_BLACK
    have k2 := k1.upR.setColor RBTREE_RED
    obtain ⟨k3, n3, -⟩ := k2.rotL
    have e := insert_fixup_exit_spec k3.downR (by simp) rfl fuel (by simp at hf; omega)
    obtain ⟨t', e1, e2, e3⟩ := e
    refine ⟨t', ?_, e2, by simpa [n3, n1] using e3⟩
    rw [rbtree_insert_fixup]
    simp only [ptr_node] at e1 ⊢
    simp [h.parent_eq, h1.color_eq, h1.parent_eq, h2.left_eq, h2.right_eq, h3.color_ptr, hUc,
      h1.left_eq, r1.downR.parent_eq, r1.parent_eq, h1.ne_sibR]
    exact e1
  | case16 ap kp sr cg U ag kg up hU =>
    intro t T' h hZ
    exact absurd rfl hZ
  | case17 cp ap kp sr cg U ag kg up Z hc =>
    intro t T' h hZ he fuel hf
    simp only [insFix, hc, if_false, Option.some.injEq] at he
    subst he
    exact insert_fixup_exit_spec h hZ (color_eq_black_of_ne_red hc) fuel (by omega)

/-! ## The descent and the linking step of `rbtree_insert` -/

/-- A state that agrees with `t` on the handle and on every node of the tree
holds the same tree. -/
theorem Foc.frame {t t' : rbtree} {p : Path} {T : ATree} (h : Foc t p T)
    (hnil : t'.nil = t.nil) (hroot : t'.root = t.root)
    (hmem : ∀ a ∈ addrs (plug T p), t'.mem a = t.mem a)
    (hnb : t'.color t'.nil = RBTREE_BLACK) : Foc t' p T := by
  obtain ⟨h1, h2, h3⟩ := h
  rw [addrs_plug] at hmem
  refine ⟨?_, ?_, ?_⟩
  · rw [hnil]
    exact Rep_congr (fun a ha => hmem a (by simp [ha])) h1
  · rw [hnil]
    refine RepPath_congr (fun a ha => hmem a ?_) h2
    simp only [List.mem_append] at ha ⊢
    tauto
  · exact h3.congr (by rw [hroot, hnil]; exact h3.root) rfl hnil hnb

theorem dirOK_descend (key : key_t) (T : ATree) (p : Path) (h : dirOK key p) :
    dirOK key (descend key T p) := by
  induction T generalizing p with
  | leaf => exact h
  | node c l a k r ihl ihr =>
    simp only [descend]
    split
    · rename_i hk
      exact ihl _ hk
    · rename_i hk
      exact ihr _ hk

theorem plug_descend (key : key_t) (T : ATree) (p : Path) :
    plug ATree.leaf (descend key T p) = plug T p := by
  induction T generalizing p with
  | leaf => rfl
  | node c l a k r ihl ihr =>
    simp only [descend]
    split
    · rw [ihl]; rfl
    · rw [ihr]; rfl

theorem length_descend (key : key_t) (T : ATree) (p : Path) :
    (descend key T p).length ≤ height T + p.length := by
  induction T generalizing p with
  | leaf => simp [descend, height]
  | node c l a k r ihl ihr =>
    simp only [descend]
    split
    · have := ihl (Frame.L c a k r :: p)
      simp only [height, List.length_cons] at this ⊢
      omega
    · have := ihr (Frame.R c l a k :: p)
      simp only [height, List.length_cons] at this ⊢
      omega

theorem Foc.descend {t : rbtree} {p : Path} {T : ATree} (key : key_t) (h : Foc t p T) :
    Foc t (descend key T p) ATree.leaf := by
  induction T generalizing p with
  | leaf => exact h
  | node c l a k r ihl ihr =>
    simp only [RB.descend]
    split
    · exact ihl h.downL
    · exact ihr h.downR

/-- The descent loop of `rbtree_insert` ends at the parent of the position
`descend` gives. -/
theorem insert_descend_spec {t : rbtree} {z : Nat} (T : ATree) :
    ∀ (p : Path), Foc t p T → ∀ fuel, height T + 1 ≤ fuel →
      insert_descend fuel t z (pptr t.nil p) (ptr t.nil T) =
        some (pptr t.nil (descend (t.key z) T p)) := by
  induction T with
  | leaf =>
    intro p h fuel hf
    obtain ⟨fuel, rfl⟩ : ∃ f, fuel = f + 1 := ⟨fuel - 1, by omega⟩
    simp [insert_descend, descend]
  | node c l a k r ihl ihr =>
    intro p h fuel hf
    obtain ⟨fuel, rfl⟩ : ∃ f, fuel = f + 1 := ⟨fuel - 1, by omega⟩
    simp only [height] at hf
    rw [insert_descend]
    simp only [ptr_node, descend, h.key_eq, h.ne_nil, ne_eq, not_false_eq_true, if_true]
    split
    · have := ihl _ h.downL fuel (by omega)
      simpa [h.left_eq] using this
    · have := ihr _ h.downR fuel (by omega)
      simpa [h.right_eq] using this

/-- The five field writes that initialise the new node leave the tree as it
is. -/
theorem alloc_spec {t : rbtree} {T : ATree} {z : Nat} (key : key_t) (h : TreeRep t T)
    (hzn : z ≠ t.nil) (hzf : z ∉ addrs T) :
    TreeRep (((((t.setKey z key).setColor z RBTREE_RED).setParent z t.nil).setLeft z
        t.nil).setRight z t.nil) T ∧
      (((((t.setKey z key).setColor z RBTREE_RED).setParent z t.nil).setLeft z
        t.nil).setRight z t.nil).mem z = ⟨RBTREE_RED, key, t.nil, t.nil, t.nil⟩ := by
  constructor
  · refine Foc.frame h rfl rfl ?_ ?_
    · intro a ha
      have hne : a ≠ z := by
        rintro rfl
        exact hzf (by simpa [plug] using ha)
      simp [rbtree.setKey, rbtree.setColor, rbtree.setParent, rbtree.setLeft, rbtree.setRight,
        Function.update_apply, hne]
    · have hb := h.glob.nilblack
      simp only [rbtree.color] at hb
      simp [rbtree.setKey, rbtree.setColor, rbtree.setParent, rbtree.setLeft, rbtree.setRight,
        rbtree.color, Function.update_apply, hzn.symm, hb]
  · simp [rbtree.setKey, rbtree.setColor, rbtree.setParent, rbtree.setLeft, rbtree.setRight,
      Function.update_apply]

/-- Linking the initialised node `z` into the position the descent found. -/
theorem Foc.link {t : rbtree} {p : Path} {z : Nat} {key : key_t} (h : Foc t p ATree.leaf)
    (hcell : t.mem z = ⟨RBTREE_RED, key, t.nil, t.nil, t.nil⟩) (hz0 : z ≠ NULL)
    (hzn : z ≠ t.nil) (hzf : z ∉ addrs (plug ATree.leaf p)) (hd : dirOK key p) :
    Foc (if pptr t.nil p = (t.setParent z (pptr t.nil p)).nil
          then (t.setParent z (pptr t.nil p)).setRoot z
        else if (t.setParent z (pptr t.nil p)).key z
            < (t.setParent z (pptr t.nil p)).key (pptr t.nil p)
          then (t.setParent z (pptr t.nil p)).setLeft (pptr t.nil p) z
        else (t.setParent z (pptr t.nil p)).setRight (pptr t.nil p) z)
      p (ATree.node RBTREE_RED ATree.leaf z key ATree.leaf) ∧
    (if pptr t.nil p = (t.setParent z (pptr t.nil p)).nil
          then (t.setParent z (pptr t.nil p)).setRoot z
        else if (t.setParent z (pptr t.nil p)).key z
            < (t.setParent z (pptr t.nil p)).key (pptr t.nil p)
          then (t.setParent z (pptr t.nil p)).setLeft (pptr t.nil p) z
        else (t.setParent z (pptr t.nil p)).setRight (pptr t.nil p) z).nil = t.nil := by
  have hpath := h.path
  have hg := h.glob
  have hnd := h.glob.nodup
  have hnn := h.glob.nonnull
  have hnl := h.glob.nonnil
  have hnb := h.glob.nilblack
  have hroot := h.glob.root
  have hnd' : (addrs (plug (ATree.node RBTREE_RED ATree.leaf z key ATree.leaf) p)).Nodup := by
    rw [addrs_plug] at hnd hzf ⊢
    simp only [addrs_leaf, addrs_node, List.append_nil, List.nil_append, List.append_assoc,
      List.cons_append] at hnd hzf ⊢
    exact List.nodup_middle.mpr (List.nodup_cons.mpr ⟨hzf, hnd⟩)
  simp only [rbtree.color] at hnb
  simp only [rbtree.setRight, rbtree.setLeft, rbtree.setParent, rbtree.setRoot,
        rbtree.left, rbtree.right, rbtree.parent, rbtree.color, rbtree.key]
  rcases p with _ | ⟨⟨c, a, k, r⟩ | ⟨c, l, a, k⟩, up⟩ <;>
    simp only [addrs_plug, addrs_node, addrs_leaf, baddrs, aaddrs] at hnd hzf hnn hnl <;>
    simp only [List.nodup_append, List.nodup_cons, List.disjoint_append_left,
      List.disjoint_append_right, List.disjoint_cons_left, List.disjoint_cons_right,
      List.mem_append, List.mem_cons, not_or, List.map_append, List.map_cons, List.map_nil,
      List.append_assoc, List.cons_append, List.nil_append, List.append_nil,
      List.not_mem_nil, not_false_eq_true, List.nodup_nil, List.disjoint_nil_left,
      List.disjoint_nil_right, true_and, and_true] at hnd hzf hnn hnl <;>
    simp only [Rep, RepPath, ptr_node, ptr_leaf, pptr_L, pptr_R, pptr_nil, true_and, and_true]
      at hpath
  · have hne : t.nil ≠ z := hzn.symm
    have hz0' : NULL ≠ z := hz0.symm
    refine ⟨⟨?_, ?_, ⟨?_, ?_, ?_, ?_, ?_, ?_⟩⟩, ?_⟩ <;>
      simp [Function.update_apply, Rep, RepPath, plug, addrs_node, addrs_leaf, rbtree.color,
        hcell, hne, hzn, hnb, hz0', hg.nilnn]
  · have hne : t.nil ≠ z ∧ a ≠ z ∧ z ≠ a ∧ a ≠ t.nil ∧ t.nil ≠ a := by omega
    have hz0' : NULL ≠ z := hz0.symm
    simp only [dirOK] at hd
    refine ⟨⟨?_, ?_, ⟨?hr, hnd', ?_, ?_, ?_, ?_⟩⟩, ?_⟩
    case hr =>
      simp [Function.update_apply, hpath, hne, hcell, hd]
      rw [hroot]; exact ptr_plug_cons _ _ _ _ _
    all_goals
      simp [Function.update_apply, Rep, RepPath, Rep_update_iff, RepPath_update_iff, plug,
        addrs_plug, addrs_node, addrs_leaf, baddrs, aaddrs, rbtree.color, hpath, hne, hnd,
        hnb, hcell, hd, hzf, hz0', hzn, hnl, hnn, hg.nilnn]
  · have hne : t.nil ≠ z ∧ a ≠ z ∧ z ≠ a ∧ a ≠ t.nil ∧ t.nil ≠ a := by omega
    have hz0' : NULL ≠ z := hz0.symm
    simp only [dirOK] at hd
    refine ⟨⟨?_, ?_, ⟨?hr, hnd', ?_, ?_, ?_, ?_⟩⟩, ?_⟩
    case hr =>
      simp [Function.update_apply, hpath, hne, hcell, hd]
      rw [hroot]; exact ptr_plug_cons _ _ _ _ _
    all_goals
      simp [Function.update_apply, Rep, RepPath, Rep_update_iff, RepPath_update_iff, plug,
        addrs_plug, addrs_node, addrs_leaf, baddrs, aaddrs, rbtree.color, hpath, hne, hnd,
        hnb, hcell, hd, hzf, hz0', hzn, hnl, hnn, hg.nilnn]

/-- `rbtree_insert` computes `insTree` on the represented tree and returns the
new node. -/
theorem rbtree_insert_spec {t : rbtree} {T T' : ATree} {z : Nat} {key : key_t}
    (h : TreeRep t T) (hz0 : z ≠ NULL) (hzn : z ≠ t.nil) (hzf : z ∉ addrs T)
    (he : insTree T z key = some T') (fuel : Nat) (hf : height T + 2 ≤ fuel) :
    ∃ t', rbtree_insert fuel t z key = some (t', z) ∧ TreeRep t' T' ∧ t'.nil = t.nil := by
  obtain ⟨h0, hcell⟩ := alloc_spec key h hzn hzf
  generalize ht0 : ((((t.setKey z key).setColor z RBTREE_RED).setParent z t.nil).setLeft z
        t.nil).setRight z t.nil = t0 at h0 hcell
  have hnil0 : t0.nil = t.nil := by rw [← ht0]; rfl
  have hk : t0.key z = key := by simp [rbtree.key, hcell]
  have hd := insert_descend_spec (z := z) T [] h0 fuel (by omega)
  rw [hk] at hd
  have hroot0 : t0.root = ptr t0.nil T := h0.glob.root
  simp only [pptr_nil] at hd
  rw [← hroot0] at hd
  have hfoc := Foc.descend key h0
  have hcell' : t0.mem z = ⟨RBTREE_RED, key, t0.nil, t0.nil, t0.nil⟩ := by rw [hnil0]; exact hcell
  have hl := Foc.link hfoc hcell' hz0 (by rw [hnil0]; exact hzn)
    (by rw [plug_descend]; simpa [plug] using hzf) (dirOK_descend key T [] trivial)
  obtain ⟨hl1, hl2⟩ := hl
  have hlen := length_descend key T []
  simp only [List.length_nil, Nat.add_zero] at hlen
  have hfix := insert_fixup_spec _ _ _ T' hl1 (by simp) he fuel (by omega)
  obtain ⟨t', e1, e2, e3⟩ := hfix
  refine ⟨t', ?_, e2, by rw [e3, hl2, hnil0]⟩
  simp only [ptr_node] at e1
  simp only [setParent_nil] at e1
  simp only [rbtree_insert, setKey_nil, setColor_nil, setParent_nil, setLeft_nil, setRight_nil,
    ht0, hd, e1]

/-! ## The red-black invariants on paths -/

/-- A tree in a position is red-black exactly when the subtree is and the
path around it fits its root colour and black-height. -/
theorem isRB_plug (S : ATree) (p : Path) :
    IsRB (plug S p) ↔ noRedRed S ∧ equalBH S ∧ pathOK p (rootColor S) (blackHeight S) := by
  induction p generalizing S with
  | nil => simp only [plug, IsRB, rootBlack, pathOK]; tauto
  | cons f up ih =>
    cases f with
    | L pc a k r =>
      simp only [plug, ih, noRedRed, equalBH, pathOK, rootColor, blackHeight]
      constructor
      · rintro ⟨⟨h1, h2, h3⟩, ⟨h4, h5, h6⟩, h7⟩
        exact ⟨h2, h5, h1, h3, h6, h4.symm, h7⟩
      · rintro ⟨h2, h5, h1, h3, h6, h4, h7⟩
        exact ⟨⟨h1, h2, h3⟩, ⟨h4.symm, h5, h6⟩, h7⟩
    | R pc l a k =>
      simp only [plug, ih, noRedRed, equalBH, pathOK, rootColor, blackHeight]
      constructor
      · rintro ⟨⟨h1, h2, h3⟩, ⟨h4, h5, h6⟩, h7⟩
        exact ⟨h3, h6, h1, h2, h5, h4, h4 ▸ h7⟩
      · rintro ⟨h3, h6, h1, h2, h5, h4, h7⟩
        exact ⟨⟨h1, h2, h3⟩, ⟨h4, h5, h6⟩, h4 ▸ h7⟩

/-- Under a BLACK parent the colour of the subtree does not matter. -/
theorem pathOK_of_black {p : Path} {c c' : color_t} {n : Nat}
    (hp : p ≠ [] → pcolor p = RBTREE_BLACK) (hc : p = [] → c' = RBTREE_BLACK)
    (h : pathOK p c n) : pathOK p c' n := by
  cases p with
  | nil => simpa [pathOK] using hc rfl
  | cons f up =>
    have hf := hp (by simp)
    cases f with
    | L pc a k r =>
      simp only [pcolor, Frame.color] at hf
      subst hf
      simpa [pathOK] using h
    | R pc l a k =>
      simp only [pcolor, Frame.color] at hf
      subst hf
      simpa [pathOK] using h

theorem isRB_blacken {T : ATree} (h1 : noRedRed T) (h2 : equalBH T) : IsRB (blacken T) := by
  cases T with
  | leaf => exact ⟨rfl, trivial, trivial⟩
  | node c l a k r =>
    simp only [noRedRed, equalBH] at h1 h2
    exact ⟨rfl, ⟨by simp, h1.2.1, h1.2.2⟩, h2⟩

theorem blacken_of_black {T : ATree} (h : rootColor T = RBTREE_BLACK) : blacken T = T := by
  cases T with
  | leaf => rfl
  | node c l a k r =>
    simp only [rootColor] at h
    subst h
    rfl

theorem isRB_blacken_self {T : ATree} (h : IsRB T) : IsRB (blacken T) := by
  rw [blacken_of_black h.1]; exact h

theorem insFix_LL_black {ap ag : Nat} {kp kg : key_t} {sr U Z : ATree} {cg : color_t}
    {up : Path} (hU : rootColor U = RBTREE_BLACK) :
    insFix (Frame.L RBTREE_RED ap kp sr :: Frame.L cg ag kg U :: up) Z =
      some (blacken (plug (ATree.node RBTREE_BLACK Z ap kp (ATree.node RBTREE_RED sr ag kg U))
        up)) := by
  cases U with
  | leaf => simp [insFix]
  | node cu ul u ku ur =>
    simp only [rootColor] at hU
    subst hU
    simp [insFix]

theorem insFix_RL_black {ap ag z : Nat} {kp kg kz : key_t} {sl U zl zr : ATree}
    {cg cz : color_t} {up : Path} (hU : rootColor U = RBTREE_BLACK) :
    insFix (Frame.R RBTREE_RED sl ap kp :: Frame.L cg ag kg U :: up)
        (ATree.node cz zl z kz zr) =
      some (blacken (plug (ATree.node RBTREE_BLACK (ATree.node RBTREE_RED sl ap kp zl) z kz
        (ATree.node RBTREE_RED zr ag kg U)) up)) := by
  cases U with
  | leaf => simp [insFix]
  | node cu ul u ku ur =>
    simp only [rootColor] at hU
    subst hU
    simp [insFix]

theorem insFix_RR_black {ap ag : Nat} {kp kg : key_t} {sl U Z : ATree} {cg : color_t}
    {up : Path} (hU : rootColor U = RBTREE_BLACK) :
    insFix (Frame.R RBTREE_RED sl ap kp :: Frame.R cg U ag kg :: up) Z =
      some (blacken (plug (ATree.node RBTREE_BLACK (ATree.node RBTREE_RED U ag kg sl) ap kp Z)
        up)) := by
  cases U with
  | leaf => simp [insFix]
  | node cu ul u ku ur =>
    simp only [rootColor] at hU
    subst hU
    simp [insFix]

theorem insFix_LR_black {ap ag z : Nat} {kp kg kz : key_t} {sr U zl zr : ATree}
    {cg cz : color_t} {up : Path} (hU : rootColor U = RBTREE_BLACK) :
    insFix (Frame.L RBTREE_RED ap kp sr :: Frame.R cg U ag kg :: up)
        (ATree.node cz zl z kz zr) =
      some (blacken (plug (ATree.node RBTREE_BLACK (ATree.node RBTREE_RED U ag kg zl) z kz
        (ATree.node RBTREE_RED zr ap kp sr)) up)) := by
  cases U with
  | leaf => simp [insFix]
  | node cu ul u ku ur =>
    simp only [rootColor] at hU
    subst hU
    simp [insFix]

/-- Leaving the loop under a BLACK parent. -/
theorem insFix_exit_isRB {p : Path} {Z : ATree} {n : Nat} (hp : pathOK p RBTREE_BLACK n)
    (hc : p ≠ [] → pcolor p = RBTREE_BLACK) (h2 : noRedRed Z) (h3 : equalBH Z)
    (h4 : blackHeight Z = n) : IsRB (blacken (plug Z p)) := by
  cases p with
  | nil => exact isRB_blacken h2 h3
  | cons f up =>
    apply isRB_blacken_self
    rw [isRB_plug]
    refine ⟨h2, h3, ?_⟩
    rw [h4]
    exact pathOK_of_black hc (by simp) hp

/-- The insertion fix-up restores the red-black invariants: started at a RED
node whose subtree is in order, in a position where a BLACK subtree of the
same black-height fits. -/
theorem insFix_isRB (p : Path) (Z : ATree) :
    ∀ n, pathOK p RBTREE_BLACK n → rootColor Z = RBTREE_RED → noRedRed Z → equalBH Z →
      blackHeight Z = n → ∃ T', insFix p Z = some T' ∧ IsRB T' := by
  induction p, Z using insFix.induct with
  | case1 Z =>
    intro n hp h1 h2 h3 h4
    exact ⟨_, rfl, isRB_blacken h2 h3⟩
  | case2 f Z hc =>
    intro n hp h1 h2 h3 h4
    cases f <;> simp only [Frame.color] at hc <;> subst hc <;> simp [pathOK] at hp
  | case3 f Z hc =>
    intro n hp h1 h2 h3 h4
    refine ⟨blacken (plug Z [f]), by simp [insFix, hc], ?_⟩
    exact insFix_exit_isRB hp (fun _ => color_eq_black_of_ne_red hc) h2 h3 h4
  | case4 ap kp sr cg ag kg up Z ul u ku ur ih =>
    intro n hp h1 h2 h3 h4
    subst h4
    simp only [insFix, if_true]
    cases cg with
    | RBTREE_RED => simp [pathOK] at hp
    | RBTREE_BLACK =>
      simp [pathOK, noRedRed, equalBH, blackHeight] at hp
      apply ih (blackHeight Z + 1)
      all_goals try simp [noRedRed, equalBH, blackHeight]
      all_goals repeat' apply And.intro
      all_goals first | assumption | omega | tauto | simp_all
  | case5 ap kp sr cg ag kg U up Z hU =>
    intro n hp h1 h2 h3 h4
    subst h4
    have hUc := rootColor_of_not_red hU
    refine ⟨_, insFix_LL_black hUc, ?_⟩
    cases cg with
    | RBTREE_RED => simp [pathOK] at hp
    | RBTREE_BLACK =>
      simp [pathOK, noRedRed, equalBH, blackHeight] at hp
      apply isRB_blacken_self
      rw [isRB_plug]
      simp [noRedRed, equalBH, blackHeight]
      repeat' apply And.intro
      all_goals first | assumption | omega | tauto | simp_all
  | case6 cp ap kp sr cg ag kg U up Z hc =>
    intro n hp h1 h2 h3 h4
    refine ⟨blacken (plug Z (Frame.L cp ap kp sr :: Frame.L cg ag kg U :: up)),
      by simp [insFix, hc], ?_⟩
    exact insFix_exit_isRB hp (fun _ => color_eq_black_of_ne_red hc) h2 h3 h4
  | case7 sl ap kp cg ag kg up Z ul u ku ur ih =>
    intro n hp h1 h2 h3 h4
    subst h4
    simp only [insFix, if_true]
    cases cg with
    | RBTREE_RED => simp [pathOK] at hp
    | RBTREE_BLACK =>
      simp [pathOK, noRedRed, equalBH, blackHeight] at hp
      apply ih (blackHeight Z + 1)
      all_goals try simp [noRedRed, equalBH, blackHeight]
      all_goals repeat' apply And.intro
      all_goals first | assumption | omega | tauto | simp_all
  | case8 sl ap kp cg ag kg U up cz zl z kz zr hU =>
    intro n hp h1 h2 h3 h4
    subst h4
    have hUc := rootColor_of_not_red hU
    refine ⟨_, insFix_RL_black hUc, ?_⟩
    simp only [rootColor_node] at h1
    subst h1
    cases cg with
    | RBTREE_RED => simp [pathOK] at hp
    | RBTREE_BLACK =>
      simp [pathOK, noRedRed, equalBH, blackHeight] at hp h2 h3
      apply isRB_blacken_self
      rw [isRB_plug]
      simp [noRedRed, equalBH, blackHeight]
      repeat' apply And.intro
      all_goals first | assumption | omega | tauto | simp_all
  | case9 sl ap kp cg ag kg U up hU =>
    intro n hp h1
    simp at h1
  | case10 cp sl ap kp cg ag kg U up Z hc =>
    intro n hp h1 h2 h3 h4
    refine ⟨blacken (plug Z (Frame.R cp sl ap kp :: Frame.L cg ag kg U :: up)),
      by simp [insFix, hc], ?_⟩
    exact insFix_exit_isRB hp (fun _ => color_eq_black_of_ne_red hc) h2 h3 h4
  | case11 sl ap kp cg ag kg up Z ul u ku ur ih =>
    intro n hp h1 h2 h3 h4
    subst h4
    simp only [insFix, if_true]
    cases cg with
    | RBTREE_RED => simp [pathOK] at hp
    | RBTREE_BLACK =>
      simp [pathOK, noRedRed, equalBH, blackHeight] at hp
      apply ih (blackHeight Z + 1)
      all_goals try simp [noRedRed, equalBH, blackHeight]
      all_goals repeat' apply And.intro
      all_goals first | assumption | omega | tauto | simp_all
  | case12 sl ap kp cg U ag kg up Z hU =>
    intro n hp h1 h2 h3 h4
    subst h4
    have hUc := rootColor_of_not_red hU
    refine ⟨_, insFix_RR_black hUc, ?_⟩
    cases cg with
    | RBTREE_RED => simp [pathOK] at hp
    | RBTREE_BLACK =>
      simp [pathOK, noRedRed, equalBH, blackHeight] at hp
      apply isRB_blacken_self
      rw [isRB_plug]
      simp [noRedRed, equalBH, blackHeight]
      repeat' apply And.intro
      all_goals first | assumption | omega | tauto | simp_all
  | case13 cp sl ap kp cg U ag kg up Z hc =>
    intro n hp h1 h2 h3 h4
    refine ⟨blacken (plug Z (Frame.R cp sl ap kp :: Frame.R cg U ag kg :: up)),
      by simp [insFix, hc], ?_⟩
    exact insFix_exit_isRB hp (fun _ => color_eq_black_of_ne_red hc) h2 h3 h4
  | case14 ap kp sr cg ag kg up Z ul u ku ur ih =>
    intro n hp h1 h2 h3 h4
    subst h4
    simp only [insFix, if_true]
    cases cg with
    | RBTREE_RED => simp [pathOK] at hp
    | RBTREE_BLACK =>
      simp [pathOK, noRedRed, equalBH, blackHeight] at hp
      apply ih (blackHeight Z + 1)
      all_goals try simp [noRedRed, equalBH, blackHeight]
      all_goals repeat' apply And.intro
      all_goals first | assumption | omega | tauto | simp_all
  | case15 ap kp sr cg U ag kg up cz zl z kz zr hU =>
    intro n hp h1 h2 h3 h4
    subst h4
    have hUc := rootColor_of_not_red hU
    refine ⟨_, insFix_LR_black hUc, ?_⟩
    simp only [rootColor_node] at h1
    subst h1
    cases cg with
    | RBTREE_RED => simp [pathOK] at hp
    | RBTREE_BLACK =>
      simp [pathOK, noRedRed, equalBH, blackHeight] at hp h2 h3
      apply isRB_blacken_self
      rw [isRB_plug]
      simp [noRedRed, equalBH, blackHeight]
      repeat' apply And.intro
      all_goals first | assumption | omega | tauto | simp_all
  | case16 ap kp sr cg U ag kg up hU =>
    intro n hp h1
    simp at h1
  | case17 cp ap kp sr cg U ag kg up Z hc =>
    intro n hp h1 h2 h3 h4
    refine ⟨blacken (plug Z (Frame.L cp ap kp sr :: Frame.R cg U ag kg :: up)),
      by simp [insFix, hc], ?_⟩
    exact insFix_exit_isRB hp (fun _ => color_eq_black_of_ne_red hc) h2 h3 h4

/-- On a red-black tree the insertion is defined and gives a red-black tree. -/
theorem insTree_isRB {T : ATree} (h : IsRB T) (z : Nat) (key : key_t) :
    ∃ T', insTree T z key = some T' ∧ IsRB T' := by
  have hp : IsRB (plug ATree.leaf (descend key T [])) := by
    rw [plug_descend]; exact h
  rw [isRB_plug] at hp
  exact insFix_isRB _ _ 0 hp.2.2 rfl (by simp [noRedRed]) (by simp [equalBH])
    (by simp [blackHeight])

/-! ## In-order sequence after the insertion fix-up -/

theorem nodes_blacken (T : ATree) : nodes (blacken T) = nodes T := by
  cases T <;> rfl

/-- The fix-up only rotates and recolours: the in-order sequence of nodes is
that of the tree it started from. -/
theorem nodes_insFix (p : Path) (Z : ATree) :
    ∀ T', insFix p Z = some T' → nodes T' = nodes (plug Z p) := by
  induction p, Z using insFix.induct with
  | case1 Z =>
    intro T' he
    simp only [insFix, Option.some.injEq] at he
    subst he
    simp [nodes_blacken, plug]
  | case2 f Z hc =>
    intro T' he
    simp [insFix, hc] at he
  | case3 f Z hc =>
    intro T' he
    simp only [insFix, hc, if_false, Option.some.injEq] at he
    subst he
    simp [nodes_blacken]
  | case4 ap kp sr cg ag kg up Z ul u ku ur ih =>
    intro T' he
    simp only [insFix, if_true] at he
    rw [ih T' he]
    simp [nodes_plug, nodes, plug]
  | case5 ap kp sr cg ag kg U up Z hU =>
    intro T' he
    rw [insFix_LL_black (rootColor_of_not_red hU), Option.some.injEq] at he
    subst he
    simp [nodes_blacken, nodes_plug, nodes, plug, before, after]
  | case6 cp ap kp sr cg ag kg U up Z hc =>
    intro T' he
    simp only [insFix, hc, if_false, Option.some.injEq] at he
    subst he
    simp [nodes_blacken]
  | case7 sl ap kp cg ag kg up Z ul u ku ur ih =>
    intro T' he
    simp only [insFix, if_true] at he
    rw [ih T' he]
    simp [nodes_plug, nodes, plug]
  | case8 sl ap kp cg ag kg U up cz zl z kz zr hU =>
    intro T' he
    rw [insFix_RL_black (rootColor_of_not_red hU), Option.some.injEq] at he
    subst he
    simp [nodes_blacken, nodes_plug, nodes, plug, before, after]
  | case9 sl ap kp cg ag kg U up hU =>
    intro T' he
    cases U with
    | leaf => simp [insFix] at he
    | node cu ul u ku ur =>
      cases cu with
      | RBTREE_RED => exact (hU _ _ _ _ rfl).elim
      | RBTREE_BLACK => simp [insFix] at he
  | case10 cp sl ap kp cg ag kg U up Z hc =>
    intro T' he
    simp only [insFix, hc, if_false, Option.some.injEq] at he
    subst he
    simp [nodes_blacken]
  | case11 sl ap kp cg ag kg up Z ul u ku ur ih =>
    intro T' he
    simp only [insFix, if_true] at he
    rw [ih T' he]
    simp [nodes_plug, nodes, plug]
  | case12 sl ap kp cg U ag kg up Z hU =>
    intro T' he
    rw [insFix_RR_black (rootColor_of_not_red hU), Option.some.injEq] at he
    subst he
    simp [nodes_blacken, nodes_plug, nodes, plug, before, after]
  | case13 cp sl ap kp cg U ag kg up Z hc =>
    intro T' he
    simp only [insFix, hc, if_false, Option.some.injEq] at he
    subst he
    simp [nodes_blacken]
  | case14 ap kp sr cg ag kg up Z ul u ku ur ih =>
    intro T' he
    simp only [insFix, if_true] at he
    rw [ih T' he]
    simp [nodes_plug, nodes, plug]
  | case15 ap kp sr cg U ag kg up cz zl z kz zr hU =>
    intro T' he
    rw [insFix_LR_black (rootColor_of_not_red hU), Option.some.injEq] at he
    subst he
    simp [nodes_blacken, nodes_plug, nodes, plug, before, after]
  | case16 ap kp sr cg U ag kg up hU =>
    intro T' he
    cases U with
    | leaf => simp [insFix] at he
    | node cu ul u ku ur =>
      cases cu with
      | RBTREE_RED => exact (hU _ _ _ _ rfl).elim
      | RBTREE_BLACK => simp [insFix] at he
  | case17 cp ap kp sr cg U ag kg up Z hc =>
    intro T' he
    simp only [insFix, hc, if_false, Option.some.injEq] at he
    subst he
    simp [nodes_blacken]

/-! ## The erase fix-up on a represented tree -/

/-- One iteration of the loop of `rbtree_erase_fixup`, with the part after
case 1 named. -/
theorem erase_fixup_unfold (fuel : Nat) (t : rbtree) (x : Nat) :
    rbtree_erase_fixup (fuel + 1) t x =
      if x ≠ t.root ∧ t.color x = RBTREE_BLACK then
        if x = t.left (t.parent x) then
          let w := t.right (t.parent x)
          let tw : rbtree × Nat :=
            if t.color w = RBTREE_RED then
              let t := t.setColor w RBTREE_BLACK
              let t := t.setColor (t.parent x) RBTREE_RED
              let t := left_rotate t (t.parent x)
              (t, t.right (t.parent x))
            else (t, w)
          erase_fixup_left_tail fuel tw.1 x tw.2
        else
          let w := t.left (t.parent x)
          let tw : rbtree × Nat :=
            if t.color w = RBTREE_RED then
              let t := t.setColor w RBTREE_BLACK
              let t := t.setColor (t.parent x) RBTREE_RED
              let t := right_rotate t (t.parent x)
              (t, t.left (t.parent x))
            else (t, w)
          erase_fixup_right_tail fuel tw.1 x tw.2
      else some (t.setColor x RBTREE_BLACK) := by
  rw [rbtree_erase_fixup]
  rfl

/-- The parent pointer read at the position of a subtree, also when the
subtree is empty and the pointer is the sentinel's. -/
theorem Foc.parent_ptr {t : rbtree} {p : Path} {X : ATree} (h : Foc t p X)
    (hl : X = ATree.leaf → t.parent t.nil = pptr t.nil p) :
    t.parent (ptr t.nil X) = pptr t.nil p := by
  cases X with
  | leaf => simpa using hl rfl
  | node c l a k r => simpa using h.parent_eq

theorem parent_nil_of_mem {t t' : rbtree} {a : Nat} (h : t'.mem a = t.mem a) :
    t'.parent a = t.parent a := by
  simp [rbtree.parent, h]

/-- Cases 2, 3 and 4 for a left child, on the heap. -/
theorem left_tail_spec {t : rbtree} {up : Path} {cp : color_t} {ap : Nat} {kp : key_t}
    {X W S : ATree} {b : Bool} (h : Foc t (Frame.L cp ap kp W :: up) X)
    (hpar : X = ATree.leaf → t.parent t.nil = ap)
    (hs : delStepL cp X ap kp W = some (b, S)) (fuel : Nat) :
    ∃ t', Foc t' up S ∧ t'.nil = t.nil ∧
      erase_fixup_left_tail fuel t (ptr t.nil X) (ptr t.nil W) =
        (if b then rbtree_erase_fixup fuel t' t'.root else rbtree_erase_fixup fuel t' ap) ∧
      (b = false → ptr t.nil S = ap) := by
  have hpx : t.parent (ptr t.nil X) = ap := h.parent_ptr (by simpa using hpar)
  cases W with
  | leaf => simp [delStepL] at hs
  | node cw wl w kw wr =>
    have hP := h.upL
    have hW := hP.downR
    simp only [delStepL] at hs
    split at hs
    · -- case 2
      rename_i hc
      simp only [Option.some.injEq, Prod.mk.injEq] at hs
      obtain ⟨rfl, rfl⟩ := hs
      have k1 := (hW.setColor RBTREE_RED).upR
      refine ⟨_, k1, rfl, ?_, by simp⟩
      simp [erase_fixup_left_tail, hW.left_eq, hW.right_eq, hW.downL.color_ptr,
        hW.downR.color_ptr, hc, hpx]
    · rename_i hc
      split at hs
      · -- case 3 then case 4
        rename_i hr
        have hlc : rootColor wl ≠ RBTREE_BLACK := fun e => hc ⟨e, hr⟩
        cases wl with
        | leaf => simp at hlc
        | node cl wll wla wlk wlr =>
          simp only [Option.some.injEq, Prod.mk.injEq] at hs
          obtain ⟨rfl, rfl⟩ := hs
          have k1 := hW.downL.setColor RBTREE_BLACK
          have k2 := k1.upL.setColor RBTREE_RED
          obtain ⟨k3, n3, m3⟩ := k2.rotR
          simp only [setColor_nil] at n3 m3
          have hp3 : (right_rotate ((t.setColor wla RBTREE_BLACK).setColor w RBTREE_RED) w).parent
              (ptr t.nil X) = ap := by
            have := k3.upR.downL.parent_ptr (by
              intro e
              rw [n3, pptr_L, parent_nil_of_mem m3]
              simpa using hpar e)
            simpa [n3] using this
          have k4 := k3.setColor cp
          have k5 := k4.upR.setColor RBTREE_BLACK
          have k6 := k5.downR.downR.setColor RBTREE_BLACK
          obtain ⟨k7, n7, -⟩ := k6.upR.upR.rotL
          refine ⟨_, k7, by simp [n7, n3], ?_, by simp⟩
          simp only [rootColor_node] at hr hlc
          simp [erase_fixup_left_tail, hW.left_eq, hW.right_eq, hW.downL.color_eq,
            hW.downR.color_ptr, hr, hlc, hpx, hp3, k3.upR.right_eq, k3.upR.color_eq,
            k3.right_eq]
      · -- case 4
        rename_i hr
        cases wr with
        | leaf => simp at hr
        | node cr wrl wra wrk wrr =>
          simp only [Option.some.injEq, Prod.mk.injEq] at hs
          obtain ⟨rfl, rfl⟩ := hs
          have k1 := hW.setColor cp
          have k2 := k1.upR.setColor RBTREE_BLACK
          have k3 := k2.downR.downR.setColor RBTREE_BLACK
          obtain ⟨k4, n4, -⟩ := k3.upR.upR.rotL
          refine ⟨_, k4, by simp [n4], ?_, by simp⟩
          simp only [rootColor_node] at hr
          simp [erase_fixup_left_tail, hW.left_eq, hW.right_eq, hW.downL.color_ptr,
            hW.downR.color_eq, hr, hpx, hP.color_eq]

/-- Cases 2, 3 and 4 for a right child, on the heap. -/
theorem right_tail_spec {t : rbtree} {up : Path} {cp : color_t} {ap : Nat} {kp : key_t}
    {X W S : ATree} {b : Bool} (h : Foc t (Frame.R cp W ap kp :: up) X)
    (hpar : X = ATree.leaf → t.parent t.nil = ap)
    (hs : delStepR cp W ap kp X = some (b, S)) (fuel : Nat) :
    ∃ t', Foc t' up S ∧ t'.nil = t.nil ∧
      erase_fixup_right_tail fuel t (ptr t.nil X) (ptr t.nil W) =
        (if b then rbtree_erase_fixup fuel t' t'.root else rbtree_erase_fixup fuel t' ap) ∧
      (b = false → ptr t.nil S = ap) := by
  have hpx : t.parent (ptr t.nil X) = ap := h.parent_ptr (by simpa using hpar)
  cases W with
  | leaf => simp [delStepR] at hs
  | node cw wl w kw wr =>
    have hP := h.upR
    have hW := hP.downL
    simp only [delStepR] at hs
    split at hs
    · -- case 2
      rename_i hc
      simp only [Option.some.injEq, Prod.mk.injEq] at hs
      obtain ⟨rfl, rfl⟩ := hs
      have k1 := (hW.setColor RBTREE_RED).upL
      refine ⟨_, k1, rfl, ?_, by simp⟩
      simp [erase_fixup_right_tail, hW.left_eq, hW.right_eq, hW.downL.color_ptr,
        hW.downR.color_ptr, hc, hpx]
    · rename_i hc
      split at hs
      · -- case 3 then case 4
        rename_i hl
        have hrc : rootColor wr ≠ RBTREE_BLACK := fun e => hc ⟨e, hl⟩
        cases wr with
        | leaf => simp at hrc
        | node cr wrl wra wrk wrr =>
          simp only [Option.some.injEq, Prod.mk.injEq] at hs
          obtain ⟨rfl, rfl⟩ := hs
          have k1 := hW.downR.setColor RBTREE_BLACK
          have k2 := k1.upR.setColor RBTREE_RED
          obtain ⟨k3, n3, m3⟩ := k2.rotL
          simp only [setColor_nil] at n3 m3
          have hp3 : (left_rotate ((t.setColor wra RBTREE_BLACK).setColor w RBTREE_RED) w).parent
              (ptr t.nil X) = ap := by
            have := k3.upL.downR.parent_ptr (by
              intro e
              rw [n3, pptr_R, parent_nil_of_mem m3]
              simpa using hpar e)
            simpa [n3] using this
          have k4 := k3.setColor cp
          have k5 := k4.upL.setColor RBTREE_BLACK
          have k6 := k5.downL.downL.setColor RBTREE_BLACK
          obtain ⟨k7, n7, -⟩ := k6.upL.upL.rotR
          refine ⟨_, k7, by simp [n7, n3], ?_, by simp⟩
          simp only [rootColor_node] at hl hrc
          simp [erase_fixup_right_tail, hW.left_eq, hW.right_eq, hW.downR.color_eq,
            hW.downL.color_ptr, hl, hrc, hpx, hp3, k3.upL.left_eq, k3.upL.color_eq,
            k3.left_eq]
      · -- case 4
        rename_i hl
        cases wl with
        | leaf => simp at hl
        | node cl wll wla wlk wlr =>
          simp only [Option.some.injEq, Prod.mk.injEq] at hs
          obtain ⟨rfl, rfl⟩ := hs
          have k1 := hW.setColor cp
          have k2 := k1.upL.setColor RBTREE_BLACK
          have k3 := k2.downL.downL.setColor RBTREE_BLACK
          obtain ⟨k4, n4, -⟩ := k3.upL.upL.rotR
          refine ⟨_, k4, by simp [n4], ?_, by simp⟩
          simp only [rootColor_node] at hl
          simp [erase_fixup_right_tail, hW.left_eq, hW.right_eq, hW.downR.color_ptr,
            hW.downL.color_eq, hl, hpx, hP.color_eq]

theorem root_mem_path (nil : Nat) (X : ATree) (p : Path) (hp : p ≠ []) :
    ptr nil (plug X p) ∈ baddrs p ++ aaddrs p := by
  induction p generalizing X with
  | nil => exact absurd rfl hp
  | cons f up ih =>
    cases up with
    | nil => cases f <;> simp [plug, baddrs, aaddrs]
    | cons g up' =>
      have := ih (X := match f with
        | Frame.L c a k r => ATree.node c X a k r
        | Frame.R c l a k => ATree.node c l a k X) (by simp)
      cases f with
      | L c a k r =>
        simp only [plug] at this ⊢
        simp only [List.mem_append] at this
        simp only [baddrs, aaddrs, List.mem_append, List.mem_cons]
        tauto
      | R c l a k =>
        simp only [plug] at this ⊢
        simp only [List.mem_append] at this
        simp only [baddrs, aaddrs, List.mem_append, List.mem_cons]
        tauto

/-- Below the root, the pointer of the focus is not the root pointer. -/
theorem Foc.ptr_ne_root {t : rbtree} {f : Frame} {up : Path} {X : ATree}
    (h : Foc t (f :: up) X) : ptr t.nil X ≠ t.root := by
  have hr := root_mem_path t.nil X (f :: up) (by simp)
  rw [← h.glob.root] at hr
  have hnd := h.glob.nodup
  have hnl := h.glob.nonnil
  rw [addrs_plug] at hnd hnl
  cases X with
  | leaf =>
    simp only [ptr_leaf]
    intro e
    rw [← e] at hr
    simp only [List.mem_append] at hr hnl
    tauto
  | node c l a k r =>
    simp only [ptr_node]
    intro e
    rw [← e] at hr
    simp only [addrs_node, List.nodup_append, List.nodup_cons, List.disjoint_append_left,
      List.disjoint_append_right, List.disjoint_cons_left, List.disjoint_cons_right,
      List.mem_append, List.mem_cons, not_or] at hnd hr
    tauto

theorem erase_fixup_exit_root (fuel : Nat) (t : rbtree) :
    rbtree_erase_fixup (fuel + 1) t t.root = some (t.setColor t.root RBTREE_BLACK) := by
  rw [rbtree_erase_fixup]
  simp

theorem erase_fixup_exit_red (fuel : Nat) (t : rbtree) (x : Nat) (h : t.color x = RBTREE_RED) :
    rbtree_erase_fixup (fuel + 1) t x = some (t.setColor x RBTREE_BLACK) := by
  rw [rbtree_erase_fixup]
  simp [h]

theorem delStepL_false {cp : color_t} {X W S : ATree} {ap : Nat} {kp : key_t}
    (h : delStepL cp X ap kp W = some (false, S)) : ∃ W', S = ATree.node cp X ap kp W' := by
  cases W with
  | leaf => simp [delStepL] at h
  | node cw wl w kw wr =>
    simp only [delStepL] at h
    split at h
    · simp only [Option.some.injEq, Prod.mk.injEq, true_and] at h
      exact ⟨_, h.symm⟩
    · split at h
      · cases wl <;> simp at h
      · cases wr <;> simp at h

theorem delStepR_false {cp : color_t} {X W S : ATree} {ap : Nat} {kp : key_t}
    (h : delStepR cp W ap kp X = some (false, S)) : ∃ W', S = ATree.node cp W' ap kp X := by
  cases W with
  | leaf => simp [delStepR] at h
  | node cw wl w kw wr =>
    simp only [delStepR] at h
    split at h
    · simp only [Option.some.injEq, Prod.mk.injEq, true_and] at h
      exact ⟨_, h.symm⟩
    · split at h
      · cases wr <;> simp at h
      · cases wl <;> simp at h

/-- Leaving the erase fix-up loop at the root. -/
theorem erase_fixup_root_spec {t : rbtree} {p : Path} {S : ATree} (h : Foc t p S) (fuel : Nat)
    (hf : 1 ≤ fuel) :
    ∃ t', rbtree_erase_fixup fuel t t.root = some t' ∧ TreeRep t' (blacken (plug S p)) ∧
      t'.nil = t.nil := by
  obtain ⟨fuel, rfl⟩ : ∃ f, fuel = f + 1 := ⟨fuel - 1, by omega⟩
  exact ⟨_, erase_fixup_exit_root fuel t, h.toRoot.blackenRoot, rfl⟩

/-- Leaving the erase fix-up loop at a RED node. -/
theorem erase_fixup_red_spec {t : rbtree} {p : Path} {S : ATree} (h : Foc t p S)
    (hc : rootColor S = RBTREE_RED) (fuel : Nat) (hf : 1 ≤ fuel) :
    ∃ t', rbtree_erase_fixup fuel t (ptr t.nil S) = some t' ∧
      TreeRep t' (plug (blacken S) p) ∧ t'.nil = t.nil := by
  obtain ⟨fuel, rfl⟩ : ∃ f, fuel = f + 1 := ⟨fuel - 1, by omega⟩
  cases S with
  | leaf => simp at hc
  | node c l a k r =>
    refine ⟨_, erase_fixup_exit_red fuel t a ?_, (h.setColor RBTREE_BLACK).toRoot, rfl⟩
    simpa [h.color_eq] using hc

theorem not_red_node_cases (W : ATree) :
    (∃ wl w kw wr, W = ATree.node RBTREE_RED wl w kw wr) ∨ rootColor W = RBTREE_BLACK := by
  cases W with
  | leaf => right; rfl
  | node c l a k r =>
    cases c with
    | RBTREE_RED => left; exact ⟨_, _, _, _, rfl⟩
    | RBTREE_BLACK => right; rfl

theorem delFix_L_black {cp : color_t} {ap : Nat} {kp : key_t} {W X : ATree} {up : Path}
    (hX : rootColor X = RBTREE_BLACK) (hW : rootColor W = RBTREE_BLACK) :
    delFix (Frame.L cp ap kp W :: up) X =
      (delStepL cp X ap kp W).bind fun bS =>
        if bS.1 then some (blacken (plug bS.2 up)) else delFix up bS.2 := by
  cases W with
  | leaf => simp [delFix, hX, delStepL]
  | node cw wl w kw wr =>
    simp only [rootColor_node] at hW
    subst hW
    simp only [delFix, hX, reduceCtorEq, if_false]
    cases delStepL cp X ap kp (ATree.node RBTREE_BLACK wl w kw wr) with
    | none => rfl
    | some bS => obtain ⟨b, S⟩ := bS; cases b <;> rfl

theorem delFix_R_black {cp : color_t} {ap : Nat} {kp : key_t} {W X : ATree} {up : Path}
    (hX : rootColor X = RBTREE_BLACK) (hW : rootColor W = RBTREE_BLACK) :
    delFix (Frame.R cp W ap kp :: up) X =
      (delStepR cp W ap kp X).bind fun bS =>
        if bS.1 then some (blacken (plug bS.2 up)) else delFix up bS.2 := by
  cases W with
  | leaf => simp [delFix, hX, delStepR]
  | node cw wl w kw wr =>
    simp only [rootColor_node] at hW
    subst hW
    simp only [delFix, hX, reduceCtorEq, if_false]
    cases delStepR cp (ATree.node RBTREE_BLACK wl w kw wr) ap kp X with
    | none => rfl
    | some bS => obtain ⟨b, S⟩ := bS; cases b <;> rfl

theorem delFix_L_red {cp : color_t} {ap w : Nat} {kp kw : key_t} {wl wr X : ATree} {up : Path}
    (hX : rootColor X = RBTREE_BLACK) :
    delFix (Frame.L cp ap kp (ATree.node RBTREE_RED wl w kw wr) :: up) X =
      (delStepL RBTREE_RED X ap kp wl).bind fun bS =>
        if bS.1 then some (blacken (plug (ATree.node RBTREE_BLACK bS.2 w kw wr) up))
        else some (plug (ATree.node RBTREE_BLACK (blacken bS.2) w kw wr) up) := by
  simp only [delFix, hX, reduceCtorEq, if_false]
  cases delStepL RBTREE_RED X ap kp wl with
  | none => rfl
  | some bS => obtain ⟨b, S⟩ := bS; cases b <;> rfl

theorem delFix_R_red {cp : color_t} {ap w : Nat} {kp kw : key_t} {wl wr X : ATree} {up : Path}
    (hX : rootColor X = RBTREE_BLACK) :
    delFix (Frame.R cp (ATree.node RBTREE_RED wl w kw wr) ap kp :: up) X =
      (delStepR RBTREE_RED wr ap kp X).bind fun bS =>
        if bS.1 then some (blacken (plug (ATree.node RBTREE_BLACK wl w kw bS.2) up))
        else some (plug (ATree.node RBTREE_BLACK wl w kw (blacken bS.2)) up) := by
  simp only [delFix, hX, reduceCtorEq, if_false]
  cases delStepR RBTREE_RED wr ap kp X with
  | none => rfl
  | some bS => obtain ⟨b, S⟩ := bS; cases b <;> rfl

/-- `rbtree_erase_fixup` computes `delFix` on the represented tree.  `X` is
the subtree at `x`; when it is empty `x` is the sentinel, whose parent field
must lead to the position. -/
theorem erase_fixup_spec (p : Path) :
    ∀ (X : ATree) (t : rbtree) (T' : ATree), Foc t p X →
      (X = ATree.leaf → t.parent t.nil = pptr t.nil p) → delFix p X = some T' →
      ∀ fuel, p.length + 2 ≤ fuel →
        ∃ t', rbtree_erase_fixup fuel t (ptr t.nil X) = some t' ∧ TreeRep t' T' ∧
          t'.nil = t.nil := by
  induction p with
  | nil =>
    intro X t T' h hpar he fuel hf
    simp only [delFix, Option.some.injEq] at he
    subst he
    have hr : t.root = ptr t.nil X := by simpa [plug] using h.glob.root
    rw [← hr]
    exact erase_fixup_root_spec h fuel (by omega)
  | cons f up ih =>
    intro X t T' h hpar he fuel hf
    obtain ⟨fuel, rfl⟩ : ∃ f, fuel = f + 1 := ⟨fuel - 1, by simp at hf; omega⟩
    simp only [List.length_cons] at hf
    by_cases hX : rootColor X = RBTREE_RED
    · have he' : T' = plug (blacken X) (f :: up) := by
        cases f <;> simpa [delFix, hX] using he.symm
      subst he'
      exact erase_fixup_red_spec h hX _ (by omega)
    · have hXb := color_eq_black_of_ne_red hX
      have hxc : t.color (ptr t.nil X) = RBTREE_BLACK := by rw [h.color_ptr]; exact hXb
      have hxr := h.ptr_ne_root
      cases f with
      | L cp ap kp W =>
        have hpx : t.parent (ptr t.nil X) = ap := h.parent_ptr (by simpa using hpar)
        have hP := h.upL
        have hW := hP.downR
        rw [erase_fixup_unfold]
        simp only [hxc, hxr, ne_eq, not_false_eq_true, and_self, if_true, hpx, hP.left_eq,
          hP.right_eq]
        rcases not_red_node_cases W with ⟨wl, w, kw, wr, rfl⟩ | hWb
        · -- case 1
          have k1 := hW.setColor RBTREE_BLACK
          have k2 := k1.upR.setColor RBTREE_RED
          obtain ⟨k3, n3, m3⟩ := k2.rotL
          simp only [setColor_nil] at n3 m3
          have k3X := k3.downL.downL
          have hpar3 : X = ATree.leaf →
              (left_rotate ((t.setColor w RBTREE_BLACK).setColor ap RBTREE_RED) ap).parent
                (left_rotate ((t.setColor w RBTREE_BLACK).setColor ap RBTREE_RED) ap).nil
                  = ap := by
            intro e
            rw [n3, parent_nil_of_mem m3]
            simpa using hpar e
          have hp3 := k3X.parent_ptr (by simpa using hpar3)
          simp only [n3, pptr_L] at hp3
          rw [delFix_L_red hXb] at he
          simp only [ptr_node, hW.color_eq, if_true, setColor_parent, hpx, hp3,
            k3.downL.right_eq, n3]
          cases hs : delStepL RBTREE_RED X ap kp wl with
          | none => simp [hs] at he
          | some bS =>
            obtain ⟨b, S⟩ := bS
            obtain ⟨t', e1, e2, e3, e4⟩ := left_tail_spec k3X hpar3 hs fuel
            simp only [n3] at e3 e2
            rw [e3]
            cases b with
            | true =>
              simp only [hs, Option.some_bind, if_true, Option.some.injEq] at he
              subst he
              simp only [if_true]
              obtain ⟨t'', f1, f2, f3⟩ := erase_fixup_root_spec e1 fuel (by omega)
              exact ⟨t'', f1, f2, by rw [f3, e2]⟩
            | false =>
              simp only [hs, Option.some_bind, Bool.false_eq_true, if_false,
                Option.some.injEq] at he
              subst he
              simp only [Bool.false_eq_true, if_false]
              obtain ⟨W', rfl⟩ := delStepL_false hs
              obtain ⟨t'', f1, f2, f3⟩ := erase_fixup_red_spec e1 rfl fuel (by omega)
              simp only [ptr_node] at f1
              exact ⟨t'', f1, f2, by rw [f3, e2]⟩
        · -- the sibling is BLACK
          rw [delFix_L_black hXb hWb] at he
          simp only [hW.color_ptr, hWb, reduceCtorEq, if_false]
          cases hs : delStepL cp X ap kp W with
          | none => simp [hs] at he
          | some bS =>
            obtain ⟨b, S⟩ := bS
            obtain ⟨t', e1, e2, e3, e4⟩ := left_tail_spec h (by simpa using hpar) hs fuel
            rw [e3]
            cases b with
            | true =>
              simp only [hs, Option.some_bind, if_true, Option.some.injEq] at he
              subst he
              simp only [if_true]
              obtain ⟨t'', f1, f2, f3⟩ := erase_fixup_root_spec e1 fuel (by omega)
              exact ⟨t'', f1, f2, by rw [f3, e2]⟩
            | false =>
              simp only [hs, Option.some_bind, Bool.false_eq_true, if_false] at he
              simp only [Bool.false_eq_true, if_false]
              obtain ⟨W', rfl⟩ := delStepL_false hs
              obtain ⟨t'', f1, f2, f3⟩ := ih _ t' T' e1 (by simp) he fuel (by omega)
              simp only [ptr_node] at f1
              exact ⟨t'', f1, f2, by rw [f3, e2]⟩
      | R cp W ap kp =>
        have hpx : t.parent (ptr t.nil X) = ap := h.parent_ptr (by simpa using hpar)
        have hP := h.upR
        have hW := hP.downL
        have hWn : W ≠ ATree.leaf := by
          rintro rfl
          rw [delFix_R_black hXb rootColor_leaf] at he
          simp [delStepR] at he
        have hxw : ptr t.nil X ≠ ptr t.nil W := by
          cases W with
          | leaf => exact absurd rfl hWn
          | node cw wl w kw wr =>
            cases X with
            | leaf => simpa using hW.ne_nil.symm
            | node cx xl x kx xr => exact h.ne_sibR
        rw [erase_fixup_unfold]
        simp only [hxc, hxr, ne_eq, not_false_eq_true, and_self, if_true, hpx, hP.left_eq,
          hP.right_eq, hxw, if_false]
        rcases not_red_node_cases W with ⟨wl, w, kw, wr, rfl⟩ | hWb
        · -- case 1
          have k1 := hW.setColor RBTREE_BLACK
          have k2 := k1.upL.setColor RBTREE_RED
          obtain ⟨k3, n3, m3⟩ := k2.rotR
          simp only [setColor_nil] at n3 m3
          have k3X := k3.downR.downR
          have hpar3 : X = ATree.leaf →
              (right_rotate ((t.setColor w RBTREE_BLACK).setColor ap RBTREE_RED) ap).parent
                (right_rotate ((t.setColor w RBTREE_BLACK).setColor ap RBTREE_RED) ap).nil
                  = ap := by
            intro e
            rw [n3, parent_nil_of_mem m3]
            simpa using hpar e
          have hp3 := k3X.parent_ptr (by simpa using hpar3)
          simp only [n3, pptr_R] at hp3
          rw [delFix_R_red hXb] at he
          simp only [ptr_node, hW.color_eq, if_true, setColor_parent, hpx, hp3,
            k3.downR.left_eq, n3]
          cases hs : delStepR RBTREE_RED wr ap kp X with
          | none => simp [hs] at he
          | some bS =>
            obtain ⟨b, S⟩ := bS
            obtain ⟨t', e1, e2, e3, e4⟩ := right_tail_spec k3X hpar3 hs fuel
            simp only [n3] at e3 e2
            rw [e3]
            cases b with
            | true =>
              simp only [hs, Option.some_bind, if_true, Option.some.injEq] at he
              subst he
              simp only [if_true]
              obtain ⟨t'', f1, f2, f3⟩ := erase_fixup_root_spec e1 fuel (by omega)
              exact ⟨t'', f1, f2, by rw [f3, e2]⟩
            | false =>
              simp only [hs, Option.some_bind, Bool.false_eq_true, if_false,
                Option.some.injEq] at he
              subst he
              simp only [Bool.false_eq_true, if_false]
              obtain ⟨W', rfl⟩ := delStepR_false hs
              obtain ⟨t'', f1, f2, f3⟩ := erase_fixup_red_spec e1 rfl fuel (by omega)
              simp only [ptr_node] at f1
              exact ⟨t'', f1, f2, by rw [f3, e2]⟩
        · -- the sibling is BLACK
          rw [delFix_R_black hXb hWb] at he
          simp only [hW.color_ptr, hWb, reduceCtorEq, if_false]
          cases hs : delStepR cp W ap kp X with
          | none => simp [hs] at he
          | some bS =>
            obtain ⟨b, S⟩ := bS
            obtain ⟨t', e1, e2, e3, e4⟩ := right_tail_spec h (by simpa using hpar) hs fuel
            rw [e3]
            cases b with
            | true =>
              simp only [hs, Option.some_bind, if_true, Option.some.injEq] at he
              subst he
              simp only [if_true]
              obtain ⟨t'', f1, f2, f3⟩ := erase_fixup_root_spec e1 fuel (by omega)
              exact ⟨t'', f1, f2, by rw [f3, e2]⟩
            | false =>
              simp only [hs, Option.some_bind, Bool.false_eq_true, if_false] at he
              simp only [Bool.false_eq_true, if_false]
              obtain ⟨W', rfl⟩ := delStepR_false hs
              obtain ⟨t'', f1, f2, f3⟩ := ih _ t' T' e1 (by simp) he fuel (by omega)
              simp only [ptr_node] at f1
              exact ⟨t'', f1, f2, by rw [f3, e2]⟩

/-! ## Unlinking a node: `rbtree_transplant` and the relinking steps of `rbtree_erase` -/

@[simp] theorem transplant_nil (t : rbtree) (u v : Nat) : (rbtree_transplant t u v).nil = t.nil := by
  simp only [rbtree_transplant]
  split
  · rfl
  · split <;> rfl

/-- `rbtree_transplant` writes the child link of `u`'s parent (or the root
reference) and the parent field of `v`. -/
theorem transplant_frame (t : rbtree) (u v b : Nat) (h1 : b ≠ v)
    (h2 : b ≠ t.parent u ∨ t.parent u = t.nil) : (rbtree_transplant t u v).mem b = t.mem b := by
  simp only [rbtree_transplant]
  split
  · simp [rbtree.setParent, rbtree.setRoot, Function.update_apply, h1]
  · rename_i hpu
    have h3 : b ≠ t.parent u := by
      rcases h2 with h2 | h2
      · exact h2
      · exact absurd h2 hpu
    split <;>
      simp [rbtree.setParent, rbtree.setLeft, rbtree.setRight, Function.update_apply, h1, h3]

/-- `rbtree_transplant(t, u, v)` at the focus: the subtree `V` (held anywhere
in the heap) takes the place of the node `u`. -/
theorem Foc.transplant {t : rbtree} {p : Path} {cu : color_t} {l r V : ATree} {u par0 : Nat}
    {ku : key_t} (h : Foc t p (ATree.node cu l u ku r)) (hV : Rep t.mem t.nil par0 V)
    (hnd : (addrs (plug V p)).Nodup) (hnn : NULL ∉ addrs (plug V p))
    (hnl : t.nil ∉ addrs (plug V p)) :
    Foc (rbtree_transplant t u (ptr t.nil V)) p V ∧
      (rbtree_transplant t u (ptr t.nil V)).parent (ptr t.nil V) = pptr t.nil p := by
  have hpath := h.path
  have hg := h.glob
  have hnb := h.glob.nilblack
  have hroot := h.glob.root
  have hu := h.cell
  have hun := h.ne_nil
  have hnn0 := h.glob.nilnn
  have hup := h.notin.2.2
  have gnd := hnd
  have gnn := hnn
  have gnl := hnl
  simp only [rbtree.color] at hnb
  simp only [rbtree_transplant, rbtree.setRight, rbtree.setLeft, rbtree.setParent,
    rbtree.setRoot, rbtree.left, rbtree.right, rbtree.parent, rbtree.color]
  rcases V with _ | ⟨cv, vl, v, kv, vr⟩ <;>
    rcases p with _ | ⟨⟨c, a, k, r'⟩ | ⟨c, l', a, k⟩, up⟩
  all_goals
    simp only [addrs_plug, addrs_node, addrs_leaf, baddrs, aaddrs] at hnd hnn hnl hup
    simp only [List.nodup_append, List.nodup_cons, List.disjoint_append_left,
      List.disjoint_append_right, List.disjoint_cons_left, List.disjoint_cons_right,
      List.mem_append, List.mem_cons, not_or, List.map_append, List.map_cons, List.map_nil,
      List.append_assoc, List.cons_append, List.nil_append, List.append_nil,
      List.not_mem_nil, not_false_eq_true, List.nodup_nil, List.disjoint_nil_left,
      List.disjoint_nil_right, true_and, and_true] at hnd hnn hnl hup
    simp only [Rep, RepPath, ptr_node, ptr_leaf, pptr_L, pptr_R, pptr_nil, true_and, and_true]
      at hpath hV hu
  · -- V leaf, u root
    refine ⟨⟨?_, ?_, ⟨?_, gnd, gnn, ?_, ?_, ?_⟩⟩, ?_⟩ <;>
      simp [Function.update_apply, Rep, RepPath, plug, addrs_leaf, rbtree.color, hu, hnb, hnn0]
  · -- V leaf, u a left child
    have hne : a ≠ t.nil ∧ t.nil ≠ a := by omega
    refine ⟨⟨?_, ?_, ⟨?hr, gnd, gnn, ?_, ?_, ?_⟩⟩, ?_⟩
    case hr =>
      simp [Function.update_apply, hpath, hne, hu]
      rw [hroot]; exact ptr_plug_cons _ _ _ _ _
    all_goals
      simp [Function.update_apply, Rep, RepPath, Rep_update_iff, RepPath_update_iff, plug,
        addrs_plug, addrs_node, addrs_leaf, baddrs, aaddrs, rbtree.color, hpath, hne, hnd,
        hnb, hu, hnl, hnn, hnn0, hup]
  · -- V leaf, u a right child
    have hne : a ≠ t.nil ∧ t.nil ≠ a := by omega
    have hpl : u ≠ ptr t.nil l' := h.ne_sibR
    refine ⟨⟨?_, ?_, ⟨?hr, gnd, gnn, ?_, ?_, ?_⟩⟩, ?_⟩
    case hr =>
      simp [Function.update_apply, hpath, hne, hu, hpl]
      rw [hroot]; exact ptr_plug_cons _ _ _ _ _
    all_goals
      simp [Function.update_apply, Rep, RepPath, Rep_update_iff, RepPath_update_iff, plug,
        addrs_plug, addrs_node, addrs_leaf, baddrs, aaddrs, rbtree.color, hpath, hne, hnd,
        hnb, hu, hnl, hnn, hnn0, hup, hpl]
  · -- V a node, u root
    have hne : v ≠ t.nil ∧ t.nil ≠ v := by omega
    refine ⟨⟨?_, ?_, ⟨?_, gnd, gnn, ?_, ?_, ?_⟩⟩, ?_⟩ <;>
      simp [Function.update_apply, Rep, RepPath, Rep_update_iff, plug, addrs_node, addrs_leaf,
        rbtree.color, hu, hnb, hnn0, hV, hne, hnd, hnn, hnl]
  · -- V a node, u a left child
    have hne : a ≠ t.nil ∧ t.nil ≠ a ∧ v ≠ t.nil ∧ t.nil ≠ v ∧ a ≠ v ∧ v ≠ a := by omega
    refine ⟨⟨?_, ?_, ⟨?hr, gnd, gnn, ?_, ?_, ?_⟩⟩, ?_⟩
    case hr =>
      simp [Function.update_apply, hpath, hne, hu]
      rw [hroot]; exact ptr_plug_cons _ _ _ _ _
    all_goals
      simp [Function.update_apply, Rep, RepPath, Rep_update_iff, RepPath_update_iff, plug,
        addrs_plug, addrs_node, addrs_leaf, baddrs, aaddrs, rbtree.color, hpath, hne, hnd,
        hnb, hu, hnl, hnn, hnn0, hup, hV]
  · -- V a node, u a right child
    have hne : a ≠ t.nil ∧ t.nil ≠ a ∧ v ≠ t.nil ∧ t.nil ≠ v ∧ a ≠ v ∧ v ≠ a := by omega
    have hpl : u ≠ ptr t.nil l' := h.ne_sibR
    refine ⟨⟨?_, ?_, ⟨?hr, gnd, gnn, ?_, ?_, ?_⟩⟩, ?_⟩
    case hr =>
      simp [Function.update_apply, hpath, hne, hu, hpl]
      rw [hroot]; exact ptr_plug_cons _ _ _ _ _
    all_goals
      simp [Function.update_apply, Rep, RepPath, Rep_update_iff, RepPath_update_iff, plug,
        addrs_plug, addrs_node, addrs_leaf, baddrs, aaddrs, rbtree.color, hpath, hne, hnd,
        hnb, hu, hnl, hnn, hnn0, hup, hV, hpl]

/-- Moving the focus down along a whole path. -/
theorem Foc.down {t : rbtree} {p : Path} (q : Path) :
    ∀ {S : ATree}, Foc t p (plug S q) → Foc t (q ++ p) S := by
  induction q with
  | nil => intro S h; exact h
  | cons f q' ih =>
    intro S h
    cases f with
    | L c a k r => exact (ih (S := ATree.node c S a k r) h).downL
    | R c l a k => exact (ih (S := ATree.node c l a k S) h).downR

/-- Moving the focus up along a whole path. -/
theorem Foc.up {t : rbtree} {p : Path} (q : Path) :
    ∀ {S : ATree}, Foc t (q ++ p) S → Foc t p (plug S q) := by
  induction q with
  | nil => intro S h; exact h
  | cons f q' ih =>
    intro S h
    cases f with
    | L c a k r => exact ih (S := ATree.node c S a k r) h.upL
    | R c l a k => exact ih (S := ATree.node c l a k S) h.upR

/-! ## The leftmost node -/

theorem minPath_append (R : ATree) (p : Path) :
    minPath R p = ((minPath R []).1 ++ p, (minPath R []).2) := by
  induction R generalizing p with
  | leaf => simp [minPath]
  | node c l a k r ihl _ =>
    cases l with
    | leaf => simp [minPath]
    | node lc ll la lk lr =>
      simp only [minPath]
      rw [ihl (Frame.L c a k r :: p), ihl [Frame.L c a k r]]
      simp

theorem plug_minPath (R : ATree) : plug (minPath R []).2 (minPath R []).1 = R := by
  induction R with
  | leaf => simp [minPath, plug]
  | node c l a k r ihl _ =>
    cases l with
    | leaf => simp [minPath, plug]
    | node lc ll la lk lr =>
      simp only [minPath]
      rw [minPath_append]
      simp only [plug_append, ihl]
      rfl

theorem minPath_node (R : ATree) (hR : R ≠ ATree.leaf) :
    ∃ cy y ky ry, (minPath R []).2 = ATree.node cy ATree.leaf y ky ry := by
  induction R with
  | leaf => exact absurd rfl hR
  | node c l a k r ihl _ =>
    cases l with
    | leaf => exact ⟨c, a, k, r, by simp [minPath]⟩
    | node lc ll la lk lr =>
      simp only [minPath]
      rw [minPath_append]
      exact ihl (by simp)

theorem length_minPath (R : ATree) : (minPath R []).1.length + 1 ≤ height R + 1 := by
  induction R with
  | leaf => simp [minPath]
  | node c l a k r ihl _ =>
    cases l with
    | leaf => simp [minPath]
    | node lc ll la lk lr =>
      simp only [minPath]
      rw [minPath_append]
      simp only [List.length_append, List.length_cons, List.length_nil, height] at ihl ⊢
      omega

/-- `rbtree_minimum` walks to the leftmost node of the subtree it is given. -/
theorem rbtree_minimum_spec {t : rbtree} (R : ATree) :
    ∀ (p : Path), Foc t p R → R ≠ ATree.leaf → ∀ fuel, height R + 1 ≤ fuel →
      rbtree_minimum fuel t (ptr t.nil R) = some (ptr t.nil (minPath R []).2) := by
  induction R with
  | leaf => intro p h hR; exact absurd rfl hR
  | node c l a k r ihl _ =>
    intro p h hR fuel hf
    obtain ⟨fuel, rfl⟩ : ∃ f, fuel = f + 1 := ⟨fuel - 1, by omega⟩
    rw [rbtree_minimum]
    cases l with
    | leaf => simp [minPath, h.left_eq]
    | node lc ll la lk lr =>
      have hl := h.downL
      simp only [ptr_node, h.left_eq, ne_eq, hl.ne_nil, not_false_eq_true, if_true]
      have := ihl _ hl (by simp) fuel (by simp only [height] at hf ⊢; omega)
      simp only [ptr_node] at this
      rw [this]
      simp only [minPath]
      rw [minPath_append (ATree.node lc ll la lk lr) [Frame.L c a k r]]

/-- Lines 277-280 of `rbtree_erase`: the node `y`, whose cell and right
subtree `RY` are in place, is put where `z` is and takes over `z`'s left
subtree and colour. -/
theorem relink_spec {t : rbtree} {p : Path} {cz cy cl : color_t} {zll zlr RY : ATree}
    {z y zla par0 rz : Nat} {kz ky zlk : key_t}
    (hpath : RepPath t.mem t.nil p z)
    (hz : t.mem z = ⟨cz, kz, pptr t.nil p, zla, rz⟩)
    (hzn : z ≠ t.nil) (hzp : z ∉ baddrs p ++ aaddrs p) (hzy : z ≠ y)
    (hzl : z ∉ addrs (ATree.node cl zll zla zlk zlr))
    (hroot : p ≠ [] → t.root = ptr t.nil (plug ATree.leaf p))
    (hL : Rep t.mem t.nil z (ATree.node cl zll zla zlk zlr))
    (hY : Rep t.mem t.nil par0 (ATree.node cy ATree.leaf y ky RY))
    (hnd : (addrs (plug (ATree.node cz (ATree.node cl zll zla zlk zlr) y ky RY) p)).Nodup)
    (hnn : NULL ∉ addrs (plug (ATree.node cz (ATree.node cl zll zla zlk zlr) y ky RY) p))
    (hnl : t.nil ∉ addrs (plug (ATree.node cz (ATree.node cl zll zla zlk zlr) y ky RY) p))
    (hnn0 : t.nil ≠ NULL) (hnb : t.color t.nil = RBTREE_BLACK) :
    Foc (erase_relink t z y) p (ATree.node cz (ATree.node cl zll zla zlk zlr) y ky RY) ∧
      (erase_relink t z y).nil = t.nil ∧ (erase_relink t z y).mem t.nil = t.mem t.nil := by
  have gnd := hnd
  have gnn := hnn
  simp only [rbtree.color] at hnb
  simp only [erase_relink, rbtree_transplant, rbtree.setRight, rbtree.setLeft,
    rbtree.setParent, rbtree.setRoot, rbtree.setColor, rbtree.left, rbtree.right,
    rbtree.parent, rbtree.color]
  rcases p with _ | ⟨⟨c, a, k, r'⟩ | ⟨c, l', a, k⟩, up⟩
  all_goals
    simp only [addrs_plug, addrs_node, addrs_leaf, baddrs, aaddrs] at hnd hnn hnl hzp hzl
    simp only [List.nodup_append, List.nodup_cons, List.disjoint_append_left,
      List.disjoint_append_right, List.disjoint_cons_left, List.disjoint_cons_right,
      List.mem_append, List.mem_cons, not_or, List.map_append, List.map_cons, List.map_nil,
      List.append_assoc, List.cons_append, List.nil_append, List.append_nil,
      List.not_mem_nil, not_false_eq_true, List.nodup_nil, List.disjoint_nil_left,
      List.disjoint_nil_right, true_and, and_true] at hnd hnn hnl hzp hzl
    simp only [Rep, RepPath, ptr_node, ptr_leaf, pptr_L, pptr_R, pptr_nil, true_and, and_true]
      at hpath hL hY hz
  · have hne : y ≠ t.nil ∧ t.nil ≠ y ∧ zla ≠ t.nil ∧ t.nil ≠ zla ∧ y ≠ zla ∧ zla ≠ y
        ∧ z ≠ zla ∧ zla ≠ z ∧ y ≠ z := by omega
    refine ⟨⟨?_, ?_, ⟨?_, gnd, gnn, ?_, ?_, ?_⟩⟩, ?_, ?_⟩ <;>
      simp [Function.update_apply, Rep, RepPath, Rep_update_iff, RepPath_update_iff, plug,
        addrs_plug, addrs_node, addrs_leaf, baddrs, aaddrs, rbtree.color, hpath, hne, hnd,
        hnb, hz, hnl, hnn, hnn0, hL, hY, hzy]
  · have hne : y ≠ t.nil ∧ t.nil ≠ y ∧ zla ≠ t.nil ∧ t.nil ≠ zla ∧ y ≠ zla ∧ zla ≠ y
        ∧ z ≠ zla ∧ zla ≠ z ∧ y ≠ z ∧ a ≠ t.nil ∧ t.nil ≠ a ∧ a ≠ y ∧ y ≠ a ∧ a ≠ zla
        ∧ zla ≠ a ∧ a ≠ z ∧ z ≠ a := by omega
    refine ⟨⟨?_, ?_, ⟨?hr, gnd, gnn, ?_, ?_, ?_⟩⟩, ?_, ?_⟩
    case hr =>
      simp [Function.update_apply, hpath, hne, hz]
      rw [hroot (by simp)]; exact ptr_plug_cons _ _ _ _ _
    all_goals
      simp [Function.update_apply, Rep, RepPath, Rep_update_iff, RepPath_update_iff, plug,
        addrs_plug, addrs_node, addrs_leaf, baddrs, aaddrs, rbtree.color, hpath, hne, hnd,
        hnb, hz, hnl, hnn, hnn0, hL, hY, hzy]
  · have hne : y ≠ t.nil ∧ t.nil ≠ y ∧ zla ≠ t.nil ∧ t.nil ≠ zla ∧ y ≠ zla ∧ zla ≠ y
        ∧ z ≠ zla ∧ zla ≠ z ∧ y ≠ z ∧ a ≠ t.nil ∧ t.nil ≠ a ∧ a ≠ y ∧ y ≠ a ∧ a ≠ zla
        ∧ zla ≠ a ∧ a ≠ z ∧ z ≠ a := by omega
    have hpl : z ≠ ptr t.nil l' := ne_ptr hzn (by tauto)
    refine ⟨⟨?_, ?_, ⟨?hr, gnd, gnn, ?_, ?_, ?_⟩⟩, ?_, ?_⟩
    case hr =>
      simp [Function.update_apply, hpath, hne, hz, hpl]
      rw [hroot (by simp)]; exact ptr_plug_cons _ _ _ _ _
    all_goals
      simp [Function.update_apply, Rep, RepPath, Rep_update_iff, RepPath_update_iff, plug,
        addrs_plug, addrs_node, addrs_leaf, baddrs, aaddrs, rbtree.color, hpath, hne, hnd,
        hnb, hz, hnl, hnn, hnn0, hL, hY, hzy, hpl]

/-- `rbtree_erase` is its unlinking part followed by the fix-up when a BLACK
node was removed. -/
theorem rbtree_erase_eq (fuel : Nat) (t : rbtree) (z : Nat) :
    rbtree_erase fuel t z =
      match erase_unlink fuel t z with
      | none => none
      | some (t, x, y_original_color) =>
        if y_original_color = RBTREE_BLACK then
          match rbtree_erase_fixup fuel t x with
          | none => none
          | some t => some (t, 0)
        else some (t, 0) := by
  rfl

/-- Facts about the whole tree carry over to a tree with a sub-list of the
addresses. -/
theorem sub_glob {U V : ATree} {p : Path} {nil : Nat} (hs : (addrs V).Sublist (addrs U))
    (hnd : (addrs (plug U p)).Nodup) (hnn : NULL ∉ addrs (plug U p))
    (hnl : nil ∉ addrs (plug U p)) :
    (addrs (plug V p)).Nodup ∧ NULL ∉ addrs (plug V p) ∧ nil ∉ addrs (plug V p) := by
  have hsub : (addrs (plug V p)).Sublist (addrs (plug U p)) := by
    rw [addrs_plug, addrs_plug]
    exact ((List.Sublist.refl _).append hs).append (List.Sublist.refl _)
  exact ⟨hnd.sublist hsub, fun h => hnn (hsub.subset h), fun h => hnl (hsub.subset h)⟩

/-- Writing `x->parent = y` for the right child `x` of `y` (line 271) changes
no node of the tree; it sets the sentinel's parent field when `x` is the
sentinel. -/
theorem Foc.setParent_child {t : rbtree} {p : Path} {c : color_t} {l r : ATree} {y : Nat}
    {k : key_t} (h : Foc t p (ATree.node c l y k r)) :
    Foc (t.setParent (ptr t.nil r) y) p (ATree.node c l y k r) ∧
      (r = ATree.leaf → (t.setParent (ptr t.nil r) y).parent t.nil = y) := by
  cases r with
  | leaf =>
    constructor
    · refine h.frame rfl rfl ?_ ?_
      · intro a ha
        have : a ≠ t.nil := by
          rintro rfl
          exact h.glob.nonnil ha
        simp [rbtree.setParent, Function.update_apply, this]
      · have := h.glob.nilblack
        simp only [rbtree.color] at this
        simp [rbtree.setParent, rbtree.color, Function.update_apply, this]
    · intro _
      simp [rbtree.setParent, rbtree.parent]
  | node cr rl ra rk rr =>
    have hc := h.downR.cell
    simp only [pptr_R] at hc
    have : t.setParent (ptr t.nil (ATree.node cr rl ra rk rr)) y = t := by
      simp only [rbtree.setParent, ptr_node]
      have : Function.update t.mem ra { t.mem ra with parent := y } = t.mem := by
        rw [hc]
        conv_rhs => rw [← Function.update_eq_self ra t.mem]
        rw [hc]
      rw [this]
    rw [this]
    exact ⟨h, by simp⟩

theorem root_of_foc {t : rbtree} {p : Path} {T : ATree} (h : Foc t p T) (hp : p ≠ []) :
    t.root = ptr t.nil (plug ATree.leaf p) := by
  rw [h.glob.root]
  cases p with
  | nil => exact absurd rfl hp
  | cons f up => exact ptr_plug_cons _ _ _ _ _

/-- Relinking when the successor `y` is the right child of `z`. -/
theorem relink_of_foc {t : rbtree} {p : Path} {cz cy cl : color_t} {zll zlr RY : ATree}
    {z y zla : Nat} {kz ky zlk : key_t}
    (h : Foc t p (ATree.node cz (ATree.node cl zll zla zlk zlr) z kz
      (ATree.node cy ATree.leaf y ky RY))) :
    Foc (erase_relink t z y) p (ATree.node cz (ATree.node cl zll zla zlk zlr) y ky RY) ∧
      (erase_relink t z y).nil = t.nil ∧ (erase_relink t z y).mem t.nil = t.mem t.nil := by
  have hs : (addrs (ATree.node cz (ATree.node cl zll zla zlk zlr) y ky RY)).Sublist
      (addrs (ATree.node cz (ATree.node cl zll zla zlk zlr) z kz
        (ATree.node cy ATree.leaf y ky RY))) := by
    simp only [addrs_node, addrs_leaf, List.nil_append]
    exact (List.Sublist.refl _).append (List.sublist_cons_self _ _)
  obtain ⟨g1, g2, g3⟩ := sub_glob hs h.glob.nodup h.glob.nonnull h.glob.nonnil
  have hn := h.notin
  have hzy : z ≠ y := by
    have := hn.2.1
    simp only [addrs_node, List.mem_append, List.mem_cons, not_or] at this
    exact this.2.1
  have hc := h.cell
  simp only [ptr_node] at hc
  exact relink_spec h.path hc h.ne_nil hn.2.2 hzy hn.1 (root_of_foc h) h.rep.2.2.1
    h.rep.2.2.2 g1 g2 g3 h.glob.nilnn h.glob.nilblack

theorem plug_ne_leaf {S : ATree} {q : Path} (hq : q ≠ []) : plug S q ≠ ATree.leaf := by
  induction q generalizing S with
  | nil => exact absurd rfl hq
  | cons f q' ih =>
    cases q' with
    | nil => cases f <;> simp [plug]
    | cons g q'' =>
      cases f with
      | L c a k r => exact ih (S := ATree.node c S a k r) (by simp)
      | R c l a k => exact ih (S := ATree.node c l a k S) (by simp)

theorem nodup_replace {l1 l2 : List Nat} {z y : Nat} (h : (l1 ++ z :: l2).Nodup)
    (hy : y ∉ l1 ++ z :: l2) : (l1 ++ y :: l2).Nodup := by
  rw [List.nodup_middle] at h ⊢
  rw [List.nodup_cons] at h ⊢
  refine ⟨?_, h.2⟩
  simp only [List.mem_append, List.mem_cons, not_or] at hy ⊢
  tauto

theorem notin_replace {l1 l2 : List Nat} {z y a : Nat} (h : a ∉ l1 ++ z :: l2) (hy : a ≠ y) :
    a ∉ l1 ++ y :: l2 := by
  simp only [List.mem_append, List.mem_cons, not_or] at h ⊢
  tauto

theorem addrs_plug_node (c : color_t) (l : ATree) (a : Nat) (k : key_t) (r : ATree) (p : Path) :
    addrs (plug (ATree.node c l a k r) p) = (baddrs p ++ addrs l) ++ a :: (addrs r ++ aaddrs p) := by
  simp [addrs_plug, addrs_node]

/-- Relinking when the successor `y` has already been taken out of the tree
(lines 274-280): `y` is a node outside the tree whose cell still holds its
colour and key. -/
theorem relink_detached {t : rbtree} {p : Path} {cz cy cl cr : color_t}
    {zll zlr rl rr : ATree} {z y zla ra py ry0 : Nat} {kz ky zlk rk : key_t}
    (h : Foc t p (ATree.node cz (ATree.node cl zll zla zlk zlr) z kz
      (ATree.node cr rl ra rk rr)))
    (hy : t.mem y = ⟨cy, ky, py, t.nil, ry0⟩) (hyn : y ≠ t.nil) (hy0 : y ≠ NULL)
    (hyf : y ∉ addrs (plug (ATree.node cz (ATree.node cl zll zla zlk zlr) z kz
      (ATree.node cr rl ra rk rr)) p)) :
    Foc (erase_relink ((t.setRight y (t.right z)).setParent
        ((t.setRight y (t.right z)).right y) y) z y) p
        (ATree.node cz (ATree.node cl zll zla zlk zlr) y ky (ATree.node cr rl ra rk rr)) ∧
      (erase_relink ((t.setRight y (t.right z)).setParent
        ((t.setRight y (t.right z)).right y) y) z y).nil = t.nil ∧
      (erase_relink ((t.setRight y (t.right z)).setParent
        ((t.setRight y (t.right z)).right y) y) z y).mem t.nil = t.mem t.nil := by
  have hc := h.cell
  have hn := h.notin
  have hra := h.downR.cell
  have hrep := h.rep
  have hpath := h.path
  have gnd := h.glob.nodup
  have gnn := h.glob.nonnull
  have gnl := h.glob.nonnil
  have hnd := gnd
  have hyf' := hyf
  have hnl := gnl
  have hzp := hn.2.2
  have hnb := h.glob.nilblack
  simp only [rbtree.color] at hnb
  simp only [ptr_node, pptr_R] at hc hra hpath
  simp only [addrs_plug, addrs_node] at hnd hnl hyf'
  simp only [List.nodup_append, List.nodup_cons, List.disjoint_append_left,
    List.disjoint_append_right, List.disjoint_cons_left, List.disjoint_cons_right,
    List.mem_append, List.mem_cons, not_or] at hnd hnl hyf' hzp
  simp only [Rep, ptr_node] at hrep
  have hne : y ≠ ra ∧ ra ≠ y ∧ y ≠ z ∧ z ≠ y ∧ z ≠ ra ∧ ra ≠ z ∧ t.nil ≠ y ∧ t.nil ≠ ra
      ∧ y ≠ zla ∧ zla ≠ y ∧ zla ≠ ra ∧ ra ≠ zla := by omega
  obtain ⟨t3, ht3⟩ : ∃ t3, t3 = (t.setRight y (t.right z)).setParent
      ((t.setRight y (t.right z)).right y) y := ⟨_, rfl⟩
  have hnil3 : t3.nil = t.nil := by rw [ht3]; rfl
  have hroot3 : t3.root = t.root := by rw [ht3]; rfl
  have hmem3 : t3.mem = Function.update (Function.update t.mem y ⟨cy, ky, py, t.nil, ra⟩)
      ra ⟨cr, rk, y, ptr t.nil rl, ptr t.nil rr⟩ := by
    rw [ht3]
    simp [rbtree.setRight, rbtree.setParent, rbtree.right, hc, hy, hra, hne,
      Function.update_apply]
  rw [← ht3]
  have k1 : RepPath t3.mem t3.nil p z := by
    rw [hmem3, hnil3, RepPath_update_iff (by simp [hnd]) (by simp [hnd]),
      RepPath_update_iff (by simp [hyf']) (by simp [hyf'])]
    exact hpath
  have k2 : t3.mem z = ⟨cz, kz, pptr t3.nil p, zla, ra⟩ := by
    rw [hmem3, hnil3]
    simp [Function.update_apply, hne, hc]
  have k3 : p ≠ [] → t3.root = ptr t3.nil (plug ATree.leaf p) := by
    intro hp
    rw [hroot3, hnil3]
    exact root_of_foc h hp
  have k4 : Rep t3.mem t3.nil z (ATree.node cl zll zla zlk zlr) := by
    rw [hmem3, hnil3, Rep_update_iff, Rep_update_iff]
    · exact h.rep.2.2.1
    · simp [addrs_node, hyf', hne]
    · simp [addrs_node, hnd, hne]
  have k5 : Rep t3.mem t3.nil py (ATree.node cy ATree.leaf y ky (ATree.node cr rl ra rk rr)) := by
    rw [hmem3, hnil3]
    simp only [Rep, ptr_node, ptr_leaf, true_and]
    refine ⟨hyn, ?_, hrep.2.2.2.1, ?_, ?_, ?_⟩
    · simp [Function.update_apply, hne]
    · simp [Function.update_apply, hne]
    · rw [Rep_update_iff (by simp [hnd]), Rep_update_iff (by simp [hyf'])]
      exact hrep.2.2.2.2.2.1
    · rw [Rep_update_iff (by simp [hnd]), Rep_update_iff (by simp [hyf'])]
      exact hrep.2.2.2.2.2.2
  have k6 : (addrs (plug (ATree.node cz (ATree.node cl zll zla zlk zlr) y ky
      (ATree.node cr rl ra rk rr)) p)).Nodup := by
    rw [addrs_plug_node] at gnd hyf ⊢
    exact nodup_replace gnd hyf
  have k7 : NULL ∉ addrs (plug (ATree.node cz (ATree.node cl zll zla zlk zlr) y ky
      (ATree.node cr rl ra rk rr)) p) := by
    rw [addrs_plug_node] at gnn ⊢
    exact notin_replace gnn hy0.symm
  have k8 : t3.nil ∉ addrs (plug (ATree.node cz (ATree.node cl zll zla zlk zlr) y ky
      (ATree.node cr rl ra rk rr)) p) := by
    rw [hnil3]
    rw [addrs_plug_node] at gnl ⊢
    exact notin_replace gnl hyn.symm
  have k9 : t3.color t3.nil = RBTREE_BLACK := by
    rw [hnil3]
    simp [rbtree.color, hmem3, Function.update_apply, hne, hnb]
  have k10 : t3.nil ≠ NULL := by rw [hnil3]; exact h.glob.nilnn
  obtain ⟨r1, r2, r3⟩ := relink_spec k1 k2 (by rw [hnil3]; exact h.ne_nil) hn.2.2 hne.2.2.2.1
    hn.1 k3 k4 k5 k6 k7 k8 k10 k9
  refine ⟨r1, by rw [r2, hnil3], ?_⟩
  rw [hnil3] at r3
  rw [r3, hmem3]
  simp [Function.update_apply, hne]

theorem pptr_mem (nil : Nat) (f : Frame) (q p : Path) :
    pptr nil ((f :: q) ++ p) ∈ baddrs (f :: q) ++ aaddrs (f :: q) := by
  cases f <;> simp [baddrs, aaddrs]

theorem pptr_cons_append (nil : Nat) (f : Frame) (q p p2 : Path) :
    pptr nil ((f :: q) ++ p) = pptr nil ((f :: q) ++ p2) := by
  cases f <;> rfl

/-- The unlinking part of `rbtree_erase` computes `unlinkAt` on the
represented tree; when `x` is the sentinel, its parent field leads to the
position of `x`. -/
theorem unlink_spec {t : rbtree} {p p' : Path} {cz c : color_t} {zl zr X : ATree} {z : Nat}
    {kz : key_t} (h : Foc t p (ATree.node cz zl z kz zr))
    (hu : unlinkAt p cz zl zr = some (p', X, c)) (fuel : Nat) (hf : height zr + 1 ≤ fuel) :
    ∃ t1, erase_unlink fuel t z = some (t1, ptr t.nil X, c) ∧ Foc t1 p' X ∧
      (X = ATree.leaf → t1.parent t1.nil = pptr t1.nil p') ∧ t1.nil = t.nil := by
  cases zl with
  | leaf =>
    -- no left child: the right child takes the place of `z`
    simp only [unlinkAt, Option.some.injEq, Prod.mk.injEq] at hu
    obtain ⟨rfl, rfl, rfl⟩ := hu
    have hs : (addrs zr).Sublist (addrs (ATree.node cz ATree.leaf z kz zr)) := by
      simp only [addrs_node, addrs_leaf, List.nil_append]
      exact List.sublist_cons_self _ _
    obtain ⟨g1, g2, g3⟩ := sub_glob hs h.glob.nodup h.glob.nonnull h.glob.nonnil
    obtain ⟨k1, k2⟩ := h.transplant h.rep.2.2.2 g1 g2 g3
    refine ⟨_, ?_, k1, ?_, transplant_nil _ _ _⟩
    · simp [erase_unlink, h.left_eq, h.right_eq, h.color_eq]
    · intro e
      subst e
      simpa using k2
  | node cl zll zla zlk zlr =>
    cases zr with
    | leaf =>
      -- no right child: the left child takes the place of `z`
      simp only [unlinkAt, Option.some.injEq, Prod.mk.injEq] at hu
      obtain ⟨rfl, rfl, rfl⟩ := hu
      have hs : (addrs (ATree.node cl zll zla zlk zlr)).Sublist
          (addrs (ATree.node cz (ATree.node cl zll zla zlk zlr) z kz ATree.leaf)) := by
        simp only [addrs_node, addrs_leaf, List.append_nil]
        exact List.sublist_append_left _ _
      obtain ⟨g1, g2, g3⟩ := sub_glob hs h.glob.nodup h.glob.nonnull h.glob.nonnil
      obtain ⟨k1, k2⟩ := h.transplant h.rep.2.2.1 g1 g2 g3
      refine ⟨_, ?_, k1, by simp, transplant_nil _ _ _⟩
      simp [erase_unlink, h.left_eq, h.right_eq, h.color_eq, h.downL.ne_nil]
    | node cr rl ra rk rr =>
      -- two children: the successor `y` takes the place of `z`
      obtain ⟨cy, y, ky, ry, hY⟩ := minPath_node (ATree.node cr rl ra rk rr) (by simp)
      have hplug := plug_minPath (ATree.node cr rl ra rk rr)
      have hlen := length_minPath (ATree.node cr rl ra rk rr)
      have hR := h.downR
      have hmin := rbtree_minimum_spec _ _ hR (by simp) fuel hf
      obtain ⟨q, hq⟩ : ∃ q, q = (minPath (ATree.node cr rl ra rk rr) []).1 := ⟨_, rfl⟩
      have hm : minPath (ATree.node cr rl ra rk rr) [] =
          (q, ATree.node cy ATree.leaf y ky ry) := by
        rw [hq, ← hY]
      rw [hm] at hplug hmin
      simp only [ptr_node] at hmin
      simp only at hplug
      simp only [unlinkAt, hm, Option.some.injEq, Prod.mk.injEq] at hu
      obtain ⟨rfl, rfl, rfl⟩ := hu
      have hYf : Foc t (q ++ Frame.R cz (ATree.node cl zll zla zlk zlr) z kz :: p)
          (ATree.node cy ATree.leaf y ky ry) := Foc.down q (by rw [hplug]; exact hR)
      have hcy := hYf.cell
      have hun : erase_unlink fuel t z = some
          (erase_relink
            (if t.parent y = z then t.setParent (t.right y) y
             else ((rbtree_transplant t y (t.right y)).setRight y
                ((rbtree_transplant t y (t.right y)).right z)).setParent
                  (((rbtree_transplant t y (t.right y)).setRight y
                    ((rbtree_transplant t y (t.right y)).right z)).right y) y) z y,
            t.right y, t.color y) := by
        simp [erase_unlink, h.left_eq, h.right_eq, hR.ne_nil, h.downL.ne_nil, hmin]
      rw [hun, hYf.right_eq, hYf.color_eq]
      cases q with
      | nil =>
        simp only [plug] at hplug
        simp only [List.nil_append] at hYf hcy ⊢
        have hpy : t.parent y = z := by simpa using hYf.parent_eq
        simp only [hpy, if_true]
        obtain ⟨h1, h1p⟩ := hYf.setParent_child
        obtain ⟨r1, r2, r3⟩ := relink_of_foc h1.upR
        simp only [setParent_nil] at r2 r3
        refine ⟨_, rfl, r1.downR, ?_, r2⟩
        intro e
        rw [r2, pptr_R, parent_nil_of_mem r3]
        exact h1p e
      | cons f q' =>
        have hpy : t.parent y =
            pptr t.nil ((f :: q') ++ Frame.R cz (ATree.node cl zll zla zlk zlr) z kz :: p) := by
          simpa using hYf.parent_eq
        have hamem := pptr_mem t.nil f q'
          (Frame.R cz (ATree.node cl zll zla zlk zlr) z kz :: p)
        have haz : t.parent y ≠ z := by
          rw [hpy]
          intro e
          have hzR := h.notin.2.1
          rw [← hplug, addrs_plug] at hzR
          rw [e] at hamem
          simp only [List.mem_append, not_or] at hzR hamem
          tauto
        simp only [haz, if_false]
        have hs : (addrs ry).Sublist (addrs (ATree.node cy ATree.leaf y ky ry)) := by
          simp only [addrs_node, addrs_leaf, List.nil_append]
          exact List.sublist_cons_self _ _
        obtain ⟨g1, g2, g3⟩ := sub_glob hs hYf.glob.nodup hYf.glob.nonnull hYf.glob.nonnil
        obtain ⟨k1, k2⟩ := hYf.transplant hYf.rep.2.2.2 g1 g2 g3
        have hT1 := (Foc.up (f :: q') k1).upR
        have hyn := hYf.notin
        have hy_ne_x : y ≠ ptr t.nil ry := ne_ptr hYf.ne_nil hyn.2.1
        have hy_ne_a : y ≠ t.parent y := by
          rw [hpy]
          intro e
          rw [← e] at hamem
          have := hyn.2.2
          rw [List.mem_append] at hamem
          simp only [List.mem_append, not_or] at this
          rcases hamem with hb | ha
          · exact this.1 (by
              have : baddrs ((f :: q') ++ Frame.R cz (ATree.node cl zll zla zlk zlr) z kz :: p)
                  = baddrs (Frame.R cz (ATree.node cl zll zla zlk zlr) z kz :: p)
                    ++ baddrs (f :: q') := baddrs_append _ _
              rw [this]
              exact List.mem_append_right _ hb)
          · exact this.2 (by
              have : aaddrs ((f :: q') ++ Frame.R cz (ATree.node cl zll zla zlk zlr) z kz :: p)
                  = aaddrs (f :: q')
                    ++ aaddrs (Frame.R cz (ATree.node cl zll zla zlk zlr) z kz :: p) :=
                aaddrs_append _ _
              rw [this]
              exact List.mem_append_left _ ha)
        have hy1 : (rbtree_transplant t y (ptr t.nil ry)).mem y
            = ⟨cy, ky, t.parent y, t.nil, ptr t.nil ry⟩ := by
          rw [transplant_frame t y (ptr t.nil ry) y hy_ne_x (Or.inl hy_ne_a), hcy, hpy]
          rfl
        have hyf : y ∉ addrs (plug (ATree.node cz (ATree.node cl zll zla zlk zlr) z kz
            (plug ry (f :: q'))) p) := by
          have e : plug (ATree.node cz (ATree.node cl zll zla zlk zlr) z kz (plug ry (f :: q'))) p
              = plug ry ((f :: q') ++ Frame.R cz (ATree.node cl zll zla zlk zlr) z kz :: p) := by
            rw [plug_append]; rfl
          rw [e, addrs_plug]
          simp only [List.mem_append, not_or] at hyn ⊢
          tauto
        obtain ⟨cr', rl', ra', rk', rr', hR'⟩ :
            ∃ cr' rl' ra' rk' rr', plug ry (f :: q') = ATree.node cr' rl' ra' rk' rr' := by
          have := plug_ne_leaf (S := ry) (q := f :: q') (by simp)
          cases hh : plug ry (f :: q') with
          | leaf => exact absurd hh this
          | node a1 a2 a3 a4 a5 => exact ⟨_, _, _, _, _, rfl⟩
        rw [hR'] at hT1 hyf
        have hy1' : (rbtree_transplant t y (ptr t.nil ry)).mem y
            = ⟨cy, ky, t.parent y, (rbtree_transplant t y (ptr t.nil ry)).nil, ptr t.nil ry⟩ := by
          rw [transplant_nil]; exact hy1
        obtain ⟨r1, r2, r3⟩ := relink_detached hT1 hy1' (by simpa using hYf.ne_nil)
          (fun e => hYf.glob.nonnull (by
            rw [addrs_plug, addrs_node, ← e]; simp)) hyf
        simp only [transplant_nil] at r2 r3
        rw [← hR'] at r1
        refine ⟨_, rfl, Foc.down (f :: q') r1.downR, ?_, r2⟩
        intro e
        subst e
        rw [r2, parent_nil_of_mem r3]
        simp only [ptr_leaf] at k2 ⊢
        rw [k2]
        exact pptr_cons_append _ _ _ _ _

theorem height_plug (S : ATree) (p : Path) : height S + p.length ≤ height (plug S p) := by
  induction p generalizing S with
  | nil => simp [plug]
  | cons f up ih =>
    cases f with
    | L c a k r =>
      have := ih (ATree.node c S a k r)
      simp only [plug, height, List.length_cons] at this ⊢
      omega
    | R c l a k =>
      have := ih (ATree.node c l a k S)
      simp only [plug, height, List.length_cons] at this ⊢
      omega

theorem unlinkAt_length {p p' : Path} {cz c : color_t} {zl zr X : ATree}
    (hu : unlinkAt p cz zl zr = some (p', X, c)) : p'.length ≤ height zr + 1 + p.length := by
  cases zl with
  | leaf =>
    simp only [unlinkAt, Option.some.injEq, Prod.mk.injEq] at hu
    obtain ⟨rfl, -, -⟩ := hu
    omega
  | node cl zll zla zlk zlr =>
    cases zr with
    | leaf =>
      simp only [unlinkAt, Option.some.injEq, Prod.mk.injEq] at hu
      obtain ⟨rfl, -, -⟩ := hu
      omega
    | node cr rl ra rk rr =>
      obtain ⟨cy, y, ky, ry, hY⟩ := minPath_node (ATree.node cr rl ra rk rr) (by simp)
      have hlen := length_minPath (ATree.node cr rl ra rk rr)
      obtain ⟨q, hq⟩ : ∃ q, q = (minPath (ATree.node cr rl ra rk rr) []).1 := ⟨_, rfl⟩
      have hm : minPath (ATree.node cr rl ra rk rr) [] =
          (q, ATree.node cy ATree.leaf y ky ry) := by
        rw [hq, ← hY]
      rw [← hq] at hlen
      simp only [unlinkAt, hm, Option.some.injEq, Prod.mk.injEq] at hu
      obtain ⟨rfl, -, -⟩ := hu
      simp only [List.length_append, List.length_cons]
      omega

/-- `rbtree_erase` computes `eraseAt` on the represented tree and returns 0. -/
theorem rbtree_erase_spec {t : rbtree} {p : Path} {cz : color_t} {zl zr T' : ATree} {z : Nat}
    {kz : key_t} (h : Foc t p (ATree.node cz zl z kz zr))
    (he : eraseAt p cz zl zr = some T') (fuel : Nat)
    (hf : height (plug (ATree.node cz zl z kz zr) p) + 2 ≤ fuel) :
    ∃ t', rbtree_erase fuel t z = some (t', 0) ∧ TreeRep t' T' ∧ t'.nil = t.nil := by
  have hh := height_plug (ATree.node cz zl z kz zr) p
  simp only [height] at hh
  simp only [eraseAt] at he
  cases hu : unlinkAt p cz zl zr with
  | none => simp [hu] at he
  | some r =>
    obtain ⟨p', X, c⟩ := r
    simp only [hu] at he
    have hl := unlinkAt_length hu
    obtain ⟨t1, e1, e2, e3, e4⟩ := unlink_spec h hu fuel (by omega)
    rw [rbtree_erase_eq, e1]
    by_cases hc : c = RBTREE_BLACK
    · simp only [hc, if_true] at he ⊢
      obtain ⟨t', f1, f2, f3⟩ := erase_fixup_spec p' X t1 T' e2 e3 he fuel (by omega)
      rw [← e4, f1]
      exact ⟨t', rfl, f2, by rw [f3, e4]⟩
    · simp only [hc, if_false, Option.some.injEq] at he ⊢
      subst he
      exact ⟨t1, rfl, e2.toRoot, e4⟩

/-! ## The red-black invariants through the erase fix-up -/

theorem pathOK_black_of_red {p : Path} {n : Nat} (h : pathOK p RBTREE_RED n) :
    pathOK p RBTREE_BLACK n := by
  cases p with
  | nil => simp [pathOK] at h
  | cons f up =>
    cases f with
    | L pc a k r =>
      cases pc <;> simp_all [pathOK]
    | R pc l a k =>
      cases pc <;> simp_all [pathOK]

theorem pathOK_black {p : Path} {c : color_t} {n : Nat} (h : pathOK p c n) :
    pathOK p RBTREE_BLACK n := by
  cases c with
  | RBTREE_RED => exact pathOK_black_of_red h
  | RBTREE_BLACK => exact h

theorem noRedRed_blacken {T : ATree} (h : noRedRed T) : noRedRed (blacken T) := by
  cases T with
  | leaf => trivial
  | node c l a k r =>
    simp only [noRedRed, blacken_node] at h ⊢
    exact ⟨by simp, h.2⟩

theorem equalBH_blacken {T : ATree} : equalBH (blacken T) ↔ equalBH T := by
  cases T <;> simp [equalBH]

theorem ne_leaf_of_blackHeight {T : ATree} {n : Nat} (h : blackHeight T = n + 1) :
    T ≠ ATree.leaf := by
  rintro rfl
  simp [blackHeight] at h

/-- Cases 2 to 4 for a left child keep the subtree below the parent in order:
through case 4 the black-heights are restored, through case 2 the subtree is
one short and the loop goes on at the parent. -/
theorem delStepL_ok (cp : color_t) {X W : ATree} (ap : Nat) (kp : key_t)
    (hX1 : rootColor X = RBTREE_BLACK) (hX2 : noRedRed X) (hX3 : equalBH X)
    (hW1 : rootColor W = RBTREE_BLACK) (hW2 : noRedRed W) (hW3 : equalBH W)
    (hW4 : blackHeight W = blackHeight X + 1) :
    ∃ b S, delStepL cp X ap kp W = some (b, S) ∧ equalBH S ∧ rootColor S = cp ∧
      (b = true → noRedRed S ∧
        blackHeight S = blackHeight X + 1 + (if cp = RBTREE_BLACK then 1 else 0)) ∧
      (b = false → noRedRed (blacken S) ∧
        blackHeight S = blackHeight X + (if cp = RBTREE_BLACK then 1 else 0)) := by
  cases W with
  | leaf => simp [blackHeight] at hW4
  | node cw wl w kw wr =>
    simp only [rootColor_node] at hW1
    subst hW1
    simp only [noRedRed, equalBH, blackHeight, if_true, reduceCtorEq, false_implies,
      true_and] at hW2 hW3 hW4
    simp only [delStepL]
    split
    · rename_i hc
      refine ⟨false, _, rfl, ?_, rfl, by simp, fun _ => ⟨?_, ?_⟩⟩
      all_goals try simp [noRedRed, equalBH, blackHeight]
      all_goals repeat' apply And.intro
      all_goals first | assumption | omega | tauto
    · rename_i hc
      split
      · rename_i hr
        have hlc : rootColor wl ≠ RBTREE_BLACK := fun e => hc ⟨e, hr⟩
        cases wl with
        | leaf => simp at hlc
        | node cl wll wla wlk wlr =>
          simp only [rootColor_node] at hlc
          have hcl : cl = RBTREE_RED := by
            cases cl with
            | RBTREE_RED => rfl
            | RBTREE_BLACK => exact absurd rfl hlc
          subst hcl
          simp [noRedRed, equalBH, blackHeight] at hW2 hW3 hW4
          refine ⟨true, _, rfl, ?_, rfl, fun _ => ⟨?_, ?_⟩, by simp⟩
          all_goals try simp [noRedRed, equalBH, blackHeight]
          all_goals repeat' apply And.intro
          all_goals first | assumption | omega | tauto
      · rename_i hr
        cases wr with
        | leaf => simp at hr
        | node cr wrl wra wrk wrr =>
          simp only [rootColor_node] at hr
          have hcr : cr = RBTREE_RED := by
            cases cr with
            | RBTREE_RED => rfl
            | RBTREE_BLACK => exact absurd rfl hr
          subst hcr
          simp [noRedRed, equalBH, blackHeight] at hW2 hW3 hW4
          refine ⟨true, _, rfl, ?_, rfl, fun _ => ⟨?_, ?_⟩, by simp⟩
          all_goals try simp [noRedRed, equalBH, blackHeight]
          all_goals repeat' apply And.intro
          all_goals first | assumption | omega | tauto

/-- Cases 2 to 4 for a right child (mirror image of `delStepL_ok`). -/
theorem delStepR_ok (cp : color_t) {X W : ATree} (ap : Nat) (kp : key_t)
    (hX1 : rootColor X = RBTREE_BLACK) (hX2 : noRedRed X) (hX3 : equalBH X)
    (hW1 : rootColor W = RBTREE_BLACK) (hW2 : noRedRed W) (hW3 : equalBH W)
    (hW4 : blackHeight W = blackHeight X + 1) :
    ∃ b S, delStepR cp W ap kp X = some (b, S) ∧ equalBH S ∧ rootColor S = cp ∧
      (b = true → noRedRed S ∧
        blackHeight S = blackHeight X + 1 + (if cp = RBTREE_BLACK then 1 else 0)) ∧
      (b = false → noRedRed (blacken S) ∧
        blackHeight S = blackHeight X + (if cp = RBTREE_BLACK then 1 else 0)) := by
  cases W with
  | leaf => simp [blackHeight] at hW4
  | node cw wl w kw wr =>
    simp only [rootColor_node] at hW1
    subst hW1
    simp only [noRedRed, equalBH, blackHeight, if_true, reduceCtorEq, false_implies,
      true_and] at hW2 hW3 hW4
    simp only [delStepR]
    split
    · rename_i hc
      refine ⟨false, _, rfl, ?_, rfl, by simp, fun _ => ⟨?_, ?_⟩⟩
      all_goals try simp [noRedRed, equalBH, blackHeight]
      all_goals repeat' apply And.intro
      all_goals first | assumption | omega | tauto
    · rename_i hc
      split
      · rename_i hl
        have hrc : rootColor wr ≠ RBTREE_BLACK := fun e => hc ⟨e, hl⟩
        cases wr with
        | leaf => simp at hrc
        | node cr wrl wra wrk wrr =>
          simp only [rootColor_node] at hrc
          have hcr : cr = RBTREE_RED := by
            cases cr with
            | RBTREE_RED => rfl
            | RBTREE_BLACK => exact absurd rfl hrc
          subst hcr
          simp [noRedRed, equalBH, blackHeight] at hW2 hW3 hW4
          refine ⟨true, _, rfl, ?_, rfl, fun _ => ⟨?_, ?_⟩, by simp⟩
          all_goals try simp [noRedRed, equalBH, blackHeight]
          all_goals repeat' apply And.intro
          all_goals first | assumption | omega | tauto
      · rename_i hl
        cases wl with
        | leaf => simp at hl
        | node cl wll wla wlk wlr =>
          simp only [rootColor_node] at hl
          have hcl : cl = RBTREE_RED := by
            cases cl with
            | RBTREE_RED => rfl
            | RBTREE_BLACK => exact absurd rfl hl
          subst hcl
          simp [noRedRed, equalBH, blackHeight] at hW2 hW3 hW4
          refine ⟨true, _, rfl, ?_, rfl, fun _ => ⟨?_, ?_⟩, by simp⟩
          all_goals try simp [noRedRed, equalBH, blackHeight]
          all_goals repeat' apply And.intro
          all_goals first | assumption | omega | tauto

theorem nodes_delStepL {cp : color_t} {X W S : ATree} {ap : Nat} {kp : key_t} {b : Bool}
    (h : delStepL cp X ap kp W = some (b, S)) : nodes S = nodes (ATree.node cp X ap kp W) := by
  cases W with
  | leaf => simp [delStepL] at h
  | node cw wl w kw wr =>
    simp only [delStepL] at h
    split at h
    · simp only [Option.some.injEq, Prod.mk.injEq] at h
      rw [← h.2]; simp [nodes]
    · split at h
      · cases wl with
        | leaf => simp at h
        | node cl wll wla wlk wlr =>
          simp only [Option.some.injEq, Prod.mk.injEq] at h
          rw [← h.2]; simp [nodes]
      · cases wr with
        | leaf => simp at h
        | node cr wrl wra wrk wrr =>
          simp only [Option.some.injEq, Prod.mk.injEq] at h
          rw [← h.2]; simp [nodes]

theorem nodes_delStepR {cp : color_t} {X W S : ATree} {ap : Nat} {kp : key_t} {b : Bool}
    (h : delStepR cp W ap kp X = some (b, S)) : nodes S = nodes (ATree.node cp W ap kp X) := by
  cases W with
  | leaf => simp [delStepR] at h
  | node cw wl w kw wr =>
    simp only [delStepR] at h
    split at h
    · simp only [Option.some.injEq, Prod.mk.injEq] at h
      rw [← h.2]; simp [nodes]
    · split at h
      · cases wr with
        | leaf => simp at h
        | node cr wrl wra wrk wrr =>
          simp only [Option.some.injEq, Prod.mk.injEq] at h
          rw [← h.2]; simp [nodes]
      · cases wl with
        | leaf => simp at h
        | node cl wll wla wlk wlr =>
          simp only [Option.some.injEq, Prod.mk.injEq] at h
          rw [← h.2]; simp [nodes]

theorem rootColor_blacken (T : ATree) : rootColor (blacken T) = RBTREE_BLACK := by
  cases T <;> rfl

theorem blackHeight_blacken_red {T : ATree} (h : rootColor T = RBTREE_RED) :
    blackHeight (blacken T) = blackHeight T + 1 := by
  cases T with
  | leaf => simp at h
  | node c l a k r =>
    simp only [rootColor_node] at h
    subst h
    simp [blackHeight]

/-- The erase fix-up restores the red-black invariants: started at a subtree
that is in order but one BLACK node short for its position. -/
theorem delFix_isRB (p : Path) :
    ∀ (X : ATree) (n : Nat), pathOK p RBTREE_BLACK (n + 1) → noRedRed (blacken X) →
      equalBH X → blackHeight X = n → ∃ T', delFix p X = some T' ∧ IsRB T' := by
  induction p with
  | nil =>
    intro X n hp h2 h3 h4
    exact ⟨_, rfl, rootColor_blacken X, h2, equalBH_blacken.mpr h3⟩
  | cons f up ih =>
    intro X n hp h2 h3 h4
    subst h4
    by_cases hX : rootColor X = RBTREE_RED
    · refine ⟨plug (blacken X) (f :: up), by cases f <;> simp [delFix, hX], ?_⟩
      rw [isRB_plug]
      refine ⟨h2, equalBH_blacken.mpr h3, ?_⟩
      rw [rootColor_blacken, blackHeight_blacken_red hX]
      exact hp
    · have hXb := color_eq_black_of_ne_red hX
      rw [blacken_of_black hXb] at h2
      cases f with
      | L cp ap kp W =>
        simp only [pathOK] at hp
        obtain ⟨hp1, hp2, hp3, hp4, hp5⟩ := hp
        rcases not_red_node_cases W with ⟨wl, w, kw, wr, rfl⟩ | hWb
        · have hcp : cp = RBTREE_BLACK := by
            cases cp with
            | RBTREE_RED => simpa using (hp1 rfl).2
            | RBTREE_BLACK => rfl
          subst hcp
          simp [noRedRed, equalBH, blackHeight] at hp2 hp3 hp4 hp5
          obtain ⟨b, S, hs, s1, s2, s3, s4⟩ := delStepL_ok RBTREE_RED ap kp hXb h2 h3 hp2.1.1 hp2.2.1 hp3.2.1 hp4
          rw [delFix_L_red hXb, hs]
          cases b with
          | true =>
            refine ⟨_, rfl, ?_⟩
            obtain ⟨s5, s6⟩ := s3 rfl
            simp at s6
            apply isRB_blacken_self
            rw [isRB_plug]
            simp [noRedRed, equalBH, blackHeight]
            repeat' apply And.intro
            all_goals first | assumption | omega | tauto | simp_all
          | false =>
            refine ⟨_, rfl, ?_⟩
            obtain ⟨s5, s6⟩ := s4 rfl
            simp at s6
            have s7 := blackHeight_blacken_red s2
            rw [isRB_plug]
            simp [noRedRed, equalBH, blackHeight, equalBH_blacken]
            repeat' apply And.intro
            all_goals first | assumption | omega | tauto | simp_all
        · obtain ⟨b, S, hs, s1, s2, s3, s4⟩ := delStepL_ok cp ap kp hXb h2 h3 hWb hp2 hp3 hp4
          rw [delFix_L_black hXb hWb, hs]
          cases b with
          | true =>
            refine ⟨_, rfl, ?_⟩
            obtain ⟨s5, s6⟩ := s3 rfl
            apply isRB_blacken_self
            rw [isRB_plug]
            refine ⟨s5, s1, ?_⟩
            rw [s2, s6]
            exact hp5
          | false =>
            obtain ⟨s5, s6⟩ := s4 rfl
            simp only [Option.some_bind, Bool.false_eq_true, if_false]
            refine ih S _ ?_ s5 s1 rfl
            rw [s6]
            have := pathOK_black hp5
            rw [show blackHeight X + (if cp = RBTREE_BLACK then 1 else 0) + 1
              = blackHeight X + 1 + (if cp = RBTREE_BLACK then 1 else 0) by omega]
            exact this
      | R cp W ap kp =>
        simp only [pathOK] at hp
        obtain ⟨hp1, hp2, hp3, hp4, hp5⟩ := hp
        rcases not_red_node_cases W with ⟨wl, w, kw, wr, rfl⟩ | hWb
        · have hcp : cp = RBTREE_BLACK := by
            cases cp with
            | RBTREE_RED => simpa using (hp1 rfl).1
            | RBTREE_BLACK => rfl
          subst hcp
          simp [noRedRed, equalBH, blackHeight] at hp2 hp3 hp4 hp5
          obtain ⟨b, S, hs, s1, s2, s3, s4⟩ := delStepR_ok RBTREE_RED ap kp hXb h2 h3 hp2.1.2 hp2.2.2 hp3.2.2 (by omega)
          rw [delFix_R_red hXb, hs]
          cases b with
          | true =>
            refine ⟨_, rfl, ?_⟩
            obtain ⟨s5, s6⟩ := s3 rfl
            simp at s6
            apply isRB_blacken_self
            rw [isRB_plug]
            simp [noRedRed, equalBH, blackHeight]
            repeat' apply And.intro
            all_goals first | assumption | omega | tauto | simp_all
          | false =>
            refine ⟨_, rfl, ?_⟩
            obtain ⟨s5, s6⟩ := s4 rfl
            simp at s6
            have s7 := blackHeight_blacken_red s2
            rw [isRB_plug]
            simp [noRedRed, equalBH, blackHeight, equalBH_blacken]
            repeat' apply And.intro
            all_goals first | assumption | omega | tauto | simp_all
        · obtain ⟨b, S, hs, s1, s2, s3, s4⟩ := delStepR_ok cp ap kp hXb h2 h3 hWb hp2 hp3 hp4
          rw [delFix_R_black hXb hWb, hs]
          cases b with
          | true =>
            refine ⟨_, rfl, ?_⟩
            obtain ⟨s5, s6⟩ := s3 rfl
            apply isRB_blacken_self
            rw [isRB_plug]
            refine ⟨s5, s1, ?_⟩
            rw [s2, s6]
            exact hp5
          | false =>
            obtain ⟨s5, s6⟩ := s4 rfl
            simp only [Option.some_bind, Bool.false_eq_true, if_false]
            refine ih S _ ?_ s5 s1 rfl
            rw [s6]
            have := pathOK_black hp5
            rw [show blackHeight X + (if cp = RBTREE_BLACK then 1 else 0) + 1
              = blackHeight X + 1 + (if cp = RBTREE_BLACK then 1 else 0) by omega]
            exact this

/-- The erase fix-up only rotates and recolours: the in-order sequence of
nodes is that of the tree it started from. -/
theorem nodes_delFix (p : Path) :
    ∀ (X T' : ATree), delFix p X = some T' → nodes T' = nodes (plug X p) := by
  induction p with
  | nil =>
    intro X T' he
    simp only [delFix, Option.some.injEq] at he
    subst he
    simp [nodes_blacken, plug]
  | cons f up ih =>
    intro X T' he
    by_cases hX : rootColor X = RBTREE_RED
    · have he' : T' = plug (blacken X) (f :: up) := by
        cases f <;> simpa [delFix, hX] using he.symm
      subst he'
      exact nodes_plug_congr _ (nodes_blacken X)
    · have hXb := color_eq_black_of_ne_red hX
      cases f with
      | L cp ap kp W =>
        rcases not_red_node_cases W with ⟨wl, w, kw, wr, rfl⟩ | hWb
        · rw [delFix_L_red hXb] at he
          cases hs : delStepL RBTREE_RED X ap kp wl with
          | none => simp [hs] at he
          | some bS =>
            obtain ⟨b, S⟩ := bS
            have hn := nodes_delStepL hs
            cases b with
            | true =>
              simp only [hs, Option.some_bind, if_true, Option.some.injEq] at he
              subst he
              simp [nodes_blacken, nodes_plug, nodes, plug, before, after, hn]
            | false =>
              simp only [hs, Option.some_bind, Bool.false_eq_true, if_false,
                Option.some.injEq] at he
              subst he
              simp [nodes_blacken, nodes_plug, nodes, plug, before, after, hn]
        · rw [delFix_L_black hXb hWb] at he
          cases hs : delStepL cp X ap kp W with
          | none => simp [hs] at he
          | some bS =>
            obtain ⟨b, S⟩ := bS
            have hn := nodes_delStepL hs
            cases b with
            | true =>
              simp only [hs, Option.some_bind, if_true, Option.some.injEq] at he
              subst he
              simp [nodes_blacken, nodes_plug, nodes, plug, before, after, hn]
            | false =>
              simp only [hs, Option.some_bind, Bool.false_eq_true, if_false] at he
              rw [ih S T' he]
              simp [nodes_plug, nodes, plug, before, after, hn]
      | R cp W ap kp =>
        rcases not_red_node_cases W with ⟨wl, w, kw, wr, rfl⟩ | hWb
        · rw [delFix_R_red hXb] at he
          cases hs : delStepR RBTREE_RED wr ap kp X with
          | none => simp [hs] at he
          | some bS =>
            obtain ⟨b, S⟩ := bS
            have hn := nodes_delStepR hs
            cases b with
            | true =>
              simp only [hs, Option.some_bind, if_true, Option.some.injEq] at he
              subst he
              simp [nodes_blacken, nodes_plug, nodes, plug, before, after, hn]
            | false =>
              simp only [hs, Option.some_bind, Bool.false_eq_true, if_false,
                Option.some.injEq] at he
              subst he
              simp [nodes_blacken, nodes_plug, nodes, plug, before, after, hn]
        · rw [delFix_R_black hXb hWb] at he
          cases hs : delStepR cp W ap kp X with
          | none => simp [hs] at he
          | some bS =>
            obtain ⟨b, S⟩ := bS
            have hn := nodes_delStepR hs
            cases b with
            | true =>
              simp only [hs, Option.some_bind, if_true, Option.some.injEq] at he
              subst he
              simp [nodes_blacken, nodes_plug, nodes, plug, before, after, hn]
            | false =>
              simp only [hs, Option.some_bind, Bool.false_eq_true, if_false] at he
              rw [ih S T' he]
              simp [nodes_plug, nodes, plug, before, after, hn]

/-! ## Unlinking: invariants and node sequence -/

theorem before_minPath (R : ATree) : before (minPath R []).1 = [] := by
  induction R with
  | leaf => simp [minPath, before]
  | node c l a k r ihl _ =>
    cases l with
    | leaf => simp [minPath, before]
    | node lc ll la lk lr =>
      simp only [minPath]
      rw [minPath_append]
      simp only
      have : ∀ q : Path, before (q ++ [Frame.L c a k r]) = before q := by
        intro q
        induction q with
        | nil => simp [before]
        | cons f q' ih' => cases f <;> simp [before, ih']
      rw [this]
      exact ihl

theorem before_append (q p : Path) : before (q ++ p) = before p ++ before q := by
  induction q with
  | nil => simp [before]
  | cons f q' ih => cases f <;> simp [before, ih]

theorem after_append (q p : Path) : after (q ++ p) = after q ++ after p := by
  induction q with
  | nil => simp [after]
  | cons f q' ih => cases f <;> simp [after, ih]

/-- Unlinking removes exactly the node `z` from the in-order sequence. -/
theorem nodes_unlinkAt {p p' : Path} {cz c : color_t} {zl zr X : ATree} (z : Nat) (kz : key_t)
    (hu : unlinkAt p cz zl zr = some (p', X, c)) :
    nodes (plug X p') = before p ++ nodes zl ++ nodes zr ++ after p ∧
      nodes (plug (ATree.node cz zl z kz zr) p) =
        before p ++ nodes zl ++ (z, kz) :: nodes zr ++ after p := by
  refine ⟨?_, by simp [nodes_plug, nodes]⟩
  cases zl with
  | leaf =>
    simp only [unlinkAt, Option.some.injEq, Prod.mk.injEq] at hu
    obtain ⟨rfl, rfl, -⟩ := hu
    simp [nodes_plug, nodes]
  | node cl zll zla zlk zlr =>
    cases zr with
    | leaf =>
      simp only [unlinkAt, Option.some.injEq, Prod.mk.injEq] at hu
      obtain ⟨rfl, rfl, -⟩ := hu
      simp [nodes_plug, nodes]
    | node cr rl ra rk rr =>
      obtain ⟨cy, y, ky, ry, hY⟩ := minPath_node (ATree.node cr rl ra rk rr) (by simp)
      have hplug := plug_minPath (ATree.node cr rl ra rk rr)
      have hb := before_minPath (ATree.node cr rl ra rk rr)
      obtain ⟨q, hq⟩ : ∃ q, q = (minPath (ATree.node cr rl ra rk rr) []).1 := ⟨_, rfl⟩
      have hm : minPath (ATree.node cr rl ra rk rr) [] =
          (q, ATree.node cy ATree.leaf y ky ry) := by
        rw [hq, ← hY]
      rw [hm] at hplug hb
      simp only at hplug hb
      simp only [unlinkAt, hm, Option.some.injEq, Prod.mk.injEq] at hu
      obtain ⟨rfl, rfl, -⟩ := hu
      rw [← hplug]
      simp [nodes_plug, nodes, before_append, after_append, before, after, hb]

/-- The conditions on a path do not mention the addresses and keys of its
frames: a frame may be replaced by one of the same colour and subtree. -/
theorem pathOK_replace (q p : Path) (cz : color_t) (zl : ATree) (z y : Nat) (kz ky : key_t) :
    ∀ (c : color_t) (n : Nat), pathOK (q ++ Frame.R cz zl z kz :: p) c n →
      pathOK (q ++ Frame.R cz zl y ky :: p) c n := by
  induction q with
  | nil => intro c n h; simpa [pathOK] using h
  | cons f q' ih =>
    intro c n h
    cases f with
    | L pc a k r =>
      simp only [List.cons_append, pathOK] at h ⊢
      exact ⟨h.1, h.2.1, h.2.2.1, h.2.2.2.1, ih _ _ h.2.2.2.2⟩
    | R pc l a k =>
      simp only [List.cons_append, pathOK] at h ⊢
      exact ⟨h.1, h.2.1, h.2.2.1, h.2.2.2.1, ih _ _ h.2.2.2.2⟩

/-- What is left after unlinking: a position whose surroundings are fine for
a BLACK subtree, and a subtree that is fine itself; when the colour taken out
was BLACK the position is one black node short. -/
theorem unlinkAt_ok {p : Path} {cz : color_t} {zl zr : ATree} {z : Nat} {kz : key_t}
    (h : IsRB (plug (ATree.node cz zl z kz zr) p)) :
    ∃ p' X c, unlinkAt p cz zl zr = some (p', X, c) ∧ noRedRed X ∧ equalBH X ∧
      (c = RBTREE_BLACK → pathOK p' RBTREE_BLACK (blackHeight X + 1)) ∧
      (c = RBTREE_RED → pathOK p' (rootColor X) (blackHeight X)) := by
  cases zl with
  | leaf =>
    obtain ⟨h1, h2, h3⟩ := (isRB_plug _ _).1 h
    refine ⟨p, zr, cz, rfl, h1.2.2, h2.2.2, ?_, ?_⟩
    · intro hc
      subst hc
      simp only [equalBH, blackHeight] at h2
      simpa [blackHeight, rootColor, ← h2.1] using h3
    · intro hc
      subst hc
      simp only [equalBH, blackHeight] at h2
      rw [noRedRed] at h1
      rw [(h1.1 rfl).2, ← h2.1]
      simpa [blackHeight, rootColor] using pathOK_black_of_red h3
  | node cl zll zla zlk zlr =>
    cases zr with
    | leaf =>
      obtain ⟨h1, h2, h3⟩ := (isRB_plug _ _).1 h
      refine ⟨p, _, cz, rfl, h1.2.1, h2.2.1, ?_, ?_⟩
      · intro hc
        subst hc
        simpa [blackHeight, rootColor] using h3
      · intro hc
        subst hc
        rw [noRedRed] at h1
        rw [(h1.1 rfl).1]
        simpa [blackHeight, rootColor] using pathOK_black_of_red h3
    | node cr rl ra rk rr =>
      obtain ⟨cy, y, ky, ry, hY⟩ := minPath_node (ATree.node cr rl ra rk rr) (by simp)
      have hplug := plug_minPath (ATree.node cr rl ra rk rr)
      obtain ⟨q, hq⟩ : ∃ q, q = (minPath (ATree.node cr rl ra rk rr) []).1 := ⟨_, rfl⟩
      have hm : minPath (ATree.node cr rl ra rk rr) [] =
          (q, ATree.node cy ATree.leaf y ky ry) := by
        rw [hq, ← hY]
      rw [hm] at hplug
      simp only at hplug
      have e : plug (ATree.node cz (ATree.node cl zll zla zlk zlr) z kz
            (ATree.node cr rl ra rk rr)) p =
          plug (ATree.node cy ATree.leaf y ky ry)
            (q ++ Frame.R cz (ATree.node cl zll zla zlk zlr) z kz :: p) := by
        rw [plug_append, ← hplug]
        rfl
      rw [e] at h
      obtain ⟨h1, h2, h3⟩ := (isRB_plug _ _).1 h
      have h3' := pathOK_replace q p cz _ z y kz ky _ _ h3
      refine ⟨q ++ Frame.R cz (ATree.node cl zll zla zlk zlr) y ky :: p, ry, cy,
        by simp [unlinkAt, hm], h1.2.2, h2.2.2, ?_, ?_⟩
      · intro hc
        subst hc
        simp only [equalBH, blackHeight] at h2
        simpa [blackHeight, rootColor, ← h2.1] using h3'
      · intro hc
        subst hc
        simp only [equalBH, blackHeight] at h2
        rw [noRedRed] at h1
        rw [(h1.1 rfl).2, ← h2.1]
        simpa [blackHeight, rootColor] using pathOK_black_of_red h3'

/-- Erasing a node of a red-black tree is defined and gives a red-black tree. -/
theorem eraseAt_isRB {p : Path} {cz : color_t} {zl zr : ATree} {z : Nat} {kz : key_t}
    (h : IsRB (plug (ATree.node cz zl z kz zr) p)) :
    ∃ T', eraseAt p cz zl zr = some T' ∧ IsRB T' := by
  obtain ⟨p', X, c, hu, h1, h2, hb, hr⟩ := unlinkAt_ok h
  cases c with
  | RBTREE_BLACK =>
    obtain ⟨T', hT, hrb⟩ := delFix_isRB p' X (blackHeight X) (hb rfl) (noRedRed_blacken h1) h2 rfl
    exact ⟨T', by simp [eraseAt, hu, hT], hrb⟩
  | RBTREE_RED =>
    exact ⟨plug X p', by simp [eraseAt, hu], (isRB_plug _ _).2 ⟨h1, h2, hr rfl⟩⟩

/-- Erasing removes exactly the node `z` from the in-order sequence. -/
theorem nodes_eraseAt {p : Path} {cz : color_t} {zl zr T' : ATree} (z : Nat) (kz : key_t)
    (he : eraseAt p cz zl zr = some T') :
    nodes T' = before p ++ nodes zl ++ nodes zr ++ after p ∧
      nodes (plug (ATree.node cz zl z kz zr) p) =
        before p ++ nodes zl ++ (z, kz) :: nodes zr ++ after p := by
  cases hu : unlinkAt p cz zl zr with
  | none => simp [eraseAt, hu] at he
  | some r =>
    obtain ⟨p', X, c⟩ := r
    obtain ⟨k1, k2⟩ := nodes_unlinkAt z kz hu
    refine ⟨?_, k2⟩
    simp only [eraseAt, hu] at he
    split_ifs at he
    · rw [nodes_delFix _ _ _ he, k1]
    · simp only [Option.some.injEq] at he
      rw [← he, k1]

/-- Every address of a tree is the root of a subtree at some position. -/
theorem locate {T : ATree} {z : Nat} (hz : z ∈ addrs T) :
    ∃ p c l k r, T = plug (ATree.node c l z k r) p := by
  suffices H : ∀ (S : ATree) (q : Path), z ∈ addrs S →
      ∃ p c l k r, plug S q = plug (ATree.node c l z k r) p from by
    simpa [plug] using H T [] hz
  intro S
  induction S with
  | leaf => intro q h; simp [addrs_leaf] at h
  | node c l a k r ihl ihr =>
    intro q h
    simp only [addrs_node, List.mem_append, List.mem_cons] at h
    rcases h with h | rfl | h
    · obtain ⟨p, c', l', k', r', e⟩ := ihl (Frame.L c a k r :: q) h
      exact ⟨p, c', l', k', r', by simpa [plug] using e⟩
    · exact ⟨q, c, l, k, r, rfl⟩
    · obtain ⟨p, c', l', k', r', e⟩ := ihr (Frame.R c l a k :: q) h
      exact ⟨p, c', l', k', r', by simpa [plug] using e⟩

/-! ## More fuel never changes a result -/

theorem insert_fixup_mono_succ : ∀ (fuel : Nat) (t : rbtree) (z : Nat) (r : rbtree),
    rbtree_insert_fixup fuel t z = some r → rbtree_insert_fixup (fuel + 1) t z = some r := by
  intro fuel
  induction fuel with
  | zero => intro t z r h; simp [rbtree_insert_fixup] at h
  | succ n ih =>
    intro t z r h
    rw [rbtree_insert_fixup] at h ⊢
    simp only [] at h ⊢
    split_ifs at h ⊢ <;> first | exact h | exact ih _ _ _ h

theorem erase_fixup_mono_succ : ∀ (fuel : Nat) (t : rbtree) (x : Nat) (r : rbtree),
    rbtree_erase_fixup fuel t x = some r → rbtree_erase_fixup (fuel + 1) t x = some r := by
  intro fuel
  induction fuel with
  | zero => intro t z r h; simp [rbtree_erase_fixup] at h
  | succ n ih =>
    intro t z r h
    rw [rbtree_erase_fixup] at h ⊢
    simp only [] at h ⊢
    split_ifs at h ⊢ <;> first | exact h | exact ih _ _ _ h

theorem insert_descend_mono_succ : ∀ (fuel : Nat) (t : rbtree) (z y x r : Nat),
    insert_descend fuel t z y x = some r → insert_descend (fuel + 1) t z y x = some r := by
  intro fuel
  induction fuel with
  | zero => intro t z y x r h; simp [insert_descend] at h
  | succ n ih =>
    intro t z y x r h
    rw [insert_descend] at h ⊢
    split_ifs at h ⊢ <;> first | exact h | exact ih _ _ _ _ _ h

theorem minimum_mono_succ : ∀ (fuel : Nat) (t : rbtree) (x r : Nat),
    rbtree_minimum fuel t x = some r → rbtree_minimum (fuel + 1) t x = some r := by
  intro fuel
  induction fuel with
  | zero => intro t x r h; simp [rbtree_minimum] at h
  | succ n ih =>
    intro t x r h
    rw [rbtree_minimum] at h ⊢
    split_ifs at h ⊢ <;> first | exact h | exact ih _ _ _ h

theorem max_loop_mono_succ : ∀ (fuel : Nat) (t : rbtree) (x r : Nat),
    max_loop fuel t x = some r → max_loop (fuel + 1) t x = some r := by
  intro fuel
  induction fuel with
  | zero => intro t x r h; simp [max_loop] at h
  | succ n ih =>
    intro t x r h
    rw [max_loop] at h ⊢
    split_ifs at h ⊢ <;> first | exact h | exact ih _ _ _ h

theorem find_loop_mono_succ : ∀ (fuel : Nat) (t : rbtree) (key : key_t) (x r : Nat),
    find_loop fuel t key x = some r → find_loop (fuel + 1) t key x = some r := by
  intro fuel
  induction fuel with
  | zero => intro t key x r h; simp [find_loop] at h
  | succ n ih =>
    intro t key x r h
    rw [find_loop] at h ⊢
    split_ifs at h ⊢ <;> first | exact h | exact ih _ _ _ _ h

theorem inorder_mono_succ : ∀ (fuel : Nat) (t : rbtree) (n : Nat) (arr : Nat → key_t)
    (index : Nat) (r : (Nat → key_t) × Nat),
    rbtree_inorder fuel t n arr index = some r →
      rbtree_inorder (fuel + 1) t n arr index = some r := by
  intro fuel
  induction fuel with
  | zero => intro t n arr index r h; simp [rbtree_inorder] at h
  | succ m ih =>
    intro t n arr index r h
    rw [rbtree_inorder] at h ⊢
    split_ifs at h ⊢
    · cases hl : rbtree_inorder m t (t.left n) arr index with
      | none => simp [hl] at h
      | some r1 =>
        rw [hl] at h
        rw [ih _ _ _ _ _ hl]
        exact ih _ _ _ _ _ h
    · exact h

theorem insert_fixup_mono {fuel fuel' : Nat} {t : rbtree} {z : Nat} {r : rbtree}
    (hf : fuel ≤ fuel') (h : rbtree_insert_fixup fuel t z = some r) :
    rbtree_insert_fixup fuel' t z = some r := by
  induction hf with
  | refl => exact h
  | step _ ih => exact insert_fixup_mono_succ _ _ _ _ ih

theorem erase_fixup_mono {fuel fuel' : Nat} {t : rbtree} {x : Nat} {r : rbtree}
    (hf : fuel ≤ fuel') (h : rbtree_erase_fixup fuel t x = some r) :
    rbtree_erase_fixup fuel' t x = some r := by
  induction hf with
  | refl => exact h
  | step _ ih => exact erase_fixup_mono_succ _ _ _ _ ih

theorem insert_descend_mono {fuel fuel' : Nat} {t : rbtree} {z y x r : Nat}
    (hf : fuel ≤ fuel') (h : insert_descend fuel t z y x = some r) :
    insert_descend fuel' t z y x = some r := by
  induction hf with
  | refl => exact h
  | step _ ih => exact insert_descend_mono_succ _ _ _ _ _ _ ih

theorem minimum_mono {fuel fuel' : Nat} {t : rbtree} {x r : Nat}
    (hf : fuel ≤ fuel') (h : rbtree_minimum fuel t x = some r) :
    rbtree_minimum fuel' t x = some r := by
  induction hf with
  | refl => exact h
  | step _ ih => exact minimum_mono_succ _ _ _ _ ih

theorem max_loop_mono {fuel fuel' : Nat} {t : rbtree} {x r : Nat}
    (hf : fuel ≤ fuel') (h : max_loop fuel t x = some r) :
    max_loop fuel' t x = some r := by
  induction hf with
  | refl => exact h
  | step _ ih => exact max_loop_mono_succ _ _ _ _ ih

theorem find_loop_mono {fuel fuel' : Nat} {t : rbtree} {key : key_t} {x r : Nat}
    (hf : fuel ≤ fuel') (h : find_loop fuel t key x = some r) :
    find_loop fuel' t key x = some r := by
  induction hf with
  | refl => exact h
  | step _ ih => exact find_loop_mono_succ _ _ _ _ _ ih

theorem inorder_mono {fuel fuel' : Nat} {t : rbtree} {n : Nat} {arr : Nat → key_t}
    {index : Nat} {r : (Nat → key_t) × Nat}
    (hf : fuel ≤ fuel') (h : rbtree_inorder fuel t n arr index = some r) :
    rbtree_inorder fuel' t n arr index = some r := by
  induction hf with
  | refl => exact h
  | step _ ih => exact inorder_mono_succ _ _ _ _ _ _ ih

/-- A run of `rbtree_insert` that returns with some fuel returns the same
with any larger fuel. -/
theorem rbtree_insert_mono {fuel fuel' : Nat} {t : rbtree} {z : Nat} {key : key_t}
    {r : rbtree × Nat} (hf : fuel ≤ fuel') (h : rbtree_insert fuel t z key = some r) :
    rbtree_insert fuel' t z key = some r := by
  simp only [rbtree_insert] at h ⊢
  split at h
  · exact absurd h (by simp)
  · rename_i y hd
    rw [insert_descend_mono hf hd]
    simp only at h ⊢
    split at h
    · exact absurd h (by simp)
    · rename_i t2 hx
      rw [insert_fixup_mono hf hx]
      exact h

/-- A run of `rbtree_erase` that returns with some fuel returns the same
with any larger fuel. -/
theorem rbtree_erase_mono {fuel fuel' : Nat} {t : rbtree} {z : Nat}
    {r : rbtree × Int} (hf : fuel ≤ fuel') (h : rbtree_erase fuel t z = some r) :
    rbtree_erase fuel' t z = some r := by
  rw [rbtree_erase_eq] at h ⊢
  have hu : ∀ u, erase_unlink fuel t z = some u → erase_unlink fuel' t z = some u := by
    intro u hu
    simp only [erase_unlink] at hu ⊢
    split_ifs at hu ⊢
    · exact hu
    · exact hu
    · split at hu
      · exact absurd hu (by simp)
      · rename_i y hm
        rw [minimum_mono hf hm]
        exact hu
  split at h
  · exact absurd h (by simp)
  · rename_i t1 x c hu1
    rw [hu _ hu1]
    simp only at h ⊢
    split_ifs at h ⊢
    · split at h
      · exact absurd h (by simp)
      · rename_i t2 hx
        rw [erase_fixup_mono hf hx]
        exact h
    · exact h

/-! ## Search-tree order -/

theorem isBST_iff (T : ATree) : IsBST T ↔ (nodes T).Pairwise (fun x y => x.2 ≤ y.2) := by
  simp [IsBST, keys, List.Sorted, List.pairwise_map]

theorem size_eq (T : ATree) : size T = (nodes T).length := by
  induction T with
  | leaf => rfl
  | node c l a k r ihl ihr => simp [size, nodes, ihl, ihr]; omega

theorem keys_length (T : ATree) : (keys T).length = (nodes T).length := by
  simp [keys]

theorem addrs_length (T : ATree) : (addrs T).length = (nodes T).length := by
  simp [addrs]

theorem height_le_size (T : ATree) : height T ≤ size T := by
  induction T with
  | leaf => simp [height, size]
  | node c l a k r ihl ihr => simp only [height, size]; omega

/-- The descent of `rbtree_insert` ends at the position right after the last
key `≤ key`: everything before it is `≤ key`, everything after it `> key`. -/
theorem descend_bounds (key : key_t) (T : ATree) :
    ∀ (p : Path), (nodes (plug T p)).Pairwise (fun x y => x.2 ≤ y.2) →
      (∀ x ∈ before p, x.2 ≤ key) → (∀ x ∈ after p, key < x.2) →
      (∀ x ∈ before (descend key T p), x.2 ≤ key) ∧
        (∀ x ∈ after (descend key T p), key < x.2) := by
  induction T with
  | leaf => intro p _ hb ha; exact ⟨hb, ha⟩
  | node c l a k r ihl ihr =>
    intro p hs hb ha
    have hs' := hs
    rw [nodes_plug] at hs'
    simp only [nodes, List.pairwise_append, List.pairwise_cons, List.mem_append,
      List.mem_cons] at hs'
    simp only [descend]
    split
    · rename_i hk
      apply ihl (Frame.L c a k r :: p) (by simpa [plug] using hs) (by simpa [before] using hb)
      intro x hx
      simp only [after, List.mem_append, List.mem_cons, List.cons_append] at hx
      rcases hx with rfl | hx | hx
      · exact hk
      · have hkx : k ≤ x.2 := hs'.1.2.1.2.1.1 x hx
        exact lt_of_lt_of_le hk hkx
      · exact ha x hx
    · rename_i hk
      apply ihr (Frame.R c l a k :: p) (by simpa [plug] using hs) ?_ (by simpa [after] using ha)
      intro x hx
      simp only [before, List.mem_append, List.mem_cons, List.mem_singleton,
        List.not_mem_nil, or_false] at hx
      rcases hx with hx | hx | rfl
      · exact hb x hx
      · have hxk : x.2 ≤ k := hs'.1.2.1.2.2 x hx (a, k) (Or.inl rfl)
        exact le_trans hxk (not_lt.1 hk)
      · simpa using hk

/-- Inserting into a search tree: the new node goes right after the last node
with a key `≤ key`; no other node moves. -/
theorem nodes_insTree {T T' : ATree} {z : Nat} {key : key_t} (hs : IsBST T)
    (he : insTree T z key = some T') :
    ∃ pre post, nodes T = pre ++ post ∧ nodes T' = pre ++ (z, key) :: post ∧
      (∀ x ∈ pre, x.2 ≤ key) ∧ (∀ x ∈ post, key < x.2) := by
  have h1 := nodes_insFix _ _ _ he
  have h2 := plug_descend key T []
  have h3 := descend_bounds key T [] (by simpa [plug] using (isBST_iff T).1 hs)
    (by simp [before]) (by simp [after])
  refine ⟨before (descend key T []), after (descend key T []), ?_, ?_, h3.1, h3.2⟩
  · have : nodes T = nodes (plug ATree.leaf (descend key T [])) := by rw [h2]; rfl
    rw [this, nodes_plug]
    simp [nodes]
  · rw [h1, nodes_plug]
    simp [nodes]

theorem isBST_insTree {T T' : ATree} {z : Nat} {key : key_t} (hs : IsBST T)
    (he : insTree T z key = some T') : IsBST T' := by
  obtain ⟨pre, post, h1, h2, h3, h4⟩ := nodes_insTree hs he
  rw [isBST_iff] at hs ⊢
  rw [h1] at hs
  rw [h2]
  simp only [List.pairwise_append, List.pairwise_cons, List.mem_cons] at hs ⊢
  refine ⟨hs.1, ⟨fun x hx => le_of_lt (h4 x hx), hs.2.1⟩, ?_⟩
  intro x hx y hy
  rcases hy with rfl | hy
  · exact h3 x hx
  · exact hs.2.2 x hx y hy

/-- Erasing from a search tree leaves a search tree. -/
theorem isBST_eraseAt {p : Path} {cz : color_t} {zl zr T' : ATree} (z : Nat) (kz : key_t)
    (hs : IsBST (plug (ATree.node cz zl z kz zr) p)) (he : eraseAt p cz zl zr = some T') :
    IsBST T' := by
  obtain ⟨h1, h2⟩ := nodes_eraseAt z kz he
  rw [isBST_iff] at hs ⊢
  rw [h2] at hs
  rw [h1]
  refine hs.sublist ?_
  simp only [List.append_assoc]
  exact (List.Sublist.refl _).append ((List.Sublist.refl _).append
    ((List.sublist_cons_self _ _).append (List.Sublist.refl _)))

/-! ## Nodes of a represented tree -/

/-- Every node of the tree is at some position. -/
theorem locate_node {T : ATree} {z : Nat} {kz : key_t} (hz : (z, kz) ∈ nodes T) :
    ∃ p c l r, T = plug (ATree.node c l z kz r) p := by
  suffices H : ∀ (S : ATree) (q : Path), (z, kz) ∈ nodes S →
      ∃ p c l r, plug S q = plug (ATree.node c l z kz r) p from by
    simpa [plug] using H T [] hz
  intro S
  induction S with
  | leaf => intro q h; simp [nodes] at h
  | node c l a k r ihl ihr =>
    intro q h
    simp only [nodes, List.mem_append, List.mem_cons, Prod.mk.injEq] at h
    rcases h with h | ⟨rfl, rfl⟩ | h
    · obtain ⟨p, c', l', r', e⟩ := ihl (Frame.L c a k r :: q) h
      exact ⟨p, c', l', r', by simpa [plug] using e⟩
    · exact ⟨q, c, l, r, rfl⟩
    · obtain ⟨p, c', l', r', e⟩ := ihr (Frame.R c l a k :: q) h
      exact ⟨p, c', l', r', by simpa [plug] using e⟩

theorem Foc.ofRoot {t : rbtree} (p : Path) : ∀ {T : ATree}, TreeRep t (plug T p) → Foc t p T := by
  induction p with
  | nil => intro T h; exact h
  | cons f up ih =>
    intro T h
    cases f with
    | L c a k r => exact (ih (T := ATree.node c T a k r) (by simpa [plug] using h)).downL
    | R c l a k => exact (ih (T := ATree.node c l a k T) (by simpa [plug] using h)).downR

/-- The heap holds the key of every node of the tree, and no node is the
sentinel or NULL. -/
theorem TreeRep.node_facts {t : rbtree} {T : ATree} (h : TreeRep t T) {a : Nat} {k : key_t}
    (ha : (a, k) ∈ nodes T) : t.key a = k ∧ a ≠ t.nil ∧ a ≠ NULL := by
  obtain ⟨p, c, l, r, e⟩ := locate_node ha
  have hf : Foc t p (ATree.node c l a k r) := Foc.ofRoot p (e ▸ h)
  refine ⟨hf.key_eq, hf.ne_nil, ?_⟩
  intro h0
  apply h.glob.nonnull
  simp only [plug, addrs, List.mem_map]
  exact ⟨(a, k), ha, h0⟩

theorem mem_addrs_iff {T : ATree} {a : Nat} : a ∈ addrs T ↔ ∃ k, (a, k) ∈ nodes T := by
  simp [addrs]

/-! ## The queries -/

/-- The search loop on a search tree: it ends on a node with the key, or on
the sentinel when no node has the key. -/
theorem find_loop_spec {t : rbtree} (key : key_t) (T : ATree) :
    ∀ (p : Path), Foc t p T → (nodes T).Pairwise (fun x y => x.2 ≤ y.2) →
      ∀ fuel, height T + 1 ≤ fuel →
      ∃ r, find_loop fuel t key (ptr t.nil T) = some r ∧
        ((r, key) ∈ nodes T ∨ (r = t.nil ∧ ∀ x ∈ nodes T, x.2 ≠ key)) := by
  induction T with
  | leaf =>
    intro p h hs fuel hf
    obtain ⟨fuel, rfl⟩ : ∃ f, fuel = f + 1 := ⟨fuel - 1, by omega⟩
    exact ⟨t.nil, by simp [find_loop], Or.inr ⟨rfl, by simp [nodes]⟩⟩
  | node c l a k r ihl ihr =>
    intro p h hs fuel hf
    obtain ⟨fuel, rfl⟩ : ∃ f, fuel = f + 1 := ⟨fuel - 1, by omega⟩
    simp only [nodes, List.pairwise_append, List.pairwise_cons, List.mem_cons] at hs
    simp only [height] at hf
    rw [find_loop]
    simp only [ptr_node, h.key_eq, h.left_eq, h.right_eq, ne_eq, h.ne_nil, not_false_eq_true,
      true_and]
    by_cases hk : k = key
    · subst hk
      exact ⟨a, by simp, Or.inl (by simp [nodes])⟩
    · simp only [hk, not_false_eq_true, if_true]
      by_cases hlt : key < k
      · simp only [hlt, if_true]
        obtain ⟨r', hr, hcase⟩ := ihl _ h.downL hs.1 fuel (by omega)
        refine ⟨r', hr, ?_⟩
        rcases hcase with hin | ⟨hnil, hno⟩
        · exact Or.inl (by simp [nodes, hin])
        · refine Or.inr ⟨hnil, ?_⟩
          intro x hx
          simp only [nodes, List.mem_append, List.mem_cons] at hx
          rcases hx with hx | rfl | hx
          · exact hno x hx
          · exact hk
          · have hkx : k ≤ x.2 := hs.2.1.1 x hx
            exact fun e => absurd (e ▸ hkx) (not_le.2 hlt)
      · simp only [hlt, if_false]
        obtain ⟨r', hr, hcase⟩ := ihr _ h.downR hs.2.1.2 fuel (by omega)
        refine ⟨r', hr, ?_⟩
        rcases hcase with hin | ⟨hnil, hno⟩
        · exact Or.inl (by simp [nodes, hin])
        · refine Or.inr ⟨hnil, ?_⟩
          intro x hx
          simp only [nodes, List.mem_append, List.mem_cons] at hx
          rcases hx with hx | rfl | hx
          · have hxk : x.2 ≤ k := hs.2.2 x hx (a, k) (Or.inl rfl)
            intro e
            rw [e] at hxk
            exact hk (le_antisymm (not_lt.1 hlt) hxk)
          · exact hk
          · exact hno x hx

/-- `rbtree_find` on a search tree: a node holding the key when there is one,
NULL when there is none. -/
theorem rbtree_find_spec {t : rbtree} {T : ATree} (key : key_t) (h : TreeRep t T)
    (hs : IsBST T) (fuel : Nat) (hf : height T + 1 ≤ fuel) :
    ∃ r, rbtree_find fuel t key = some r ∧
      (((r, key) ∈ nodes T ∧ r ≠ NULL) ∨ (r = NULL ∧ ∀ x ∈ nodes T, x.2 ≠ key)) := by
  obtain ⟨r, hr, hcase⟩ := find_loop_spec key T [] h ((isBST_iff T).1 hs) fuel hf
  have hroot : t.root = ptr t.nil T := h.glob.root
  rcases hcase with hin | ⟨hnil, hno⟩
  · obtain ⟨-, h1, h2⟩ := h.node_facts hin
    exact ⟨r, by simp [rbtree_find, hroot, hr, h1], Or.inl ⟨hin, h2⟩⟩
  · exact ⟨NULL, by simp [rbtree_find, hroot, hr, hnil], Or.inr ⟨rfl, hno⟩⟩

/-- The loop of `rbtree_min` ends on the first node in order. -/
theorem minimum_first {t : rbtree} (T : ATree) :
    ∀ (p : Path), Foc t p T → T ≠ ATree.leaf → ∀ fuel, height T + 1 ≤ fuel →
      ∃ y ky rest, nodes T = (y, ky) :: rest ∧
        rbtree_minimum fuel t (ptr t.nil T) = some y := by
  induction T with
  | leaf => intro p h hT; exact absurd rfl hT
  | node c l a k r ihl _ =>
    intro p h _ fuel hf
    obtain ⟨fuel, rfl⟩ : ∃ f, fuel = f + 1 := ⟨fuel - 1, by omega⟩
    simp only [height] at hf
    rw [rbtree_minimum]
    cases l with
    | leaf => exact ⟨a, k, nodes r, by simp [nodes], by simp [h.left_eq]⟩
    | node lc ll la lk lr =>
      have hl := h.downL
      obtain ⟨y, ky, rest, h1, h2⟩ := ihl _ hl (by simp) fuel (by omega)
      refine ⟨y, ky, rest ++ (a, k) :: nodes r, ?_, ?_⟩
      · rw [nodes, h1]; rfl
      · simp only [ptr_node] at h2
        simp [h.left_eq, hl.ne_nil, h2]

/-- The loop of `rbtree_max` ends on the last node in order. -/
theorem max_loop_last {t : rbtree} (T : ATree) :
    ∀ (p : Path), Foc t p T → T ≠ ATree.leaf → ∀ fuel, height T + 1 ≤ fuel →
      ∃ y ky rest, nodes T = rest ++ [(y, ky)] ∧
        max_loop fuel t (ptr t.nil T) = some y := by
  induction T with
  | leaf => intro p h hT; exact absurd rfl hT
  | node c l a k r _ ihr =>
    intro p h _ fuel hf
    obtain ⟨fuel, rfl⟩ : ∃ f, fuel = f + 1 := ⟨fuel - 1, by omega⟩
    simp only [height] at hf
    rw [max_loop]
    cases r with
    | leaf => exact ⟨a, k, nodes l, by simp [nodes], by simp [h.right_eq]⟩
    | node rc rl ra rk rr =>
      have hr := h.downR
      obtain ⟨y, ky, rest, h1, h2⟩ := ihr _ hr (by simp) fuel (by omega)
      refine ⟨y, ky, nodes l ++ (a, k) :: rest, ?_, ?_⟩
      · rw [nodes, h1]; simp
      · simp only [ptr_node] at h2
        simp [h.right_eq, hr.ne_nil, h2]

/-! ### Export -/

theorem writeList_append (arr : Nat → key_t) (index : Nat) (ks ks' : List key_t) :
    writeList arr index (ks ++ ks') = writeList (writeList arr index ks) (index + ks.length) ks' := by
  induction ks generalizing arr index with
  | nil => rfl
  | cons k ks ih =>
    simp only [List.cons_append, writeList, List.length_cons]
    have := ih (Function.update arr index k) (index + 1)
    rw [show index + (ks.length + 1) = index + 1 + ks.length by omega]
    exact this

theorem writeList_lt (ks : List key_t) :
    ∀ (arr : Nat → key_t) (index j : Nat), j < index → writeList arr index ks j = arr j := by
  induction ks with
  | nil => intro arr index j _; rfl
  | cons k ks ih =>
    intro arr index j hj
    simp only [writeList]
    rw [ih _ _ _ (by omega), Function.update_noteq (by omega)]

theorem writeList_get (ks : List key_t) :
    ∀ (arr : Nat → key_t) (index i : Nat), i < ks.length →
      ks[i]? = some (writeList arr index ks (index + i)) := by
  induction ks with
  | nil => intro arr index i hi; simp at hi
  | cons k ks ih =>
    intro arr index i hi
    simp only [writeList]
    cases i with
    | zero =>
      simp only [List.getElem?_cons_zero, Nat.add_zero, Option.some.injEq]
      rw [writeList_lt _ _ _ _ (by omega), Function.update_same]
    | succ j =>
      simp only [List.getElem?_cons_succ]
      rw [ih (Function.update arr index k) (index + 1) j (by simpa using hi)]
      congr 2
      omega

/-- What was written from slot 0 on is the list of keys. -/
theorem written_writeList (arr : Nat → key_t) (ks : List key_t) :
    written (writeList arr 0 ks, ks.length) = ks := by
  apply List.ext_getElem?
  intro i
  by_cases hi : i < ks.length
  · rw [writeList_get ks arr 0 i hi]
    simp [written, List.getElem?_map, List.getElem?_range hi]
  · simp only [not_lt] at hi
    rw [List.getElem?_eq_none hi, List.getElem?_eq_none (by simpa [written] using hi)]

/-- The traversal stores the keys of the subtree in order. -/
theorem inorder_spec {t : rbtree} (T : ATree) :
    ∀ (p : Path), Foc t p T → ∀ fuel, height T + 1 ≤ fuel →
      ∀ (arr : Nat → key_t) (index : Nat),
      rbtree_inorder fuel t (ptr t.nil T) arr index =
        some (writeList arr index (keys T), index + (keys T).length) := by
  induction T with
  | leaf =>
    intro p h fuel hf arr index
    obtain ⟨fuel, rfl⟩ : ∃ f, fuel = f + 1 := ⟨fuel - 1, by omega⟩
    simp [rbtree_inorder, keys, nodes, writeList]
  | node c l a k r ihl ihr =>
    intro p h fuel hf arr index
    obtain ⟨fuel, rfl⟩ : ∃ f, fuel = f + 1 := ⟨fuel - 1, by omega⟩
    simp only [height] at hf
    rw [rbtree_inorder]
    simp only [ptr_node, ne_eq, h.ne_nil, not_false_eq_true, if_true, h.left_eq, h.right_eq,
      h.key_eq]
    rw [ihl _ h.downL fuel (by omega)]
    simp only
    rw [ihr _ h.downR fuel (by omega)]
    have e : keys (ATree.node c l a k r) = keys l ++ ([k] ++ keys r) := by simp [keys, nodes]
    rw [e, writeList_append, writeList_append]
    simp only [writeList, List.length_append, List.length_cons, List.length_nil, zero_add,
      List.singleton_append, Option.some.injEq, Prod.mk.injEq]
    exact ⟨trivial, by omega⟩

/-- `rbtree_to_array` writes the keys of the tree in order and returns their
number. -/
theorem to_array_spec {t : rbtree} {T : ATree} (h : TreeRep t T) (arr : Nat → key_t) (n : Nat) :
    ∃ r, (∀ fuel, height T + 1 ≤ fuel → rbtree_to_array fuel t arr n = some r) ∧
      written r = keys T ∧ r.2 = size T := by
  refine ⟨(writeList arr 0 (keys T), (keys T).length), ?_, written_writeList _ _, ?_⟩
  · intro fuel hf
    have := inorder_spec T [] h fuel hf arr 0
    simp only [rbtree_to_array, h.glob.root]
    simpa [plug] using this
  · simp [size_eq, keys]

/-- `rbtree_find` returns the same for every fuel that is enough. -/
theorem rbtree_find_total {t : rbtree} {T : ATree} (key : key_t) (h : TreeRep t T)
    (hs : IsBST T) :
    ∃ r, (∀ fuel, height T + 1 ≤ fuel → rbtree_find fuel t key = some r) ∧
      (∀ fuel r', rbtree_find fuel t key = some r' → r' = r) ∧
      (((r, key) ∈ nodes T ∧ r ≠ NULL) ∨ (r = NULL ∧ ∀ x ∈ nodes T, x.2 ≠ key)) := by
  have hmono : ∀ {f f' : Nat} {x : Nat}, f ≤ f' → rbtree_find f t key = some x →
      rbtree_find f' t key = some x := by
    intro f f' x hff hx
    simp only [rbtree_find] at hx ⊢
    split at hx
    · exact absurd hx (by simp)
    · rename_i y hy
      rw [find_loop_mono hff hy]
      exact hx
  obtain ⟨r, hr, hcase⟩ := rbtree_find_spec key h hs (height T + 1) le_rfl
  refine ⟨r, fun fuel hf => hmono hf hr, ?_, hcase⟩
  intro fuel r' hr'
  have h1 := hmono (le_max_left fuel (height T + 1)) hr'
  have h2 := hmono (le_max_right fuel (height T + 1)) hr
  rw [h1] at h2
  exact Option.some.inj h2

/-- `rbtree_min` on a non-empty tree returns the first node in order. -/
theorem rbtree_min_total {t : rbtree} {T : ATree} (h : TreeRep t T) (hT : T ≠ ATree.leaf) :
    ∃ y ky rest, nodes T = (y, ky) :: rest ∧
      ∀ fuel, height T + 1 ≤ fuel → rbtree_min fuel t = some y := by
  obtain ⟨y, ky, rest, h1, h2⟩ := minimum_first T [] h hT (height T + 1) le_rfl
  refine ⟨y, ky, rest, h1, fun fuel hf => ?_⟩
  rw [rbtree_min, h.glob.root]
  exact minimum_mono hf h2

/-- `rbtree_max` on a non-empty tree returns the last node in order. -/
theorem rbtree_max_total {t : rbtree} {T : ATree} (h : TreeRep t T) (hT : T ≠ ATree.leaf) :
    ∃ y ky rest, nodes T = rest ++ [(y, ky)] ∧
      ∀ fuel, height T + 1 ≤ fuel → rbtree_max fuel t = some y := by
  obtain ⟨y, ky, rest, h1, h2⟩ := max_loop_last T [] h hT (height T + 1) le_rfl
  refine ⟨y, ky, rest, h1, fun fuel hf => ?_⟩
  rw [rbtree_max, h.glob.root]
  exact max_loop_mono hf h2

/-! ## Reachable states -/

/-- `new_rbtree()` is the empty tree. -/
theorem treeRep_new (m : Nat → node_t) (a : Nat) (ha : a ≠ NULL) :
    TreeRep (new_rbtree m a) ATree.leaf ∧ (new_rbtree m a).nil = a := by
  refine ⟨⟨trivial, trivial, ⟨rfl, ?_, ?_, ?_, ha, ?_⟩⟩, rfl⟩
  · simp [plug, addrs, nodes]
  · simp [plug, addrs, nodes]
  · simp [plug, addrs, nodes]
  · simp [new_rbtree, rbtree.setColor, rbtree.setRoot, rbtree.color]

theorem insert_state_eq {fuel : Nat} {t t' : rbtree} {z r : Nat} {key : key_t}
    (h : rbtree_insert fuel t z key = some (t', r)) : insert_state fuel t z key = t' := by
  simp [insert_state, h]

/-- One insert on a red-black search tree: the abstract result exists, is a
red-black search tree, and every run that returns gives a state holding it
and returns the new node. -/
theorem insert_step {t : rbtree} {T : ATree} (z : Nat) (key : key_t) (h : TreeRep t T)
    (hrb : IsRB T) (hz0 : z ≠ NULL) (hzn : z ≠ t.nil) (hzf : z ∉ addrs T) :
    ∃ T', insTree T z key = some T' ∧ IsRB T' ∧
      (∀ fuel, height T + 2 ≤ fuel →
        ∃ t', rbtree_insert fuel t z key = some (t', z) ∧ TreeRep t' T' ∧ t'.nil = t.nil) ∧
      (∀ fuel t' r, rbtree_insert fuel t z key = some (t', r) →
        r = z ∧ TreeRep t' T' ∧ t'.nil = t.nil) := by
  obtain ⟨T', he, hrb'⟩ := insTree_isRB hrb z key
  refine ⟨T', he, hrb', fun fuel hf => rbtree_insert_spec h hz0 hzn hzf he fuel hf, ?_⟩
  intro fuel t' r hrun
  obtain ⟨t'', h1, h2, h3⟩ := rbtree_insert_spec h hz0 hzn hzf he (max fuel (height T + 2))
    (le_max_right _ _)
  have := rbtree_insert_mono (le_max_left fuel (height T + 2)) hrun
  rw [h1] at this
  simp only [Option.some.injEq, Prod.mk.injEq] at this
  obtain ⟨rfl, rfl⟩ := this
  exact ⟨rfl, h2, h3⟩

/-- One erase of a node of a red-black tree: the abstract result exists, is a
red-black tree, and every run that returns gives a state holding it and
returns 0. -/
theorem erase_step {t : rbtree} {p : Path} {cz : color_t} {zl zr : ATree} {z : Nat} {kz : key_t}
    (h : TreeRep t (plug (ATree.node cz zl z kz zr) p))
    (hrb : IsRB (plug (ATree.node cz zl z kz zr) p)) :
    ∃ T', eraseAt p cz zl zr = some T' ∧ IsRB T' ∧
      (∀ fuel, height (plug (ATree.node cz zl z kz zr) p) + 2 ≤ fuel →
        ∃ t', rbtree_erase fuel t z = some (t', 0) ∧ TreeRep t' T' ∧ t'.nil = t.nil) ∧
      (∀ fuel t' r, rbtree_erase fuel t z = some (t', r) →
        r = 0 ∧ TreeRep t' T' ∧ t'.nil = t.nil) := by
  obtain ⟨T', he, hrb'⟩ := eraseAt_isRB hrb
  have hf := Foc.ofRoot p h
  refine ⟨T', he, hrb', fun fuel hfu => rbtree_erase_spec hf he fuel hfu, ?_⟩
  intro fuel t' r hrun
  obtain ⟨t'', h1, h2, h3⟩ := rbtree_erase_spec hf he
    (max fuel (height (plug (ATree.node cz zl z kz zr) p) + 2)) (le_max_right _ _)
  have := rbtree_erase_mono (le_max_left fuel
    (height (plug (ATree.node cz zl z kz zr) p) + 2)) hrun
  rw [h1] at this
  simp only [Option.some.injEq, Prod.mk.injEq] at this
  obtain ⟨rfl, rfl⟩ := this
  exact ⟨rfl, h2, h3⟩

/-- What holds in every reachable state: it holds a red-black search tree
whose nodes are the live allocations, `N - M` of them. -/
theorem reach_inv {t : rbtree} {live : List Nat} {N M : Nat} (h : Reach t live N M) :
    ∃ T, TreeRep t T ∧ IsRB T ∧ IsBST T ∧ (addrs T).Perm live ∧ size T + M = N := by
  induction h with
  | new m a ha =>
    exact ⟨ATree.leaf, (treeRep_new m a ha).1, ⟨rfl, trivial, trivial⟩,
      by simp [IsBST, keys, nodes], by simp [addrs, nodes], by simp [size]⟩
  | @insert t live N M fuel z key t' r _ hz0 hzn hzl hrun ih =>
    obtain ⟨T, hT, hrb, hbst, hperm, hsize⟩ := ih
    have hzf : z ∉ addrs T := fun hin => hzl (hperm.subset hin)
    obtain ⟨T', he, hrb', -, hany⟩ := insert_step z key hT hrb hz0 hzn hzf
    obtain ⟨-, hT', -⟩ := hany fuel t' r hrun
    obtain ⟨pre, post, h1, h2, -, -⟩ := nodes_insTree hbst he
    refine ⟨T', hT', hrb', isBST_insTree hbst he, ?_, ?_⟩
    · have e1 : addrs T' = pre.map Prod.fst ++ z :: post.map Prod.fst := by simp [addrs, h2]
      have e2 : addrs T = pre.map Prod.fst ++ post.map Prod.fst := by simp [addrs, h1]
      rw [e1]
      rw [e2] at hperm
      exact List.perm_middle.trans (hperm.cons z)
    · rw [size_eq] at hsize ⊢
      rw [h2]
      rw [h1] at hsize
      simp only [List.length_append, List.length_cons] at hsize ⊢
      omega
  | @erase t live N M fuel z t' r _ hz hrun ih =>
    obtain ⟨T, hT, hrb, hbst, hperm, hsize⟩ := ih
    have hza : z ∈ addrs T := hperm.symm.subset hz
    obtain ⟨p, cz, zl, kz, zr, rfl⟩ := locate hza
    obtain ⟨T', he, hrb', -, hany⟩ := erase_step hT hrb
    obtain ⟨-, hT', -⟩ := hany fuel t' r hrun
    obtain ⟨h1, h2⟩ := nodes_eraseAt z kz he
    refine ⟨T', hT', hrb', isBST_eraseAt z kz hbst he, ?_, ?_⟩
    · have hnd : (addrs (plug (ATree.node cz zl z kz zr) p)).Nodup := hT.glob.nodup
      have e2 : addrs (plug (ATree.node cz zl z kz zr) p) =
          (before p ++ nodes zl).map Prod.fst ++ z :: (nodes zr ++ after p).map Prod.fst := by
        simp [addrs, h2]
      have e1 : addrs T' =
          (before p ++ nodes zl).map Prod.fst ++ (nodes zr ++ after p).map Prod.fst := by
        simp [addrs, h1]
      rw [e2] at hnd hperm
      have hzn : z ∉ (before p ++ nodes zl).map Prod.fst := by
        intro hin
        have := (List.nodup_append.1 hnd).2.2 hin (List.mem_cons_self _ _)
        exact this
      have := hperm.erase z
      rw [List.erase_append_right _ hzn, List.erase_cons_head] at this
      rw [e1]
      exact this
    · rw [size_eq] at hsize ⊢
      rw [h1]
      rw [h2] at hsize
      simp only [List.length_append, List.length_cons] at hsize ⊢
      omega

theorem perm_length_height {T : ATree} {live : List Nat} (h : (addrs T).Perm live) :
    height T ≤ live.length := by
  have := height_le_size T
  rw [size_eq, ← addrs_length, h.length_eq] at this
  exact this

/-- The one-node tree is reachable. -/
theorem reach_tree1 : Reach tree1 [2] 1 0 :=
  Reach.insert 3 2 5 tree1 2 (Reach.new heap0 1 (by decide)) (by decide) (by decide)
    (by simp) rfl

theorem mem_live_iff {T : ATree} {live : List Nat} (hp : (addrs T).Perm live) {a : Nat} :
    a ∈ live ↔ ∃ k, (a, k) ∈ nodes T := by
  rw [← hp.mem_iff, mem_addrs_iff]

theorem perm_remove {A B live : List Nat} {z : Nat} (hnd : (A ++ z :: B).Nodup)
    (hp : (A ++ z :: B).Perm live) : (A ++ B).Perm (live.erase z) := by
  have hzn : z ∉ A := fun hin => (List.nodup_append.1 hnd).2.2 hin (List.mem_cons_self _ _)
  have := hp.erase z
  rwa [List.erase_append_right _ hzn, List.erase_cons_head] at this

theorem tree0_nil : tree0.nil = 1 := rfl

/-- The state `tree1` holds the one-node tree with key 5 at address 2. -/
theorem treeRep_tree1 :
    TreeRep tree1 (ATree.node RBTREE_BLACK ATree.leaf 2 5 ATree.leaf) ∧ tree1.nil = 1 := by
  have h0 := treeRep_new heap0 1 (by decide)
  have he : insTree ATree.leaf 2 5 =
      some (ATree.node RBTREE_BLACK ATree.leaf 2 5 ATree.leaf) := rfl
  obtain ⟨t', h1, h2, h3⟩ := rbtree_insert_spec h0.1 (by decide) (by rw [h0.2]; decide)
    (by simp [addrs, nodes]) he 3 (by simp [height])
  have : tree1 = t' := insert_state_eq h1
  rw [this]
  exact ⟨h2, h3.trans h0.2⟩

theorem isRB_tree1 : IsRB (ATree.node RBTREE_BLACK ATree.leaf 2 5 ATree.leaf) :=
  ⟨rfl, by simp [noRedRed], by simp [equalBH]⟩

theorem head_le_of_sorted {k : key_t} {ks : List key_t} (h : (k :: ks).Sorted (· ≤ ·)) :
    ∀ x ∈ k :: ks, k ≤ x := by
  intro x hx
  rcases List.mem_cons.1 hx with rfl | hx
  · exact le_rfl
  · exact List.rel_of_sorted_cons h x hx

theorem le_last_of_sorted {k : key_t} {ks : List key_t} (h : (ks ++ [k]).Sorted (· ≤ ·)) :
    ∀ x ∈ ks ++ [k], x ≤ k := by
  intro x hx
  rcases List.mem_append.1 hx with hx | hx
  · exact (List.pairwise_append.1 h).2.2 x hx k (by simp)
  · simp only [List.mem_singleton] at hx
    exact hx ▸ le_rfl

/-! ## The contract of the operations -/

/-- C1: `rbtree_insert` preserves the red-black invariants.  For a state `t`
holding a tree `T` with a BLACK root, no RED node with a RED child and equal
black-height on every path, for every key and every fresh address `z` that a
successful `malloc` returns, the call returns `z` once the fuel covers the
height, every run that returns leaves a state holding one and the same tree
`T'`, and `T'` has a BLACK root, no RED node with a RED child and equal
black-height on every path. -/
theorem rbtree_insert_preserves_rb (t : rbtree) (T : ATree) (z : Nat) (key : key_t)
    (h : TreeRep t T) (h1 : rootBlack T) (h2 : noRedRed T) (h3 : equalBH T)
    (hz0 : z ≠ NULL) (hzn : z ≠ t.nil) (hzf : z ∉ addrs T) :
    ∃ T', (∀ fuel, height T + 2 ≤ fuel →
          ∃ t', rbtree_insert fuel t z key = some (t', z) ∧ TreeRep t' T') ∧
      (∀ fuel t' r, rbtree_insert fuel t z key = some (t', r) → TreeRep t' T') ∧
      rootBlack T' ∧ noRedRed T' ∧ equalBH T' := by
  obtain ⟨T', -, hrb', hrun, hany⟩ := insert_step z key h ⟨h1, h2, h3⟩ hz0 hzn hzf
  refine ⟨T', ?_, ?_, hrb'.1, hrb'.2.1, hrb'.2.2⟩
  · intro fuel hf
    obtain ⟨t', e1, e2, -⟩ := hrun fuel hf
    exact ⟨t', e1, e2⟩
  · intro fuel t' r hr
    exact (hany fuel t' r hr).2.1

/-- Instance of C1: inserting a second key 5 at address 3 into the one-node
tree `tree1`. -/
theorem rbtree_insert_preserves_rb_witness :
    ∃ T', (∀ fuel, height (ATree.node RBTREE_BLACK ATree.leaf 2 5 ATree.leaf) + 2 ≤ fuel →
          ∃ t', rbtree_insert fuel tree1 3 5 = some (t', 3) ∧ TreeRep t' T') ∧
      (∀ fuel t' r, rbtree_insert fuel tree1 3 5 = some (t', r) → TreeRep t' T') ∧
      rootBlack T' ∧ noRedRed T' ∧ equalBH T' :=
  rbtree_insert_preserves_rb tree1 (ATree.node RBTREE_BLACK ATree.leaf 2 5 ATree.leaf) 3 5
    treeRep_tree1.1 isRB_tree1.1 isRB_tree1.2.1 isRB_tree1.2.2 (by decide)
    (by rw [treeRep_tree1.2]; decide) (by simp [addrs, nodes])

/-- C2: `rbtree_erase` preserves the red-black invariants.  For a state `t`
holding a tree `T` with a BLACK root, no RED node with a RED child and equal
black-height on every path, and every node `z` of `T`, the call returns once
the fuel covers the height, every run that returns leaves a state holding one
and the same tree `T'`, and `T'` satisfies the three invariants; this covers
the removal of a BLACK node (fix-up run from `x`, possibly the sentinel) and
of a RED node (no fix-up). -/
theorem rbtree_erase_preserves_rb (t : rbtree) (T : ATree) (z : Nat)
    (h : TreeRep t T) (h1 : rootBlack T) (h2 : noRedRed T) (h3 : equalBH T)
    (hz : z ∈ addrs T) :
    ∃ T', (∀ fuel, height T + 2 ≤ fuel →
          ∃ t', rbtree_erase fuel t z = some (t', 0) ∧ TreeRep t' T') ∧
      (∀ fuel t' r, rbtree_erase fuel t z = some (t', r) → TreeRep t' T') ∧
      rootBlack T' ∧ noRedRed T' ∧ equalBH T' := by
  obtain ⟨p, cz, zl, kz, zr, rfl⟩ := locate hz
  obtain ⟨T', -, hrb', hrun, hany⟩ := erase_step h ⟨h1, h2, h3⟩
  refine ⟨T', ?_, ?_, hrb'.1, hrb'.2.1, hrb'.2.2⟩
  · intro fuel hf
    obtain ⟨t', e1, e2, -⟩ := hrun fuel hf
    exact ⟨t', e1, e2⟩
  · intro fuel t' r hr
    exact (hany fuel t' r hr).2.1

/-- Instance of C2: erasing the only node of `tree1`, a BLACK node, so that
the fix-up runs from the sentinel. -/
theorem rbtree_erase_preserves_rb_witness :
    ∃ T', (∀ fuel, height (ATree.node RBTREE_BLACK ATree.leaf 2 5 ATree.leaf) + 2 ≤ fuel →
          ∃ t', rbtree_erase fuel tree1 2 = some (t', 0) ∧ TreeRep t' T') ∧
      (∀ fuel t' r, rbtree_erase fuel tree1 2 = some (t', r) → TreeRep t' T') ∧
      rootBlack T' ∧ noRedRed T' ∧ equalBH T' :=
  rbtree_erase_preserves_rb tree1 (ATree.node RBTREE_BLACK ATree.leaf 2 5 ATree.leaf) 2
    treeRep_tree1.1 isRB_tree1.1 isRB_tree1.2.1 isRB_tree1.2.2 (by simp [addrs, nodes])

/-- The keys of the in-order sequence are the `key` fields of its nodes. -/
theorem TreeRep.keys_eq {t : rbtree} {T : ATree} (h : TreeRep t T) :
    keys T = (addrs T).map t.key := by
  simp only [keys, addrs, List.map_map]
  apply List.map_congr_left
  intro x hx
  obtain ⟨a, k⟩ := x
  exact (h.node_facts hx).1.symm

/-- Every run of `rbtree_to_array` that returns gives the result of the runs
with more fuel. -/
theorem to_array_unique {t : rbtree} {arr : Nat → key_t} {n fuel fuel' : Nat}
    {r r' : (Nat → key_t) × Nat} (h : rbtree_to_array fuel t arr n = some r)
    (h' : rbtree_to_array fuel' t arr n = some r') : r' = r := by
  simp only [rbtree_to_array] at h h'
  have e := inorder_mono (le_max_left fuel fuel') h
  rw [inorder_mono (le_max_right fuel fuel') h'] at e
  simpa using e

/-- C3: order preservation.  In every state reachable from `new_rbtree()` by
inserts and by erases of nodes in the tree, `rbtree_to_array` returns once
the fuel covers the number of nodes, every run that returns gives the same
buffer and count, and the key sequence it wrote (1) is in non-decreasing
order, (2) is the in-order key sequence of the tree the heap holds, (3) is a
rearrangement of the `key` fields of the nodes in the tree, one key per
node, and (4) has as many keys as the tree has nodes, which is the count
returned. -/
theorem rbtree_to_array_sorted (t : rbtree) (live : List Nat) (N M : Nat)
    (h : Reach t live N M) (arr : Nat → key_t) (n : Nat) :
    ∃ r, (∀ fuel, live.length + 1 ≤ fuel → rbtree_to_array fuel t arr n = some r) ∧
      (∀ fuel r', rbtree_to_array fuel t arr n = some r' → r' = r) ∧
      (written r).Sorted (· ≤ ·) ∧
      (∃ T, TreeRep t T ∧ written r = keys T) ∧
      (written r).Perm (live.map t.key) ∧
      (written r).length = live.length ∧ r.2 = live.length := by
  obtain ⟨T, hT, -, hbst, hperm, -⟩ := reach_inv h
  obtain ⟨r, hr, hw, hc⟩ := to_array_spec hT arr n
  have hh := perm_length_height hperm
  have hlen : size T = live.length := by rw [size_eq, ← addrs_length, hperm.length_eq]
  refine ⟨r, fun fuel hf => hr fuel (by omega), ?_, hw ▸ hbst, ⟨T, hT, hw⟩, ?_, ?_, ?_⟩
  · intro fuel r' hrun
    exact to_array_unique (hr (height T + 1) le_rfl) hrun
  · rw [hw, hT.keys_eq]
    exact hperm.map _
  · rw [hw, keys_length, ← hlen, size_eq]
  · rw [hc, hlen]

/-- C4: size correctness.  In a state reached from `new_rbtree()` by `N`
inserts and `M` erases of nodes in the tree, `rbtree_to_array` returns
exactly `N - M` (and `M ≤ N`), and that is the number of keys it wrote. -/
theorem rbtree_to_array_count (t : rbtree) (live : List Nat) (N M : Nat)
    (h : Reach t live N M) (arr : Nat → key_t) (n : Nat) :
    ∃ r, (∀ fuel, live.length + 1 ≤ fuel → rbtree_to_array fuel t arr n = some r) ∧
      r.2 = N - M ∧ M ≤ N ∧ (written r).length = N - M := by
  obtain ⟨T, hT, -, -, hperm, hsize⟩ := reach_inv h
  obtain ⟨r, hr, hw, hc⟩ := to_array_spec hT arr n
  have hh := perm_length_height hperm
  refine ⟨r, fun fuel hf => hr fuel (by omega), by omega, by omega, ?_⟩
  simp only [written, List.length_map, List.length_range]
  omega

/-- Instance of C4: the one-node tree `tree1`, one insert and no erase. -/
theorem rbtree_to_array_count_witness :
    ∃ r, (∀ fuel, [2].length + 1 ≤ fuel →
          rbtree_to_array fuel tree1 (fun _ => 0) 1 = some r) ∧
      r.2 = 1 - 0 ∧ 0 ≤ 1 ∧ (written r).length = 1 - 0 :=
  rbtree_to_array_count tree1 [2] 1 0 reach_tree1 (fun _ => 0) 1

/-- C5: insert-then-find round trip.  In every reachable state, for every
key and every fresh address `z` that a successful `malloc` returns,
`rbtree_insert` returns, and `rbtree_find` for the key on the state after it
returns a non-NULL node that is in the tree (not the sentinel) and whose key
is the key; duplicates and rotations make no difference. -/
theorem rbtree_insert_then_find (t : rbtree) (live : List Nat) (N M : Nat)
    (h : Reach t live N M) (z : Nat) (key : key_t)
    (hz0 : z ≠ NULL) (hzn : z ≠ t.nil) (hzl : z ∉ live) :
    ∃ t' r, (∀ fuel, live.length + 2 ≤ fuel → rbtree_insert fuel t z key = some (t', z)) ∧
      (∀ fuel, live.length + 2 ≤ fuel → rbtree_find fuel t' key = some r) ∧
      r ≠ NULL ∧ r ≠ t'.nil ∧ r ∈ z :: live ∧ t'.key r = key := by
  obtain ⟨T, hT, hrb, hbst, hperm, -⟩ := reach_inv h
  have hzf : z ∉ addrs T := fun hin => hzl (hperm.subset hin)
  have hh := perm_length_height hperm
  obtain ⟨T', he, -, hrun, -⟩ := insert_step z key hT hrb hz0 hzn hzf
  obtain ⟨t', e1, hT', -⟩ := hrun (height T + 2) le_rfl
  have hreach : Reach t' (z :: live) (N + 1) M :=
    Reach.insert _ z key t' z h hz0 hzn hzl e1
  obtain ⟨T'', hT'', -, hbst'', hperm'', -⟩ := reach_inv hreach
  have hh'' := perm_length_height hperm''
  simp only [List.length_cons] at hh''
  obtain ⟨r, hr, -, hcase⟩ := rbtree_find_total key hT'' hbst''
  have hzin : ∃ k, (z, k) ∈ nodes T'' := (mem_live_iff hperm'').1 (List.mem_cons_self _ _)
  have hkey : t'.key z = key := by
    obtain ⟨pre, post, -, h2, -, -⟩ := nodes_insTree hbst he
    exact (hT'.node_facts (a := z) (k := key) (by rw [h2]; simp)).1
  refine ⟨t', r, ?_, fun fuel hf => hr fuel (by omega), ?_⟩
  · intro fuel hf
    obtain ⟨t2, e2, -, -⟩ := hrun fuel (by omega)
    have := rbtree_insert_mono (le_max_left (height T + 2) fuel) e1
    rw [rbtree_insert_mono (le_max_right (height T + 2) fuel) e2] at this
    rw [e2, this]
  · rcases hcase with ⟨hin, hnn⟩ | ⟨-, hno⟩
    · obtain ⟨k1, k2, -⟩ := hT''.node_facts hin
      exact ⟨hnn, k2, (mem_live_iff hperm'').2 ⟨key, hin⟩, k1⟩
    · obtain ⟨k, hk⟩ := hzin
      have := (hT''.node_facts hk).1
      exact absurd (this.symm.trans hkey) (hno _ hk)

/-- Instance of C5: inserting a second key 5 into the one-node tree `tree1`
that already holds the key 5. -/
theorem rbtree_insert_then_find_witness :
    Reach tree1 [2] 1 0 ∧
    ∃ t' r, (∀ fuel, [2].length + 2 ≤ fuel → rbtree_insert fuel tree1 3 5 = some (t', 3)) ∧
      (∀ fuel, [2].length + 2 ≤ fuel → rbtree_find fuel t' 5 = some r) ∧
      r ≠ NULL ∧ r ≠ t'.nil ∧ r ∈ [3, 2] ∧ t'.key r = 5 :=
  ⟨reach_tree1, rbtree_insert_then_find tree1 [2] 1 0 reach_tree1 3 5 (by decide)
    (by rw [treeRep_tree1.2]; decide) (by simp)⟩

/-- C7: find is exact.  In every reachable state and for every key,
`rbtree_find` returns (the same for every fuel that covers the number of
nodes); the result is NULL if and only if no node in the tree has the key,
and a result other than NULL is a node in the tree, not the sentinel, whose
key is the key. -/
theorem rbtree_find_exact (t : rbtree) (live : List Nat) (N M : Nat)
    (h : Reach t live N M) (key : key_t) :
    ∃ r, (∀ fuel, live.length + 1 ≤ fuel → rbtree_find fuel t key = some r) ∧
      (r = NULL ↔ ∀ a ∈ live, t.key a ≠ key) ∧
      (r ≠ NULL → r ∈ live ∧ r ≠ t.nil ∧ t.key r = key) := by
  obtain ⟨T, hT, -, hbst, hperm, -⟩ := reach_inv h
  have hh := perm_length_height hperm
  obtain ⟨r, hr, -, hcase⟩ := rbtree_find_total key hT hbst
  refine ⟨r, fun fuel hf => hr fuel (by omega), ?_, ?_⟩
  · rcases hcase with ⟨hin, hnn⟩ | ⟨h0, hno⟩
    · constructor
      · intro h0; exact absurd h0 hnn
      · intro hall
        exact absurd (hT.node_facts hin).1 (hall r ((mem_live_iff hperm).2 ⟨key, hin⟩))
    · constructor
      · intro _ a ha
        obtain ⟨k, hk⟩ := (mem_live_iff hperm).1 ha
        rw [(hT.node_facts hk).1]
        exact hno _ hk
      · intro _; exact h0
  · intro hnn
    rcases hcase with ⟨hin, -⟩ | ⟨h0, -⟩
    · obtain ⟨k1, k2, -⟩ := hT.node_facts hin
      exact ⟨(mem_live_iff hperm).2 ⟨key, hin⟩, k2, k1⟩
    · exact absurd h0 hnn

/-- Instance of C7: looking up the key 7 in the one-node tree `tree1`. -/
theorem rbtree_find_exact_witness :
    Reach tree1 [2] 1 0 ∧
    ∃ r, (∀ fuel, [2].length + 1 ≤ fuel → rbtree_find fuel tree1 7 = some r) ∧
      (r = NULL ↔ ∀ a ∈ [2], tree1.key a ≠ 7) ∧
      (r ≠ NULL → r ∈ [2] ∧ r ≠ tree1.nil ∧ tree1.key r = 7) :=
  ⟨reach_tree1, rbtree_find_exact tree1 [2] 1 0 reach_tree1 7⟩

/-- C6: erase-then-find.  In every reachable state, when `rbtree_find` for a
key returns a node `r` other than NULL, `rbtree_erase` of `r` returns 0, and
`rbtree_find` for the key on the state after it returns NULL if no other
node in the tree had the key, and otherwise a node still in the tree whose
key is the key. -/
theorem rbtree_erase_then_find (t : rbtree) (live : List Nat) (N M : Nat)
    (h : Reach t live N M) (key : key_t) (fuel0 r : Nat)
    (hr : rbtree_find fuel0 t key = some r) (hnn : r ≠ NULL) :
    ∃ t' r', (∀ fuel, live.length + 2 ≤ fuel → rbtree_erase fuel t r = some (t', 0)) ∧
      (∀ fuel, live.length + 2 ≤ fuel → rbtree_find fuel t' key = some r') ∧
      ((∀ a ∈ live, a ≠ r → t.key a ≠ key) → r' = NULL) ∧
      ((∃ a ∈ live, a ≠ r ∧ t.key a = key) →
        r' ≠ NULL ∧ r' ∈ live.erase r ∧ t'.key r' = key) := by
  obtain ⟨T, hT, hrb, hbst, hperm, -⟩ := reach_inv h
  have hh := perm_length_height hperm
  obtain ⟨r0, -, huniq, hcase⟩ := rbtree_find_total key hT hbst
  have hr0 := huniq fuel0 r hr
  subst hr0
  have hin : (r, key) ∈ nodes T := by
    rcases hcase with ⟨hin, -⟩ | ⟨h0, -⟩
    · exact hin
    · exact absurd h0 hnn
  obtain ⟨p, cz, zl, zr, rfl⟩ := locate_node hin
  obtain ⟨T', he, -, hrun, -⟩ := erase_step hT hrb
  obtain ⟨t', e1, hT', -⟩ := hrun _ le_rfl
  have hrl : r ∈ live := (mem_live_iff hperm).2 ⟨key, hin⟩
  have hreach : Reach t' (live.erase r) N (M + 1) := Reach.erase _ r t' 0 h hrl e1
  obtain ⟨h1, h2⟩ := nodes_eraseAt r key he
  have hbst' : IsBST T' := isBST_eraseAt r key hbst he
  have hnd : (addrs (plug (ATree.node cz zl r key zr) p)).Nodup := hT.glob.nodup
  have e2 : addrs (plug (ATree.node cz zl r key zr) p) =
      (before p ++ nodes zl).map Prod.fst ++ r :: (nodes zr ++ after p).map Prod.fst := by
    simp [addrs, h2]
  have e3 : addrs T' =
      (before p ++ nodes zl).map Prod.fst ++ (nodes zr ++ after p).map Prod.fst := by
    simp [addrs, h1]
  have hperm' : (addrs T').Perm (live.erase r) := by
    rw [e3]
    rw [e2] at hnd hperm
    exact perm_remove hnd hperm
  have hh' : height T' ≤ live.length := by
    have := perm_length_height hperm'
    have := List.length_erase_le r live
    omega
  have hsub : ∀ x, x ∈ nodes T' → x ∈ nodes (plug (ATree.node cz zl r key zr) p) ∧ x.1 ≠ r := by
    intro x hx
    rw [h1] at hx
    constructor
    · rw [h2]
      simp only [List.mem_append, List.mem_cons] at hx ⊢
      tauto
    · intro hxr
      have hx1 : x.1 ∈ addrs T' := by
        rw [addrs]
        exact List.mem_map_of_mem _ (by rw [h1]; exact hx)
      have := (hperm'.subset hx1)
      rw [hxr] at this
      have hndl : live.Nodup := hperm.nodup_iff.1 hT.glob.nodup
      exact (List.Nodup.not_mem_erase hndl) this
  obtain ⟨r', hr', -, hcase'⟩ := rbtree_find_total key hT' hbst'
  refine ⟨t', r', ?_, fun fuel hf => hr' fuel (by omega), ?_, ?_⟩
  · intro fuel hf
    obtain ⟨t2, e4, -, -⟩ := hrun fuel (by omega)
    have := rbtree_erase_mono (le_max_left _ fuel) e1
    rw [rbtree_erase_mono (le_max_right _ fuel) e4] at this
    rw [e4, this]
  · intro hall
    rcases hcase' with ⟨hin', -⟩ | ⟨h0, -⟩
    · obtain ⟨k1, k2⟩ := hsub _ hin'
      have k3 := (hT.node_facts k1).1
      exact absurd k3 (hall r' ((mem_live_iff hperm).2 ⟨key, k1⟩) k2)
    · exact h0
  · rintro ⟨a, ha, har, hak⟩
    obtain ⟨k, hk⟩ := (mem_live_iff hperm).1 ha
    have hk' : k = key := (hT.node_facts hk).1.symm.trans hak
    subst hk'
    have hk2 : (a, k) ∈ nodes T' := by
      rw [h1]
      rw [h2] at hk
      simp only [List.mem_append, List.mem_cons, Prod.mk.injEq] at hk ⊢
      tauto
    rcases hcase' with ⟨hin', hnn'⟩ | ⟨-, hno⟩
    · exact ⟨hnn', (mem_live_iff hperm').2 ⟨k, hin'⟩, (hT'.node_facts hin').1⟩
    · exact absurd rfl (hno _ hk2)

/-- Instance of C6: in the one-node tree `tree1`, `rbtree_find` for 5 returns
the node at address 2. -/
theorem rbtree_erase_then_find_witness :
    Reach tree1 [2] 1 0 ∧ rbtree_find 3 tree1 5 = some 2 ∧
    ∃ t' r', (∀ fuel, [2].length + 2 ≤ fuel → rbtree_erase fuel tree1 2 = some (t', 0)) ∧
      (∀ fuel, [2].length + 2 ≤ fuel → rbtree_find fuel t' 5 = some r') ∧
      ((∀ a ∈ [2], a ≠ 2 → tree1.key a ≠ 5) → r' = NULL) ∧
      ((∃ a ∈ [2], a ≠ 2 ∧ tree1.key a = 5) →
        r' ≠ NULL ∧ r' ∈ [2].erase 2 ∧ t'.key r' = 5) :=
  ⟨reach_tree1, by decide!,
    rbtree_erase_then_find tree1 [2] 1 0 reach_tree1 5 3 2 (by decide!) (by decide)⟩

/-- C8: min/max correctness.  In every reachable state with at least one
node, `rbtree_min` and `rbtree_max` return nodes in the tree (not NULL, not
the sentinel); the key of the minimum is the first key `rbtree_to_array`
writes and is `≤` every key written, the key of the maximum is the last key
written and is `≥` every key written. -/
theorem rbtree_min_max_correct (t : rbtree) (live : List Nat) (N M : Nat)
    (h : Reach t live N M) (hne : live ≠ []) (arr : Nat → key_t) (n : Nat) :
    ∃ a b r, (∀ fuel, live.length + 1 ≤ fuel →
          rbtree_min fuel t = some a ∧ rbtree_max fuel t = some b ∧
            rbtree_to_array fuel t arr n = some r) ∧
      a ∈ live ∧ a ≠ NULL ∧ a ≠ t.nil ∧ b ∈ live ∧ b ≠ NULL ∧ b ≠ t.nil ∧
      (written r).head? = some (t.key a) ∧ (written r).getLast? = some (t.key b) ∧
      ∀ k ∈ written r, t.key a ≤ k ∧ k ≤ t.key b := by
  obtain ⟨T, hT, -, hbst, hperm, -⟩ := reach_inv h
  have hh := perm_length_height hperm
  have hTne : T ≠ ATree.leaf := by
    rintro rfl
    simp only [addrs, nodes, List.map_nil] at hperm
    exact hne (List.nil_perm.1 hperm)
  obtain ⟨a, ka, rest, ha1, ha2⟩ := rbtree_min_total hT hTne
  obtain ⟨b, kb, rest', hb1, hb2⟩ := rbtree_max_total hT hTne
  obtain ⟨r, hr, hw, -⟩ := to_array_spec hT arr n
  have hain : (a, ka) ∈ nodes T := by rw [ha1]; simp
  have hbin : (b, kb) ∈ nodes T := by rw [hb1]; simp
  obtain ⟨a1, a2, a3⟩ := hT.node_facts hain
  obtain ⟨b1, b2, b3⟩ := hT.node_facts hbin
  have hs : (keys T).Sorted (· ≤ ·) := hbst
  have ea : keys T = ka :: rest.map Prod.snd := by simp [keys, ha1]
  have eb : keys T = rest'.map Prod.snd ++ [kb] := by simp [keys, hb1]
  refine ⟨a, b, r, fun fuel hf => ⟨ha2 fuel (by omega), hb2 fuel (by omega),
    hr fuel (by omega)⟩, (mem_live_iff hperm).2 ⟨ka, hain⟩, a3, a2,
    (mem_live_iff hperm).2 ⟨kb, hbin⟩, b3, b2, ?_, ?_, ?_⟩
  · rw [hw, ea, a1]; rfl
  · rw [hw, eb, b1]; simp
  · intro k hk
    rw [hw] at hk
    rw [a1, b1]
    exact ⟨head_le_of_sorted (ea ▸ hs) k (ea ▸ hk), le_last_of_sorted (eb ▸ hs) k (eb ▸ hk)⟩

/-- Instance of C8: the one-node tree `tree1`. -/
theorem rbtree_min_max_correct_witness :
    Reach tree1 [2] 1 0 ∧ [2] ≠ [] ∧
    ∃ a b r, (∀ fuel, [2].length + 1 ≤ fuel →
          rbtree_min fuel tree1 = some a ∧ rbtree_max fuel tree1 = some b ∧
            rbtree_to_array fuel tree1 (fun _ => 0) 1 = some r) ∧
      a ∈ [2] ∧ a ≠ NULL ∧ a ≠ tree1.nil ∧ b ∈ [2] ∧ b ≠ NULL ∧ b ≠ tree1.nil ∧
      (written r).head? = some (tree1.key a) ∧ (written r).getLast? = some (tree1.key b) ∧
      ∀ k ∈ written r, tree1.key a ≤ k ∧ k ≤ tree1.key b :=
  ⟨reach_tree1, by decide,
    rbtree_min_max_correct tree1 [2] 1 0 reach_tree1 (by decide) (fun _ => 0) 1⟩

/-- C9: erase removes exactly the given node, by identity.  In every
reachable state holding the tree `T`, for every node `z` in the tree (with
zero, one or two children), `rbtree_erase` returns 0 and leaves a state
holding a tree `T'` whose in-order sequence of nodes (address and key) is
that of `T` with `z` deleted; every other node keeps its key in the heap.
The scenario: inserting 10, 20, 30, 5, 15, 25, 35 and erasing the node found
for 20 returns 0 and exports 5, 10, 15, 25, 30, 35. -/
theorem rbtree_erase_removes_node (t : rbtree) (live : List Nat) (N M : Nat)
    (h : Reach t live N M) (z : Nat) (hz : z ∈ live) :
    (∃ t' T T' pre post,
      (∀ fuel, live.length + 2 ≤ fuel → rbtree_erase fuel t z = some (t', 0)) ∧
      TreeRep t T ∧ TreeRep t' T' ∧
      nodes T = pre ++ (z, t.key z) :: post ∧ nodes T' = pre ++ post ∧
      (∀ a ∈ live, a ≠ z → a ∈ addrs T' ∧ t'.key a = t.key a) ∧ z ∉ addrs T') ∧
    erase20 = some (0, [5, 10, 15, 25, 30, 35]) := by
  refine ⟨?_, by decide!⟩
  obtain ⟨T, hT, hrb, hbst, hperm, -⟩ := reach_inv h
  have hh := perm_length_height hperm
  obtain ⟨kz, hin⟩ := (mem_live_iff hperm).1 hz
  obtain ⟨p, cz, zl, zr, rfl⟩ := locate_node hin
  obtain ⟨T', he, -, hrun, -⟩ := erase_step hT hrb
  obtain ⟨t', e1, hT', -⟩ := hrun _ le_rfl
  obtain ⟨h1, h2⟩ := nodes_eraseAt z kz he
  have hkz : t.key z = kz := (hT.node_facts hin).1
  have hnd : (addrs (plug (ATree.node cz zl z kz zr) p)).Nodup := hT.glob.nodup
  have e2 : addrs (plug (ATree.node cz zl z kz zr) p) =
      (before p ++ nodes zl).map Prod.fst ++ z :: (nodes zr ++ after p).map Prod.fst := by
    simp [addrs, h2]
  have e3 : addrs T' =
      (before p ++ nodes zl).map Prod.fst ++ (nodes zr ++ after p).map Prod.fst := by
    simp [addrs, h1]
  have hperm' : (addrs T').Perm (live.erase z) := by
    rw [e3]
    rw [e2] at hnd hperm
    exact perm_remove hnd hperm
  have hndl : live.Nodup := hperm.nodup_iff.1 hT.glob.nodup
  refine ⟨t', _, T', before p ++ nodes zl, nodes zr ++ after p, ?_, hT, hT', ?_, ?_, ?_, ?_⟩
  · intro fuel hf
    obtain ⟨t2, e4, -, -⟩ := hrun fuel (by omega)
    have := rbtree_erase_mono (le_max_left _ fuel) e1
    rw [rbtree_erase_mono (le_max_right _ fuel) e4] at this
    rw [e4, this]
  · rw [h2, hkz]; simp
  · rw [h1]; simp
  · intro a ha haz
    have ha' : a ∈ addrs T' := hperm'.symm.subset ((List.mem_erase_of_ne haz).2 ha)
    obtain ⟨k, hk⟩ := mem_addrs_iff.1 ha'
    have hk0 : (a, k) ∈ nodes (plug (ATree.node cz zl z kz zr) p) := by
      rw [h2]
      rw [h1] at hk
      simp only [List.mem_append, List.mem_cons] at hk ⊢
      tauto
    exact ⟨ha', (hT'.node_facts hk).1.trans (hT.node_facts hk0).1.symm⟩
  · intro hza
    exact (List.Nodup.not_mem_erase hndl) (hperm'.subset hza)

/-- Instance of C9: erasing the only node of the one-node tree `tree1`. -/
theorem rbtree_erase_removes_node_witness :
    Reach tree1 [2] 1 0 ∧ 2 ∈ [2] ∧
    ((∃ t' T T' pre post,
      (∀ fuel, [2].length + 2 ≤ fuel → rbtree_erase fuel tree1 2 = some (t', 0)) ∧
      TreeRep tree1 T ∧ TreeRep t' T' ∧
      nodes T = pre ++ (2, tree1.key 2) :: post ∧ nodes T' = pre ++ post ∧
      (∀ a ∈ [2], a ≠ 2 → a ∈ addrs T' ∧ t'.key a = tree1.key a) ∧ 2 ∉ addrs T') ∧
    erase20 = some (0, [5, 10, 15, 25, 30, 35])) :=
  ⟨reach_tree1, by decide, rbtree_erase_removes_node tree1 [2] 1 0 reach_tree1 2 (by decide)⟩

theorem cnodes_plug_congr {S S' : ATree} (p : Path) (h : cnodes S = cnodes S') :
    cnodes (plug S p) = cnodes (plug S' p) := by
  induction p generalizing S S' with
  | nil => exact h
  | cons f up ih =>
    cases f with
    | L c a k r => exact ih (by simp [cnodes, h])
    | R c l a k => exact ih (by simp [cnodes, h])

theorem nodes_of_cnodes (T : ATree) : nodes T = (cnodes T).map (fun x => (x.1, x.2.1)) := by
  induction T with
  | leaf => rfl
  | node c l a k r ihl ihr => simp [nodes, cnodes, ihl, ihr]

theorem setLeft_key (t : rbtree) (a v b : Nat) : (t.setLeft a v).key b = t.key b := by
  by_cases h : b = a <;> simp [rbtree.setLeft, rbtree.key, Function.update_apply, h]

theorem setLeft_color (t : rbtree) (a v b : Nat) : (t.setLeft a v).color b = t.color b := by
  by_cases h : b = a <;> simp [rbtree.setLeft, rbtree.color, Function.update_apply, h]

theorem setRight_key (t : rbtree) (a v b : Nat) : (t.setRight a v).key b = t.key b := by
  by_cases h : b = a <;> simp [rbtree.setRight, rbtree.key, Function.update_apply, h]

theorem setRight_color (t : rbtree) (a v b : Nat) : (t.setRight a v).color b = t.color b := by
  by_cases h : b = a <;> simp [rbtree.setRight, rbtree.color, Function.update_apply, h]

theorem setParent_key (t : rbtree) (a v b : Nat) : (t.setParent a v).key b = t.key b := by
  by_cases h : b = a <;> simp [rbtree.setParent, rbtree.key, Function.update_apply, h]

theorem setParent_color (t : rbtree) (a v b : Nat) :
    (t.setParent a v).color b = t.color b := by
  by_cases h : b = a <;> simp [rbtree.setParent, rbtree.color, Function.update_apply, h]

theorem setRoot_key (t : rbtree) (v b : Nat) : (t.setRoot v).key b = t.key b := rfl

theorem setRoot_color (t : rbtree) (v b : Nat) : (t.setRoot v).color b = t.color b := rfl

/-- The rotations store no key and no colour. -/
theorem left_rotate_fields (t : rbtree) (x a : Nat) :
    (left_rotate t x).key a = t.key a ∧ (left_rotate t x).color a = t.color a := by
  simp only [left_rotate]
  constructor <;> split_ifs <;>
    simp only [setLeft_key, setRight_key, setParent_key, setRoot_key, setLeft_color,
      setRight_color, setParent_color, setRoot_color]

theorem right_rotate_fields (t : rbtree) (y a : Nat) :
    (right_rotate t y).key a = t.key a ∧ (right_rotate t y).color a = t.color a := by
  simp only [right_rotate]
  constructor <;> split_ifs <;>
    simp only [setLeft_key, setRight_key, setParent_key, setRoot_key, setLeft_color,
      setRight_color, setParent_color, setRoot_color]

/-- Two states that hold the same tree under the same sentinel agree on every
node of the tree and on the root. -/
theorem TreeRep.unique_cells {t t' : rbtree} {W : ATree} (h : TreeRep t W) (h' : TreeRep t' W)
    (hn : t'.nil = t.nil) : t'.root = t.root ∧ ∀ a ∈ addrs W, t'.mem a = t.mem a := by
  constructor
  · rw [h.glob.root, h'.glob.root, hn]
  · intro a ha
    obtain ⟨k, hk⟩ := mem_addrs_iff.1 ha
    obtain ⟨p, c, l, r, rfl⟩ := locate_node hk
    rw [(Foc.ofRoot p h).cell, (Foc.ofRoot p h').cell, hn]

/-- The state after an insert that is known to return. -/
theorem treeRep_insert_state {t : rbtree} {T T' : ATree} {z : Nat} {key : key_t}
    (h : TreeRep t T) (hz0 : z ≠ NULL) (hzn : z ≠ t.nil) (hzf : z ∉ addrs T)
    (he : insTree T z key = some T') (fuel : Nat) (hf : height T + 2 ≤ fuel) :
    TreeRep (insert_state fuel t z key) T' ∧ (insert_state fuel t z key).nil = t.nil ∧
      rbtree_insert fuel t z key = some (insert_state fuel t z key, z) := by
  obtain ⟨t', h1, h2, h3⟩ := rbtree_insert_spec h hz0 hzn hzf he fuel hf
  rw [insert_state_eq h1]
  exact ⟨h2, h3, h1⟩

/-- The state `tree2` holds the root 5 with the RED right child 7. -/
theorem treeRep_tree2 :
    TreeRep tree2 (ATree.node RBTREE_BLACK ATree.leaf 2 5
      (ATree.node RBTREE_RED ATree.leaf 3 7 ATree.leaf)) ∧ tree2.nil = 1 := by
  have he : insTree (ATree.node RBTREE_BLACK ATree.leaf 2 5 ATree.leaf) 3 7 =
      some (ATree.node RBTREE_BLACK ATree.leaf 2 5
        (ATree.node RBTREE_RED ATree.leaf 3 7 ATree.leaf)) := by decide
  have := treeRep_insert_state treeRep_tree1.1 (by decide)
    (by rw [treeRep_tree1.2]; decide) (by simp [addrs, nodes]) he 4 (by simp [height])
  exact ⟨this.1, this.2.1.trans treeRep_tree1.2⟩

/-- The state `tree2l` holds the root 5 with the RED left child 3. -/
theorem treeRep_tree2l :
    TreeRep tree2l (ATree.node RBTREE_BLACK (ATree.node RBTREE_RED ATree.leaf 3 3 ATree.leaf)
      2 5 ATree.leaf) ∧ tree2l.nil = 1 := by
  have he : insTree (ATree.node RBTREE_BLACK ATree.leaf 2 5 ATree.leaf) 3 3 =
      some (ATree.node RBTREE_BLACK (ATree.node RBTREE_RED ATree.leaf 3 3 ATree.leaf)
        2 5 ATree.leaf) := by decide
  have := treeRep_insert_state treeRep_tree1.1 (by decide)
    (by rw [treeRep_tree1.2]; decide) (by simp [addrs, nodes]) he 4 (by simp [height])
  exact ⟨this.1, this.2.1.trans treeRep_tree1.2⟩

/-- C16: rotations preserve order and touch only links.  `left_rotate` and
`right_rotate` change the key and the colour of no node at all; and on a
well-formed tree in which `x` is a real node with a real right child `y`,
`left_rotate(t, x)` leaves a well-formed tree whose in-order sequence of
(node, key, colour) and whose in-order key sequence are those of the tree
before; symmetrically for `right_rotate(t, y)` when the left child `x` of `y`
is a real node. -/
theorem rotations_preserve_order (t : rbtree) :
    (∀ x a, (left_rotate t x).key a = t.key a ∧ (left_rotate t x).color a = t.color a) ∧
    (∀ y a, (right_rotate t y).key a = t.key a ∧ (right_rotate t y).color a = t.color a) ∧
    (∀ (p : Path) (cx cy : color_t) (A B C : ATree) (x y : Nat) (kx ky : key_t),
      TreeRep t (plug (ATree.node cx A x kx (ATree.node cy B y ky C)) p) →
      ∃ T', TreeRep (left_rotate t x) T' ∧
        cnodes T' = cnodes (plug (ATree.node cx A x kx (ATree.node cy B y ky C)) p) ∧
        keys T' = keys (plug (ATree.node cx A x kx (ATree.node cy B y ky C)) p)) ∧
    (∀ (p : Path) (cx cy : color_t) (A B C : ATree) (x y : Nat) (kx ky : key_t),
      TreeRep t (plug (ATree.node cy (ATree.node cx A x kx B) y ky C) p) →
      ∃ T', TreeRep (right_rotate t y) T' ∧
        cnodes T' = cnodes (plug (ATree.node cy (ATree.node cx A x kx B) y ky C) p) ∧
        keys T' = keys (plug (ATree.node cy (ATree.node cx A x kx B) y ky C) p)) := by
  refine ⟨left_rotate_fields t, right_rotate_fields t, ?_, ?_⟩
  · intro p cx cy A B C x y kx ky h
    have hc : cnodes (plug (ATree.node cy (ATree.node cx A x kx B) y ky C) p) =
        cnodes (plug (ATree.node cx A x kx (ATree.node cy B y ky C)) p) :=
      cnodes_plug_congr p (by simp [cnodes])
    refine ⟨_, (Foc.ofRoot p h).rotL.1.toRoot, hc, ?_⟩
    simp only [keys, nodes_of_cnodes, hc]
  · intro p cx cy A B C x y kx ky h
    have hc : cnodes (plug (ATree.node cx A x kx (ATree.node cy B y ky C)) p) =
        cnodes (plug (ATree.node cy (ATree.node cx A x kx B) y ky C) p) :=
      cnodes_plug_congr p (by simp [cnodes])
    refine ⟨_, (Foc.ofRoot p h).rotR.1.toRoot, hc, ?_⟩
    simp only [keys, nodes_of_cnodes, hc]

/-- Instance of C16: `left_rotate` at the root of `tree2` and `right_rotate`
at the root of `tree2l`. -/
theorem rotations_preserve_order_witness :
    (∃ T', TreeRep (left_rotate tree2 2) T' ∧
        cnodes T' = [(2, 5, RBTREE_BLACK), (3, 7, RBTREE_RED)] ∧ keys T' = [5, 7]) ∧
    (∃ T', TreeRep (right_rotate tree2l 2) T' ∧
        cnodes T' = [(3, 3, RBTREE_RED), (2, 5, RBTREE_BLACK)] ∧ keys T' = [3, 5]) :=
  ⟨(rotations_preserve_order tree2).2.2.1 [] RBTREE_BLACK RBTREE_RED ATree.leaf ATree.leaf
      ATree.leaf 2 3 5 7 treeRep_tree2.1,
    (rotations_preserve_order tree2l).2.2.2 [] RBTREE_RED RBTREE_BLACK ATree.leaf ATree.leaf
      ATree.leaf 3 2 3 5 treeRep_tree2l.1⟩

/-- C19: rotations are mutually inverse.  On a well-formed tree in which `x`
is a real node with a real right child `y`, `left_rotate(t, x)` followed by
`right_rotate(t, y)` gives back the root reference and the whole record (so
the left, right and parent link) of every real node, and leaves the sentinel
record as it was; symmetrically `right_rotate(t, y)` followed by
`left_rotate(t, x)` when `x` is the real left child of `y`. -/
theorem rotations_inverse (t : rbtree) :
    (∀ (p : Path) (cx cy : color_t) (A B C : ATree) (x y : Nat) (kx ky : key_t),
      TreeRep t (plug (ATree.node cx A x kx (ATree.node cy B y ky C)) p) →
      (right_rotate (left_rotate t x) y).root = t.root ∧
      (right_rotate (left_rotate t x) y).nil = t.nil ∧
      (right_rotate (left_rotate t x) y).mem t.nil = t.mem t.nil ∧
      ∀ a ∈ addrs (plug (ATree.node cx A x kx (ATree.node cy B y ky C)) p),
        (right_rotate (left_rotate t x) y).left a = t.left a ∧
        (right_rotate (left_rotate t x) y).right a = t.right a ∧
        (right_rotate (left_rotate t x) y).parent a = t.parent a ∧
        (right_rotate (left_rotate t x) y).mem a = t.mem a) ∧
    (∀ (p : Path) (cx cy : color_t) (A B C : ATree) (x y : Nat) (kx ky : key_t),
      TreeRep t (plug (ATree.node cy (ATree.node cx A x kx B) y ky C) p) →
      (left_rotate (right_rotate t y) x).root = t.root ∧
      (left_rotate (right_rotate t y) x).nil = t.nil ∧
      (left_rotate (right_rotate t y) x).mem t.nil = t.mem t.nil ∧
      ∀ a ∈ addrs (plug (ATree.node cy (ATree.node cx A x kx B) y ky C) p),
        (left_rotate (right_rotate t y) x).left a = t.left a ∧
        (left_rotate (right_rotate t y) x).right a = t.right a ∧
        (left_rotate (right_rotate t y) x).parent a = t.parent a ∧
        (left_rotate (right_rotate t y) x).mem a = t.mem a) := by
  constructor
  · intro p cx cy A B C x y kx ky h
    obtain ⟨h1, n1, m1⟩ := (Foc.ofRoot p h).rotL
    obtain ⟨h2, n2, m2⟩ := h1.rotR
    have hn : (right_rotate (left_rotate t x) y).nil = t.nil := n2.trans n1
    obtain ⟨hr, hm⟩ := TreeRep.unique_cells h h2.toRoot hn
    refine ⟨hr, hn, ?_, ?_⟩
    · rw [← n1, m2, n1, m1]
    · intro a ha
      have := hm a ha
      simp [rbtree.left, rbtree.right, rbtree.parent, this]
  · intro p cx cy A B C x y kx ky h
    obtain ⟨h1, n1, m1⟩ := (Foc.ofRoot p h).rotR
    obtain ⟨h2, n2, m2⟩ := h1.rotL
    have hn : (left_rotate (right_rotate t y) x).nil = t.nil := n2.trans n1
    obtain ⟨hr, hm⟩ := TreeRep.unique_cells h h2.toRoot hn
    refine ⟨hr, hn, ?_, ?_⟩
    · rw [← n1, m2, n1, m1]
    · intro a ha
      have := hm a ha
      simp [rbtree.left, rbtree.right, rbtree.parent, this]

/-- Instance of C19: rotating left and back at the root of `tree2`, rotating
right and back at the root of `tree2l`. -/
theorem rotations_inverse_witness :
    ((right_rotate (left_rotate tree2 2) 3).root = tree2.root ∧
      (right_rotate (left_rotate tree2 2) 3).nil = tree2.nil) ∧
    ((left_rotate (right_rotate tree2l 2) 3).root = tree2l.root ∧
      (left_rotate (right_rotate tree2l 2) 3).nil = tree2l.nil) :=
  ⟨(fun h => ⟨h.1, h.2.1⟩) ((rotations_inverse tree2).1 [] RBTREE_BLACK RBTREE_RED ATree.leaf
      ATree.leaf ATree.leaf 2 3 5 7 treeRep_tree2.1),
    (fun h => ⟨h.1, h.2.1⟩) ((rotations_inverse tree2l).2 [] RBTREE_RED RBTREE_BLACK ATree.leaf
      ATree.leaf ATree.leaf 3 2 3 5 treeRep_tree2l.1)⟩

/-! ## The height bound -/

theorem height_le_blackHeight (T : ATree) :
    noRedRed T → equalBH T →
      height T ≤ 2 * blackHeight T + (if rootColor T = RBTREE_RED then 1 else 0) := by
  induction T with
  | leaf => intro _ _; simp [height, blackHeight]
  | node c l a k r ihl ihr =>
    intro h1 h2
    obtain ⟨h1c, h1l, h1r⟩ := h1
    obtain ⟨h2e, h2l, h2r⟩ := h2
    have il := ihl h1l h2l
    have ir := ihr h1r h2r
    cases c with
    | RBTREE_RED =>
      obtain ⟨cl, cr⟩ := h1c rfl
      simp [cl, cr] at il ir
      simp only [height, blackHeight, rootColor, if_true]
      simp
      omega
    | RBTREE_BLACK =>
      simp only [height, blackHeight, rootColor, if_true]
      simp
      split_ifs at il ir <;> omega

theorem pow_blackHeight_le_size (T : ATree) : equalBH T → 2 ^ blackHeight T ≤ size T + 1 := by
  induction T with
  | leaf => intro _; simp [blackHeight, size]
  | node c l a k r ihl ihr =>
    intro h2
    obtain ⟨h2e, h2l, h2r⟩ := h2
    have il := ihl h2l
    have ir := ihr h2r
    rw [← h2e] at ir
    simp only [blackHeight, size]
    have : 2 ^ (blackHeight l + if c = RBTREE_BLACK then 1 else 0) ≤ 2 * 2 ^ blackHeight l := by
      split_ifs
      · rw [pow_succ]; omega
      · simp
    omega

/-- Height bound of a red-black tree. -/
theorem isRB_height_bound {T : ATree} (h : IsRB T) :
    2 ^ ((height T + 1) / 2) ≤ size T + 1 ∧ height T ≤ 2 * Nat.log2 (size T + 1) := by
  obtain ⟨h0, h1, h2⟩ := h
  have hh := height_le_blackHeight T h1 h2
  have hs := pow_blackHeight_le_size T h2
  rw [show rootColor T = RBTREE_BLACK from h0] at hh
  simp only [if_false, Nat.add_zero, reduceCtorEq] at hh
  have hle : (height T + 1) / 2 ≤ blackHeight T := by omega
  have hp : 2 ^ ((height T + 1) / 2) ≤ 2 ^ blackHeight T :=
    Nat.pow_le_pow_right (by decide) hle
  refine ⟨le_trans hp hs, ?_⟩
  have : blackHeight T ≤ Nat.log2 (size T + 1) := (Nat.le_log2 (by omega)).2 hs
  omega

/-- The height measured on the heap is the height of the tree held. -/
theorem heap_height_spec {t : rbtree} (T : ATree) :
    ∀ (p : Path), Foc t p T → ∀ fuel, height T + 1 ≤ fuel →
      heap_height fuel t (ptr t.nil T) = some (height T) := by
  induction T with
  | leaf =>
    intro p h fuel hf
    obtain ⟨fuel, rfl⟩ : ∃ f, fuel = f + 1 := ⟨fuel - 1, by omega⟩
    simp [heap_height, height]
  | node c l a k r ihl ihr =>
    intro p h fuel hf
    obtain ⟨fuel, rfl⟩ : ∃ f, fuel = f + 1 := ⟨fuel - 1, by omega⟩
    simp only [height] at hf
    rw [heap_height]
    simp only [ptr_node, ne_eq, h.ne_nil, not_false_eq_true, if_true, h.left_eq, h.right_eq]
    rw [ihl _ h.downL fuel (by omega), ihr _ h.downR fuel (by omega)]
    simp [height]

/-- C11: red-black height bound.  In every state reachable from
`new_rbtree()` by inserts and erases, with `n` real nodes (the live nodes,
`n = N - M`), the height `H` of the tree, measured on the heap as the number
of real nodes on a longest path from the root to the sentinel, satisfies
`2 ^ ceil(H / 2) ≤ n + 1` and `H ≤ 2 * log2 (n + 1)`.  The scenario: after
inserting 1, 2, 3, 4, 5, 6, 7 in ascending order the height is 4, which is at
most 6, and the export is 1, 2, 3, 4, 5, 6, 7. -/
theorem rbtree_height_bound (t : rbtree) (live : List Nat) (N M : Nat)
    (h : Reach t live N M) :
    (∃ H, (∀ fuel, live.length + 1 ≤ fuel → heap_height fuel t t.root = some H) ∧
      live.length = N - M ∧ 2 ^ ((H + 1) / 2) ≤ live.length + 1 ∧
      H ≤ 2 * Nat.log2 (live.length + 1)) ∧
    ascending7 = some (4, [1, 2, 3, 4, 5, 6, 7]) ∧ 4 ≤ 2 * Nat.log2 (7 + 1) := by
  refine ⟨?_, by decide!, by decide!⟩
  obtain ⟨T, hT, hrb, -, hperm, hsize⟩ := reach_inv h
  have hh := perm_length_height hperm
  have hlen : live.length = size T := by
    rw [size_eq, ← addrs_length, hperm.length_eq]
  obtain ⟨b1, b2⟩ := isRB_height_bound hrb
  refine ⟨height T, ?_, by omega, by rw [hlen]; exact b1, by rw [hlen]; exact b2⟩
  intro fuel hf
  have := heap_height_spec T [] hT fuel (by omega)
  rw [hT.glob.root]
  simpa [plug] using this

/-- Instance of C11: the one-node tree `tree1`. -/
theorem rbtree_height_bound_witness :
    Reach tree1 [2] 1 0 ∧
    ((∃ H, (∀ fuel, [2].length + 1 ≤ fuel → heap_height fuel tree1 tree1.root = some H) ∧
      [2].length = 1 - 0 ∧ 2 ^ ((H + 1) / 2) ≤ [2].length + 1 ∧
      H ≤ 2 * Nat.log2 ([2].length + 1)) ∧
    ascending7 = some (4, [1, 2, 3, 4, 5, 6, 7]) ∧ 4 ≤ 2 * Nat.log2 (7 + 1)) :=
  ⟨reach_tree1, rbtree_height_bound tree1 [2] 1 0 reach_tree1⟩

/-! ## Small scenarios with arbitrary keys -/

/-- C12: three ascending inserts produce the balanced shape.  For all keys
`a ≤ b ≤ c` and all fresh addresses `z1`, `z2`, `z3` that successful calls of
`malloc` return, inserting `a`, `b`, `c` in that order into a new tree
returns `z1`, `z2`, `z3` and leaves a tree whose root is `z2`, holding `b`
and BLACK, with left child `z1`, holding `a` and RED, and right child `z3`,
holding `c` and RED, both children with the sentinel for both their children;
the export is `a, b, c`. -/
theorem three_ascending_inserts (m : Nat → node_t) (s z1 z2 z3 : Nat) (a b c : key_t)
    (hs : s ≠ NULL) (h10 : z1 ≠ NULL) (h1s : z1 ≠ s) (h20 : z2 ≠ NULL) (h2s : z2 ≠ s)
    (h21 : z2 ≠ z1) (h30 : z3 ≠ NULL) (h3s : z3 ≠ s) (h31 : z3 ≠ z1) (h32 : z3 ≠ z2)
    (hab : a ≤ b) (hbc : b ≤ c) :
    ∃ t1 t2 t3,
      (∀ fuel, 4 ≤ fuel →
        rbtree_insert fuel (new_rbtree m s) z1 a = some (t1, z1) ∧
        rbtree_insert fuel t1 z2 b = some (t2, z2) ∧
        rbtree_insert fuel t2 z3 c = some (t3, z3)) ∧
      t3.nil = s ∧ t3.root = z2 ∧ t3.parent z2 = t3.nil ∧
      t3.key z2 = b ∧ t3.color z2 = RBTREE_BLACK ∧ t3.left z2 = z1 ∧ t3.right z2 = z3 ∧
      t3.key z1 = a ∧ t3.color z1 = RBTREE_RED ∧ t3.left z1 = t3.nil ∧ t3.right z1 = t3.nil ∧
      t3.key z3 = c ∧ t3.color z3 = RBTREE_RED ∧ t3.left z3 = t3.nil ∧ t3.right z3 = t3.nil ∧
      ∀ (arr : Nat → key_t) (n : Nat),
        ∃ r, (∀ fuel, 4 ≤ fuel → rbtree_to_array fuel t3 arr n = some r) ∧
          written r = [a, b, c] ∧ r.2 = 3 := by
  obtain ⟨h0, n0⟩ := treeRep_new m s hs
  have e1 : insTree ATree.leaf z1 a = some (ATree.node RBTREE_BLACK ATree.leaf z1 a ATree.leaf) :=
    rfl
  have e2 : insTree (ATree.node RBTREE_BLACK ATree.leaf z1 a ATree.leaf) z2 b =
      some (ATree.node RBTREE_BLACK ATree.leaf z1 a
        (ATree.node RBTREE_RED ATree.leaf z2 b ATree.leaf)) := by
    simp [insTree, descend, not_lt.2 hab, insFix, Frame.color, plug]
  have e3 : insTree (ATree.node RBTREE_BLACK ATree.leaf z1 a
        (ATree.node RBTREE_RED ATree.leaf z2 b ATree.leaf)) z3 c =
      some (ATree.node RBTREE_BLACK (ATree.node RBTREE_RED ATree.leaf z1 a ATree.leaf) z2 b
        (ATree.node RBTREE_RED ATree.leaf z3 c ATree.leaf)) := by
    simp [insTree, descend, not_lt.2 hbc, not_lt.2 (le_trans hab hbc), insFix, plug]
  have r1 := treeRep_insert_state h0 h10 (by rw [n0]; exact h1s) (by simp [addrs, nodes]) e1 4
    (by simp [height])
  generalize insert_state 4 (new_rbtree m s) z1 a = t1 at r1
  have r2 := treeRep_insert_state r1.1 h20 (by rw [r1.2.1, n0]; exact h2s)
    (by simp [addrs, nodes, h21]) e2 4 (by simp [height])
  generalize insert_state 4 t1 z2 b = t2 at r2
  have r3 := treeRep_insert_state r2.1 h30 (by rw [r2.2.1, r1.2.1, n0]; exact h3s)
    (by simp [addrs, nodes, h31, h32]) e3 4 (by simp [height])
  generalize insert_state 4 t2 z3 c = t3 at r3
  have hT : Foc t3 [] (ATree.node RBTREE_BLACK (ATree.node RBTREE_RED ATree.leaf z1 a ATree.leaf)
      z2 b (ATree.node RBTREE_RED ATree.leaf z3 c ATree.leaf)) := r3.1
  have hn3 := r3.2.1.trans (r2.2.1.trans (r1.2.1.trans n0))
  refine ⟨t1, t2, t3, ?_, hn3, ?_, ?_, hT.key_eq, hT.color_eq, ?_, ?_,
    hT.downL.key_eq, hT.downL.color_eq, ?_, ?_, hT.downR.key_eq, hT.downR.color_eq, ?_, ?_, ?_⟩
  · intro fuel hf
    exact ⟨rbtree_insert_mono hf r1.2.2, rbtree_insert_mono hf r2.2.2,
      rbtree_insert_mono hf r3.2.2⟩
  · rw [hT.glob.root]; rfl
  · rw [hT.parent_eq]; rfl
  · rw [hT.left_eq]; rfl
  · rw [hT.right_eq]; rfl
  · rw [hT.downL.left_eq]; rfl
  · rw [hT.downL.right_eq]; rfl
  · rw [hT.downR.left_eq]; rfl
  · rw [hT.downR.right_eq]; rfl
  · intro arr n
    obtain ⟨r, k1, k2, k3⟩ := to_array_spec r3.1 arr n
    refine ⟨r, fun fuel hf => k1 fuel (by simp [height]; omega), ?_, ?_⟩
    · rw [k2]; simp [keys, nodes]
    · rw [k3]; simp [size]

/-- Instance of C12: the keys 10, 20, 30, nodes at the addresses 2, 3, 4. -/
theorem three_ascending_inserts_witness :
    ∃ t1 t2 t3,
      (∀ fuel, 4 ≤ fuel →
        rbtree_insert fuel (new_rbtree heap0 1) 2 10 = some (t1, 2) ∧
        rbtree_insert fuel t1 3 20 = some (t2, 3) ∧
        rbtree_insert fuel t2 4 30 = some (t3, 4)) ∧
      t3.nil = 1 ∧ t3.root = 3 ∧ t3.parent 3 = t3.nil ∧
      t3.key 3 = 20 ∧ t3.color 3 = RBTREE_BLACK ∧ t3.left 3 = 2 ∧ t3.right 3 = 4 ∧
      t3.key 2 = 10 ∧ t3.color 2 = RBTREE_RED ∧ t3.left 2 = t3.nil ∧ t3.right 2 = t3.nil ∧
      t3.key 4 = 30 ∧ t3.color 4 = RBTREE_RED ∧ t3.left 4 = t3.nil ∧ t3.right 4 = t3.nil ∧
      ∀ (arr : Nat → key_t) (n : Nat),
        ∃ r, (∀ fuel, 4 ≤ fuel → rbtree_to_array fuel t3 arr n = some r) ∧
          written r = [10, 20, 30] ∧ r.2 = 3 :=
  three_ascending_inserts heap0 1 2 3 4 10 20 30 (by decide) (by decide) (by decide)
    (by decide) (by decide) (by decide) (by decide) (by decide) (by decide) (by decide)
    (by decide) (by decide)

/-- C13: insert then erase on an empty tree gives back an empty tree.  For
every key `k` and every fresh address `z` that a successful `malloc` returns,
`rbtree_insert(t, k)` on a new tree returns `z`, `rbtree_erase(t, z)` returns
0, and afterwards the root is the sentinel, the sentinel is BLACK,
`rbtree_to_array` returns 0 and `rbtree_find(t, k)` returns NULL. -/
theorem insert_then_erase_empty (m : Nat → node_t) (s z : Nat) (k : key_t)
    (hs : s ≠ NULL) (hz0 : z ≠ NULL) (hzs : z ≠ s) :
    ∃ t1 t2,
      (∀ fuel, 3 ≤ fuel →
        rbtree_insert fuel (new_rbtree m s) z k = some (t1, z) ∧
        rbtree_erase fuel t1 z = some (t2, 0)) ∧
      t2.nil = s ∧ t2.root = t2.nil ∧ t2.color t2.nil = RBTREE_BLACK ∧
      (∀ (arr : Nat → key_t) (n : Nat),
        ∃ r, (∀ fuel, 1 ≤ fuel → rbtree_to_array fuel t2 arr n = some r) ∧
          r.2 = 0 ∧ written r = []) ∧
      ∀ fuel, 1 ≤ fuel → rbtree_find fuel t2 k = some NULL := by
  obtain ⟨h0, n0⟩ := treeRep_new m s hs
  have e1 : insTree ATree.leaf z k = some (ATree.node RBTREE_BLACK ATree.leaf z k ATree.leaf) :=
    rfl
  have r1 := treeRep_insert_state h0 hz0 (by rw [n0]; exact hzs) (by simp [addrs, nodes]) e1 3
    (by simp [height])
  generalize insert_state 3 (new_rbtree m s) z k = t1 at r1
  have e2 : eraseAt [] RBTREE_BLACK ATree.leaf ATree.leaf = some ATree.leaf := rfl
  have hf1 : Foc t1 [] (ATree.node RBTREE_BLACK ATree.leaf z k ATree.leaf) := r1.1
  obtain ⟨t2, k1, k2, k3⟩ := rbtree_erase_spec hf1 e2 3 (by simp [height, plug])
  refine ⟨t1, t2, ?_, k3.trans (r1.2.1.trans n0), ?_, k2.glob.nilblack, ?_, ?_⟩
  · intro fuel hf
    exact ⟨rbtree_insert_mono hf r1.2.2, rbtree_erase_mono hf k1⟩
  · rw [k2.glob.root]; rfl
  · intro arr n
    obtain ⟨r, q1, q2, q3⟩ := to_array_spec k2 arr n
    exact ⟨r, fun fuel hf => q1 fuel (by simpa [height] using hf), by rw [q3]; rfl,
      by rw [q2]; rfl⟩
  · obtain ⟨r, q1, -, q3⟩ := rbtree_find_total k k2 (by simp [IsBST, keys, nodes])
    rcases q3 with ⟨hin, -⟩ | ⟨h0', -⟩
    · simp [nodes] at hin
    · subst h0'
      exact fun fuel hf => q1 fuel (by simpa [height] using hf)

/-- Instance of C13: the key 5, the node at address 2. -/
theorem insert_then_erase_empty_witness :
    ∃ t1 t2,
      (∀ fuel, 3 ≤ fuel →
        rbtree_insert fuel (new_rbtree heap0 1) 2 5 = some (t1, 2) ∧
        rbtree_erase fuel t1 2 = some (t2, 0)) ∧
      t2.nil = 1 ∧ t2.root = t2.nil ∧ t2.color t2.nil = RBTREE_BLACK ∧
      (∀ (arr : Nat → key_t) (n : Nat),
        ∃ r, (∀ fuel, 1 ≤ fuel → rbtree_to_array fuel t2 arr n = some r) ∧
          r.2 = 0 ∧ written r = []) ∧
      ∀ fuel, 1 ≤ fuel → rbtree_find fuel t2 5 = some NULL :=
  insert_then_erase_empty heap0 1 2 5 (by decide) (by decide) (by decide)

/-! ## Links -/

/-- Every node of a subtree is reached from its root by child links. -/
theorem reaches_of_mem {t : rbtree} (S : ATree) :
    ∀ (p : Path), Foc t p S → ∀ x ∈ addrs S, Reaches t (ptr t.nil S) x := by
  induction S with
  | leaf => intro p h x hx; simp [addrs_leaf] at hx
  | node c l a k r ihl ihr =>
    intro p h x hx
    simp only [addrs_node, List.mem_append, List.mem_cons] at hx
    simp only [ptr_node]
    rcases hx with hx | rfl | hx
    · have := ihl _ h.downL x hx
      rw [← h.left_eq] at this
      exact Reaches.left h.ne_nil this
    · exact Reaches.here _
    · have := ihr _ h.downR x hx
      rw [← h.right_eq] at this
      exact Reaches.right h.ne_nil this

/-- Child links from the root of a subtree lead only to nodes of the subtree
(or end at the sentinel). -/
theorem mem_of_reaches {t : rbtree} {a b : Nat} (hr : Reaches t a b) :
    ∀ (S : ATree) (p : Path), Foc t p S → a = ptr t.nil S → b ∈ addrs S ∨ b = t.nil := by
  induction hr with
  | here a =>
    intro S p h ha
    cases S with
    | leaf => exact Or.inr ha
    | node c l x k r => exact Or.inl (by simp [addrs_node, ha])
  | @left a b hn _ ih =>
    intro S p h ha
    cases S with
    | leaf => exact absurd ha hn
    | node c l x k r =>
      simp only [ptr_node] at ha
      subst ha
      rcases ih l _ h.downL h.left_eq with hb | hb
      · exact Or.inl (by simp [addrs_node, hb])
      · exact Or.inr hb
  | @right a b hn _ ih =>
    intro S p h ha
    cases S with
    | leaf => exact absurd ha hn
    | node c l x k r =>
      simp only [ptr_node] at ha
      subst ha
      rcases ih r _ h.downR h.right_eq with hb | hb
      · exact Or.inl (by simp [addrs_node, hb])
      · exact Or.inr hb

/-- The links around a node of a well-formed tree. -/
theorem TreeRep.links {t : rbtree} {T : ATree} (h : TreeRep t T) {n : Nat} (hn : n ∈ addrs T) :
    n ≠ t.nil ∧ n ≠ NULL ∧
      (t.left n ≠ t.nil → t.left n ∈ addrs T ∧ t.parent (t.left n) = n) ∧
      (t.right n ≠ t.nil → t.right n ∈ addrs T ∧ t.parent (t.right n) = n) ∧
      Reaches t t.root n ∧ ¬ Reaches t (t.left n) n ∧ ¬ Reaches t (t.right n) n := by
  obtain ⟨k, hk⟩ := mem_addrs_iff.1 hn
  obtain ⟨-, f1, f2⟩ := h.node_facts hk
  obtain ⟨p, c, l, r, rfl⟩ := locate_node hk
  have hf := Foc.ofRoot p h
  obtain ⟨nl, nr, -⟩ := hf.notin
  refine ⟨f1, f2, ?_, ?_, ?_, ?_, ?_⟩
  · intro hl
    rw [hf.left_eq] at hl ⊢
    cases l with
    | leaf => exact absurd rfl hl
    | node cl ll la lk lr =>
      refine ⟨?_, hf.downL.parent_eq⟩
      rw [addrs_plug]
      simp [addrs_node]
  · intro hr
    rw [hf.right_eq] at hr ⊢
    cases r with
    | leaf => exact absurd rfl hr
    | node cr rl ra rk rr =>
      refine ⟨?_, hf.downR.parent_eq⟩
      rw [addrs_plug]
      simp [addrs_node]
  · rw [h.glob.root]
    exact reaches_of_mem _ [] h n hn
  · intro hr
    rcases mem_of_reaches hr l _ hf.downL hf.left_eq with hb | hb
    · exact nl hb
    · exact f1 hb
  · intro hr
    rcases mem_of_reaches hr r _ hf.downR hf.right_eq with hb | hb
    · exact nr hb
    · exact f1 hb

/-- Counterexample to C20 as stated: in the tree `new_rbtree()` returns, which
is reachable by no operation at all, the root is the sentinel and its parent
field is NULL, as `calloc` left it, not the sentinel. -/
theorem link_invariant_counterexample :
    Reach (new_rbtree heap0 1) [] 0 0 ∧
      (new_rbtree heap0 1).root = (new_rbtree heap0 1).nil ∧
      (new_rbtree heap0 1).parent (new_rbtree heap0 1).root = NULL ∧
      (new_rbtree heap0 1).parent (new_rbtree heap0 1).root ≠ (new_rbtree heap0 1).nil :=
  ⟨Reach.new heap0 1 (by decide), by decide, by decide, by decide⟩

/-- C20, amended: link well-formedness is an invariant.  In every state
reachable from `new_rbtree()` by inserts and by erases of nodes in the tree:
when the tree is not empty (the root is not the sentinel) the root is a real
node and its parent is the sentinel; when the root is the sentinel there is
no real node; for every real node `n`, each child of `n` that is not the
sentinel is a real node whose parent is `n`; every real node is reached from
the root by child links and no real node is reached from one of its own
children; and the state holds one tree whose nodes, all distinct, are the
real nodes. -/
theorem link_wellformed (t : rbtree) (live : List Nat) (N M : Nat) (h : Reach t live N M) :
    (t.root ≠ t.nil → t.root ∈ live ∧ t.parent t.root = t.nil) ∧
    (t.root = t.nil → live = []) ∧
    (∀ n ∈ live, n ≠ t.nil ∧ n ≠ NULL ∧
      (t.left n ≠ t.nil → t.left n ∈ live ∧ t.parent (t.left n) = n) ∧
      (t.right n ≠ t.nil → t.right n ∈ live ∧ t.parent (t.right n) = n) ∧
      Reaches t t.root n ∧ ¬ Reaches t (t.left n) n ∧ ¬ Reaches t (t.right n) n) ∧
    ∃ T, TreeRep t T ∧ (addrs T).Perm live ∧ live.Nodup := by
  obtain ⟨T, hT, -, -, hperm, -⟩ := reach_inv h
  refine ⟨?_, ?_, ?_, T, hT, hperm, hperm.nodup_iff.1 hT.glob.nodup⟩
  · intro hr
    rw [hT.glob.root] at hr ⊢
    cases T with
    | leaf => exact absurd rfl hr
    | node c l a k r =>
      have hf : Foc t [] (ATree.node c l a k r) := hT
      exact ⟨hperm.subset (by simp [plug, addrs_node]), hf.parent_eq⟩
  · intro hr
    rw [hT.glob.root] at hr
    cases T with
    | leaf =>
      simp only [addrs_leaf] at hperm
      exact List.nil_perm.1 hperm
    | node c l a k r =>
      have hf : Foc t [] (ATree.node c l a k r) := hT
      exact absurd hr hf.ne_nil
  · intro n hn
    obtain ⟨k1, k2, k3, k4, k5⟩ := hT.links (hperm.symm.subset hn)
    exact ⟨k1, k2, fun hl => ⟨hperm.subset (k3 hl).1, (k3 hl).2⟩,
      fun hr => ⟨hperm.subset (k4 hr).1, (k4 hr).2⟩, k5⟩

/-- Instance of amended C20: the two-node tree `tree2` is reachable. -/
theorem link_wellformed_witness :
    Reach tree2 [3, 2] 2 0 ∧
    (tree2.root ≠ tree2.nil → tree2.root ∈ [3, 2] ∧ tree2.parent tree2.root = tree2.nil) ∧
    (tree2.root = tree2.nil → [3, 2] = []) ∧
    (∀ n ∈ [3, 2], n ≠ tree2.nil ∧ n ≠ NULL ∧
      (tree2.left n ≠ tree2.nil → tree2.left n ∈ [3, 2] ∧ tree2.parent (tree2.left n) = n) ∧
      (tree2.right n ≠ tree2.nil →
        tree2.right n ∈ [3, 2] ∧ tree2.parent (tree2.right n) = n) ∧
      Reaches tree2 tree2.root n ∧ ¬ Reaches tree2 (tree2.left n) n ∧
        ¬ Reaches tree2 (tree2.right n) n) ∧
    ∃ T, TreeRep tree2 T ∧ (addrs T).Perm [3, 2] ∧ [3, 2].Nodup :=
  (fun hr => ⟨hr, link_wellformed tree2 [3, 2] 2 0 hr⟩)
    (Reach.insert 4 3 7 tree2 3 reach_tree1 (by decide) (by rw [treeRep_tree1.2]; decide)
      (by simp) (treeRep_insert_state treeRep_tree1.1 (by decide)
        (by rw [treeRep_tree1.2]; decide) (by simp [addrs, nodes])
        (by decide : insTree (ATree.node RBTREE_BLACK ATree.leaf 2 5 ATree.leaf) 3 7 =
          some (ATree.node RBTREE_BLACK ATree.leaf 2 5
            (ATree.node RBTREE_RED ATree.leaf 3 7 ATree.leaf))) 4 (by simp [height])).2.2)

/-! ## Building in ascending order and draining from the minimum -/

theorem insert_nodes_mono {fuel fuel' : Nat} (hf : fuel ≤ fuel') (zks : List (Nat × key_t)) :
    ∀ (t t' : rbtree), insert_nodes fuel t zks = some t' → insert_nodes fuel' t zks = some t' := by
  induction zks with
  | nil => intro t t' h; exact h
  | cons zk rest ih =>
    intro t t' h
    obtain ⟨z, k⟩ := zk
    simp only [insert_nodes] at h ⊢
    split at h
    · exact absurd h (by simp)
    · rename_i t1 r1 e1
      rw [rbtree_insert_mono hf e1]
      exact ih _ _ h

theorem drain_min_mono {fuel fuel' : Nat} (hf : fuel ≤ fuel') (i : Nat) :
    ∀ (t t' : rbtree), drain_min fuel i t = some t' → drain_min fuel' i t = some t' := by
  induction i with
  | zero => intro t t' h; exact h
  | succ i ih =>
    intro t t' h
    simp only [drain_min] at h ⊢
    split at h
    · exact absurd h (by simp)
    · rename_i z e1
      have e1' : rbtree_min fuel' t = some z := minimum_mono hf e1
      rw [e1']
      simp only at h ⊢
      split at h
      · exact absurd h (by simp)
      · rename_i t1 r1 e2
        rw [rbtree_erase_mono hf e2]
        exact ih _ _ h

/-- Inserting keys that are in order and not below any key of the tree puts
them at the end of the in-order sequence, one after the other. -/
theorem insert_nodes_spec (zs : List Nat) :
    ∀ (ks : List key_t) (t : rbtree) (T : ATree), TreeRep t T → IsRB T →
      (keys T ++ ks).Sorted (· ≤ ·) → zs.length = ks.length → zs.Nodup →
      (∀ z ∈ zs, z ≠ NULL ∧ z ≠ t.nil ∧ z ∉ addrs T) →
      ∀ fuel, size T + zs.length + 2 ≤ fuel →
      ∃ t' T', insert_nodes fuel t (zs.zip ks) = some t' ∧ TreeRep t' T' ∧ IsRB T' ∧
        nodes T' = nodes T ++ zs.zip ks ∧ t'.nil = t.nil := by
  induction zs with
  | nil =>
    intro ks t T hT hrb _ _ _ _ fuel _
    exact ⟨t, T, by simp [insert_nodes], hT, hrb, by simp, rfl⟩
  | cons z zs ih =>
    intro ks t T hT hrb hs hl hnd hfr fuel hf
    cases ks with
    | nil => simp at hl
    | cons k ks =>
      simp only [List.length_cons] at hl hf
      obtain ⟨hz0, hzn, hzf⟩ := hfr z (List.mem_cons_self _ _)
      have hbst : IsBST T := (List.pairwise_append.1 hs).1
      obtain ⟨T1, he, hrb1, hrun, -⟩ := insert_step z k hT hrb hz0 hzn hzf
      obtain ⟨t1, e1, hT1, n1⟩ := hrun fuel (by have := height_le_size T; omega)
      obtain ⟨pre, post, p1, p2, -, p4⟩ := nodes_insTree hbst he
      have hpost : post = [] := by
        apply List.eq_nil_iff_forall_not_mem.2
        intro x hx
        have hxk : x.2 ∈ keys T := by
          rw [keys, p1]
          exact List.mem_map_of_mem _ (List.mem_append_right _ hx)
        have : x.2 ≤ k := (List.pairwise_append.1 hs).2.2 x.2 hxk k (List.mem_cons_self _ _)
        exact absurd (p4 x hx) (not_lt.2 this)
      subst hpost
      simp only [List.append_nil] at p1
      have hn1 : nodes T1 = nodes T ++ [(z, k)] := by rw [p2, p1]
      have hs1 : (keys T1 ++ ks).Sorted (· ≤ ·) := by
        have : keys T1 ++ ks = keys T ++ k :: ks := by simp [keys, hn1]
        rw [this]; exact hs
      have hsz : size T1 = size T + 1 := by
        rw [size_eq, size_eq, hn1]; simp
      obtain ⟨t', T', e2, hT', hrb', hn', n2⟩ := ih ks t1 T1 hT1 hrb1 hs1 (by omega)
        (List.nodup_cons.1 hnd).2
        (by
          intro z' hz'
          obtain ⟨a1, a2, a3⟩ := hfr z' (List.mem_cons_of_mem _ hz')
          refine ⟨a1, by rw [n1]; exact a2, ?_⟩
          have : addrs T1 = addrs T ++ [z] := by simp [addrs, hn1]
          rw [this]
          simp only [List.mem_append, List.mem_singleton, not_or]
          refine ⟨a3, ?_⟩
          rintro rfl
          exact (List.nodup_cons.1 hnd).1 hz')
        fuel (by omega)
      refine ⟨t', T', ?_, hT', hrb', ?_, n2.trans n1⟩
      · simp only [List.zip_cons_cons, insert_nodes, e1]
        exact e2
      · rw [hn', hn1]; simp

/-- Erasing the minimum `i` times removes the first `i` nodes of the in-order
sequence; the red-black invariants hold after every erase. -/
theorem drain_min_spec (i : Nat) :
    ∀ (t : rbtree) (T : ATree), TreeRep t T → IsRB T → i ≤ size T →
      ∀ fuel, size T + 2 ≤ fuel →
      ∃ t' T', drain_min fuel i t = some t' ∧ TreeRep t' T' ∧ IsRB T' ∧
        nodes T' = (nodes T).drop i ∧ t'.nil = t.nil := by
  induction i with
  | zero =>
    intro t T hT hrb _ fuel _
    exact ⟨t, T, rfl, hT, hrb, by simp, rfl⟩
  | succ i ih =>
    intro t T hT hrb hi fuel hf
    have hTne : T ≠ ATree.leaf := by
      rintro rfl
      simp [size] at hi
    have hh := height_le_size T
    obtain ⟨y, ky, rest, hy1, hy2⟩ := rbtree_min_total hT hTne
    have hyin : (y, ky) ∈ nodes T := by rw [hy1]; simp
    obtain ⟨p, c, l, r, rfl⟩ := locate_node hyin
    obtain ⟨T1, he, hrb1, hrun, -⟩ := erase_step hT hrb
    obtain ⟨t1, e1, hT1, n1⟩ := hrun fuel (by omega)
    obtain ⟨q1, q2⟩ := nodes_eraseAt y ky he
    have hnd : (addrs (plug (ATree.node c l y ky r) p)).Nodup := hT.glob.nodup
    have hA : before p ++ nodes l = [] := by
      cases hA : before p ++ nodes l with
      | nil => rfl
      | cons x A =>
        exfalso
        rw [q2, hA] at hy1
        simp only [List.cons_append, List.cons.injEq] at hy1
        obtain ⟨hx, -⟩ := hy1
        rw [addrs, q2, hA] at hnd
        subst hx
        simp at hnd
    have hn1 : nodes T1 = rest := by
      rw [q2, hA] at hy1
      simp only [List.nil_append, List.cons_append, List.cons.injEq, true_and] at hy1
      rw [q1, hA]
      simpa using hy1
    have hsz : size T1 + 1 = size (plug (ATree.node c l y ky r) p) := by
      rw [size_eq, size_eq, hn1, hy1]; simp
    obtain ⟨t', T', e2, hT', hrb', hn', n2⟩ := ih t1 T1 hT1 hrb1 (by omega) fuel (by omega)
    refine ⟨t', T', ?_, hT', hrb', ?_, n2.trans n1⟩
    · simp only [drain_min, hy2 fuel (by omega), e1]
      exact e2
    · rw [hn', hn1, hy1]; rfl

theorem keys_upto_sorted (n : Nat) : (upto 0 n).Sorted (· ≤ ·) := by
  simp only [upto, List.drop_zero, List.Sorted, List.pairwise_map]
  refine List.Pairwise.imp ?_ (List.pairwise_lt_range n)
  intro a b hab
  show (a : Int) + 1 ≤ (b : Int) + 1
  omega

theorem upto_length (n : Nat) : (upto 0 n).length = n := by
  simp [upto]

theorem upto_drop (i n : Nat) : (upto 0 n).drop i = upto i n := by
  simp [upto, List.map_drop]

/-- C14: ascending build then ascending drain.  For every `n ≥ 0` (the number
of the addresses `zs` that successful calls of `malloc` return, all fresh),
inserting the keys `1..n` in increasing order into a new tree and then
erasing the node with the smallest remaining key (the node `rbtree_min`
returns) `i ≤ n` times returns, and after the `i`-th erase the tree has a
BLACK root, no RED node with a RED child and equal black-heights, the export
is `i + 1..n`, and for `i = n` the root is the sentinel. -/
theorem ascending_build_drain (m : Nat → node_t) (s : Nat) (zs : List Nat) (i : Nat)
    (hs : s ≠ NULL) (hnd : zs.Nodup) (h0 : NULL ∉ zs) (hsn : s ∉ zs) (hi : i ≤ zs.length) :
    ∃ tn ti T,
      (∀ fuel, zs.length + 2 ≤ fuel →
        insert_nodes fuel (new_rbtree m s) (zs.zip (upto 0 zs.length)) = some tn ∧
        drain_min fuel i tn = some ti) ∧
      TreeRep ti T ∧ rootBlack T ∧ noRedRed T ∧ equalBH T ∧
      (∀ (arr : Nat → key_t) (cap : Nat),
        ∃ r, (∀ fuel, zs.length + 2 ≤ fuel → rbtree_to_array fuel ti arr cap = some r) ∧
          written r = upto i zs.length) ∧
      (i = zs.length → ti.root = ti.nil) := by
  obtain ⟨h0', n0⟩ := treeRep_new m s hs
  obtain ⟨tn, Tn, b1, b2, b3, b4, b5⟩ := insert_nodes_spec zs (upto 0 zs.length)
    (new_rbtree m s) ATree.leaf h0' ⟨rfl, trivial, trivial⟩
    (by simpa [keys, nodes] using keys_upto_sorted zs.length) (upto_length _).symm hnd
    (by
      intro z hz
      refine ⟨fun h => h0 (h ▸ hz), by rw [n0]; exact fun h => hsn (h ▸ hz), by simp [addrs_leaf]⟩)
    (zs.length + 2) (by simp [size])
  simp only [nodes, List.nil_append] at b4
  have hszn : size Tn = zs.length := by
    rw [size_eq, b4]; simp [upto_length]
  obtain ⟨ti, Ti, d1, d2, d3, d4, d5⟩ := drain_min_spec i tn Tn b2 b3 (by omega)
    (zs.length + 2) (by omega)
  have hkeys : keys Ti = upto i zs.length := by
    have e : (zs.zip (upto 0 zs.length)).map Prod.snd = upto 0 zs.length :=
      List.map_snd_zip _ _ (by rw [upto_length])
    rw [keys, d4, b4, List.map_drop, e, upto_drop]
  have hszi : size Ti ≤ zs.length := by
    rw [size_eq, d4, List.length_drop, b4]; simp [upto_length]
  refine ⟨tn, ti, Ti, ?_, d2, d3.1, d3.2.1, d3.2.2, ?_, ?_⟩
  · intro fuel hf
    exact ⟨insert_nodes_mono hf _ _ _ b1, drain_min_mono hf _ _ _ d1⟩
  · intro arr cap
    obtain ⟨r, k1, k2, -⟩ := to_array_spec d2 arr cap
    refine ⟨r, fun fuel hf => k1 fuel ?_, k2.trans hkeys⟩
    have := height_le_size Ti
    omega
  · intro hin
    have : nodes Ti = [] := by
      rw [d4, b4, hin]
      simp [upto_length]
    rw [d2.glob.root]
    cases Ti with
    | leaf => rfl
    | node c l a k r => simp [nodes] at this

/-- Instance of C14: `n = 100`, the nodes at the addresses 2 to 101, all 100
erases done. -/
theorem ascending_build_drain_witness :
    ∃ tn ti T,
      (∀ fuel, (List.range' 2 100).length + 2 ≤ fuel →
        insert_nodes fuel (new_rbtree heap0 1)
          ((List.range' 2 100).zip (upto 0 (List.range' 2 100).length)) = some tn ∧
        drain_min fuel 100 tn = some ti) ∧
      TreeRep ti T ∧ rootBlack T ∧ noRedRed T ∧ equalBH T ∧
      (∀ (arr : Nat → key_t) (cap : Nat),
        ∃ r, (∀ fuel, (List.range' 2 100).length + 2 ≤ fuel →
            rbtree_to_array fuel ti arr cap = some r) ∧
          written r = upto 100 (List.range' 2 100).length) ∧
      (100 = (List.range' 2 100).length → ti.root = ti.nil) :=
  ascending_build_drain heap0 1 (List.range' 2 100) 100 (by decide)
    (List.nodup_range' 2 100) (by simp [NULL]) (by simp) (by simp)

/-! ## The sentinel's fields under the stores of the program -/

theorem NilKept.refl (t : rbtree) : NilKept t t := ⟨rfl, rfl, rfl, rfl⟩

theorem NilKept.trans {t t1 t2 : rbtree} (h1 : NilKept t t1) (h2 : NilKept t1 t2) :
    NilKept t t2 := by
  obtain ⟨a1, a2, a3, a4⟩ := h1
  obtain ⟨b1, b2, b3, b4⟩ := h2
  rw [a1] at b2 b3 b4
  exact ⟨b1.trans a1, b2.trans a2, b3.trans a3, b4.trans a4⟩

theorem setParent_left (t : rbtree) (a v b : Nat) : (t.setParent a v).left b = t.left b := by
  by_cases h : b = a <;> simp [rbtree.setParent, rbtree.left, Function.update_apply, h]

theorem setParent_right (t : rbtree) (a v b : Nat) : (t.setParent a v).right b = t.right b := by
  by_cases h : b = a <;> simp [rbtree.setParent, rbtree.right, Function.update_apply, h]

theorem setLeft_right (t : rbtree) (a v b : Nat) : (t.setLeft a v).right b = t.right b := by
  by_cases h : b = a <;> simp [rbtree.setLeft, rbtree.right, Function.update_apply, h]

theorem setRight_left (t : rbtree) (a v b : Nat) : (t.setRight a v).left b = t.left b := by
  by_cases h : b = a <;> simp [rbtree.setRight, rbtree.left, Function.update_apply, h]

theorem setLeft_left_ne (t : rbtree) {a b : Nat} (v : Nat) (h : b ≠ a) :
    (t.setLeft a v).left b = t.left b := by
  simp [rbtree.setLeft, rbtree.left, Function.update_apply, h]

theorem setRight_right_ne (t : rbtree) {a b : Nat} (v : Nat) (h : b ≠ a) :
    (t.setRight a v).right b = t.right b := by
  simp [rbtree.setRight, rbtree.right, Function.update_apply, h]

theorem setKey_key_ne (t : rbtree) {a b : Nat} (k : key_t) (h : b ≠ a) :
    (t.setKey a k).key b = t.key b := by
  simp [rbtree.setKey, rbtree.key, Function.update_apply, h]

theorem setKey_left (t : rbtree) (a : Nat) (k : key_t) (b : Nat) :
    (t.setKey a k).left b = t.left b := by
  by_cases h : b = a <;> simp [rbtree.setKey, rbtree.left, Function.update_apply, h]

theorem setKey_right (t : rbtree) (a : Nat) (k : key_t) (b : Nat) :
    (t.setKey a k).right b = t.right b := by
  by_cases h : b = a <;> simp [rbtree.setKey, rbtree.right, Function.update_apply, h]

theorem nilKept_setColor (t : rbtree) (a : Nat) (c : color_t) : NilKept t (t.setColor a c) :=
  ⟨rfl, setColor_key _ _ _ _, setColor_left _ _ _ _, setColor_right _ _ _ _⟩

theorem nilKept_setParent (t : rbtree) (a v : Nat) : NilKept t (t.setParent a v) :=
  ⟨rfl, setParent_key _ _ _ _, setParent_left _ _ _ _, setParent_right _ _ _ _⟩

theorem nilKept_setRoot (t : rbtree) (v : Nat) : NilKept t (t.setRoot v) := ⟨rfl, rfl, rfl, rfl⟩

theorem nilKept_setLeft (t : rbtree) {a : Nat} (v : Nat) (h : a ≠ t.nil) :
    NilKept t (t.setLeft a v) :=
  ⟨rfl, setLeft_key _ _ _ _, setLeft_left_ne _ _ (Ne.symm h), setLeft_right _ _ _ _⟩

theorem nilKept_setRight (t : rbtree) {a : Nat} (v : Nat) (h : a ≠ t.nil) :
    NilKept t (t.setRight a v) :=
  ⟨rfl, setRight_key _ _ _ _, setRight_left _ _ _ _, setRight_right_ne _ _ (Ne.symm h)⟩

theorem nilKept_setKey (t : rbtree) {a : Nat} (k : key_t) (h : a ≠ t.nil) :
    NilKept t (t.setKey a k) :=
  ⟨rfl, setKey_key_ne _ _ (Ne.symm h), setKey_left _ _ _ _, setKey_right _ _ _ _⟩

/-- A rotation whose pivot and whose rising child are real nodes stores
nothing into the `key`, `left` or `right` field of the sentinel. -/
theorem nilKept_left_rotate (t : rbtree) (x : Nat) (hx : x ≠ t.nil) (hy : t.right x ≠ t.nil) :
    NilKept t (left_rotate t x) := by
  have s1 := nilKept_setRight t (t.left (t.right x)) hx
  generalize ht1 : t.setRight x (t.left (t.right x)) = t1 at s1
  have s2 : NilKept t1 (if t1.left (t.right x) ≠ t1.nil then
      t1.setParent (t1.left (t.right x)) x else t1) := by
    split_ifs
    · exact nilKept_setParent _ _ _
    · exact NilKept.refl _
  generalize ht2 : (if t1.left (t.right x) ≠ t1.nil then
      t1.setParent (t1.left (t.right x)) x else t1) = t2 at s2
  have s3 := nilKept_setParent t2 (t.right x) (t2.parent x)
  generalize ht3 : t2.setParent (t.right x) (t2.parent x) = t3 at s3
  have s4 : NilKept t3 (if t3.parent x = t3.nil then t3.setRoot (t.right x)
      else if x = t3.left (t3.parent x) then t3.setLeft (t3.parent x) (t.right x)
      else t3.setRight (t3.parent x) (t.right x)) := by
    split_ifs with c1 c2
    · exact nilKept_setRoot _ _
    · exact nilKept_setLeft _ _ c1
    · exact nilKept_setRight _ _ c1
  generalize ht4 : (if t3.parent x = t3.nil then t3.setRoot (t.right x)
      else if x = t3.left (t3.parent x) then t3.setLeft (t3.parent x) (t.right x)
      else t3.setRight (t3.parent x) (t.right x)) = t4 at s4
  have n4 : t4.nil = t.nil := (s1.trans (s2.trans (s3.trans s4))).1
  have s5 := nilKept_setLeft t4 x (show t.right x ≠ t4.nil by rw [n4]; exact hy)
  have s6 := nilKept_setParent (t4.setLeft (t.right x) x) x (t.right x)
  have := s1.trans (s2.trans (s3.trans (s4.trans (s5.trans s6))))
  have e : left_rotate t x = (t4.setLeft (t.right x) x).setParent x (t.right x) := by
    subst ht4 ht3 ht2 ht1
    rfl
  rw [e]
  exact this

theorem nilKept_right_rotate (t : rbtree) (y : Nat) (hy : y ≠ t.nil) (hx : t.left y ≠ t.nil) :
    NilKept t (right_rotate t y) := by
  have s1 := nilKept_setLeft t (t.right (t.left y)) hy
  generalize ht1 : t.setLeft y (t.right (t.left y)) = t1 at s1
  have s2 : NilKept t1 (if t1.right (t.left y) ≠ t1.nil then
      t1.setParent (t1.right (t.left y)) y else t1) := by
    split_ifs
    · exact nilKept_setParent _ _ _
    · exact NilKept.refl _
  generalize ht2 : (if t1.right (t.left y) ≠ t1.nil then
      t1.setParent (t1.right (t.left y)) y else t1) = t2 at s2
  have s3 := nilKept_setParent t2 (t.left y) (t2.parent y)
  generalize ht3 : t2.setParent (t.left y) (t2.parent y) = t3 at s3
  have s4 : NilKept t3 (if t3.parent y = t3.nil then t3.setRoot (t.left y)
      else if y = t3.right (t3.parent y) then t3.setRight (t3.parent y) (t.left y)
      else t3.setLeft (t3.parent y) (t.left y)) := by
    split_ifs with c1 c2
    · exact nilKept_setRoot _ _
    · exact nilKept_setRight _ _ c1
    · exact nilKept_setLeft _ _ c1
  generalize ht4 : (if t3.parent y = t3.nil then t3.setRoot (t.left y)
      else if y = t3.right (t3.parent y) then t3.setRight (t3.parent y) (t.left y)
      else t3.setLeft (t3.parent y) (t.left y)) = t4 at s4
  have n4 : t4.nil = t.nil := (s1.trans (s2.trans (s3.trans s4))).1
  have s5 := nilKept_setRight t4 y (show t.left y ≠ t4.nil by rw [n4]; exact hx)
  have s6 := nilKept_setParent (t4.setRight (t.left y) y) y (t.left y)
  have := s1.trans (s2.trans (s3.trans (s4.trans (s5.trans s6))))
  have e : right_rotate t y = (t4.setRight (t.left y) y).setParent y (t.left y) := by
    subst ht4 ht3 ht2 ht1
    rfl
  rw [e]
  exact this

theorem left_rotate_chk_some {t t' : rbtree} {x : Nat} (h : left_rotate_chk t x = some t') :
    x ≠ t.nil ∧ t.right x ≠ t.nil ∧ t' = left_rotate t x := by
  simp only [left_rotate_chk] at h
  split_ifs at h with hc
  simp only [Option.some.injEq] at h
  exact ⟨hc.1, hc.2, h.symm⟩

theorem right_rotate_chk_some {t t' : rbtree} {y : Nat} (h : right_rotate_chk t y = some t') :
    y ≠ t.nil ∧ t.left y ≠ t.nil ∧ t' = right_rotate t y := by
  simp only [right_rotate_chk] at h
  split_ifs at h with hc
  simp only [Option.some.injEq] at h
  exact ⟨hc.1, hc.2, h.symm⟩

theorem nilKept_left_rotate_chk {t t' : rbtree} {x : Nat} (h : left_rotate_chk t x = some t') :
    NilKept t t' := by
  obtain ⟨h1, h2, rfl⟩ := left_rotate_chk_some h
  exact nilKept_left_rotate t x h1 h2

theorem nilKept_right_rotate_chk {t t' : rbtree} {y : Nat} (h : right_rotate_chk t y = some t') :
    NilKept t t' := by
  obtain ⟨h1, h2, rfl⟩ := right_rotate_chk_some h
  exact nilKept_right_rotate t y h1 h2

/-! ## The asserting insertion fix-up is the insertion fix-up -/

/-- An iteration that passes its assertions is the iteration of the loop of
`rbtree_insert_fixup`. -/
theorem insert_fixup_step (fuel : Nat) (t : rbtree) (z : Nat) (t1 : rbtree) (z1 : Nat)
    (hc : t.color (t.parent z) = RBTREE_RED) (hb : insert_fixup_body t z = some (t1, z1)) :
    rbtree_insert_fixup (fuel + 1) t z = rbtree_insert_fixup fuel t1 z1 := by
  rw [rbtree_insert_fixup]
  simp only [hc, if_true]
  simp only [insert_fixup_body] at hb
  split_ifs at hb ⊢
  · simp only [Option.some.injEq, Prod.mk.injEq] at hb
    obtain ⟨rfl, rfl⟩ := hb
    rfl
  · split at hb
    · exact absurd hb (by simp)
    · rename_i t2 z2 e1
      split at e1
      · exact absurd e1 (by simp)
      · rename_i t3 e2
        have k2 := nilKept_left_rotate_chk e2
        obtain ⟨-, -, rfl⟩ := left_rotate_chk_some e2
        simp only [Option.some.injEq, Prod.mk.injEq] at e1
        obtain ⟨rfl, rfl⟩ := e1
        split at hb
        · exact absurd hb (by simp)
        · rename_i t4 e3
          have k3 := nilKept_right_rotate_chk e3
          obtain ⟨-, -, rfl⟩ := right_rotate_chk_some e3
          simp only [Option.some.injEq, Prod.mk.injEq] at hb
          obtain ⟨rfl, rfl⟩ := hb
          rfl
  · split at hb
    · exact absurd hb (by simp)
    · rename_i t2 z2 e1
      simp only [Option.some.injEq, Prod.mk.injEq] at e1
      obtain ⟨rfl, rfl⟩ := e1
      split at hb
      · exact absurd hb (by simp)
      · rename_i t4 e3
        have k3 := nilKept_right_rotate_chk e3
        obtain ⟨-, -, rfl⟩ := right_rotate_chk_some e3
        simp only [Option.some.injEq, Prod.mk.injEq] at hb
        obtain ⟨rfl, rfl⟩ := hb
        rfl
  · simp only [Option.some.injEq, Prod.mk.injEq] at hb
    obtain ⟨rfl, rfl⟩ := hb
    rfl
  · split at hb
    · exact absurd hb (by simp)
    · rename_i t2 z2 e1
      split at e1
      · exact absurd e1 (by simp)
      · rename_i t3 e2
        have k2 := nilKept_right_rotate_chk e2
        obtain ⟨-, -, rfl⟩ := right_rotate_chk_some e2
        simp only [Option.some.injEq, Prod.mk.injEq] at e1
        obtain ⟨rfl, rfl⟩ := e1
        split at hb
        · exact absurd hb (by simp)
        · rename_i t4 e3
          have k3 := nilKept_left_rotate_chk e3
          obtain ⟨-, -, rfl⟩ := left_rotate_chk_some e3
          simp only [Option.some.injEq, Prod.mk.injEq] at hb
          obtain ⟨rfl, rfl⟩ := hb
          rfl
  · split at hb
    · exact absurd hb (by simp)
    · rename_i t2 z2 e1
      simp only [Option.some.injEq, Prod.mk.injEq] at e1
      obtain ⟨rfl, rfl⟩ := e1
      split at hb
      · exact absurd hb (by simp)
      · rename_i t4 e3
        have k3 := nilKept_left_rotate_chk e3
        obtain ⟨-, -, rfl⟩ := left_rotate_chk_some e3
        simp only [Option.some.injEq, Prod.mk.injEq] at hb
        obtain ⟨rfl, rfl⟩ := hb
        rfl

/-- An iteration that passes its assertions stores nothing into the `key`,
`left` or `right` field of the sentinel. -/
theorem insert_fixup_body_nilKept {t t1 : rbtree} {z z1 : Nat}
    (hb : insert_fixup_body t z = some (t1, z1)) : NilKept t t1 := by
  simp only [insert_fixup_body] at hb
  split_ifs at hb
  · simp only [Option.some.injEq, Prod.mk.injEq] at hb
    obtain ⟨rfl, rfl⟩ := hb
    exact (nilKept_setColor _ _ _).trans ((nilKept_setColor _ _ _).trans
      (nilKept_setColor _ _ _))
  · split at hb
    · exact absurd hb (by simp)
    · rename_i t2 z2 e1
      split at e1
      · exact absurd e1 (by simp)
      · rename_i t3 e2
        have k2 := nilKept_left_rotate_chk e2
        obtain ⟨-, -, rfl⟩ := left_rotate_chk_some e2
        simp only [Option.some.injEq, Prod.mk.injEq] at e1
        obtain ⟨rfl, rfl⟩ := e1
        split at hb
        · exact absurd hb (by simp)
        · rename_i t4 e3
          have k3 := nilKept_right_rotate_chk e3
          obtain ⟨-, -, rfl⟩ := right_rotate_chk_some e3
          simp only [Option.some.injEq, Prod.mk.injEq] at hb
          obtain ⟨rfl, rfl⟩ := hb
          exact k2.trans ((nilKept_setColor _ _ _).trans ((nilKept_setColor _ _ _).trans k3))
  · split at hb
    · exact absurd hb (by simp)
    · rename_i t2 z2 e1
      simp only [Option.some.injEq, Prod.mk.injEq] at e1
      obtain ⟨rfl, rfl⟩ := e1
      split at hb
      · exact absurd hb (by simp)
      · rename_i t4 e3
        have k3 := nilKept_right_rotate_chk e3
        obtain ⟨-, -, rfl⟩ := right_rotate_chk_some e3
        simp only [Option.some.injEq, Prod.mk.injEq] at hb
        obtain ⟨rfl, rfl⟩ := hb
        exact (nilKept_setColor _ _ _).trans ((nilKept_setColor _ _ _).trans k3)
  · simp only [Option.some.injEq, Prod.mk.injEq] at hb
    obtain ⟨rfl, rfl⟩ := hb
    exact (nilKept_setColor _ _ _).trans ((nilKept_setColor _ _ _).trans
      (nilKept_setColor _ _ _))
  · split at hb
    · exact absurd hb (by simp)
    · rename_i t2 z2 e1
      split at e1
      · exact absurd e1 (by simp)
      · rename_i t3 e2
        have k2 := nilKept_right_rotate_chk e2
        obtain ⟨-, -, rfl⟩ := right_rotate_chk_some e2
        simp only [Option.some.injEq, Prod.mk.injEq] at e1
        obtain ⟨rfl, rfl⟩ := e1
        split at hb
        · exact absurd hb (by simp)
        · rename_i t4 e3
          have k3 := nilKept_left_rotate_chk e3
          obtain ⟨-, -, rfl⟩ := left_rotate_chk_some e3
          simp only [Option.some.injEq, Prod.mk.injEq] at hb
          obtain ⟨rfl, rfl⟩ := hb
          exact k2.trans ((nilKept_setColor _ _ _).trans ((nilKept_setColor _ _ _).trans k3))
  · split at hb
    · exact absurd hb (by simp)
    · rename_i t2 z2 e1
      simp only [Option.some.injEq, Prod.mk.injEq] at e1
      obtain ⟨rfl, rfl⟩ := e1
      split at hb
      · exact absurd hb (by simp)
      · rename_i t4 e3
        have k3 := nilKept_left_rotate_chk e3
        obtain ⟨-, -, rfl⟩ := left_rotate_chk_some e3
        simp only [Option.some.injEq, Prod.mk.injEq] at hb
        obtain ⟨rfl, rfl⟩ := hb
        exact (nilKept_setColor _ _ _).trans ((nilKept_setColor _ _ _).trans k3)

/-- The asserting fix-up, where it returns, returns what `rbtree_insert_fixup`
returns, and the sentinel's fields are kept. -/
theorem insert_fixup_chk_sound : ∀ (fuel : Nat) (t : rbtree) (z : Nat) (t' : rbtree),
    rbtree_insert_fixup_chk fuel t z = some t' →
      rbtree_insert_fixup fuel t z = some t' ∧ NilKept t t' := by
  intro fuel
  induction fuel with
  | zero => intro t z t' h; simp [rbtree_insert_fixup_chk] at h
  | succ n ih =>
    intro t z t' h
    rw [rbtree_insert_fixup_chk] at h
    split_ifs at h with hc
    · split at h
      · exact absurd h (by simp)
      · rename_i t1 z1 hb
        obtain ⟨e1, e2⟩ := ih _ _ _ h
        rw [insert_fixup_step n t z t1 z1 hc hb]
        exact ⟨e1, (insert_fixup_body_nilKept hb).trans e2⟩
    · simp only [Option.some.injEq] at h
      subst h
      refine ⟨?_, nilKept_setColor _ _ _⟩
      rw [rbtree_insert_fixup]
      simp only [hc, if_false]

theorem rbtree_insert_eq (fuel : Nat) (t : rbtree) (z : Nat) (key : key_t) :
    rbtree_insert fuel t z key =
      match insert_link fuel t z key with
      | none => none
      | some t =>
        match rbtree_insert_fixup fuel t z with
        | none => none
        | some t => some (t, z) := by
  simp only [rbtree_insert, insert_link]
  split
  · rename_i h
    simp only [h]
  · rename_i y h
    simp only [h] <;> rfl

/-- Filling in and linking the new node stores nothing into the sentinel. -/
theorem insert_link_nilKept {fuel : Nat} {t t1 : rbtree} {z : Nat} {key : key_t}
    (hz : z ≠ t.nil) (h : insert_link fuel t z key = some t1) : NilKept t t1 := by
  simp only [insert_link] at h
  split at h
  · exact absurd h (by simp)
  · rename_i y hy
    simp only [Option.some.injEq] at h
    subst h
    have s1 := nilKept_setKey t key hz
    have s2 := nilKept_setColor (t.setKey z key) z RBTREE_RED
    have s3 := nilKept_setParent ((t.setKey z key).setColor z RBTREE_RED) z t.nil
    have s4 := nilKept_setLeft (((t.setKey z key).setColor z RBTREE_RED).setParent z t.nil)
      t.nil (show z ≠ _ from hz)
    have s5 := nilKept_setRight ((((t.setKey z key).setColor z RBTREE_RED).setParent z
      t.nil).setLeft z t.nil) t.nil (show z ≠ _ from hz)
    have s6 := nilKept_setParent (((((t.setKey z key).setColor z RBTREE_RED).setParent z
      t.nil).setLeft z t.nil).setRight z t.nil) z y
    refine s1.trans (s2.trans (s3.trans (s4.trans (s5.trans (s6.trans ?_)))))
    split_ifs with c1 c2
    · exact nilKept_setRoot _ _
    · exact nilKept_setLeft _ _ c1
    · exact nilKept_setRight _ _ c1

/-- The asserting `rbtree_insert`, where it returns, returns what
`rbtree_insert` returns, and the sentinel's fields are kept. -/
theorem rbtree_insert_chk_sound {fuel : Nat} {t : rbtree} {z : Nat} {key : key_t}
    {r : rbtree × Nat} (hz : z ≠ t.nil) (h : rbtree_insert_chk fuel t z key = some r) :
    rbtree_insert fuel t z key = some r ∧ NilKept t r.1 := by
  rw [rbtree_insert_eq]
  simp only [rbtree_insert_chk] at h
  split at h
  · exact absurd h (by simp)
  · rename_i t1 h1
    split at h
    · exact absurd h (by simp)
    · rename_i t2 h2
      simp only [Option.some.injEq] at h
      subst h
      obtain ⟨e1, e2⟩ := insert_fixup_chk_sound _ _ _ _ h2
      simp only [h1, e1]
      exact ⟨trivial, (insert_link_nilKept hz h1).trans e2⟩

/-! ## One iteration of the insertion fix-up on a represented tree -/

/-- One iteration of the loop of `rbtree_insert_fixup` at a RED node with a
RED parent, in a tree on which the fix-up is defined: the assertions hold, and
either `z` moves to its grandparent, where the same holds again (case 1), or
a rotation leaves `z` below a BLACK parent (cases 2 and 3). -/
theorem insert_body_spec (p : Path) (Z : ATree) :
    ∀ (t : rbtree) (T' : ATree), Foc t p Z → Z ≠ ATree.leaf → pcolor p = RBTREE_RED →
      insFix p Z = some T' →
      ∃ t1 z1, insert_fixup_body t (ptr t.nil Z) = some (t1, z1) ∧ t1.nil = t.nil ∧
        ((∃ f1 f2 up Z1, p = f1 :: f2 :: up ∧ z1 = t.parent (t.parent (ptr t.nil Z)) ∧
            Foc t1 up Z1 ∧ Z1 ≠ ATree.leaf ∧ z1 = ptr t.nil Z1 ∧ insFix up Z1 = some T') ∨
          (∃ q Z1, Foc t1 q Z1 ∧ Z1 ≠ ATree.leaf ∧ z1 = ptr t.nil Z1 ∧
            pcolor q = RBTREE_BLACK ∧ T' = blacken (plug Z1 q))) := by
  induction p, Z using insFix.induct with
  | case1 Z =>
    intro t T' h hZ hc he
    simp [pcolor] at hc
  | case2 f Z hc' =>
    intro t T' h hZ hc he
    simp [insFix, hc'] at he
  | case3 f Z hc' =>
    intro t T' h hZ hc he
    exact absurd hc hc'
  | case4 ap kp sr cg ag kg up Z ul u ku ur ih =>
    intro t T' h hZ hc he
    simp only [insFix, if_true] at he
    obtain ⟨cz, zl, z, kz, zr, rfl⟩ : ∃ cz zl z kz zr, Z = ATree.node cz zl z kz zr := by
      cases Z with
      | leaf => exact absurd rfl hZ
      | node cz zl z kz zr => exact ⟨_, _, _, _, _, rfl⟩
    have h1 := h.upL
    have h2 := h1.upL
    have h3 := h2.downR
    have k1 := h1.setColor RBTREE_BLACK
    have k2 := (k1.upL.downR).setColor RBTREE_BLACK
    have k3 := (k2.upR).setColor RBTREE_RED
    refine ⟨((t.setColor ap RBTREE_BLACK).setColor u RBTREE_BLACK).setColor ag RBTREE_RED, ag,
      ?_, rfl, Or.inl ⟨_, _, up, _, rfl, ?_, k3, by simp, rfl, he⟩⟩
    · simp [insert_fixup_body, h.parent_eq, h1.color_eq, h1.parent_eq, h2.left_eq, h2.right_eq,
        h3.color_eq]
    · simp [h.parent_eq, h1.parent_eq]
  | case5 ap kp sr cg ag kg U up Z hU =>
    intro t T' h hZ hc he
    have hUc := rootColor_of_not_red hU
    have he' : T' = blacken (plug (ATree.node RBTREE_BLACK Z ap kp
        (ATree.node RBTREE_RED sr ag kg U)) up) := by
      cases U with
      | leaf => simpa [insFix] using he.symm
      | node cu ul u ku ur =>
        simp only [rootColor] at hUc
        subst hUc
        simpa [insFix] using he.symm
    subst he'
    obtain ⟨cz, zl, z, kz, zr, rfl⟩ : ∃ cz zl z kz zr, Z = ATree.node cz zl z kz zr := by
      cases Z with
      | leaf => exact absurd rfl hZ
      | node cz zl z kz zr => exact ⟨_, _, _, _, _, rfl⟩
    have h1 := h.upL
    have h2 := h1.upL
    have h3 := h2.downR
    have k1 := h1.setColor RBTREE_BLACK
    have k2 := k1.upL.setColor RBTREE_RED
    obtain ⟨k3, n3, -⟩ := k2.rotR
    refine ⟨right_rotate ((t.setColor ap RBTREE_BLACK).setColor ag RBTREE_RED) ag, z, ?_,
      by simpa using n3, Or.inr ⟨_, _, k3.downL, by simp, rfl, rfl, rfl⟩⟩
    simp [insert_fixup_body, right_rotate_chk, h.parent_eq, h1.color_eq, h1.parent_eq,
      h2.left_eq, h2.right_eq, h3.color_ptr, hUc, h1.right_eq, h.ne_sibL, h2.ne_nil, h1.ne_nil]
  | case6 cp ap kp sr cg ag kg U up Z hc' =>
    intro t T' h hZ hc he
    simp only [pcolor, Frame.color] at hc
    exact absurd hc hc'
  | case7 sl ap kp cg ag kg up Z ul u ku ur ih =>
    intro t T' h hZ hc he
    simp only [insFix, if_true] at he
    obtain ⟨cz, zl, z, kz, zr, rfl⟩ : ∃ cz zl z kz zr, Z = ATree.node cz zl z kz zr := by
      cases Z with
      | leaf => exact absurd rfl hZ
      | node cz zl z kz zr => exact ⟨_, _, _, _, _, rfl⟩
    have h1 := h.upR
    have h2 := h1.upL
    have h3 := h2.downR
    have k1 := h1.setColor RBTREE_BLACK
    have k2 := (k1.upL.downR).setColor RBTREE_BLACK
    have k3 := (k2.upR).setColor RBTREE_RED
    refine ⟨((t.setColor ap RBTREE_BLACK).setColor u RBTREE_BLACK).setColor ag RBTREE_RED, ag,
      ?_, rfl, Or.inl ⟨_, _, up, _, rfl, ?_, k3, by simp, rfl, he⟩⟩
    · simp [insert_fixup_body, h.parent_eq, h1.color_eq, h1.parent_eq, h2.left_eq, h2.right_eq,
        h3.color_eq]
    · simp [h.parent_eq, h1.parent_eq]
  | case8 sl ap kp cg ag kg U up cz zl z kz zr hU =>
    intro t T' h hZ hc he
    have hUc := rootColor_of_not_red hU
    have he' : T' = blacken (plug (ATree.node RBTREE_BLACK (ATree.node RBTREE_RED sl ap kp zl)
        z kz (ATree.node RBTREE_RED zr ag kg U)) up) := by
      cases U with
      | leaf => simpa [insFix] using he.symm
      | node cu ul u ku ur =>
        simp only [rootColor] at hUc
        subst hUc
        simpa [insFix] using he.symm
    subst he'
    have h1 := h.upR
    have h2 := h1.upL
    have h3 := h2.downR
    obtain ⟨r1, n1, -⟩ := h1.rotL
    have k1 := r1.setColor RBTREE_BLACK
    have k2 := k1.upL.setColor RBTREE_RED
    obtain ⟨k3, n3, -⟩ := k2.rotR
    refine ⟨right_rotate (((left_rotate t ap).setColor z RBTREE_BLACK).setColor ag RBTREE_RED)
      ag, ap, ?_, by simpa [n1] using n3, Or.inr ⟨_, _, k3.downL, by simp, rfl, rfl, ?_⟩⟩
    · simp [insert_fixup_body, left_rotate_chk, right_rotate_chk, h.parent_eq, h1.color_eq,
        h1.parent_eq, h2.left_eq, h2.right_eq, h3.color_ptr, hUc, h1.right_eq,
        r1.downL.parent_eq, r1.parent_eq, h1.ne_nil, h.ne_nil, n1, h2.ne_nil, r1.upL.left_eq,
        r1.ne_nil]
    · simp [plug]
  | case9 sl ap kp cg ag kg U up hU =>
    intro t T' h hZ
    exact absurd rfl hZ
  | case10 cp sl ap kp cg ag kg U up Z hc' =>
    intro t T' h hZ hc he
    simp only [pcolor, Frame.color] at hc
    exact absurd hc hc'
  | case11 sl ap kp cg ag kg up Z ul u ku ur ih =>
    intro t T' h hZ hc he
    simp only [insFix, if_true] at he
    obtain ⟨cz, zl, z, kz, zr, rfl⟩ : ∃ cz zl z kz zr, Z = ATree.node cz zl z kz zr := by
      cases Z with
      | leaf => exact absurd rfl hZ
      | node cz zl z kz zr => exact ⟨_, _, _, _, _, rfl⟩
    have h1 := h.upR
    have h2 := h1.upR
    have h3 := h2.downL
    have k1 := h1.setColor RBTREE_BLACK
    have k2 := (k1.upR.downL).setColor RBTREE_BLACK
    have k3 := (k2.upL).setColor RBTREE_RED
    have hne := h1.ne_sibR
    simp only [ptr_node] at hne
    refine ⟨((t.setColor ap RBTREE_BLACK).setColor u RBTREE_BLACK).setColor ag RBTREE_RED, ag,
      ?_, rfl, Or.inl ⟨_, _, up, _, rfl, ?_, k3, by simp, rfl, he⟩⟩
    · simp [insert_fixup_body, h.parent_eq, h1.color_eq, h1.parent_eq, h2.left_eq, h2.right_eq,
        h3.color_eq, hne]
    · simp [h.parent_eq, h1.parent_eq]
  | case12 sl ap kp cg U ag kg up Z hU =>
    intro t T' h hZ hc he
    have hUc := rootColor_of_not_red hU
    have he' : T' = blacken (plug (ATree.node RBTREE_BLACK (ATree.node RBTREE_RED U ag kg sl)
        ap kp Z) up) := by
      cases U with
      | leaf => simpa [insFix] using he.symm
      | node cu ul u ku ur =>
        simp only [rootColor] at hUc
        subst hUc
        simpa [insFix] using he.symm
    subst he'
    obtain ⟨cz, zl, z, kz, zr, rfl⟩ : ∃ cz zl z kz zr, Z = ATree.node cz zl z kz zr := by
      cases Z with
      | leaf => exact absurd rfl hZ
      | node cz zl z kz zr => exact ⟨_, _, _, _, _, rfl⟩
    have h1 := h.upR
    have h2 := h1.upR
    have h3 := h2.downL
    have k1 := h1.setColor RBTREE_BLACK
    have k2 := k1.upR.setColor RBTREE_RED
    obtain ⟨k3, n3, -⟩ := k2.rotL
    refine ⟨left_rotate ((t.setColor ap RBTREE_BLACK).setColor ag RBTREE_RED) ag, z, ?_,
      by simpa using n3, Or.inr ⟨_, _, k3.downR, by simp, rfl, rfl, rfl⟩⟩
    simp [insert_fixup_body, left_rotate_chk, h.parent_eq, h1.color_eq, h1.parent_eq,
      h2.left_eq, h2.right_eq, h3.color_ptr, hUc, h1.left_eq, h.ne_sibR, h1.ne_sibR,
      h2.ne_nil, h1.ne_nil]
  | case13 cp sl ap kp cg U ag kg up Z hc' =>
    intro t T' h hZ hc he
    simp only [pcolor, Frame.color] at hc
    exact absurd hc hc'
  | case14 ap kp sr cg ag kg up Z ul u ku ur ih =>
    intro t T' h hZ hc he
    simp only [insFix, if_true] at he
    obtain ⟨cz, zl, z, kz, zr, rfl⟩ : ∃ cz zl z kz zr, Z = ATree.node cz zl z kz zr := by
      cases Z with
      | leaf => exact absurd rfl hZ
      | node cz zl z kz zr => exact ⟨_, _, _, _, _, rfl⟩
    have h1 := h.upL
    have h2 := h1.upR
    have h3 := h2.downL
    have k1 := h1.setColor RBTREE_BLACK
    have k2 := (k1.upR.downL).setColor RBTREE_BLACK
    have k3 := (k2.upL).setColor RBTREE_RED
    have hne := h1.ne_sibR
    simp only [ptr_node] at hne
    refine ⟨((t.setColor ap RBTREE_BLACK).setColor u RBTREE_BLACK).setColor ag RBTREE_RED, ag,
      ?_, rfl, Or.inl ⟨_, _, up, _, rfl, ?_, k3, by simp, rfl, he⟩⟩
    · simp [insert_fixup_body, h.parent_eq, h1.color_eq, h1.parent_eq, h2.left_eq, h2.right_eq,
        h3.color_eq, hne]
    · simp [h.parent_eq, h1.parent_eq]
  | case15 ap kp sr cg U ag kg up cz zl z kz zr hU =>
    intro t T' h hZ hc he
    have hUc := rootColor_of_not_red hU
    have he' : T' = blacken (plug (ATree.node RBTREE_BLACK (ATree.node RBTREE_RED U ag kg zl)
        z kz (ATree.node RBTREE_RED zr ap kp sr)) up) := by
      cases U with
      | leaf => simpa [insFix] using he.symm
      | node cu ul u ku ur =>
        simp only [rootColor] at hUc
        subst hUc
        simpa [insFix] using he.symm
    subst he'
    have h1 := h.upL
    have h2 := h1.upR
    have h3 := h2.downL
    obtain ⟨r1, n1, -⟩ := h1.rotR
    have k1 := r1.setColor RBTREE_BLACK
    have k2 := k1.upR.setColor RBTREE_RED
    obtain ⟨k3, n3, -⟩ := k2.rotL
    refine ⟨left_rotate (((right_rotate t ap).setColor z RBTREE_BLACK).setColor ag RBTREE_RED)
      ag, ap, ?_, by simpa [n1] using n3, Or.inr ⟨_, _, k3.downR, by simp, rfl, rfl, ?_⟩⟩
    · simp [insert_fixup_body, left_rotate_chk, right_rotate_chk, h.parent_eq, h1.color_eq,
        h1.parent_eq, h2.left_eq, h2.right_eq, h3.color_ptr, hUc, h1.left_eq,
        r1.downR.parent_eq, r1.parent_eq, h1.ne_sibR, h1.ne_nil, h.ne_nil, n1, h2.ne_nil,
        r1.upR.right_eq, r1.ne_nil]
    · simp [plug]
  | case16 ap kp sr cg U ag kg up hU =>
    intro t T' h hZ
    exact absurd rfl hZ
  | case17 cp ap kp sr cg U ag kg up Z hc' =>
    intro t T' h hZ hc he
    simp only [pcolor, Frame.color] at hc
    exact absurd hc hc'

theorem node_of_ne_leaf {Z : ATree} (hZ : Z ≠ ATree.leaf) :
    ∃ cz zl z kz zr, Z = ATree.node cz zl z kz zr := by
  cases Z with
  | leaf => exact absurd rfl hZ
  | node cz zl z kz zr => exact ⟨_, _, _, _, _, rfl⟩

/-- The asserting insertion fix-up returns within `depth + 2` evaluations of
the loop condition, where `depth` is the number of ancestors of the start
node: no assertion fails. -/
theorem insert_fixup_chk_spec : ∀ (n : Nat) (p : Path) (Z : ATree) (t : rbtree) (T' : ATree),
    p.length ≤ n → Foc t p Z → Z ≠ ATree.leaf → insFix p Z = some T' →
      ∀ fuel, p.length + 2 ≤ fuel →
        ∃ t', rbtree_insert_fixup_chk fuel t (ptr t.nil Z) = some t' := by
  intro n
  induction n with
  | zero =>
    intro p Z t T' hn h hZ he fuel hf
    obtain ⟨fuel, rfl⟩ : ∃ f, fuel = f + 1 := ⟨fuel - 1, by omega⟩
    obtain ⟨cz, zl, z, kz, zr, rfl⟩ := node_of_ne_leaf hZ
    have hp : p = [] := List.length_eq_zero.1 (by omega)
    subst hp
    rw [rbtree_insert_fixup_chk]
    simp [h.parent_color, pcolor]
  | succ m ih =>
    intro p Z t T' hn h hZ he fuel hf
    obtain ⟨fuel, rfl⟩ : ∃ f, fuel = f + 1 := ⟨fuel - 1, by omega⟩
    by_cases hc : pcolor p = RBTREE_RED
    · obtain ⟨t1, z1, hb, n1, hcase⟩ := insert_body_spec p Z t T' h hZ hc he
      obtain ⟨cz, zl, z, kz, zr, rfl⟩ := node_of_ne_leaf hZ
      rw [rbtree_insert_fixup_chk]
      simp only [ptr_node] at hb ⊢
      simp only [h.parent_color, hc, if_true, hb]
      rcases hcase with ⟨f1, f2, up, Z1, rfl, -, k, hZ1, hz1, he1⟩ | ⟨q, Z1, k, hZ1, hz1, hq, -⟩
      · simp only [List.length_cons] at hn hf
        have := ih up Z1 t1 T' (by omega) k hZ1 he1 fuel (by omega)
        rw [n1, ← hz1] at this
        exact this
      · obtain ⟨fuel, rfl⟩ : ∃ f, fuel = f + 1 := ⟨fuel - 1, by
          cases p with
          | nil => simp [pcolor] at hc
          | cons f up => simp only [List.length_cons] at hf; omega⟩
        obtain ⟨c1, l1, a1, k1, r1, rfl⟩ := node_of_ne_leaf hZ1
        simp only [ptr_node] at hz1
        subst hz1
        rw [rbtree_insert_fixup_chk]
        simp [k.parent_color, hq]
    · obtain ⟨cz, zl, z, kz, zr, rfl⟩ := node_of_ne_leaf hZ
      rw [rbtree_insert_fixup_chk]
      simp [h.parent_color, hc]

/-! ## The asserting erase fix-up is the erase fix-up -/

/-- Cases 2 to 4 for a left child: an iteration that passes its assertions
is the iteration of the loop, and it keeps the sentinel's fields. -/
theorem erase_left_tail_step {t t1 : rbtree} {x w x1 : Nat}
    (hb : erase_body_left_tail t x w = some (t1, x1)) :
    (∀ fuel, erase_fixup_left_tail fuel t x w = rbtree_erase_fixup fuel t1 x1) ∧
      NilKept t t1 := by
  simp only [erase_body_left_tail] at hb
  split_ifs at hb with c1 c2
  · simp only [Option.some.injEq, Prod.mk.injEq] at hb
    obtain ⟨rfl, rfl⟩ := hb
    refine ⟨fun fuel => ?_, nilKept_setColor _ _ _⟩
    simp only [erase_fixup_left_tail]
    rw [if_pos c1]
  · split at hb
    · exact absurd hb (by simp)
    · rename_i t2 w2 e1
      split at e1
      · exact absurd e1 (by simp)
      · rename_i t3 e2
        have k2 := nilKept_right_rotate_chk e2
        obtain ⟨-, -, rfl⟩ := right_rotate_chk_some e2
        split_ifs at e1
        simp only [Option.some.injEq, Prod.mk.injEq] at e1
        obtain ⟨rfl, rfl⟩ := e1
        split at hb
        · exact absurd hb (by simp)
        · rename_i t4 e3
          have k3 := nilKept_left_rotate_chk e3
          obtain ⟨-, -, rfl⟩ := left_rotate_chk_some e3
          simp only [Option.some.injEq, Prod.mk.injEq] at hb
          obtain ⟨rfl, rfl⟩ := hb
          refine ⟨fun fuel => ?_, ?_⟩
          · simp only [erase_fixup_left_tail]
            rw [if_neg c1]
            simp only [c2, if_true]
          · exact (nilKept_setColor _ _ _).trans ((nilKept_setColor _ _ _).trans (k2.trans
              ((nilKept_setColor _ _ _).trans ((nilKept_setColor _ _ _).trans
                ((nilKept_setColor _ _ _).trans k3)))))
  · split at hb
    · exact absurd hb (by simp)
    · rename_i t2 w2 e1
      simp only [Option.some.injEq, Prod.mk.injEq] at e1
      obtain ⟨rfl, rfl⟩ := e1
      split at hb
      · exact absurd hb (by simp)
      · rename_i t4 e3
        have k3 := nilKept_left_rotate_chk e3
        obtain ⟨-, -, rfl⟩ := left_rotate_chk_some e3
        simp only [Option.some.injEq, Prod.mk.injEq] at hb
        obtain ⟨rfl, rfl⟩ := hb
        refine ⟨fun fuel => ?_, ?_⟩
        · simp only [erase_fixup_left_tail]
          rw [if_neg c1]
          simp only [c2, if_false]
        · exact (nilKept_setColor _ _ _).trans ((nilKept_setColor _ _ _).trans
            ((nilKept_setColor _ _ _).trans k3))

/-- Cases 2 to 4 for a right child: an iteration that passes its assertions
is the iteration of the loop, and it keeps the sentinel's fields. -/
theorem erase_right_tail_step {t t1 : rbtree} {x w x1 : Nat}
    (hb : erase_body_right_tail t x w = some (t1, x1)) :
    (∀ fuel, erase_fixup_right_tail fuel t x w = rbtree_erase_fixup fuel t1 x1) ∧
      NilKept t t1 := by
  simp only [erase_body_right_tail] at hb
  split_ifs at hb with c1 c2
  · simp only [Option.some.injEq, Prod.mk.injEq] at hb
    obtain ⟨rfl, rfl⟩ := hb
    refine ⟨fun fuel => ?_, nilKept_setColor _ _ _⟩
    simp only [erase_fixup_right_tail]
    rw [if_pos c1]
  · split at hb
    · exact absurd hb (by simp)
    · rename_i t2 w2 e1
      split at e1
      · exact absurd e1 (by simp)
      · rename_i t3 e2
        have k2 := nilKept_left_rotate_chk e2
        obtain ⟨-, -, rfl⟩ := left_rotate_chk_some e2
        split_ifs at e1
        simp only [Option.some.injEq, Prod.mk.injEq] at e1
        obtain ⟨rfl, rfl⟩ := e1
        split at hb
        · exact absurd hb (by simp)
        · rename_i t4 e3
          have k3 := nilKept_right_rotate_chk e3
          obtain ⟨-, -, rfl⟩ := right_rotate_chk_some e3
          simp only [Option.some.injEq, Prod.mk.injEq] at hb
          obtain ⟨rfl, rfl⟩ := hb
          refine ⟨fun fuel => ?_, ?_⟩
          · simp only [erase_fixup_right_tail]
            rw [if_neg c1]
            simp only [c2, if_true]
          · exact (nilKept_setColor _ _ _).trans ((nilKept_setColor _ _ _).trans (k2.trans
              ((nilKept_setColor _ _ _).trans ((nilKept_setColor _ _ _).trans
                ((nilKept_setColor _ _ _).trans k3)))))
  · split at hb
    · exact absurd hb (by simp)
    · rename_i t2 w2 e1
      simp only [Option.some.injEq, Prod.mk.injEq] at e1
      obtain ⟨rfl, rfl⟩ := e1
      split at hb
      · exact absurd hb (by simp)
      · rename_i t4 e3
        have k3 := nilKept_right_rotate_chk e3
        obtain ⟨-, -, rfl⟩ := right_rotate_chk_some e3
        simp only [Option.some.injEq, Prod.mk.injEq] at hb
        obtain ⟨rfl, rfl⟩ := hb
        refine ⟨fun fuel => ?_, ?_⟩
        · simp only [erase_fixup_right_tail]
          rw [if_neg c1]
          simp only [c2, if_false]
        · exact (nilKept_setColor _ _ _).trans ((nilKept_setColor _ _ _).trans
            ((nilKept_setColor _ _ _).trans k3))

/-- An iteration that passes its assertions is the iteration of the loop of
`rbtree_erase_fixup`, and it keeps the sentinel's fields. -/
theorem erase_fixup_body_sound {t t1 : rbtree} {x x1 : Nat}
    (hb : erase_fixup_body t x = some (t1, x1)) :
    (x ≠ t.root ∧ t.color x = RBTREE_BLACK →
      ∀ fuel, rbtree_erase_fixup (fuel + 1) t x = rbtree_erase_fixup fuel t1 x1) ∧
    NilKept t t1 := by
  simp only [erase_fixup_body] at hb
  split_ifs at hb with c1 c2 c3 c2 c3
  · split at hb
    · exact absurd hb (by simp)
    · rename_i t2 w2 e1
      split at e1
      · exact absurd e1 (by simp)
      · rename_i t3 e2
        have k2 := nilKept_left_rotate_chk e2
        obtain ⟨-, -, rfl⟩ := left_rotate_chk_some e2
        split_ifs at e1
        simp only [Option.some.injEq, Prod.mk.injEq] at e1
        obtain ⟨rfl, rfl⟩ := e1
        obtain ⟨s1, s2⟩ := erase_left_tail_step hb
        refine ⟨fun hc fuel => ?_, (nilKept_setColor _ _ _).trans
          ((nilKept_setColor _ _ _).trans (k2.trans s2))⟩
        rw [erase_fixup_unfold, if_pos hc, if_pos c1]
        simp only [c3, if_true]
        exact s1 fuel
  · split at hb
    · exact absurd hb (by simp)
    · rename_i t2 w2 e1
      simp only [Option.some.injEq, Prod.mk.injEq] at e1
      obtain ⟨rfl, rfl⟩ := e1
      obtain ⟨s1, s2⟩ := erase_left_tail_step hb
      refine ⟨fun hc fuel => ?_, s2⟩
      rw [erase_fixup_unfold, if_pos hc, if_pos c1]
      simp only [c3, if_false]
      exact s1 fuel
  · split at hb
    · exact absurd hb (by simp)
    · rename_i t2 w2 e1
      split at e1
      · exact absurd e1 (by simp)
      · rename_i t3 e2
        have k2 := nilKept_right_rotate_chk e2
        obtain ⟨-, -, rfl⟩ := right_rotate_chk_some e2
        split_ifs at e1
        simp only [Option.some.injEq, Prod.mk.injEq] at e1
        obtain ⟨rfl, rfl⟩ := e1
        obtain ⟨s1, s2⟩ := erase_right_tail_step hb
        refine ⟨fun hc fuel => ?_, (nilKept_setColor _ _ _).trans
          ((nilKept_setColor _ _ _).trans (k2.trans s2))⟩
        rw [erase_fixup_unfold, if_pos hc, if_neg c1]
        simp only [c3, if_true]
        exact s1 fuel
  · split at hb
    · exact absurd hb (by simp)
    · rename_i t2 w2 e1
      simp only [Option.some.injEq, Prod.mk.injEq] at e1
      obtain ⟨rfl, rfl⟩ := e1
      obtain ⟨s1, s2⟩ := erase_right_tail_step hb
      refine ⟨fun hc fuel => ?_, s2⟩
      rw [erase_fixup_unfold, if_pos hc, if_neg c1]
      simp only [c3, if_false]
      exact s1 fuel

/-- The asserting fix-up, where it returns, returns what `rbtree_erase_fixup`
returns, and the sentinel's fields are kept. -/
theorem erase_fixup_chk_sound : ∀ (fuel : Nat) (t : rbtree) (x : Nat) (t' : rbtree),
    rbtree_erase_fixup_chk fuel t x = some t' →
      rbtree_erase_fixup fuel t x = some t' ∧ NilKept t t' := by
  intro fuel
  induction fuel with
  | zero => intro t x t' h; simp [rbtree_erase_fixup_chk] at h
  | succ n ih =>
    intro t x t' h
    rw [rbtree_erase_fixup_chk] at h
    split_ifs at h with hc
    · split at h
      · exact absurd h (by simp)
      · rename_i t1 x1 hb
        obtain ⟨e1, e2⟩ := ih _ _ _ h
        obtain ⟨s1, s2⟩ := erase_fixup_body_sound hb
        rw [s1 hc n]
        exact ⟨e1, s2.trans e2⟩
    · simp only [Option.some.injEq] at h
      subst h
      refine ⟨?_, nilKept_setColor _ _ _⟩
      rw [rbtree_erase_fixup]
      simp only [hc, if_false]

/-! ## One iteration of the erase fix-up on a represented tree -/

/-- Cases 2, 3 and 4 for a left child on the heap, with the assertions. -/
theorem left_tail_body_spec {t : rbtree} {up : Path} {cp : color_t} {ap : Nat} {kp : key_t}
    {X W S : ATree} {b : Bool} (h : Foc t (Frame.L cp ap kp W :: up) X)
    (hpar : X = ATree.leaf → t.parent t.nil = ap)
    (hs : delStepL cp X ap kp W = some (b, S)) :
    ∃ t' x1, erase_body_left_tail t (ptr t.nil X) (ptr t.nil W) = some (t', x1) ∧
      Foc t' up S ∧ t'.nil = t.nil ∧ x1 = (if b then t'.root else ap) ∧
      (b = false → ptr t.nil S = ap) := by
  have hpx : t.parent (ptr t.nil X) = ap := h.parent_ptr (by simpa using hpar)
  cases W with
  | leaf => simp [delStepL] at hs
  | node cw wl w kw wr =>
    have hP := h.upL
    have hW := hP.downR
    simp only [delStepL] at hs
    split at hs
    · -- case 2
      rename_i hc
      simp only [Option.some.injEq, Prod.mk.injEq] at hs
      obtain ⟨rfl, rfl⟩ := hs
      have k1 := (hW.setColor RBTREE_RED).upR
      refine ⟨_, _, ?_, k1, rfl, rfl, by simp⟩
      simp [erase_body_left_tail, hW.left_eq, hW.right_eq, hW.downL.color_ptr,
        hW.downR.color_ptr, hc, hpx]
    · rename_i hc
      split at hs
      · -- case 3 then case 4
        rename_i hr
        have hlc : rootColor wl ≠ RBTREE_BLACK := fun e => hc ⟨e, hr⟩
        cases wl with
        | leaf => simp at hlc
        | node cn nl na nk nr =>
          simp only [Option.some.injEq, Prod.mk.injEq] at hs
          obtain ⟨rfl, rfl⟩ := hs
          have k1 := hW.downL.setColor RBTREE_BLACK
          have k2 := k1.upL.setColor RBTREE_RED
          obtain ⟨k3, n3, m3⟩ := k2.rotR
          simp only [setColor_nil] at n3 m3
          have hp3 : (right_rotate ((t.setColor na RBTREE_BLACK).setColor w RBTREE_RED) w).parent
              (ptr t.nil X) = ap := by
            have := k3.upR.downL.parent_ptr (by
              intro e
              rw [n3, pptr_L, parent_nil_of_mem m3]
              simpa using hpar e)
            simpa [n3] using this
          have k4 := k3.setColor cp
          have k5 := k4.upR.setColor RBTREE_BLACK
          have k6 := k5.downR.downR.setColor RBTREE_BLACK
          obtain ⟨k7, n7, -⟩ := k6.upR.upR.rotL
          refine ⟨_, _, ?_, k7, by simp [n7, n3], rfl, by simp⟩
          simp only [rootColor_node] at hr hlc
          simp [erase_body_left_tail, right_rotate_chk, left_rotate_chk, hW.left_eq,
            hW.right_eq, hW.downL.color_eq, hW.downR.color_ptr, hr, hlc, hpx, hp3,
            k3.upR.right_eq, k3.upR.color_eq, k3.right_eq, hW.ne_nil, hW.downL.ne_nil,
            hP.ne_nil, n3, k3.ne_nil]
      · -- case 4
        rename_i hr
        cases wr with
        | leaf => simp at hr
        | node cf fl fa fk fr =>
          simp only [Option.some.injEq, Prod.mk.injEq] at hs
          obtain ⟨rfl, rfl⟩ := hs
          have k1 := hW.setColor cp
          have k2 := k1.upR.setColor RBTREE_BLACK
          have k3 := k2.downR.downR.setColor RBTREE_BLACK
          obtain ⟨k4, n4, -⟩ := k3.upR.upR.rotL
          refine ⟨_, _, ?_, k4, by simp [n4], rfl, by simp⟩
          simp only [rootColor_node] at hr
          simp [erase_body_left_tail, left_rotate_chk, hW.left_eq, hW.right_eq,
            hW.downL.color_ptr, hW.downR.color_eq, hr, hpx, hP.color_eq, hP.ne_nil, hW.ne_nil,
            hP.right_eq]

/-- Cases 2, 3 and 4 for a right child on the heap, with the assertions. -/
theorem right_tail_body_spec {t : rbtree} {up : Path} {cp : color_t} {ap : Nat} {kp : key_t}
    {X W S : ATree} {b : Bool} (h : Foc t (Frame.R cp W ap kp :: up) X)
    (hpar : X = ATree.leaf → t.parent t.nil = ap)
    (hs : delStepR cp W ap kp X = some (b, S)) :
    ∃ t' x1, erase_body_right_tail t (ptr t.nil X) (ptr t.nil W) = some (t', x1) ∧
      Foc t' up S ∧ t'.nil = t.nil ∧ x1 = (if b then t'.root else ap) ∧
      (b = false → ptr t.nil S = ap) := by
  have hpx : t.parent (ptr t.nil X) = ap := h.parent_ptr (by simpa using hpar)
  cases W with
  | leaf => simp [delStepR] at hs
  | node cw wl w kw wr =>
    have hP := h.upR
    have hW := hP.downL
    simp only [delStepR] at hs
    split at hs
    · -- case 2
      rename_i hc
      simp only [Option.some.injEq, Prod.mk.injEq] at hs
      obtain ⟨rfl, rfl⟩ := hs
      have k1 := (hW.setColor RBTREE_RED).upL
      refine ⟨_, _, ?_, k1, rfl, rfl, by simp⟩
      simp [erase_body_right_tail, hW.left_eq, hW.right_eq, hW.downL.color_ptr,
        hW.downR.color_ptr, hc, hpx]
    · rename_i hc
      split at hs
      · -- case 3 then case 4
        rename_i hr
        have hlc : rootColor wr ≠ RBTREE_BLACK := fun e => hc ⟨e, hr⟩
        cases wr with
        | leaf => simp at hlc
        | node cn nl na nk nr =>
          simp only [Option.some.injEq, Prod.mk.injEq] at hs
          obtain ⟨rfl, rfl⟩ := hs
          have k1 := hW.downR.setColor RBTREE_BLACK
          have k2 := k1.upR.setColor RBTREE_RED
          obtain ⟨k3, n3, m3⟩ := k2.rotL
          simp only [setColor_nil] at n3 m3
          have hp3 : (left_rotate ((t.setColor na RBTREE_BLACK).setColor w RBTREE_RED) w).parent
              (ptr t.nil X) = ap := by
            have := k3.upL.downR.parent_ptr (by
              intro e
              rw [n3, pptr_R, parent_nil_of_mem m3]
              simpa using hpar e)
            simpa [n3] using this
          have k4 := k3.setColor cp
          have k5 := k4.upL.setColor RBTREE_BLACK
          have k6 := k5.downL.downL.setColor RBTREE_BLACK
          obtain ⟨k7, n7, -⟩ := k6.upL.upL.rotR
          refine ⟨_, _, ?_, k7, by simp [n7, n3], rfl, by simp⟩
          simp only [rootColor_node] at hr hlc
          simp [erase_body_right_tail, left_rotate_chk, right_rotate_chk, hW.left_eq,
            hW.right_eq, hW.downR.color_eq, hW.downL.color_ptr, hr, hlc, hpx, hp3,
            k3.upL.left_eq, k3.upL.color_eq, k3.left_eq, hW.ne_nil, hW.downR.ne_nil,
            hP.ne_nil, n3, k3.ne_nil]
      · -- case 4
        rename_i hr
        cases wl with
        | leaf => simp at hr
        | node cf fl fa fk fr =>
          simp only [Option.some.injEq, Prod.mk.injEq] at hs
          obtain ⟨rfl, rfl⟩ := hs
          have k1 := hW.setColor cp
          have k2 := k1.upL.setColor RBTREE_BLACK
          have k3 := k2.downL.downL.setColor RBTREE_BLACK
          obtain ⟨k4, n4, -⟩ := k3.upL.upL.rotR
          refine ⟨_, _, ?_, k4, by simp [n4], rfl, by simp⟩
          simp only [rootColor_node] at hr
          simp [erase_body_right_tail, right_rotate_chk, hW.left_eq, hW.right_eq,
            hW.downR.color_ptr, hW.downL.color_eq, hr, hpx, hP.color_eq, hP.ne_nil, hW.ne_nil,
            hP.left_eq]

/-- One iteration of the loop of `rbtree_erase_fixup` at a BLACK `x` below the
root, in a tree on which the fix-up is defined: the assertions hold, and
either `x` moves to its parent (case 2, possibly after case 1), or `x` is set
to the root (case 4, possibly after cases 1 and 3). -/
theorem erase_body_spec {t : rbtree} {f : Frame} {up : Path} {X T' : ATree}
    (h : Foc t (f :: up) X) (hpar : X = ATree.leaf → t.parent t.nil = pptr t.nil (f :: up))
    (hXb : rootColor X = RBTREE_BLACK) (he : delFix (f :: up) X = some T') :
    ∃ t1 x1, erase_fixup_body t (ptr t.nil X) = some (t1, x1) ∧ t1.nil = t.nil ∧
      ((x1 = t.parent (ptr t.nil X) ∧ ∃ q S, Foc t1 q S ∧ S ≠ ATree.leaf ∧
          x1 = ptr t.nil S ∧ delFix q S = some T' ∧
          (q = up ∨ (rootColor S = RBTREE_RED ∧ ∃ f', q = f' :: up))) ∨
        (x1 = t1.root ∧ ∃ q S, Foc t1 q S ∧ T' = blacken (plug S q))) := by
  cases f with
    | L cp ap kp W =>
      have hpx : t.parent (ptr t.nil X) = ap := h.parent_ptr (by simpa using hpar)
      have hP := h.upL
      have hW := hP.downR
      have hWn' : ptr t.nil W ≠ t.nil := by
        cases W with
        | leaf =>
          rw [delFix_L_black hXb rootColor_leaf] at he
          simp [delStepL] at he
        | node cw wl w kw wr => simpa using hW.ne_nil
      rcases not_red_node_cases W with ⟨wl, w, kw, wr, rfl⟩ | hWb
      · -- case 1
        have k1 := hW.setColor RBTREE_BLACK
        have k2 := k1.upR.setColor RBTREE_RED
        obtain ⟨k3, n3, m3⟩ := k2.rotL
        simp only [setColor_nil] at n3 m3
        have k3X := k3.downL.downL
        have hpar3 : X = ATree.leaf →
            (left_rotate ((t.setColor w RBTREE_BLACK).setColor ap RBTREE_RED) ap).parent
              (left_rotate ((t.setColor w RBTREE_BLACK).setColor ap RBTREE_RED) ap).nil
                = ap := by
          intro e
          rw [n3, parent_nil_of_mem m3]
          simpa using hpar e
        have hp3 := k3X.parent_ptr (by simpa using hpar3)
        simp only [n3, pptr_L] at hp3
        rw [delFix_L_red hXb] at he
        cases hs : delStepL RBTREE_RED X ap kp wl with
        | none => simp [hs] at he
        | some bS =>
          obtain ⟨b, S⟩ := bS
          have hsn : ptr t.nil wl ≠ t.nil := by
            cases wl with
            | leaf => simp [delStepL] at hs
            | node c1 l1 a1 k1' r1 => simpa using k3X.upL.downR.ne_nil.trans_eq n3
          obtain ⟨t', x1, e0, e1, e2, e3, e4⟩ := left_tail_body_spec k3X hpar3 hs
          simp only [n3] at e0 e2
          refine ⟨t', x1, ?_, e2, ?_⟩
          · rw [← e0]
            simp [erase_fixup_body, left_rotate_chk, hpx, hP.left_eq, hP.right_eq, hW.color_eq,
              hW.ne_nil, hP.ne_nil, hp3, k3.downL.right_eq, n3, hsn]
          · cases b with
            | true =>
              simp only [hs, Option.some_bind, if_true, Option.some.injEq] at he
              subst he
              simp only [if_true] at e3
              exact Or.inr ⟨e3, Frame.L RBTREE_BLACK w kw wr :: up, S, e1, rfl⟩
            | false =>
              simp only [hs, Option.some_bind, Bool.false_eq_true, if_false,
                Option.some.injEq] at he
              subst he
              simp only [Bool.false_eq_true, if_false] at e3
              obtain ⟨W', rfl⟩ := delStepL_false hs
              refine Or.inl ⟨e3.trans hpx.symm, Frame.L RBTREE_BLACK w kw wr :: up, _, e1, by simp,
                by simpa using e3, ?_, Or.inr ⟨rfl, _, rfl⟩⟩
              simp [delFix, plug]
      · -- the sibling is BLACK
        rw [delFix_L_black hXb hWb] at he
        cases hs : delStepL cp X ap kp W with
        | none => simp [hs] at he
        | some bS =>
          obtain ⟨b, S⟩ := bS
          obtain ⟨t', x1, e0, e1, e2, e3, e4⟩ := left_tail_body_spec h (by simpa using hpar) hs
          refine ⟨t', x1, ?_, e2, ?_⟩
          · rw [← e0]
            simp [erase_fixup_body, hpx, hP.left_eq, hP.right_eq, hW.color_ptr, hWb, hWn']
          · cases b with
            | true =>
              simp only [hs, Option.some_bind, if_true, Option.some.injEq] at he
              subst he
              simp only [if_true] at e3
              exact Or.inr ⟨e3, up, S, e1, rfl⟩
            | false =>
              simp only [hs, Option.some_bind, Bool.false_eq_true, if_false] at he
              simp only [Bool.false_eq_true, if_false] at e3
              obtain ⟨W', rfl⟩ := delStepL_false hs
              exact Or.inl ⟨e3.trans hpx.symm, up, _, e1, by simp, by simpa using e3, he,
                Or.inl rfl⟩
    | R cp W ap kp =>
      have hpx : t.parent (ptr t.nil X) = ap := h.parent_ptr (by simpa using hpar)
      have hP := h.upR
      have hW := hP.downL
      have hWn : W ≠ ATree.leaf := by
        rintro rfl
        rw [delFix_R_black hXb rootColor_leaf] at he
        simp [delStepR] at he
      have hxw : ptr t.nil X ≠ ptr t.nil W := by
        cases W with
        | leaf => exact absurd rfl hWn
        | node cw wl w kw wr =>
          cases X with
          | leaf => simpa using hW.ne_nil.symm
          | node cx xl x kx xr => exact h.ne_sibR
      have hWn' : ptr t.nil W ≠ t.nil := by
        cases W with
        | leaf => exact absurd rfl hWn
        | node cw wl w kw wr => simpa using hW.ne_nil
      rcases not_red_node_cases W with ⟨wl, w, kw, wr, rfl⟩ | hWb
      · -- case 1
        have hxw' : ptr t.nil X ≠ w := by simpa using hxw
        have k1 := hW.setColor RBTREE_BLACK
        have k2 := k1.upL.setColor RBTREE_RED
        obtain ⟨k3, n3, m3⟩ := k2.rotR
        simp only [setColor_nil] at n3 m3
        have k3X := k3.downR.downR
        have hpar3 : X = ATree.leaf →
            (right_rotate ((t.setColor w RBTREE_BLACK).setColor ap RBTREE_RED) ap).parent
              (right_rotate ((t.setColor w RBTREE_BLACK).setColor ap RBTREE_RED) ap).nil
                = ap := by
          intro e
          rw [n3, parent_nil_of_mem m3]
          simpa using hpar e
        have hp3 := k3X.parent_ptr (by simpa using hpar3)
        simp only [n3, pptr_R] at hp3
        rw [delFix_R_red hXb] at he
        cases hs : delStepR RBTREE_RED wr ap kp X with
        | none => simp [hs] at he
        | some bS =>
          obtain ⟨b, S⟩ := bS
          have hsn : ptr t.nil wr ≠ t.nil := by
            cases wr with
            | leaf => simp [delStepR] at hs
            | node c1 l1 a1 k1' r1 => simpa using k3X.upR.downL.ne_nil.trans_eq n3
          obtain ⟨t', x1, e0, e1, e2, e3, e4⟩ := right_tail_body_spec k3X hpar3 hs
          simp only [n3] at e0 e2
          refine ⟨t', x1, ?_, e2, ?_⟩
          · rw [← e0]
            simp [erase_fixup_body, right_rotate_chk, hpx, hP.left_eq, hP.right_eq, hW.color_eq,
              hW.ne_nil, hP.ne_nil, hp3, k3.downR.left_eq, n3, hsn, hxw']
          · cases b with
            | true =>
              simp only [hs, Option.some_bind, if_true, Option.some.injEq] at he
              subst he
              simp only [if_true] at e3
              exact Or.inr ⟨e3, Frame.R RBTREE_BLACK wl w kw :: up, S, e1, rfl⟩
            | false =>
              simp only [hs, Option.some_bind, Bool.false_eq_true, if_false,
                Option.some.injEq] at he
              subst he
              simp only [Bool.false_eq_true, if_false] at e3
              obtain ⟨W', rfl⟩ := delStepR_false hs
              refine Or.inl ⟨e3.trans hpx.symm, Frame.R RBTREE_BLACK wl w kw :: up, _, e1, by simp,
                by simpa using e3, ?_, Or.inr ⟨rfl, _, rfl⟩⟩
              simp [delFix, plug]
      · -- the sibling is BLACK
        rw [delFix_R_black hXb hWb] at he
        cases hs : delStepR cp W ap kp X with
        | none => simp [hs] at he
        | some bS =>
          obtain ⟨b, S⟩ := bS
          obtain ⟨t', x1, e0, e1, e2, e3, e4⟩ := right_tail_body_spec h (by simpa using hpar) hs
          refine ⟨t', x1, ?_, e2, ?_⟩
          · rw [← e0]
            simp [erase_fixup_body, hpx, hP.left_eq, hP.right_eq, hW.color_ptr, hWb, hWn', hxw]
          · cases b with
            | true =>
              simp only [hs, Option.some_bind, if_true, Option.some.injEq] at he
              subst he
              simp only [if_true] at e3
              exact Or.inr ⟨e3, up, S, e1, rfl⟩
            | false =>
              simp only [hs, Option.some_bind, Bool.false_eq_true, if_false] at he
              simp only [Bool.false_eq_true, if_false] at e3
              obtain ⟨W', rfl⟩ := delStepR_false hs
              exact Or.inl ⟨e3.trans hpx.symm, up, _, e1, by simp, by simpa using e3, he,
                Or.inl rfl⟩

/-- The asserting erase fix-up returns within `depth + 2` evaluations of the
loop condition, where `depth` is the number of ancestors of the start node:
no assertion fails. -/
theorem erase_fixup_chk_spec (p : Path) :
    ∀ (X : ATree) (t : rbtree) (T' : ATree), Foc t p X →
      (X = ATree.leaf → t.parent t.nil = pptr t.nil p) → delFix p X = some T' →
      ∀ fuel, p.length + 2 ≤ fuel →
        ∃ t', rbtree_erase_fixup_chk fuel t (ptr t.nil X) = some t' := by
  induction p with
  | nil =>
    intro X t T' h hpar he fuel hf
    obtain ⟨fuel, rfl⟩ : ∃ f, fuel = f + 1 := ⟨fuel - 1, by omega⟩
    have hr : t.root = ptr t.nil X := by simpa [plug] using h.glob.root
    rw [rbtree_erase_fixup_chk]
    simp [hr]
  | cons f up ih =>
    intro X t T' h hpar he fuel hf
    obtain ⟨fuel, rfl⟩ : ∃ f, fuel = f + 1 := ⟨fuel - 1, by omega⟩
    simp only [List.length_cons] at hf
    rw [rbtree_erase_fixup_chk]
    by_cases hX : rootColor X = RBTREE_RED
    · simp [h.color_ptr, hX]
    · have hXb := color_eq_black_of_ne_red hX
      have hxc : t.color (ptr t.nil X) = RBTREE_BLACK := by rw [h.color_ptr]; exact hXb
      have hxr := h.ptr_ne_root
      obtain ⟨t1, x1, hb, n1, hcase⟩ := erase_body_spec h hpar hXb he
      simp only [hxc, hxr, ne_eq, not_false_eq_true, and_self, if_true, hb]
      obtain ⟨fuel, rfl⟩ : ∃ f, fuel = f + 1 := ⟨fuel - 1, by omega⟩
      rcases hcase with ⟨-, q, S, k, hS, hx1, heq, hq⟩ | ⟨hx1, -⟩
      · rcases hq with rfl | ⟨hred, f', rfl⟩
        · have := ih S t1 T' k (fun e => absurd e hS) heq (fuel + 1) (by omega)
          rw [n1, ← hx1] at this
          exact this
        · rw [rbtree_erase_fixup_chk]
          have hc1 : t1.color x1 = RBTREE_RED := by
            rw [hx1, ← n1, k.color_ptr]; exact hred
          simp [hc1]
      · rw [rbtree_erase_fixup_chk]
        simp [hx1]

/-! ## The unlinking part of `rbtree_erase` and the sentinel -/

theorem nilKept_transplant (t : rbtree) (u v : Nat) : NilKept t (rbtree_transplant t u v) := by
  simp only [rbtree_transplant]
  split_ifs with c1 c2
  · exact (nilKept_setRoot _ _).trans (nilKept_setParent _ _ _)
  · exact (nilKept_setLeft _ _ c1).trans (nilKept_setParent _ _ _)
  · exact (nilKept_setRight _ _ c1).trans (nilKept_setParent _ _ _)

theorem minimum_ne_nil : ∀ (fuel : Nat) (t : rbtree) (x y : Nat),
    rbtree_minimum fuel t x = some y → x ≠ t.nil → y ≠ t.nil := by
  intro fuel
  induction fuel with
  | zero => intro t x y h; simp [rbtree_minimum] at h
  | succ n ih =>
    intro t x y h hx
    rw [rbtree_minimum] at h
    split_ifs at h with c
    · exact ih _ _ _ h c
    · simp only [Option.some.injEq] at h
      exact h ▸ hx

theorem nilKept_relink (t : rbtree) (z y : Nat) (hy : y ≠ t.nil) :
    NilKept t (erase_relink t z y) := by
  simp only [erase_relink]
  have s1 := nilKept_transplant t z y
  have s2 := nilKept_setLeft (rbtree_transplant t z y) ((rbtree_transplant t z y).left z)
    (show y ≠ _ by rw [s1.1]; exact hy)
  exact s1.trans (s2.trans ((nilKept_setParent _ _ _).trans (nilKept_setColor _ _ _)))

/-- The unlinking part of `rbtree_erase` stores nothing into the `key`, `left`
or `right` field of the sentinel. -/
theorem erase_unlink_nilKept {fuel : Nat} {t t1 : rbtree} {z x : Nat} {c : color_t}
    (h : erase_unlink fuel t z = some (t1, x, c)) : NilKept t t1 := by
  simp only [erase_unlink] at h
  split_ifs at h with c1 c2
  · simp only [Option.some.injEq, Prod.mk.injEq] at h
    obtain ⟨rfl, -, -⟩ := h
    exact nilKept_transplant _ _ _
  · simp only [Option.some.injEq, Prod.mk.injEq] at h
    obtain ⟨rfl, -, -⟩ := h
    exact nilKept_transplant _ _ _
  · split at h
    · exact absurd h (by simp)
    · rename_i y hy
      have hyn := minimum_ne_nil _ _ _ _ hy c2
      simp only [Option.some.injEq, Prod.mk.injEq] at h
      obtain ⟨rfl, -, -⟩ := h
      have s1 : NilKept t (if t.parent y = z then t.setParent (t.right y) y
          else ((rbtree_transplant t y (t.right y)).setRight y
            ((rbtree_transplant t y (t.right y)).right z)).setParent
              (((rbtree_transplant t y (t.right y)).setRight y
                ((rbtree_transplant t y (t.right y)).right z)).right y) y) := by
        split_ifs
        · exact nilKept_setParent _ _ _
        · have a1 := nilKept_transplant t y (t.right y)
          exact a1.trans ((nilKept_setRight _ _ (show y ≠ _ by rw [a1.1]; exact hyn)).trans
            (nilKept_setParent _ _ _))
      exact s1.trans (nilKept_relink _ _ _ (by rw [s1.1]; exact hyn))

/-- The asserting `rbtree_erase`, where it returns, returns what
`rbtree_erase` returns, and the sentinel's fields are kept. -/
theorem rbtree_erase_chk_sound {fuel : Nat} {t : rbtree} {z : Nat} {r : rbtree × Int}
    (h : rbtree_erase_chk fuel t z = some r) :
    rbtree_erase fuel t z = some r ∧ NilKept t r.1 := by
  rw [rbtree_erase_eq]
  simp only [rbtree_erase_chk] at h
  split at h
  · exact absurd h (by simp)
  · rename_i t1 x c h1
    have k1 := erase_unlink_nilKept h1
    try simp only [h1]
    split_ifs at h ⊢ with hc
    · split at h
      · exact absurd h (by simp)
      · rename_i t2 h2
        simp only [Option.some.injEq] at h
        subst h
        obtain ⟨e1, e2⟩ := erase_fixup_chk_sound _ _ _ _ h2
        simp only [e1]
        exact ⟨trivial, k1.trans e2⟩
    · simp only [Option.some.injEq] at h
      subst h
      exact ⟨rfl, k1⟩

/-! ## The whole operations with their assertions -/

/-- The part of `rbtree_insert` before the fix-up, on a represented tree. -/
theorem insert_link_spec {t : rbtree} {T : ATree} {z : Nat} (key : key_t)
    (h : TreeRep t T) (hz0 : z ≠ NULL) (hzn : z ≠ t.nil) (hzf : z ∉ addrs T)
    (fuel : Nat) (hf : height T + 1 ≤ fuel) :
    ∃ t1, insert_link fuel t z key = some t1 ∧
      Foc t1 (descend key T []) (ATree.node RBTREE_RED ATree.leaf z key ATree.leaf) ∧
      t1.nil = t.nil := by
  obtain ⟨h0, hcell⟩ := alloc_spec key h hzn hzf
  generalize ht0 : ((((t.setKey z key).setColor z RBTREE_RED).setParent z t.nil).setLeft z
        t.nil).setRight z t.nil = t0 at h0 hcell
  have hnil0 : t0.nil = t.nil := by rw [← ht0]; rfl
  have hk : t0.key z = key := by simp [rbtree.key, hcell]
  have hd := insert_descend_spec (z := z) T [] h0 fuel (by omega)
  rw [hk] at hd
  have hroot0 : t0.root = ptr t0.nil T := h0.glob.root
  simp only [pptr_nil] at hd
  rw [← hroot0] at hd
  have hfoc := Foc.descend key h0
  have hcell' : t0.mem z = ⟨RBTREE_RED, key, t0.nil, t0.nil, t0.nil⟩ := by rw [hnil0]; exact hcell
  have hl := Foc.link hfoc hcell' hz0 (by rw [hnil0]; exact hzn)
    (by rw [plug_descend]; simpa [plug] using hzf) (dirOK_descend key T [] trivial)
  obtain ⟨hl1, hl2⟩ := hl
  refine ⟨_, ?_, hl1, by rw [hl2, hnil0]⟩
  simp only [insert_link, setKey_nil, setColor_nil, setParent_nil, setLeft_nil, setRight_nil,
    ht0, hd]

/-- On a red-black tree the asserting `rbtree_insert` returns, and returns
what `rbtree_insert` returns: no assertion fails. -/
theorem rbtree_insert_chk_spec {t : rbtree} {T : ATree} (z : Nat) (key : key_t)
    (h : TreeRep t T) (hrb : IsRB T) (hz0 : z ≠ NULL) (hzn : z ≠ t.nil) (hzf : z ∉ addrs T)
    (fuel : Nat) (hf : height T + 2 ≤ fuel) :
    ∃ t', rbtree_insert_chk fuel t z key = some (t', z) ∧
      rbtree_insert fuel t z key = some (t', z) ∧ NilKept t t' := by
  obtain ⟨T', he, -⟩ := insTree_isRB hrb z key
  obtain ⟨t1, e1, e2, e3⟩ := insert_link_spec key h hz0 hzn hzf fuel (by omega)
  have hlen := length_descend key T []
  simp only [List.length_nil, Nat.add_zero] at hlen
  obtain ⟨t', e4⟩ := insert_fixup_chk_spec _ _ _ t1 T' le_rfl e2 (by simp) he fuel (by omega)
  simp only [ptr_node] at e4
  have hc : rbtree_insert_chk fuel t z key = some (t', z) := by
    simp only [rbtree_insert_chk, e1, e4]
  obtain ⟨s1, s2⟩ := rbtree_insert_chk_sound hzn hc
  exact ⟨t', hc, s1, s2⟩

/-- On a red-black tree the asserting `rbtree_erase` of a node of the tree
returns, and returns what `rbtree_erase` returns: no assertion fails. -/
theorem rbtree_erase_chk_spec {t : rbtree} {p : Path} {cz : color_t} {zl zr : ATree} {z : Nat}
    {kz : key_t} (h : TreeRep t (plug (ATree.node cz zl z kz zr) p))
    (hrb : IsRB (plug (ATree.node cz zl z kz zr) p)) (fuel : Nat)
    (hf : height (plug (ATree.node cz zl z kz zr) p) + 2 ≤ fuel) :
    ∃ t', rbtree_erase_chk fuel t z = some (t', 0) ∧
      rbtree_erase fuel t z = some (t', 0) ∧ NilKept t t' := by
  obtain ⟨T', he, -⟩ := eraseAt_isRB hrb
  have hfoc := Foc.ofRoot p h
  have hh := height_plug (ATree.node cz zl z kz zr) p
  simp only [height] at hh
  simp only [eraseAt] at he
  have hc : ∃ t', rbtree_erase_chk fuel t z = some (t', 0) := by
    cases hu : unlinkAt p cz zl zr with
    | none => simp [hu] at he
    | some r =>
      obtain ⟨p', X, c⟩ := r
      simp only [hu] at he
      have hl := unlinkAt_length hu
      obtain ⟨t1, e1, e2, e3, e4⟩ := unlink_spec hfoc hu fuel (by omega)
      simp only [rbtree_erase_chk, e1]
      by_cases hcb : c = RBTREE_BLACK
      · simp only [hcb, if_true] at he ⊢
        obtain ⟨t', f1⟩ := erase_fixup_chk_spec p' X t1 T' e2 e3 he fuel (by omega)
        rw [← e4, f1]
        exact ⟨t', rfl⟩
      · simp only [hcb, if_false]
        exact ⟨t1, rfl⟩
  obtain ⟨t', hc⟩ := hc
  obtain ⟨s1, s2⟩ := rbtree_erase_chk_sound hc
  exact ⟨t', hc, s1, s2⟩

/-! ## Sentinel, rotation preconditions, termination -/

/-- Every run of `rbtree_insert` on a red-black tree that returns keeps the
sentinel's fields. -/
theorem insert_nilKept {t : rbtree} {T : ATree} {z : Nat} {key : key_t} (h : TreeRep t T)
    (hrb : IsRB T) (hz0 : z ≠ NULL) (hzn : z ≠ t.nil) (hzf : z ∉ addrs T) {fuel : Nat}
    {t' : rbtree} {r : Nat} (hrun : rbtree_insert fuel t z key = some (t', r)) :
    NilKept t t' := by
  obtain ⟨t'', -, e1, e2⟩ := rbtree_insert_chk_spec z key h hrb hz0 hzn hzf
    (max fuel (height T + 2)) (le_max_right _ _)
  have := rbtree_insert_mono (le_max_left fuel (height T + 2)) hrun
  rw [e1] at this
  simp only [Option.some.injEq, Prod.mk.injEq] at this
  rw [← this.1]
  exact e2

/-- Every run of `rbtree_erase` on a node of a red-black tree that returns
keeps the sentinel's fields. -/
theorem erase_nilKept {t : rbtree} {T : ATree} {z : Nat} (h : TreeRep t T) (hrb : IsRB T)
    (hz : z ∈ addrs T) {fuel : Nat} {t' : rbtree} {r : Int}
    (hrun : rbtree_erase fuel t z = some (t', r)) : NilKept t t' := by
  obtain ⟨p, cz, zl, kz, zr, rfl⟩ := locate hz
  obtain ⟨t'', -, e1, e2⟩ := rbtree_erase_chk_spec h hrb
    (max fuel (height (plug (ATree.node cz zl z kz zr) p) + 2)) (le_max_right _ _)
  have := rbtree_erase_mono (le_max_left fuel
    (height (plug (ATree.node cz zl z kz zr) p) + 2)) hrun
  rw [e1] at this
  simp only [Option.some.injEq, Prod.mk.injEq] at this
  rw [← this.1]
  exact e2

/-- In every reachable state the sentinel's `key`, `left` and `right` field
are as `calloc` left them. -/
theorem reach_nil_fields {t : rbtree} {live : List Nat} {N M : Nat} (h : Reach t live N M) :
    t.key t.nil = 0 ∧ t.left t.nil = NULL ∧ t.right t.nil = NULL := by
  induction h with
  | new m a ha =>
    simp [new_rbtree, rbtree.setColor, rbtree.setRoot, rbtree.key, rbtree.left, rbtree.right]
  | @insert t live N M fuel z key t' r hr hz0 hzn hzl hrun ih =>
    obtain ⟨T, hT, hrb, -, hperm, -⟩ := reach_inv hr
    have hzf : z ∉ addrs T := fun hin => hzl (hperm.subset hin)
    obtain ⟨k1, k2, k3, k4⟩ := insert_nilKept hT hrb hz0 hzn hzf hrun
    rw [k1, k2, k3, k4]
    exact ih
  | @erase t live N M fuel z t' r hr hz hrun ih =>
    obtain ⟨T, hT, hrb, -, hperm, -⟩ := reach_inv hr
    obtain ⟨k1, k2, k3, k4⟩ := erase_nilKept hT hrb (hperm.symm.subset hz) hrun
    rw [k1, k2, k3, k4]
    exact ih

/-- C17: the rotation precondition is always met.  On a state that holds a
tree satisfying the red-black invariants, `rbtree_insert` (for a fresh
address that a successful `malloc` returns) and `rbtree_erase` (for a node of
the tree) run with every assertion passing: the versions of the two
operations in which every `left_rotate` call asserts that its pivot and the
pivot's right child are not the sentinel, every `right_rotate` call that its
pivot and the pivot's left child are not the sentinel, and the erase fix-up
that the sibling `w` is not the sentinel each time it reads it, return, and
return what the operations return. -/
theorem rotation_preconditions_met (t : rbtree) (T : ATree) (h : TreeRep t T)
    (h1 : rootBlack T) (h2 : noRedRed T) (h3 : equalBH T) :
    (∀ z key, z ≠ NULL → z ≠ t.nil → z ∉ addrs T → ∀ fuel, height T + 2 ≤ fuel →
      ∃ t', rbtree_insert_chk fuel t z key = some (t', z) ∧
        rbtree_insert fuel t z key = some (t', z)) ∧
    (∀ z, z ∈ addrs T → ∀ fuel, height T + 2 ≤ fuel →
      ∃ t', rbtree_erase_chk fuel t z = some (t', 0) ∧
        rbtree_erase fuel t z = some (t', 0)) ∧
    (∀ fuel z key r, rbtree_insert_chk fuel t z key = some r → z ≠ t.nil →
      rbtree_insert fuel t z key = some r) ∧
    (∀ fuel z r, rbtree_erase_chk fuel t z = some r → rbtree_erase fuel t z = some r) := by
  refine ⟨?_, ?_, ?_, ?_⟩
  · intro z key hz0 hzn hzf fuel hf
    obtain ⟨t', e1, e2, -⟩ := rbtree_insert_chk_spec z key h ⟨h1, h2, h3⟩ hz0 hzn hzf fuel hf
    exact ⟨t', e1, e2⟩
  · intro z hz fuel hf
    obtain ⟨p, cz, zl, kz, zr, rfl⟩ := locate hz
    obtain ⟨t', e1, e2, -⟩ := rbtree_erase_chk_spec h ⟨h1, h2, h3⟩ fuel hf
    exact ⟨t', e1, e2⟩
  · intro fuel z key r hr hzn
    exact (rbtree_insert_chk_sound hzn hr).1
  · intro fuel z r hr
    exact (rbtree_erase_chk_sound hr).1

/-- Instance of C17: inserting 9 at address 4 into `tree2` (a rotation is
called) and erasing the root of `tree2`. -/
theorem rotation_preconditions_met_witness :
    (∃ t', rbtree_insert_chk 4 tree2 4 9 = some (t', 4) ∧
        rbtree_insert 4 tree2 4 9 = some (t', 4)) ∧
    (∃ t', rbtree_erase_chk 4 tree2 2 = some (t', 0) ∧ rbtree_erase 4 tree2 2 = some (t', 0)) :=
  (fun hw => ⟨hw.1 4 9 (by decide) (by rw [treeRep_tree2.2]; decide) (by simp [addrs, nodes])
      4 (by simp [height]), hw.2.1 2 (by simp [addrs, nodes]) 4 (by simp [height])⟩)
    (rotation_preconditions_met tree2 _ treeRep_tree2.1 rfl (by simp [noRedRed])
      (by simp [equalBH, blackHeight]))

/-! ## Termination of the fix-up loops -/

/-- One iteration of the loop of `rbtree_insert_fixup` under its invariant. -/
theorem insert_iteration {t : rbtree} {z d : Nat} (hinv : InsertInv t z d)
    (hc : t.color (t.parent z) = RBTREE_RED) :
    ∃ t1 z1, (∀ fuel, rbtree_insert_fixup (fuel + 1) t z = rbtree_insert_fixup fuel t1 z1) ∧
      ((z1 = t.parent (t.parent z) ∧ 2 ≤ d ∧ InsertInv t1 z1 (d - 2)) ∨
        t1.color (t1.parent z1) = RBTREE_BLACK) := by
  obtain ⟨p, Z, T', h, hZ, rfl, rfl, he⟩ := hinv
  have hp : pcolor p = RBTREE_RED := by
    obtain ⟨cz, zl, z, kz, zr, rfl⟩ := node_of_ne_leaf hZ
    rw [← h.parent_color]
    simpa using hc
  obtain ⟨t1, z1, hb, hn, hcase⟩ := insert_body_spec p Z t T' h hZ hp he
  refine ⟨t1, z1, fun fuel => insert_fixup_step fuel t _ t1 z1 hc hb, ?_⟩
  rcases hcase with ⟨f1, f2, up, Z1, rfl, e1, k, hZ1, e2, he1⟩ | ⟨q, Z1, k, hZ1, e2, hq, -⟩
  · left
    refine ⟨e1, by simp, up, Z1, T', k, hZ1, by rw [hn]; exact e2, by simp, he1⟩
  · right
    obtain ⟨cz, zl, a, kz, zr, rfl⟩ := node_of_ne_leaf hZ1
    rw [e2]
    simpa [hq] using k.parent_color

/-- One iteration of the loop of `rbtree_erase_fixup` under its invariant. -/
theorem erase_iteration {t : rbtree} {x d : Nat} (hinv : EraseInv t x d) (hx : x ≠ t.root)
    (hc : t.color x = RBTREE_BLACK) :
    ∃ t1 x1, (∀ fuel, rbtree_erase_fixup (fuel + 1) t x = rbtree_erase_fixup fuel t1 x1) ∧
      ((x1 = t.parent x ∧ 1 ≤ d ∧ (EraseInv t1 x1 (d - 1) ∨ t1.color x1 = RBTREE_RED)) ∨
        x1 = t1.root) := by
  obtain ⟨p, X, T', h, hpar, rfl, rfl, he⟩ := hinv
  cases p with
  | nil =>
    exfalso
    apply hx
    simpa [plug] using h.glob.root.symm
  | cons f up =>
    have hXb : rootColor X = RBTREE_BLACK := by rw [← h.color_ptr]; exact hc
    obtain ⟨t1, x1, hb, hn, hcase⟩ := erase_body_spec h hpar hXb he
    refine ⟨t1, x1, (erase_fixup_body_sound hb).1 ⟨hx, hc⟩, ?_⟩
    rcases hcase with ⟨e1, q, S, k, hS, e2, he1, hq⟩ | ⟨e1, -⟩
    · left
      refine ⟨e1, by simp, ?_⟩
      rcases hq with rfl | ⟨hred, -⟩
      · left
        exact ⟨q, S, T', k, fun e => absurd e hS, by rw [hn]; exact e2, by simp, he1⟩
      · right
        rw [e2, ← hn, k.color_ptr]
        exact hred
    · right
      exact e1

/-- Under its invariant the loop of `rbtree_insert_fixup` returns. -/
theorem insert_loop_bound {t : rbtree} {z d : Nat} (hinv : InsertInv t z d) :
    ∃ t', rbtree_insert_fixup (d + 2) t z = some t' := by
  obtain ⟨p, Z, T', h, hZ, rfl, rfl, he⟩ := hinv
  obtain ⟨t', e, -⟩ := insert_fixup_spec p Z t T' h hZ he (p.length + 2) (le_refl _)
  exact ⟨t', e⟩

/-- Under its invariant the loop of `rbtree_erase_fixup` returns. -/
theorem erase_loop_bound {t : rbtree} {x d : Nat} (hinv : EraseInv t x d) :
    ∃ t', rbtree_erase_fixup (d + 2) t x = some t' := by
  obtain ⟨p, X, T', h, hpar, rfl, rfl, he⟩ := hinv
  obtain ⟨t', e, -⟩ := erase_fixup_spec p X t T' h hpar he (p.length + 2) (le_refl _)
  exact ⟨t', e⟩

/-- On a red-black tree `rbtree_insert` reaches its fix-up loop with the
invariant of the loop established, at a node no deeper than the height. -/
theorem insert_entry {t : rbtree} {T : ATree} (z : Nat) (key : key_t) (h : TreeRep t T)
    (hrb : IsRB T) (hz0 : z ≠ NULL) (hzn : z ≠ t.nil) (hzf : z ∉ addrs T) :
    ∃ t1 d, insert_link (height T + 1) t z key = some t1 ∧ InsertInv t1 z d ∧
      d ≤ height T := by
  obtain ⟨T', he, -⟩ := insTree_isRB hrb z key
  obtain ⟨t1, e1, k, -⟩ := insert_link_spec key h hz0 hzn hzf (height T + 1) (le_refl _)
  have hl := length_descend key T []
  simp only [List.length_nil, Nat.add_zero] at hl
  exact ⟨t1, _, e1, ⟨_, _, T', k, by simp, rfl, rfl, he⟩, hl⟩

/-- On a red-black tree `rbtree_erase` unlinks the node and, when the colour
it removed is BLACK, reaches its fix-up loop with the invariant of the loop
established, at a position no deeper than the height. -/
theorem erase_entry {t : rbtree} {p : Path} {cz : color_t} {zl zr : ATree} {z : Nat}
    {kz : key_t} (h : TreeRep t (plug (ATree.node cz zl z kz zr) p))
    (hrb : IsRB (plug (ATree.node cz zl z kz zr) p)) :
    ∃ t1 x c, erase_unlink (height (plug (ATree.node cz zl z kz zr) p) + 1) t z =
        some (t1, x, c) ∧
      (c = RBTREE_BLACK → ∃ d, EraseInv t1 x d ∧
        d ≤ height (plug (ATree.node cz zl z kz zr) p)) := by
  obtain ⟨p', X, c, hu, h1, h2, hb, -⟩ := unlinkAt_ok hrb
  have hh := height_plug (ATree.node cz zl z kz zr) p
  simp only [height] at hh
  have hl := unlinkAt_length hu
  obtain ⟨t1, e1, k, hpar, hn⟩ := unlink_spec (Foc.ofRoot p h) hu
    (height (plug (ATree.node cz zl z kz zr) p) + 1) (by omega)
  refine ⟨t1, _, c, e1, ?_⟩
  intro hc
  obtain ⟨T', hT, -⟩ := delFix_isRB p' X (blackHeight X) (hb hc) (noRedRed_blacken h1) h2 rfl
  exact ⟨p'.length, ⟨p', X, T', k, hpar, by rw [hn], rfl, hT⟩, by omega⟩

/-- C18: the fix-up loops terminate.  (1) Under the invariant of its loop,
an iteration of `rbtree_insert_fixup` (the parent of `z` is RED) either moves
`z` to its grandparent, two levels up, where the invariant holds again, or
leaves a state in which the parent of `z` is BLACK; (2) in such a state the
loop exits.  (3) Under the invariant of its loop, an iteration of
`rbtree_erase_fixup` (`x` is not the root and is BLACK) either moves `x` to
its parent, where the invariant holds again one level up or `x` is RED, or
sets `x` to the root; (4) in both states the loop exits.  (5), (6) A loop
started under its invariant at depth `d` (the number of proper ancestors)
returns within `d + 2` evaluations of its condition, that is after at most
`d + 1` iterations.  (7) On a state that holds a red-black tree,
`rbtree_insert` of a fresh node enters its loop under the invariant at depth
at most the height and returns; (8) `rbtree_erase` of a node of the tree
enters its loop, when it enters it, under the invariant at depth at most the
height, and returns. -/
theorem fixup_loops_terminate :
    (∀ (t : rbtree) (z d : Nat), InsertInv t z d → t.color (t.parent z) = RBTREE_RED →
      ∃ t1 z1,
        (∀ fuel, rbtree_insert_fixup (fuel + 1) t z = rbtree_insert_fixup fuel t1 z1) ∧
        ((z1 = t.parent (t.parent z) ∧ 2 ≤ d ∧ InsertInv t1 z1 (d - 2)) ∨
          t1.color (t1.parent z1) = RBTREE_BLACK)) ∧
    (∀ (t : rbtree) (z fuel : Nat), t.color (t.parent z) ≠ RBTREE_RED →
      rbtree_insert_fixup (fuel + 1) t z = some (t.setColor t.root RBTREE_BLACK)) ∧
    (∀ (t : rbtree) (x d : Nat), EraseInv t x d → x ≠ t.root → t.color x = RBTREE_BLACK →
      ∃ t1 x1,
        (∀ fuel, rbtree_erase_fixup (fuel + 1) t x = rbtree_erase_fixup fuel t1 x1) ∧
        ((x1 = t.parent x ∧ 1 ≤ d ∧
            (EraseInv t1 x1 (d - 1) ∨ t1.color x1 = RBTREE_RED)) ∨
          x1 = t1.root)) ∧
    (∀ (t : rbtree) (x fuel : Nat), x = t.root ∨ t.color x = RBTREE_RED →
      rbtree_erase_fixup (fuel + 1) t x = some (t.setColor x RBTREE_BLACK)) ∧
    (∀ (t : rbtree) (z d : Nat), InsertInv t z d →
      ∃ t', rbtree_insert_fixup (d + 2) t z = some t') ∧
    (∀ (t : rbtree) (x d : Nat), EraseInv t x d →
      ∃ t', rbtree_erase_fixup (d + 2) t x = some t') ∧
    (∀ (t : rbtree) (T : ATree) (z : Nat) (key : key_t), TreeRep t T → rootBlack T →
      noRedRed T → equalBH T → z ≠ NULL → z ≠ t.nil → z ∉ addrs T →
      ∃ t1 d t', insert_link (height T + 1) t z key = some t1 ∧ InsertInv t1 z d ∧
        d ≤ height T ∧ ∀ fuel, height T + 2 ≤ fuel →
          rbtree_insert fuel t z key = some (t', z)) ∧
    (∀ (t : rbtree) (T : ATree) (z : Nat), TreeRep t T → rootBlack T → noRedRed T →
      equalBH T → z ∈ addrs T →
      ∃ t1 x c t', erase_unlink (height T + 1) t z = some (t1, x, c) ∧
        (c = RBTREE_BLACK → ∃ d, EraseInv t1 x d ∧ d ≤ height T) ∧
        ∀ fuel, height T + 2 ≤ fuel → rbtree_erase fuel t z = some (t', 0)) := by
  refine ⟨fun t z d h1 h2 => insert_iteration h1 h2, ?_, fun t x d h1 h2 h3 =>
    erase_iteration h1 h2 h3, ?_, fun t z d h => insert_loop_bound h,
    fun t x d h => erase_loop_bound h, ?_, ?_⟩
  · intro t z fuel hc
    rw [rbtree_insert_fixup]
    simp [hc]
  · intro t x fuel hx
    rcases hx with rfl | hx
    · exact erase_fixup_exit_root fuel t
    · exact erase_fixup_exit_red fuel t x hx
  · intro t T z key h h1 h2 h3 hz0 hzn hzf
    obtain ⟨t1, d, e1, e2, e3⟩ := insert_entry z key h ⟨h1, h2, h3⟩ hz0 hzn hzf
    obtain ⟨T', -, -, hall, -⟩ := insert_step z key h ⟨h1, h2, h3⟩ hz0 hzn hzf
    obtain ⟨t', e, -⟩ := hall (height T + 2) (le_refl _)
    refine ⟨t1, d, t', e1, e2, e3, fun fuel hf => ?_⟩
    exact rbtree_insert_mono hf e
  · intro t T z h h1 h2 h3 hz
    obtain ⟨p, cz, zl, kz, zr, rfl⟩ := locate hz
    obtain ⟨t1, x, c, e1, e2⟩ := erase_entry h ⟨h1, h2, h3⟩
    obtain ⟨T', -, -, hall, -⟩ := erase_step h ⟨h1, h2, h3⟩
    obtain ⟨t', e, -⟩ := hall _ (le_refl _)
    exact ⟨t1, x, c, t', e1, e2, fun fuel hf => rbtree_erase_mono hf e⟩

/-- Instance of C18 on `tree2`: inserting 9 at address 4 and erasing the root
return with four units of fuel. -/
theorem fixup_loops_terminate_witness :
    (∃ t', rbtree_insert 4 tree2 4 9 = some (t', 4)) ∧
      (∃ t', rbtree_erase 4 tree2 2 = some (t', 0)) :=
  ⟨(fun hw => (fun ⟨_, _, t', _, _, _, e⟩ => ⟨t', e 4 (by simp [height])⟩) hw)
      (fixup_loops_terminate.2.2.2.2.2.2.1 tree2 _ 4 9 treeRep_tree2.1 rfl
        (by simp [noRedRed]) (by simp [equalBH, blackHeight]) (by decide)
        (by rw [treeRep_tree2.2]; decide) (by simp [addrs, nodes])),
    (fun hw => (fun ⟨_, _, _, t', _, _, e⟩ => ⟨t', e 4 (by simp [height])⟩) hw)
      (fixup_loops_terminate.2.2.2.2.2.2.2 tree2 _ 2 treeRep_tree2.1 rfl
        (by simp [noRedRed]) (by simp [equalBH, blackHeight]) (by simp [addrs, nodes]))⟩

/-! ## The guarded stores succeed -/

theorem storeColor_black (t : rbtree) (a : Nat) :
    t.storeColor a RBTREE_BLACK = some (t.setColor a RBTREE_BLACK) := by
  simp [rbtree.storeColor]

theorem storeColor_ne (t : rbtree) {a : Nat} (c : color_t) (h : a ≠ t.nil) :
    t.storeColor a c = some (t.setColor a c) := by
  simp [rbtree.storeColor, h]

theorem storeLeft_ne (t : rbtree) {a : Nat} (v : Nat) (h : a ≠ t.nil) :
    t.storeLeft a v = some (t.setLeft a v) := by
  simp [rbtree.storeLeft, h]

theorem storeRight_ne (t : rbtree) {a : Nat} (v : Nat) (h : a ≠ t.nil) :
    t.storeRight a v = some (t.setRight a v) := by
  simp [rbtree.storeRight, h]

theorem storeKey_ne (t : rbtree) {a : Nat} (k : key_t) (h : a ≠ t.nil) :
    t.storeKey a k = some (t.setKey a k) := by
  simp [rbtree.storeKey, h]

/-- A rotation whose pivot and whose rising child are real nodes makes no
store into the sentinel that is guarded. -/
theorem left_rotate_grd_eq (t : rbtree) (x : Nat) (hx : x ≠ t.nil) (hy : t.right x ≠ t.nil) :
    left_rotate_grd t x = some (left_rotate t x) := by
  have e1 : t.storeRight x (t.left (t.right x)) = some _ := storeRight_ne t _ hx
  simp only [left_rotate_grd, left_rotate, e1, Option.some_bind]
  generalize ht1 : t.setRight x (t.left (t.right x)) = t1
  have n1 : t1.nil = t.nil := by rw [← ht1]; rfl
  generalize ht2 : (if t1.left (t.right x) ≠ t1.nil then
    t1.setParent (t1.left (t.right x)) x else t1) = t2
  have n2 : t2.nil = t.nil := by
    rw [← ht2]
    split_ifs
    · exact n1
    · exact n1
  generalize ht3 : t2.setParent (t.right x) (t2.parent x) = t3
  have n3 : t3.nil = t.nil := by rw [← ht3]; exact n2
  have hy3 : t.right x ≠ t3.nil := by rw [n3]; exact hy
  split_ifs with c1 c2
  · rw [Option.some_bind, storeLeft_ne _ _ (show t.right x ≠ (t3.setRoot (t.right x)).nil from hy3)]
    rfl
  · rw [storeLeft_ne _ _ c1, Option.some_bind,
      storeLeft_ne _ _ (show t.right x ≠ (t3.setLeft (t3.parent x) (t.right x)).nil from hy3)]
    rfl
  · rw [storeRight_ne _ _ c1, Option.some_bind,
      storeLeft_ne _ _ (show t.right x ≠ (t3.setRight (t3.parent x) (t.right x)).nil from hy3)]
    rfl

theorem right_rotate_grd_eq (t : rbtree) (y : Nat) (hy : y ≠ t.nil) (hx : t.left y ≠ t.nil) :
    right_rotate_grd t y = some (right_rotate t y) := by
  have e1 : t.storeLeft y (t.right (t.left y)) = some _ := storeLeft_ne t _ hy
  simp only [right_rotate_grd, right_rotate, e1, Option.some_bind]
  generalize ht1 : t.setLeft y (t.right (t.left y)) = t1
  have n1 : t1.nil = t.nil := by rw [← ht1]; rfl
  generalize ht2 : (if t1.right (t.left y) ≠ t1.nil then
    t1.setParent (t1.right (t.left y)) y else t1) = t2
  have n2 : t2.nil = t.nil := by
    rw [← ht2]
    split_ifs
    · exact n1
    · exact n1
  generalize ht3 : t2.setParent (t.left y) (t2.parent y) = t3
  have n3 : t3.nil = t.nil := by rw [← ht3]; exact n2
  have hy3 : t.left y ≠ t3.nil := by rw [n3]; exact hx
  split_ifs with c1 c2
  · rw [Option.some_bind, storeRight_ne _ _ (show t.left y ≠ (t3.setRoot (t.left y)).nil from hy3)]
    rfl
  · rw [storeRight_ne _ _ c1, Option.some_bind,
      storeRight_ne _ _ (show t.left y ≠ (t3.setRight (t3.parent y) (t.left y)).nil from hy3)]
    rfl
  · rw [storeLeft_ne _ _ c1, Option.some_bind,
      storeRight_ne _ _ (show t.left y ≠ (t3.setLeft (t3.parent y) (t.left y)).nil from hy3)]
    rfl

theorem left_rotate_grd_of_chk {t t' : rbtree} {x : Nat} (h : left_rotate_chk t x = some t') :
    left_rotate_grd t x = some t' := by
  obtain ⟨h1, h2, rfl⟩ := left_rotate_chk_some h
  exact left_rotate_grd_eq t x h1 h2

theorem right_rotate_grd_of_chk {t t' : rbtree} {y : Nat} (h : right_rotate_chk t y = some t') :
    right_rotate_grd t y = some t' := by
  obtain ⟨h1, h2, rfl⟩ := right_rotate_chk_some h
  exact right_rotate_grd_eq t y h1 h2

/-- The stores of `rbtree_transplant` into a child field are guarded by the
code itself. -/
theorem transplant_grd_eq (t : rbtree) (u v : Nat) :
    rbtree_transplant_grd t u v = some (rbtree_transplant t u v) := by
  simp only [rbtree_transplant_grd, rbtree_transplant]
  split_ifs with c1 c2
  · rfl
  · rw [storeLeft_ne _ _ c1]; rfl
  · rw [storeRight_ne _ _ c1]; rfl

/-! ## The insertion fix-up with guarded stores -/

/-- An iteration of the insertion fix-up that passes its assertions, started
below a real grandparent, makes no store into the sentinel that is guarded. -/
theorem insert_body_grd_of_chk {t : rbtree} {z : Nat} {r : rbtree × Nat}
    (hb : insert_fixup_body t z = some r) (hgp : t.parent (t.parent z) ≠ t.nil) :
    insert_fixup_body_grd t z = some r := by
  simp only [insert_fixup_body] at hb
  simp only [insert_fixup_body_grd]
  split_ifs at hb ⊢
  · simp only [Option.some.injEq] at hb
    subst hb
    simp only [storeColor_black, Option.some_bind]
    rw [storeColor_ne]
    · rfl
    · simpa using hgp
  · split at hb
    · exact absurd hb (by simp)
    · rename_i t2 z2 e1
      split at e1
      · exact absurd e1 (by simp)
      · rename_i t3 e2
        simp only [Option.some.injEq, Prod.mk.injEq] at e1
        obtain ⟨rfl, rfl⟩ := e1
        split at hb
        · exact absurd hb (by simp)
        · rename_i t4 e3
          simp only [Option.some.injEq] at hb
          subst hb
          have h1 := (right_rotate_chk_some e3).1
          rw [left_rotate_grd_of_chk e2]
          simp only [storeColor_black, Option.some_bind]
          rw [storeColor_ne]
          · simp only [Option.some_bind]
            rw [right_rotate_grd_of_chk e3]
            rfl
          · simpa using h1
  · split at hb
    · exact absurd hb (by simp)
    · rename_i t2 z2 e1
      simp only [Option.some.injEq, Prod.mk.injEq] at e1
      obtain ⟨rfl, rfl⟩ := e1
      split at hb
      · exact absurd hb (by simp)
      · rename_i t4 e3
        simp only [Option.some.injEq] at hb
        subst hb
        have h1 := (right_rotate_chk_some e3).1
        simp only [storeColor_black, Option.some_bind]
        rw [storeColor_ne]
        · simp only [Option.some_bind]
          rw [right_rotate_grd_of_chk e3]
          rfl
        · simpa using h1
  · simp only [Option.some.injEq] at hb
    subst hb
    simp only [storeColor_black, Option.some_bind]
    rw [storeColor_ne]
    · rfl
    · simpa using hgp
  · split at hb
    · exact absurd hb (by simp)
    · rename_i t2 z2 e1
      split at e1
      · exact absurd e1 (by simp)
      · rename_i t3 e2
        simp only [Option.some.injEq, Prod.mk.injEq] at e1
        obtain ⟨rfl, rfl⟩ := e1
        split at hb
        · exact absurd hb (by simp)
        · rename_i t4 e3
          simp only [Option.some.injEq] at hb
          subst hb
          have h1 := (left_rotate_chk_some e3).1
          rw [right_rotate_grd_of_chk e2]
          simp only [storeColor_black, Option.some_bind]
          rw [storeColor_ne]
          · simp only [Option.some_bind]
            rw [left_rotate_grd_of_chk e3]
            rfl
          · simpa using h1
  · split at hb
    · exact absurd hb (by simp)
    · rename_i t2 z2 e1
      simp only [Option.some.injEq, Prod.mk.injEq] at e1
      obtain ⟨rfl, rfl⟩ := e1
      split at hb
      · exact absurd hb (by simp)
      · rename_i t4 e3
        simp only [Option.some.injEq] at hb
        subst hb
        have h1 := (left_rotate_chk_some e3).1
        simp only [storeColor_black, Option.some_bind]
        rw [storeColor_ne]
        · simp only [Option.some_bind]
          rw [left_rotate_grd_of_chk e3]
          rfl
        · simpa using h1

/-- Below a RED parent, where the case analysis of the fix-up is defined, the
grandparent is a real node. -/
theorem grandparent_ne_nil {t : rbtree} {p : Path} {c : color_t} {l r : ATree} {z : Nat}
    {k : key_t} {T' : ATree} (h : Foc t p (ATree.node c l z k r)) (hc : pcolor p = RBTREE_RED)
    (he : insFix p (ATree.node c l z k r) = some T') : t.parent (t.parent z) ≠ t.nil := by
  cases p with
  | nil => simp [pcolor] at hc
  | cons f1 up =>
    cases up with
    | nil =>
      cases f1 <;> simp only [pcolor, Frame.color] at hc <;> subst hc <;>
        simp [insFix, Frame.color] at he
    | cons f2 up' =>
      cases f1 with
      | L c1 a1 k1 r1 =>
        have e1 : t.parent z = a1 := by simpa using h.parent_eq
        rw [e1]
        cases f2 with
        | L c2 a2 k2 r2 =>
          have e2 : t.parent a1 = a2 := by simpa using h.upL.parent_eq
          rw [e2]; exact h.upL.upL.ne_nil
        | R c2 l2 a2 k2 =>
          have e2 : t.parent a1 = a2 := by simpa using h.upL.parent_eq
          rw [e2]; exact h.upL.upR.ne_nil
      | R c1 l1 a1 k1 =>
        have e1 : t.parent z = a1 := by simpa using h.parent_eq
        rw [e1]
        cases f2 with
        | L c2 a2 k2 r2 =>
          have e2 : t.parent a1 = a2 := by simpa using h.upR.parent_eq
          rw [e2]; exact h.upR.upL.ne_nil
        | R c2 l2 a2 k2 =>
          have e2 : t.parent a1 = a2 := by simpa using h.upR.parent_eq
          rw [e2]; exact h.upR.upR.ne_nil

/-- Under the invariant of the loop, the insertion fix-up with guarded stores
returns what the asserting fix-up returns: no guarded store fails. -/
theorem insert_fixup_grd_of_chk : ∀ (fuel : Nat) (p : Path) (Z : ATree) (t : rbtree)
    (T' : ATree) (t' : rbtree), Foc t p Z → Z ≠ ATree.leaf → insFix p Z = some T' →
      rbtree_insert_fixup_chk fuel t (ptr t.nil Z) = some t' →
        rbtree_insert_fixup_grd fuel t (ptr t.nil Z) = some t' := by
  intro fuel
  induction fuel with
  | zero =>
    intro p Z t T' t' h hZ he hchk
    simp [rbtree_insert_fixup_chk] at hchk
  | succ n ih =>
    intro p Z t T' t' h hZ he hchk
    rw [rbtree_insert_fixup_chk] at hchk
    rw [rbtree_insert_fixup_grd]
    by_cases hc : pcolor p = RBTREE_RED
    · obtain ⟨t1, z1, hb, n1, hcase⟩ := insert_body_spec p Z t T' h hZ hc he
      obtain ⟨cz, zl, z, kz, zr, rfl⟩ := node_of_ne_leaf hZ
      have hg := grandparent_ne_nil h hc he
      simp only [ptr_node] at hb hchk ⊢
      simp only [h.parent_color, hc, if_true, hb] at hchk ⊢
      rw [insert_body_grd_of_chk hb hg]
      simp only [Option.some_bind]
      rcases hcase with ⟨f1, f2, up, Z1, rfl, -, k, hZ1, hz1, he1⟩ | ⟨q, Z1, k, hZ1, hz1, hq, -⟩
      · have := ih up Z1 t1 T' t' k hZ1 he1 (by rw [n1, ← hz1]; exact hchk)
        rw [n1, ← hz1] at this
        exact this
      · obtain ⟨c1, l1, a1, k1, r1, rfl⟩ := node_of_ne_leaf hZ1
        simp only [ptr_node] at hz1
        subst hz1
        cases n with
        | zero => simp [rbtree_insert_fixup_chk] at hchk
        | succ m =>
          rw [rbtree_insert_fixup_chk] at hchk
          rw [rbtree_insert_fixup_grd]
          simp only [k.parent_color, hq] at hchk ⊢
          simpa [storeColor_black] using hchk
    · obtain ⟨cz, zl, z, kz, zr, rfl⟩ := node_of_ne_leaf hZ
      simp only [ptr_node] at hchk ⊢
      simp only [h.parent_color, hc, if_false] at hchk ⊢
      rw [storeColor_black]
      exact hchk

/-- The part of `rbtree_insert` before the fix-up makes no store into the
sentinel that is guarded, when the new node is not the sentinel. -/
theorem rbtree_insert_grd_eq (fuel : Nat) (t : rbtree) (z : Nat) (key : key_t)
    (hz : z ≠ t.nil) :
    rbtree_insert_grd fuel t z key =
      (insert_link fuel t z key).bind fun t1 =>
        (rbtree_insert_fixup_grd fuel t1 z).bind fun t' => some (t', z) := by
  simp only [rbtree_insert_grd, insert_link]
  rw [storeKey_ne _ _ hz]
  simp only [Option.some_bind]
  have n1 : (t.setKey z key).nil = t.nil := rfl
  generalize t.setKey z key = s1 at n1 ⊢
  rw [storeColor_ne _ _ (show z ≠ s1.nil by rw [n1]; exact hz)]
  simp only [Option.some_bind]
  have n2 : ((s1.setColor z RBTREE_RED).setParent z (s1.setColor z RBTREE_RED).nil).nil =
      t.nil := n1
  generalize (s1.setColor z RBTREE_RED).setParent z (s1.setColor z RBTREE_RED).nil = s2 at n2 ⊢
  rw [storeLeft_ne _ _ (show z ≠ s2.nil by rw [n2]; exact hz)]
  simp only [Option.some_bind]
  have n3 : (s2.setLeft z s2.nil).nil = t.nil := n2
  generalize s2.setLeft z s2.nil = s3 at n3 ⊢
  rw [storeRight_ne _ _ (show z ≠ s3.nil by rw [n3]; exact hz)]
  simp only [Option.some_bind]
  generalize s3.setRight z s3.nil = t0
  cases hd : insert_descend fuel t0 z t0.nil t0.root with
  | none => rfl
  | some y =>
    simp only [Option.some_bind]
    split_ifs with c1 c2
    · rfl
    · rw [storeLeft_ne _ _ c1]; rfl
    · rw [storeRight_ne _ _ c1]; rfl

/-- On a state that holds a red-black tree, `rbtree_insert` with guarded
stores returns what `rbtree_insert` returns: no guarded store fails. -/
theorem rbtree_insert_grd_spec {t : rbtree} {T : ATree} (z : Nat) (key : key_t)
    (h : TreeRep t T) (hrb : IsRB T) (hz0 : z ≠ NULL) (hzn : z ≠ t.nil) (hzf : z ∉ addrs T)
    (fuel : Nat) (hf : height T + 2 ≤ fuel) :
    ∃ t', rbtree_insert_grd fuel t z key = some (t', z) ∧
      rbtree_insert fuel t z key = some (t', z) := by
  obtain ⟨t', e1, e2, -⟩ := rbtree_insert_chk_spec z key h hrb hz0 hzn hzf fuel hf
  obtain ⟨T', he, -⟩ := insTree_isRB hrb z key
  obtain ⟨t1, l1, k, -⟩ := insert_link_spec key h hz0 hzn hzf fuel (by omega)
  refine ⟨t', ?_, e2⟩
  simp only [rbtree_insert_chk, l1] at e1
  cases hc : rbtree_insert_fixup_chk fuel t1 z with
  | none => simp [hc] at e1
  | some t2 =>
    simp only [hc, Option.some.injEq, Prod.mk.injEq, and_true] at e1
    subst e1
    have hg := insert_fixup_grd_of_chk fuel _ _ t1 T' t2 k (by simp) he (by simpa using hc)
    simp only [ptr_node] at hg
    rw [rbtree_insert_grd_eq fuel t z key hzn, l1]
    simp only [Option.some_bind, hg]

/-! ## The erase fix-up and `rbtree_erase` with guarded stores -/

/-- Cases 2 to 4 for a left child: an iteration that passes its assertions,
entered with a real sibling, makes no store into the sentinel that is
guarded. -/
theorem erase_left_tail_grd_of_chk {t : rbtree} {x w : Nat} {r : rbtree × Nat}
    (hb : erase_body_left_tail t x w = some r) (hw : w ≠ t.nil) :
    erase_body_left_tail_grd t x w = some r := by
  simp only [erase_body_left_tail] at hb
  simp only [erase_body_left_tail_grd]
  split_ifs at hb ⊢ with c1 c2
  · rw [storeColor_ne _ _ hw, Option.some_bind]
    exact hb
  · split at hb
    · exact absurd hb (by simp)
    · rename_i t2 w2 e1
      split at e1
      · exact absurd e1 (by simp)
      · rename_i t3 e2
        split_ifs at e1 with c3
        simp only [Option.some.injEq, Prod.mk.injEq] at e1
        obtain ⟨rfl, rfl⟩ := e1
        split at hb
        · exact absurd hb (by simp)
        · rename_i t4 e3
          simp only [Option.some.injEq] at hb
          subst hb
          simp only [storeColor_black, Option.some_bind]
          rw [storeColor_ne _ _ (show w ≠ (t.setColor (t.left w) RBTREE_BLACK).nil from hw)]
          simp only [Option.some_bind]
          rw [right_rotate_grd_of_chk e2]
          simp only [Option.some_bind]
          rw [storeColor_ne _ _ c3]
          simp only [storeColor_black, Option.some_bind]
          rw [left_rotate_grd_of_chk e3]
          rfl
  · split at hb
    · exact absurd hb (by simp)
    · rename_i t2 w2 e1
      simp only [Option.some.injEq, Prod.mk.injEq] at e1
      obtain ⟨rfl, rfl⟩ := e1
      split at hb
      · exact absurd hb (by simp)
      · rename_i t4 e3
        simp only [Option.some.injEq] at hb
        subst hb
        simp only [Option.some_bind]
        rw [storeColor_ne _ _ hw]
        simp only [storeColor_black, Option.some_bind]
        rw [left_rotate_grd_of_chk e3]
        rfl

/-- Cases 2 to 4 for a right child: an iteration that passes its assertions,
entered with a real sibling, makes no store into the sentinel that is
guarded. -/
theorem erase_right_tail_grd_of_chk {t : rbtree} {x w : Nat} {r : rbtree × Nat}
    (hb : erase_body_right_tail t x w = some r) (hw : w ≠ t.nil) :
    erase_body_right_tail_grd t x w = some r := by
  simp only [erase_body_right_tail] at hb
  simp only [erase_body_right_tail_grd]
  split_ifs at hb ⊢ with c1 c2
  · rw [storeColor_ne _ _ hw, Option.some_bind]
    exact hb
  · split at hb
    · exact absurd hb (by simp)
    · rename_i t2 w2 e1
      split at e1
      · exact absurd e1 (by simp)
      · rename_i t3 e2
        split_ifs at e1 with c3
        simp only [Option.some.injEq, Prod.mk.injEq] at e1
        obtain ⟨rfl, rfl⟩ := e1
        split at hb
        · exact absurd hb (by simp)
        · rename_i t4 e3
          simp only [Option.some.injEq] at hb
          subst hb
          simp only [storeColor_black, Option.some_bind]
          rw [storeColor_ne _ _ (show w ≠ (t.setColor (t.right w) RBTREE_BLACK).nil from hw)]
          simp only [Option.some_bind]
          rw [left_rotate_grd_of_chk e2]
          simp only [Option.some_bind]
          rw [storeColor_ne _ _ c3]
          simp only [storeColor_black, Option.some_bind]
          rw [right_rotate_grd_of_chk e3]
          rfl
  · split at hb
    · exact absurd hb (by simp)
    · rename_i t2 w2 e1
      simp only [Option.some.injEq, Prod.mk.injEq] at e1
      obtain ⟨rfl, rfl⟩ := e1
      split at hb
      · exact absurd hb (by simp)
      · rename_i t4 e3
        simp only [Option.some.injEq] at hb
        subst hb
        simp only [Option.some_bind]
        rw [storeColor_ne _ _ hw]
        simp only [storeColor_black, Option.some_bind]
        rw [right_rotate_grd_of_chk e3]
        rfl

/-- An iteration of the erase fix-up that passes its assertions makes no
store into the sentinel that is guarded. -/
theorem erase_body_grd_of_chk {t : rbtree} {x : Nat} {r : rbtree × Nat}
    (hb : erase_fixup_body t x = some r) : erase_fixup_body_grd t x = some r := by
  simp only [erase_fixup_body] at hb
  simp only [erase_fixup_body_grd]
  split_ifs at hb ⊢ with c1 c2 c3 c2 c3
  · split at hb
    · exact absurd hb (by simp)
    · rename_i t2 w2 e1
      split at e1
      · exact absurd e1 (by simp)
      · rename_i t3 e2
        have h1 := (left_rotate_chk_some e2).1
        split_ifs at e1 with c4
        simp only [Option.some.injEq, Prod.mk.injEq] at e1
        obtain ⟨rfl, rfl⟩ := e1
        simp only [storeColor_black, Option.some_bind]
        rw [storeColor_ne]
        · simp only [Option.some_bind]
          rw [left_rotate_grd_of_chk e2]
          simp only [Option.some_bind]
          exact erase_left_tail_grd_of_chk hb c4
        · simpa using h1
  · split at hb
    · exact absurd hb (by simp)
    · rename_i t2 w2 e1
      simp only [Option.some.injEq, Prod.mk.injEq] at e1
      obtain ⟨rfl, rfl⟩ := e1
      simp only [Option.some_bind]
      exact erase_left_tail_grd_of_chk hb (by assumption)
  · split at hb
    · exact absurd hb (by simp)
    · rename_i t2 w2 e1
      split at e1
      · exact absurd e1 (by simp)
      · rename_i t3 e2
        have h1 := (right_rotate_chk_some e2).1
        split_ifs at e1 with c4
        simp only [Option.some.injEq, Prod.mk.injEq] at e1
        obtain ⟨rfl, rfl⟩ := e1
        simp only [storeColor_black, Option.some_bind]
        rw [storeColor_ne]
        · simp only [Option.some_bind]
          rw [right_rotate_grd_of_chk e2]
          simp only [Option.some_bind]
          exact erase_right_tail_grd_of_chk hb c4
        · simpa using h1
  · split at hb
    · exact absurd hb (by simp)
    · rename_i t2 w2 e1
      simp only [Option.some.injEq, Prod.mk.injEq] at e1
      obtain ⟨rfl, rfl⟩ := e1
      simp only [Option.some_bind]
      exact erase_right_tail_grd_of_chk hb (by assumption)

/-- The erase fix-up with guarded stores returns what the asserting fix-up
returns: no guarded store fails. -/
theorem erase_fixup_grd_of_chk : ∀ (fuel : Nat) (t : rbtree) (x : Nat) (t' : rbtree),
    rbtree_erase_fixup_chk fuel t x = some t' → rbtree_erase_fixup_grd fuel t x = some t' := by
  intro fuel
  induction fuel with
  | zero => intro t x t' h; simp [rbtree_erase_fixup_chk] at h
  | succ n ih =>
    intro t x t' h
    rw [rbtree_erase_fixup_chk] at h
    rw [rbtree_erase_fixup_grd]
    split_ifs at h ⊢ with hc
    · cases hb : erase_fixup_body t x with
      | none => simp [hb] at h
      | some r =>
        obtain ⟨t1, x1⟩ := r
        simp only [hb] at h
        rw [erase_body_grd_of_chk hb]
        simp only [Option.some_bind]
        exact ih _ _ _ h
    · rw [storeColor_black]
      exact h

/-- The unlinking part of `rbtree_erase` makes no store into the sentinel that
is guarded: the successor `y`, the only node it stores a child or a colour
into, is a real node. -/
theorem erase_unlink_grd_eq (fuel : Nat) (t : rbtree) (z : Nat) :
    erase_unlink_grd fuel t z = erase_unlink fuel t z := by
  simp only [erase_unlink_grd, erase_unlink, erase_relink, transplant_grd_eq, Option.some_bind]
  split_ifs with c1 c2
  · rfl
  · rfl
  · cases hm : rbtree_minimum fuel t (t.right z) with
    | none => rfl
    | some y =>
      have hy := minimum_ne_nil _ _ _ _ hm c2
      simp only [Option.some_bind]
      split_ifs with c3
      · simp only [Option.some_bind]
        rw [storeLeft_ne]
        · simp only [Option.some_bind]
          rw [storeColor_ne]
          · rfl
          · simp only [transplant_nil, setParent_nil, setRight_nil, setLeft_nil]
            exact hy
        · simp only [transplant_nil, setParent_nil, setRight_nil, setLeft_nil]
          exact hy
      · rw [storeRight_ne]
        · simp only [Option.some_bind]
          rw [storeLeft_ne]
          · simp only [Option.some_bind]
            rw [storeColor_ne]
            · rfl
            · simp only [transplant_nil, setParent_nil, setRight_nil, setLeft_nil]
              exact hy
          · simp only [transplant_nil, setParent_nil, setRight_nil, setLeft_nil]
            exact hy
        · simp only [transplant_nil, setParent_nil, setRight_nil, setLeft_nil]
          exact hy

/-- Where the asserting `rbtree_erase` returns, `rbtree_erase` with guarded
stores returns the same: no guarded store fails. -/
theorem rbtree_erase_grd_of_chk {fuel : Nat} {t : rbtree} {z : Nat} {r : rbtree × Int}
    (h : rbtree_erase_chk fuel t z = some r) : rbtree_erase_grd fuel t z = some r := by
  simp only [rbtree_erase_chk] at h
  simp only [rbtree_erase_grd, erase_unlink_grd_eq]
  cases hu : erase_unlink fuel t z with
  | none => simp [hu] at h
  | some u =>
    obtain ⟨t1, x, c⟩ := u
    simp only [hu] at h
    simp only [Option.some_bind]
    split_ifs at h ⊢ with hc
    · cases hf : rbtree_erase_fixup_chk fuel t1 x with
      | none => simp [hf] at h
      | some t2 =>
        simp only [hf] at h
        rw [erase_fixup_grd_of_chk _ _ _ _ hf]
        exact h
    · exact h

/-- On a state that holds a red-black tree, `rbtree_erase` with guarded
stores returns what `rbtree_erase` returns: no guarded store fails. -/
theorem rbtree_erase_grd_spec {t : rbtree} {p : Path} {cz : color_t} {zl zr : ATree}
    {z : Nat} {kz : key_t} (h : TreeRep t (plug (ATree.node cz zl z kz zr) p))
    (hrb : IsRB (plug (ATree.node cz zl z kz zr) p)) (fuel : Nat)
    (hf : height (plug (ATree.node cz zl z kz zr) p) + 2 ≤ fuel) :
    ∃ t', rbtree_erase_grd fuel t z = some (t', 0) ∧ rbtree_erase fuel t z = some (t', 0) := by
  obtain ⟨t', e1, e2, -⟩ := rbtree_erase_chk_spec h hrb fuel hf
  exact ⟨t', rbtree_erase_grd_of_chk e1, e2⟩

/-- C15: the sentinel stays BLACK and keyless.  In every state reachable from
`new_rbtree()`: (1) the sentinel is BLACK and its `key`, `left` and `right`
field hold what `calloc` put there (0 and NULL); (2) `rbtree_insert` of a
fresh node and (3) `rbtree_erase` of a node of the tree run with every store
guarded, that is, the versions of the two operations in which a store into
the `key`, `left` or `right` field of the sentinel, or of a colour other than
BLACK into the sentinel, fails, return, and return what the operations
return; (4), (5) every run of the two operations that returns leaves the
sentinel where it was, BLACK, with its `key`, `left` and `right` field
unchanged. -/
theorem sentinel_black_and_keyless (t : rbtree) (live : List Nat) (N M : Nat)
    (h : Reach t live N M) :
    (t.color t.nil = RBTREE_BLACK ∧ t.key t.nil = 0 ∧ t.left t.nil = NULL ∧
      t.right t.nil = NULL) ∧
    (∀ z key, z ≠ NULL → z ≠ t.nil → z ∉ live → ∀ fuel, live.length + 2 ≤ fuel →
      ∃ t', rbtree_insert_grd fuel t z key = some (t', z) ∧
        rbtree_insert fuel t z key = some (t', z)) ∧
    (∀ z, z ∈ live → ∀ fuel, live.length + 2 ≤ fuel →
      ∃ t', rbtree_erase_grd fuel t z = some (t', 0) ∧
        rbtree_erase fuel t z = some (t', 0)) ∧
    (∀ fuel z key t' r, z ≠ NULL → z ≠ t.nil → z ∉ live →
      rbtree_insert fuel t z key = some (t', r) →
        NilKept t t' ∧ t'.color t'.nil = RBTREE_BLACK) ∧
    (∀ fuel z t' r, z ∈ live → rbtree_erase fuel t z = some (t', r) →
        NilKept t t' ∧ t'.color t'.nil = RBTREE_BLACK) := by
  obtain ⟨T, hT, hrb, -, hperm, -⟩ := reach_inv h
  have hlen : height T ≤ live.length := by
    have := height_le_size T
    rw [size_eq, ← addrs_length, hperm.length_eq] at this
    exact this
  obtain ⟨f1, f2, f3⟩ := reach_nil_fields h
  refine ⟨⟨hT.glob.nilblack, f1, f2, f3⟩, ?_, ?_, ?_, ?_⟩
  · intro z key hz0 hzn hzl fuel hf
    exact rbtree_insert_grd_spec z key hT hrb hz0 hzn (fun hin => hzl (hperm.subset hin))
      fuel (by omega)
  · intro z hz fuel hf
    obtain ⟨p, cz, zl, kz, zr, rfl⟩ := locate (hperm.symm.subset hz)
    exact rbtree_erase_grd_spec hT hrb fuel (by omega)
  · intro fuel z key t' r hz0 hzn hzl hrun
    have hzf : z ∉ addrs T := fun hin => hzl (hperm.subset hin)
    obtain ⟨T', -, -, -, hany⟩ := insert_step z key hT hrb hz0 hzn hzf
    exact ⟨insert_nilKept hT hrb hz0 hzn hzf hrun, (hany fuel t' r hrun).2.1.glob.nilblack⟩
  · intro fuel z t' r hz hrun
    have hz' := hperm.symm.subset hz
    obtain ⟨p, cz, zl, kz, zr, rfl⟩ := locate hz'
    obtain ⟨T', -, -, -, hany⟩ := erase_step hT hrb
    exact ⟨erase_nilKept hT hrb hz' hrun, (hany fuel t' r hrun).2.1.glob.nilblack⟩

/-- Instance of C15: the two-node tree `tree2`, reached by two inserts. -/
theorem sentinel_black_and_keyless_witness :
    Reach tree2 [3, 2] 2 0 ∧ tree2.color tree2.nil = RBTREE_BLACK ∧ tree2.key tree2.nil = 0 ∧
      tree2.left tree2.nil = NULL ∧ tree2.right tree2.nil = NULL ∧
      (∃ t', rbtree_insert_grd 4 tree2 4 9 = some (t', 4) ∧
        rbtree_insert 4 tree2 4 9 = some (t', 4)) ∧
      (∃ t', rbtree_erase_grd 4 tree2 2 = some (t', 0) ∧
        rbtree_erase 4 tree2 2 = some (t', 0)) :=
  (fun hr => ⟨hr, (sentinel_black_and_keyless tree2 [3, 2] 2 0 hr).1.1,
      (sentinel_black_and_keyless tree2 [3, 2] 2 0 hr).1.2.1,
      (sentinel_black_and_keyless tree2 [3, 2] 2 0 hr).1.2.2.1,
      (sentinel_black_and_keyless tree2 [3, 2] 2 0 hr).1.2.2.2,
      (sentinel_black_and_keyless tree2 [3, 2] 2 0 hr).2.1 4 9 (by decide)
        (by rw [treeRep_tree2.2]; decide) (by simp) 4 (by simp),
      (sentinel_black_and_keyless tree2 [3, 2] 2 0 hr).2.2.1 2 (by simp) 4 (by simp)⟩)
    (Reach.insert 4 3 7 tree2 3 reach_tree1 (by decide) (by rw [treeRep_tree1.2]; decide)
      (by simp) (treeRep_insert_state treeRep_tree1.1 (by decide)
        (by rw [treeRep_tree1.2]; decide) (by simp [addrs, nodes])
        (by decide : insTree (ATree.node RBTREE_BLACK ATree.leaf 2 5 ATree.leaf) 3 7 =
          some (ATree.node RBTREE_BLACK ATree.leaf 2 5
            (ATree.node RBTREE_RED ATree.leaf 3 7 ATree.leaf))) 4 (by simp [height])).2.2)

/-! ## A three-node tree built out of key order -/

/-- The two-node tree is reachable. -/
theorem reach_tree2 : Reach tree2 [3, 2] 2 0 :=
  Reach.insert 4 3 7 tree2 3 reach_tree1 (by decide) (by rw [treeRep_tree1.2]; decide)
    (by simp) (treeRep_insert_state treeRep_tree1.1 (by decide)
      (by rw [treeRep_tree1.2]; decide) (by simp [addrs, nodes])
      (by decide : insTree (ATree.node RBTREE_BLACK ATree.leaf 2 5 ATree.leaf) 3 7 =
        some (ATree.node RBTREE_BLACK ATree.leaf 2 5
          (ATree.node RBTREE_RED ATree.leaf 3 7 ATree.leaf))) 4 (by simp [height])).2.2

/-- The three-node tree is reachable: the keys 5, 7, 3 inserted in that
order. -/
theorem reach_tree3 : Reach tree3 [4, 3, 2] 3 0 :=
  Reach.insert 4 4 3 tree3 4 reach_tree2 (by decide) (by rw [treeRep_tree2.2]; decide)
    (by simp) (treeRep_insert_state treeRep_tree2.1 (by decide)
      (by rw [treeRep_tree2.2]; decide) (by simp [addrs, nodes])
      (by decide : insTree (ATree.node RBTREE_BLACK ATree.leaf 2 5
          (ATree.node RBTREE_RED ATree.leaf 3 7 ATree.leaf)) 4 3 =
        some (ATree.node RBTREE_BLACK (ATree.node RBTREE_RED ATree.leaf 4 3 ATree.leaf) 2 5
          (ATree.node RBTREE_RED ATree.leaf 3 7 ATree.leaf))) 4 (by simp [height])).2.2

/-- Instance of C3: the tree `tree3`, built by inserting 5, 7, 3 in that
order at the addresses 2, 3, 4.  The export writes 3, 5, 7: the keys of the
three nodes, in non-decreasing order and not in the order of insertion. -/
theorem rbtree_to_array_sorted_witness :
    Reach tree3 [4, 3, 2] 3 0 ∧
    (rbtree_to_array 4 tree3 (fun _ => 0) 3).map written = some [3, 5, 7] ∧
    [4, 3, 2].map tree3.key = [3, 7, 5] ∧
    ∃ r, (∀ fuel, [4, 3, 2].length + 1 ≤ fuel →
          rbtree_to_array fuel tree3 (fun _ => 0) 3 = some r) ∧
      (∀ fuel r', rbtree_to_array fuel tree3 (fun _ => 0) 3 = some r' → r' = r) ∧
      (written r).Sorted (· ≤ ·) ∧
      (∃ T, TreeRep tree3 T ∧ written r = keys T) ∧
      (written r).Perm ([4, 3, 2].map tree3.key) ∧
      (written r).length = [4, 3, 2].length ∧ r.2 = [4, 3, 2].length :=
  ⟨reach_tree3, by decide!, by decide!,
    rbtree_to_array_sorted tree3 [4, 3, 2] 3 0 reach_tree3 (fun _ => 0) 3⟩

end RB
